import Mathlib

/-!
# Spatial partitioning: hierarchical spatial hash and dynamic octree

Shallow embedding of `simulant/partitioners/impl/spatial_hash.{h,cpp}` and
`kglt/partitioners/impl/octree.cpp`.

Conventions of the embedding:

* a finite `float` is a rational number; coordinates are `ℚ` and the arithmetic
  on them is exact, with one exception: the division of `make_hash` is the
  binary32 division, whose quotient underflows to zero when its magnitude is at
  most `2 ^ -150` (see `floor_quotient`);
* `int16_t`, `int32_t` and `std::size_t` are `Int`/`Nat` with explicit wrap-around;
* a pointer `SpatialHashEntry*` is an `EntryId`, the pointed-to objects live in
  a heap that is part of the state;
* `std::unordered_set` is a duplicate-free list; the order of the list is the
  iteration order of the container, which the standard leaves unspecified.
-/

namespace smlt

/-! ## Machine integers -/

/-- Two's complement value of the low 16 bits (conversion to `int16_t`). -/
def wrap_int16 (v : Int) : Int := (v + 32768) % 65536 - 32768

/-- Two's complement value of the low 32 bits (conversion to `int32_t`). -/
def wrap_int32 (v : Int) : Int := (v + 2147483648) % 4294967296 - 2147483648

/-- Conversion of a signed integer to `std::size_t` (64 bit). -/
def to_size_t (v : Int) : Nat := (v % 18446744073709551616).toNat

/-- Floor of the binary logarithm of a positive natural number, by repeated halving. -/
def log2_floor : Nat → Nat → Nat
  | 0, _ => 0
  | fuel + 1, n => if n < 2 then 0 else log2_floor fuel (n / 2) + 1

/-- The expression `int(::log2(cell_size))` for an `int32_t` argument.  For a positive
argument it is the floor of the binary logarithm.  For zero and negative arguments the
logarithm is `-inf` or `NaN` and the conversion is undefined in C++; the model returns
`INT_MIN`, the value x86 produces. -/
def int_log2 (cell_size : Int) : Int :=
  if 0 < cell_size then (log2_floor 32 cell_size.toNat : Int) else -2147483648

/-- Least `n` from `n0` on with `t ≤ 2 ^ n`. -/
def clog2_search : Nat → Nat → Nat → Nat
  | 0, _, n => n
  | fuel + 1, t, n => if t ≤ 2 ^ n then n else clog2_search fuel t (n + 1)

/-- The expression `uint32_t(std::ceil(::log2(maxd)))` for `maxd ≥ 1`: the least `n` with
`maxd ≤ 2 ^ n`. -/
def ceil_log2 (maxd : ℚ) : Nat := clog2_search ⌈maxd⌉₊ ⌈maxd⌉₊ 0

/-! ## Vectors and boxes -/

/-- A point with three float coordinates. -/
structure Vec3 where
  x : ℚ
  y : ℚ
  z : ℚ
deriving DecidableEq

/-- Modelled from the spec: the class `AABB` is declared outside the translated sources.
The spec gives it a min corner and a max corner, with centre, dimensions, max-dimension and
the 8 corners derived from them. -/
structure AABB where
  min : Vec3
  max : Vec3
deriving DecidableEq

/-- Modelled from the spec: the largest of the three dimensions `max - min` of the box
(`AABB::max_dimension`, declared outside the translated sources). -/
def AABB.max_dimension (b : AABB) : ℚ :=
  Max.max (b.max.x - b.min.x) (Max.max (b.max.y - b.min.y) (b.max.z - b.min.z))

/-- Modelled from the spec: the 8 corners of the box (`AABB::corners`, declared outside the
translated sources): every combination of a min or max coordinate per axis. -/
def AABB.corners (b : AABB) : List Vec3 :=
  [ ⟨b.min.x, b.min.y, b.min.z⟩, ⟨b.max.x, b.min.y, b.min.z⟩,
    ⟨b.max.x, b.min.y, b.max.z⟩, ⟨b.min.x, b.min.y, b.max.z⟩,
    ⟨b.min.x, b.max.y, b.min.z⟩, ⟨b.max.x, b.max.y, b.min.z⟩,
    ⟨b.max.x, b.max.y, b.max.z⟩, ⟨b.min.x, b.max.y, b.max.z⟩ ]

/-! ## Hash and Key -/

/-- The constant `MAX_GRID_LEVELS`. -/
def MAX_GRID_LEVELS : Nat := 16

/-- The struct `Hash`: three `int16_t` grid coordinates, zero by default. -/
structure Hash where
  x : Int := 0
  y : Int := 0
  z : Int := 0
deriving DecidableEq

/-- The struct `Key`: the 16 hashes of the path, the number of ancestors (`std::size_t`)
and the precomputed hash code. -/
structure Key where
  hash_path : List Hash
  ancestors : Nat := 0
  hash_code : Nat := 0
deriving DecidableEq

/-- The two bytes of an `int16_t` in memory, low byte first. -/
def int16_bytes (v : Int) : List Nat :=
  [(v % 65536).toNat % 256, (v % 65536).toNat / 256]

/-- The six bytes of a `Hash` in memory. -/
def Hash.bytes (h : Hash) : List Nat :=
  int16_bytes h.x ++ int16_bytes h.y ++ int16_bytes h.z

/-- The function `memcmp` on two byte sequences of the same length: negative, zero or positive as
the first differing byte of the left one is smaller, absent or greater. -/
def memcmp : List Nat → List Nat → Int
  | a :: as, b :: bs => if a < b then -1 else if b < a then 1 else memcmp as bs
  | _, _ => 0

/-- The first `sizeof(Hash) * len` bytes of the array `hash_path`.  (The array has 16 elements; a
length beyond it would read past the array, which the model does not do.) -/
def Key.path_bytes (k : Key) (len : Nat) : List Nat :=
  ((k.hash_path.take len).map Hash.bytes).flatten

/-- The comparison `Key::operator<`. -/
def Key.lt (k other : Key) : Bool :=
  let len := (Min.min other.ancestors k.ancestors + 1) % 18446744073709551616
  let ret := memcmp (k.path_bytes len) (other.path_bytes len)
  ret < 0 || (ret == 0 && k.ancestors < other.ancestors)

/-- The comparison `Key::operator==`. -/
def Key.eq (k other : Key) : Bool :=
  k.ancestors == other.ancestors &&
    memcmp (k.path_bytes ((k.ancestors + 1) % 18446744073709551616))
      (other.path_bytes ((k.ancestors + 1) % 18446744073709551616)) == 0

/-- The method `Key::is_root`. -/
def Key.is_root (k : Key) : Bool := k.ancestors == 0

/-- The method `Key::is_ancestor_of`. -/
def Key.is_ancestor_of (k other : Key) : Bool :=
  if k.ancestors > other.ancestors then false
  else memcmp (k.path_bytes ((k.ancestors + 1) % 18446744073709551616))
      (other.path_bytes ((k.ancestors + 1) % 18446744073709551616)) == 0

/-- The method `Key::parent_key` (called on a key that is not the root): the first `ancestors`
hashes are copied into a fresh key, the others stay zero, and the hash code stays zero. -/
def Key.parent_key (k : Key) : Key :=
  { hash_path := k.hash_path.take k.ancestors
      ++ List.replicate (MAX_GRID_LEVELS - Min.min k.ancestors MAX_GRID_LEVELS) {}
    ancestors := k.ancestors - 1
    hash_code := 0 }

/-- The magnitude `2 ^ -150`, half the smallest positive binary32 number: a quotient of at most
this magnitude is rounded to zero. -/
def UNDERFLOW_BOUND : ℚ := 1 / 1427247692705959881058285969449495136382746624

/-- The expression `std::floor(v / cell_size)` in binary32, for the cell sizes `make_key`
passes, the powers of two from 1 to 32768.  The division of a float by such a power of two is
exact as long as the quotient is a normal number; below the normal range the quotient is
rounded to a multiple of `2 ^ -149` (ties to even), which changes its floor only when it is
rounded to zero: a negative quotient of magnitude at most `2 ^ -150` becomes `-0.0`, whose
floor converts to 0, where the floor of the exact quotient is -1. -/
def floor_quotient (v : ℚ) (cell_size : Int) : Int :=
  if v / cell_size < 0 ∧ -UNDERFLOW_BOUND ≤ v / cell_size then 0 else ⌊v / cell_size⌋

/-- The function `make_hash`: the grid cell of the point for the cell size, each coordinate
converted to `int16_t`.  (A float outside the `int16_t` range has no defined conversion in C++;
the model keeps the low 16 bits.) -/
def make_hash (cell_size : Int) (x y z : ℚ) : Hash :=
  { x := wrap_int16 (floor_quotient x cell_size)
    y := wrap_int16 (floor_quotient y cell_size)
    z := wrap_int16 (floor_quotient z cell_size) }

/-- A coordinate whose quotient by a cell size from 1 to 32768 does not underflow to `-0.0`:
it is not a negative number of magnitude at most `2 ^ -135`. -/
def no_underflow (v : ℚ) : Prop :=
  0 ≤ v ∨ v < -(1 / 43556142965880123323311949751266331066368)

instance (v : ℚ) : Decidable (no_underflow v) := by unfold no_underflow; infer_instance

/-- None of the three coordinates of the point has a quotient that underflows. -/
def Vec3.no_underflow (p : Vec3) : Prop :=
  smlt.no_underflow p.x ∧ smlt.no_underflow p.y ∧ smlt.no_underflow p.z

/-- None of the coordinates of the two corners of the box has a quotient that underflows. -/
def AABB.no_underflow (b : AABB) : Prop := b.min.no_underflow ∧ b.max.no_underflow

/-- The helper `hash_combine` on a 64 bit seed, as defined at the head of `octree.cpp`, with
the identity as `std::hash` of an integer. -/
def hash_combine (seed : Nat) (v : Int) : Nat :=
  Nat.xor seed ((to_size_t v + 2654435769 + seed * 64 + seed / 4) % 18446744073709551616)

/-- The loop of `make_key` that precalculates the hash code from all 16 hashes. -/
def path_hash_code (path : List Hash) : Nat :=
  path.foldl (fun seed h => hash_combine (hash_combine (hash_combine seed h.x) h.y) h.z) 0

/-- The constant `MAX_PATH_SIZE` of `make_key`: `pow(2, MAX_GRID_LEVELS - 1)`. -/
def MAX_PATH_SIZE : Int := 32768

/-- The function `make_key`.  Element `0` of the path is the hash at cell size 32768, element `i`
is the hash at cell size `32768 / 2 ^ i` when `ancestors > i - 1` and the zero hash otherwise. -/
def make_key (cell_size : Int) (x y z : ℚ) : Key :=
  let ancestors : Nat := to_size_t (wrap_int32 (15 - int_log2 cell_size))
  let hash_path : List Hash := (List.range MAX_GRID_LEVELS).map fun i =>
    if i = 0 ∨ ancestors > i - 1 then make_hash (MAX_PATH_SIZE / 2 ^ i) x y z else {}
  { hash_path := hash_path
    ancestors := ancestors
    hash_code := path_hash_code hash_path }

/-- The function `SpatialHash::find_cell_size_for_box`.  The shift `1 << n` is an `int32_t` shift;
for `n ≥ 31` it overflows, which C++ leaves undefined, and the model takes the shift count modulo 32
and wraps the result, as x86 does. -/
def find_cell_size_for_box (box : AABB) : Int :=
  let maxd := box.max_dimension
  if maxd < 1 then 1 else wrap_int32 (2 ^ (ceil_log2 maxd % 32))

/-! ## Entries and the index -/

/-- A pointer `SpatialHashEntry*`. -/
abbrev EntryId := Nat

/-- The type `KeyList`, an `std::unordered_set<Key>`: a list without two keys that are `==`, in
iteration order.  (Equal keys are required to have equal hash codes, so the hash code plays no part
in membership.) -/
abbrev KeyList := List Key

/-- The type `HGSHEntryList`, an `std::unordered_set<SpatialHashEntry*>`. -/
abbrev HGSHEntryList := List EntryId

/-- Membership test of an `unordered_set<Key>`, by `Key::operator==`. -/
def KeyList.contains (s : KeyList) (k : Key) : Bool := s.any fun k' => Key.eq k' k

/-- The call `insert` on an `unordered_set<Key>`. -/
def KeyList.insert (s : KeyList) (k : Key) : KeyList :=
  if KeyList.contains s k then s else s ++ [k]

/-- The call `erase` on an `unordered_set<Key>`. -/
def KeyList.erase (s : KeyList) (k : Key) : KeyList := s.filter fun k' => !Key.eq k' k

/-- The call `insert` on an `unordered_set<SpatialHashEntry*>`. -/
def HGSHEntryList.insert (l : HGSHEntryList) (e : EntryId) : HGSHEntryList :=
  if e ∈ l then l else l ++ [e]

/-- The range insert `objects.insert(first, last)`. -/
def HGSHEntryList.insert_all (l more : HGSHEntryList) : HGSHEntryList :=
  more.foldl HGSHEntryList.insert l

/-- The call `erase` on an `unordered_set<SpatialHashEntry*>`. -/
def HGSHEntryList.erase (l : HGSHEntryList) (e : EntryId) : HGSHEntryList :=
  l.filter fun e' => e' != e

/-- The class `SpatialHashEntry`: the keys the object is filed under and its cached box. -/
structure SpatialHashEntry where
  keys_ : KeyList := []
  hash_aabb_ : AABB := ⟨⟨0, 0, 0⟩, ⟨0, 0, 0⟩⟩

/-- The method `SpatialHashEntry::set_hash_aabb`. -/
def SpatialHashEntry.set_hash_aabb (e : SpatialHashEntry) (aabb : AABB) : SpatialHashEntry :=
  { e with hash_aabb_ := aabb }

/-- The method `SpatialHashEntry::push_key`. -/
def SpatialHashEntry.push_key (e : SpatialHashEntry) (key : Key) : SpatialHashEntry :=
  { e with keys_ := KeyList.insert e.keys_ key }

/-- The method `SpatialHashEntry::remove_key`. -/
def SpatialHashEntry.remove_key (e : SpatialHashEntry) (key : Key) : SpatialHashEntry :=
  { e with keys_ := KeyList.erase e.keys_ key }

/-- The method `SpatialHashEntry::set_keys`. -/
def SpatialHashEntry.set_keys (e : SpatialHashEntry) (keys : KeyList) : SpatialHashEntry :=
  { e with keys_ := keys }

/-- The method `SpatialHashEntry::keys`. -/
def SpatialHashEntry.keys (e : SpatialHashEntry) : KeyList := e.keys_

/-- The method `SpatialHashEntry::hash_aabb`. -/
def SpatialHashEntry.hash_aabb (e : SpatialHashEntry) : AABB := e.hash_aabb_

/-- The type `SpatialHash::Index`, an `std::map<Key, unordered_set<SpatialHashEntry*>>`: the
elements in the order of `Key::operator<`. -/
abbrev Index := List (Key × HGSHEntryList)

/-- Equivalence of two keys for `std::map`: neither is less than the other. -/
def Key.equiv (a b : Key) : Bool := !Key.lt a b && !Key.lt b a

/-- The call `index.find(key)`: the element with a key equivalent to `key`, if there is one. -/
def Index.find (index : Index) (key : Key) : Option (Key × HGSHEntryList) :=
  List.find? (fun p => Key.equiv p.1 key) index

/-- The call `index.lower_bound(key)`: the elements from the first one on whose key is not less
than `key` (the range from the returned iterator to `end()`). -/
def Index.lower_bound (index : Index) (key : Key) : Index :=
  List.dropWhile (fun p => Key.lt p.1 key) index

/-- The call `index.insert(std::make_pair(key, list))`: nothing when an equivalent key is there,
else the pair is placed before the first element whose key is not less than `key`. -/
def Index.insert (index : Index) (p : Key × HGSHEntryList) : Index :=
  match Index.find index p.1 with
  | some _ => index
  | none => List.takeWhile (fun q => Key.lt q.1 p.1) index ++
      p :: List.dropWhile (fun q => Key.lt q.1 p.1) index

/-- The call `index.erase(it)` for `it = index.find(key)`. -/
def Index.erase (key : Key) : Index → Index
  | [] => []
  | p :: rest => if Key.equiv p.1 key then rest else p :: Index.erase key rest

/-- An update of `it->second` for `it = index.find(key)`. -/
def Index.modify (f : HGSHEntryList → HGSHEntryList) (key : Key) : Index → Index
  | [] => []
  | p :: rest => if Key.equiv p.1 key then (p.1, f p.2) :: rest else p :: Index.modify f key rest

/-- The class `SpatialHash`: the member `index_`, together with the entry objects that the stored
pointers refer to. -/
structure SpatialHash where
  index_ : Index := []
  entries : EntryId → SpatialHashEntry := fun _ => {}

/-- The method `SpatialHash::insert_object_for_key`. -/
def SpatialHash.insert_object_for_key (s : SpatialHash) (key : Key) (entry : EntryId) :
    SpatialHash :=
  { index_ :=
      match Index.find s.index_ key with
      | some _ => Index.modify (fun l => HGSHEntryList.insert l entry) key s.index_
      | none => Index.insert s.index_ (key, HGSHEntryList.insert [] entry)
    entries := Function.update s.entries entry ((s.entries entry).push_key key) }

/-- The method `SpatialHash::erase_object_from_key`. -/
def SpatialHash.erase_object_from_key (s : SpatialHash) (key : Key) (object : EntryId) :
    SpatialHash :=
  match Index.find s.index_ key with
  | some p =>
    if (HGSHEntryList.erase p.2 object).isEmpty then
      { s with index_ := Index.erase key s.index_ }
    else
      { s with index_ := Index.modify (fun l => HGSHEntryList.erase l object) key s.index_ }
  | none => s

/-- The method `SpatialHash::insert_object_for_box`. -/
def SpatialHash.insert_object_for_box (s : SpatialHash) (box : AABB) (object : EntryId) :
    SpatialHash :=
  let cell_size := find_cell_size_for_box box
  let s1 : SpatialHash :=
    { s with entries := Function.update s.entries object ((s.entries object).set_hash_aabb box) }
  box.corners.foldl
    (fun st corner => st.insert_object_for_key (make_key cell_size corner.x corner.y corner.z) object)
    s1

/-- The method `SpatialHash::remove_object`.  The argument `iter` gives the order in which an
`unordered_set<Key>` is iterated. -/
def SpatialHash.remove_object (iter : KeyList → List Key) (s : SpatialHash) (object : EntryId) :
    SpatialHash :=
  let s1 := (iter (s.entries object).keys).foldl
    (fun st key => st.erase_object_from_key key object) s
  { s1 with entries := Function.update s1.entries object ((s1.entries object).set_keys []) }

/-- Helper of `set_difference`: the walk over the second range while the head `a` of the first
range stays the same; `rec_tail` continues with the tail of the first range. -/
def set_difference_aux (a : Key) (tail : List Key) (rec_tail : List Key → List Key) :
    List Key → List Key
  | [] => a :: tail
  | b :: bs =>
    if Key.lt a b then a :: rec_tail (b :: bs)
    else if Key.lt b a then set_difference_aux a tail rec_tail bs
    else rec_tail bs

/-- The algorithm `std::set_difference` with `Key::operator<`, as the usual merge walk: the smaller
head of the first range is copied, a smaller head of the second range is skipped, two equivalent
heads are both skipped, and the rest of the first range is copied at the end.  The walk is run on
the ranges as they are, sorted or not. -/
def set_difference : List Key → List Key → List Key
  | [] => fun _ => []
  | a :: tail => set_difference_aux a tail (set_difference tail)

/-- The method `SpatialHash::update_object_for_box`.  The argument `iter` gives the order in which
an `unordered_set<Key>` is iterated. -/
def SpatialHash.update_object_for_box (iter : KeyList → List Key) (s : SpatialHash)
    (new_box : AABB) (object : EntryId) : SpatialHash :=
  let cell_size := find_cell_size_for_box new_box
  let old_keys := (s.entries object).keys
  let new_keys : KeyList := new_box.corners.foldl
    (fun ks corner => KeyList.insert ks (make_key cell_size corner.x corner.y corner.z)) []
  let keys_to_add : KeyList :=
    (set_difference (iter new_keys) (iter old_keys)).foldl KeyList.insert []
  let keys_to_remove : KeyList :=
    (set_difference (iter old_keys) (iter new_keys)).foldl KeyList.insert []
  if new_keys.isEmpty && old_keys.isEmpty then s
  else
    let s1 := (iter keys_to_remove).foldl (fun st key => st.erase_object_from_key key object) s
    let s2 := (iter keys_to_add).foldl (fun st key => st.insert_object_for_key key object) s1
    { s2 with
      entries := Function.update s2.entries object
        (((s2.entries object).set_hash_aabb new_box).set_keys new_keys) }

/-- The second loop of `gather_objects`: while the path is not the root, step to the parent key
and collect the bucket filed exactly under it.  The loop runs once per ancestor, which is the
first argument. -/
def gather_ancestors (index : Index) : Nat → Key → HGSHEntryList → HGSHEntryList
  | 0, _, objects => objects
  | n + 1, path, objects =>
    if path.is_root then objects
    else
      let path1 := path.parent_key
      match Index.find index path1 with
      | some p =>
        if path1.is_ancestor_of p.1 then
          gather_ancestors index n path1 (HGSHEntryList.insert_all objects p.2)
        else gather_ancestors index n path1 objects
      | none => gather_ancestors index n path1 objects

/-- The lambda `gather_objects` of `SpatialHash::find_objects_within_box`. -/
def gather_objects (index : Index) (key : Key) (objects : HGSHEntryList) : HGSHEntryList :=
  let it := Index.lower_bound index key
  if it.isEmpty then objects
  else
    let objects1 := (it.takeWhile fun p => key.is_ancestor_of p.1).foldl
      (fun acc p => HGSHEntryList.insert_all acc p.2) objects
    gather_ancestors index key.ancestors key objects1

/-- The method `SpatialHash::find_objects_within_box`.  The argument `iter` gives the order in
which an `unordered_set<Key>` is iterated. -/
def SpatialHash.find_objects_within_box (iter : KeyList → List Key) (s : SpatialHash)
    (box : AABB) : HGSHEntryList :=
  let cell_size := find_cell_size_for_box box
  let seen : KeyList := box.corners.foldl
    (fun ks corner => KeyList.insert ks (make_key cell_size corner.x corner.y corner.z)) []
  (iter seen).foldl (fun objects key => gather_objects s.index_ key objects) []

/-! ## Auxiliary notions for the proofs -/

/-- Lexicographic order on byte sequences, a proper initial segment being smaller. -/
def lex_lt : List Nat → List Nat → Bool
  | [], [] => false
  | [], _ :: _ => true
  | _ :: _, [] => false
  | a :: as, b :: bs => decide (a < b) || (a == b && lex_lt as bs)

/-- A well-formed key: the path has its 16 elements and the depth is within them. -/
def Key.valid (k : Key) : Prop := k.hash_path.length = 16 ∧ k.ancestors ≤ 15

instance (k : Key) : Decidable k.valid := by unfold Key.valid; infer_instance

/-- The significant bytes of a key: those of the first `ancestors + 1` hashes. -/
def Key.sig (k : Key) : List Nat := k.path_bytes (k.ancestors + 1)

/-- Invariant of the `std::map`: the keys are strictly increasing for `Key::operator<`, and they
are well-formed keys. -/
def Index.WF (index : Index) : Prop :=
  index.Pairwise (fun p q => Key.lt p.1 q.1 = true) ∧ ∀ p ∈ index, p.1.valid

/-- The bucket that `index.find(key)` leads to, empty when there is none. -/
def Index.bucket (index : Index) (key : Key) : HGSHEntryList :=
  match Index.find index key with
  | some p => p.2
  | none => []

/-- The exponent of the cell size of a box: `0` below max dimension 1. -/
def cell_exponent (box : AABB) : Nat :=
  if box.max_dimension < 1 then 0 else ceil_log2 box.max_dimension

/-- The keys of the 8 corners of a box, at the cell size of the box. -/
def corner_keys (box : AABB) : List Key :=
  box.corners.map fun c => make_key (find_cell_size_for_box box) c.x c.y c.z


/-- No bucket of the index is empty. -/
def Index.no_empty (index : Index) : Prop := ∀ p ∈ index, p.2 ≠ []

/-- The stored keys of an entry match the index: the index is a well-formed map without empty
buckets, the key set of the entry holds well-formed keys, no two of them `==`, and the entry is in
the bucket of a key exactly when the key is in its key set. -/
def SpatialHash.consistent (s : SpatialHash) (e : EntryId) : Prop :=
  s.index_.WF ∧ s.index_.no_empty ∧ (∀ k ∈ (s.entries e).keys, k.valid) ∧
    (s.entries e).keys.Pairwise (fun a b => Key.eq a b = false) ∧
    ∀ k, k.valid → (e ∈ Index.bucket s.index_ k ↔ KeyList.contains (s.entries e).keys k = true)

/-- Two states hold the same: the same keys are present in the index, with the same members in
their buckets, and every entry has the same key set and the same cached box. -/
def SpatialHash.same_contents (s s' : SpatialHash) : Prop :=
  (∀ k, k.valid → ((Index.find s'.index_ k).isSome ↔ (Index.find s.index_ k).isSome)) ∧
  (∀ k, k.valid → ∀ x, (x ∈ Index.bucket s'.index_ k ↔ x ∈ Index.bucket s.index_ k)) ∧
  ∀ x, (s'.entries x).hash_aabb = (s.entries x).hash_aabb ∧
    ∀ k, k.valid →
      (KeyList.contains (s'.entries x).keys k = true ↔ KeyList.contains (s.entries x).keys k = true)

/-- One call on the spatial hash. -/
inductive Call where
  | insert_object_for_box (box : AABB) (object : EntryId)
  | update_object_for_box (new_box : AABB) (object : EntryId)
  | remove_object (object : EntryId)

/-- The state after one call. -/
def SpatialHash.call (iter : KeyList → List Key) (s : SpatialHash) : Call → SpatialHash
  | .insert_object_for_box box object => s.insert_object_for_box box object
  | .update_object_for_box new_box object => s.update_object_for_box iter new_box object
  | .remove_object object => s.remove_object iter object

/-- The state after a sequence of calls. -/
def SpatialHash.calls (iter : KeyList → List Key) (s : SpatialHash) (cs : List Call) :
    SpatialHash :=
  cs.foldl (SpatialHash.call iter) s

/-- Every `insert_object_for_box` of the sequence is made on an entry that is not filed at that
moment: its key set is empty. -/
def SpatialHash.inserts_fresh (iter : KeyList → List Key) : SpatialHash → List Call → Prop
  | _, [] => True
  | s, c :: cs =>
    (match c with
      | .insert_object_for_box _ object => (s.entries object).keys = []
      | _ => True) ∧
    SpatialHash.inserts_fresh iter (s.call iter c) cs

/-- The entry invariant: the key set of the entry is the set built from the corner keys of its
cached box. -/
def SpatialHash.keys_match_box (s : SpatialHash) (e : EntryId) : Prop :=
  (s.entries e).keys = (corner_keys (s.entries e).hash_aabb).foldl KeyList.insert []

/-- The first box lies inside the second: it is a well-formed box and its two corners are within
the second box. -/
def AABB.inside (b B : AABB) : Prop :=
  (B.min.x ≤ b.min.x ∧ b.min.x ≤ b.max.x ∧ b.max.x ≤ B.max.x) ∧
  (B.min.y ≤ b.min.y ∧ b.min.y ≤ b.max.y ∧ b.max.y ≤ B.max.y) ∧
  (B.min.z ≤ b.min.z ∧ b.min.z ≤ b.max.z ∧ b.max.z ≤ B.max.z)

/-- The spatial hash after a sequence of `insert_object_for_box` calls on an empty one. -/
def SpatialHash.filled (ops : List (AABB × EntryId)) : SpatialHash :=
  ops.foldl (fun st p => st.insert_object_for_box p.1 p.2) {}

end smlt

/-! # The dynamic octree (`kglt/partitioners/impl/octree.cpp`)

Conventions of the embedding, beyond those of the spatial hash:

* the header `octree.h` is outside the translated sources; the members and small accessors it
  declares are modelled from their uses in `octree.cpp` and from the spec, and marked so;
* a pointer `OctreeNode*` is a `NodeRef`: the level of the node and its key in the table of that
  level.  A pointer to a node that has left the tree dangles in C++ and resolves to nothing here;
* a C++ exception does not undo what was done before it: every operation returns the state it
  leaves behind next to its value or its exception;
* a level (`NodeLevel`) is a natural number;
* `insert_actor`, `split_if_necessary` and `reinsert_data` call each other; the depth of this
  recursion is bounded by a fuel argument.
-/

namespace kglt

open smlt (Vec3 AABB)

/-- The exceptions of `octree.cpp`, and the ways a call can leave defined behaviour. -/
inductive Error where
  | OutsideBoundsError
  | MissingParentError
  | InvalidBoundableInsertion
  /-- The `std::out_of_range` of `at()` on a table that lacks the key. -/
  | out_of_range
  /-- An access that C++ leaves undefined (`levels_[-1]`, a dangling node pointer). -/
  | undefined_behaviour
  /-- The recursion of insert and split went deeper than the fuel. -/
  | out_of_fuel
deriving DecidableEq

instance {α : Type} [DecidableEq α] : DecidableEq (Except Error α) := fun a b =>
  match a, b with
  | .ok x, .ok y =>
    if h : x = y then isTrue (by rw [h]) else isFalse (fun h' => h (Except.ok.inj h'))
  | .error x, .error y =>
    if h : x = y then isTrue (by rw [h]) else isFalse (fun h' => h (Except.error.inj h'))
  | .ok _, .error _ => isFalse (fun h => Except.noConfusion h)
  | .error _, .ok _ => isFalse (fun h => Except.noConfusion h)

/-- The type `Octree::VectorHash`.  The hash code that `generate_vector_hash` combines from the
three rounded coordinates is modelled by the rounded coordinates themselves, in hundredths: two
vectors have the same hash exactly when they round to the same hundredths. -/
abbrev VectorHash := Int × Int × Int

/-- The functions `std::round` and `roundf`: to the nearest integer, halves away from zero. -/
def round_half_away (x : ℚ) : Int :=
  if 0 ≤ x then ⌊x + 1 / 2⌋ else -⌊-x + 1 / 2⌋

/-- Modelled from the spec: the centre of a box (`AABB::centre`, declared outside the translated
sources). -/
def centre (b : AABB) : Vec3 :=
  ⟨(b.min.x + b.max.x) / 2, (b.min.y + b.max.y) / 2, (b.min.z + b.max.z) / 2⟩

/-- Modelled from the spec: a zero-area box has all dimensions zero (`AABB::has_zero_area`,
declared outside the translated sources). -/
def has_zero_area (b : AABB) : Bool :=
  decide (b.max.x - b.min.x = 0) && decide (b.max.y - b.min.y = 0) &&
    decide (b.max.z - b.min.z = 0)

/-- A pointer to a node: its level and its key in the table of the level. -/
structure NodeRef where
  level : Nat
  hash : VectorHash
deriving DecidableEq

/-- Modelled from the spec: the payload `NodeData` of a node (declared in `octree.h`): per
object kind, the identifiers held with their cached boxes. -/
structure NodeData where
  actor_ids_ : List (Nat × AABB) := []
  light_ids_ : List (Nat × AABB) := []
  particle_system_ids_ : List (Nat × AABB) := []
deriving DecidableEq

/-- Modelled from the spec: a payload is empty when it is empty across all object kinds. -/
def NodeData.is_empty (d : NodeData) : Bool :=
  d.actor_ids_.isEmpty && d.light_ids_.isEmpty && d.particle_system_ids_.isEmpty

/-- Modelled from the spec: the class `OctreeNode` (declared in `octree.h`): level, centre,
payload, parent and children. -/
structure OctreeNode where
  level_ : Nat
  centre_ : Vec3
  data_ : NodeData := {}
  parent_ : Option NodeRef := none
  children_ : List NodeRef := []
deriving DecidableEq

/-- Modelled from the spec: the method `OctreeNode::is_empty` (declared in `octree.h`): the
payload is empty across all object kinds. -/
def OctreeNode.is_empty (n : OctreeNode) : Bool := n.data_.is_empty

/-- The table of one level: `LevelNodes`, from hash to node. -/
abbrev LevelNodes := List (VectorHash × OctreeNode)

/-- The class `Octree`: the level tables, the root width, the node count and the three lookup
tables from object identifier to node. -/
structure Octree where
  levels_ : List LevelNodes := []
  root_width_ : ℚ := 0
  node_count_ : Nat := 0
  actor_lookup_ : List (Nat × NodeRef) := []
  light_lookup_ : List (Nat × NodeRef) := []
  particle_system_lookup_ : List (Nat × NodeRef) := []
deriving DecidableEq

/-- What the octree is constructed with: the stage, which gives the box of an object, and the two
predicates. -/
structure Config where
  actor_aabb : Nat → AABB
  light_aabb : Nat → AABB
  particle_system_aabb : Nat → AABB
  should_split_predicate_ : OctreeNode → Bool
  should_merge_predicate_ : List OctreeNode → Bool

/-- The value or the exception of a call, and the state the call leaves behind. -/
structure Res (α : Type) where
  value : Except Error α
  state : Octree

/-! ## Tables -/

/-- The call `find` on a `std::map` or `std::unordered_map` held as a list of pairs. -/
def table_find {κ β : Type} [DecidableEq κ] (t : List (κ × β)) (k : κ) : Option β :=
  (t.find? fun p => decide (p.1 = k)).map Prod.snd

/-- The call `erase(key)`. -/
def table_erase {κ β : Type} [DecidableEq κ] (t : List (κ × β)) (k : κ) : List (κ × β) :=
  t.filter fun p => !decide (p.1 = k)

/-- The call `insert(std::make_pair(key, value))`: nothing when the key is there. -/
def table_insert {κ β : Type} [DecidableEq κ] (t : List (κ × β)) (k : κ) (v : β) :
    List (κ × β) :=
  if (table_find t k).isSome then t else t ++ [(k, v)]

/-- The assignment `table[key] = value`. -/
def table_assign {κ β : Type} [DecidableEq κ] (t : List (κ × β)) (k : κ) (v : β) :
    List (κ × β) :=
  if (table_find t k).isSome then t.map fun p => if p.1 = k then (k, v) else p
  else t ++ [(k, v)]

/-- The node a pointer refers to. -/
def Octree.node_at (o : Octree) (r : NodeRef) : Option OctreeNode :=
  match o.levels_.get? r.level with
  | some nodes => table_find nodes r.hash
  | none => none

/-- A write through a node pointer. -/
def Octree.modify_node (o : Octree) (r : NodeRef) (f : OctreeNode → OctreeNode) : Octree :=
  { o with
    levels_ := o.levels_.modify
      (fun nodes => nodes.map fun p => if p.1 = r.hash then (p.1, f p.2) else p) r.level }

/-- Modelled from the spec: the methods `locate_actor`, `locate_light` and
`locate_particle_system` (declared in `octree.h`): the node the lookup table of the kind gives
for the identifier, none when the table has no entry. -/
def Octree.locate_actor (o : Octree) (actor_id : Nat) : Option NodeRef :=
  table_find o.actor_lookup_ actor_id

/-- Modelled from the spec: `locate_light`, see `Octree.locate_actor`. -/
def Octree.locate_light (o : Octree) (light_id : Nat) : Option NodeRef :=
  table_find o.light_lookup_ light_id

/-- Modelled from the spec: `locate_particle_system`, see `Octree.locate_actor`. -/
def Octree.locate_particle_system (o : Octree) (particle_system_id : Nat) : Option NodeRef :=
  table_find o.particle_system_lookup_ particle_system_id

/-! ## Geometry of the nodes -/

/-- The method `Octree::node_diameter`. -/
def Octree.node_diameter (o : Octree) (level : Nat) : ℚ :=
  o.root_width_ / 2 ^ level

/-- The method `OctreeNode::diameter`. -/
def OctreeNode.diameter (o : Octree) (n : OctreeNode) : ℚ := o.node_diameter n.level_

/-- The method `OctreeNode::contains`. -/
def OctreeNode.contains (o : Octree) (n : OctreeNode) (p : Vec3) : Bool :=
  let hw := n.diameter o / 2
  if p.x < n.centre_.x - hw ∨ p.x > n.centre_.x + hw then false
  else if p.y < n.centre_.y - hw ∨ p.y > n.centre_.y + hw then false
  else if p.z < n.centre_.z - hw ∨ p.z > n.centre_.z + hw then false
  else true

/-- The method `OctreeNode::child_centres`. -/
def OctreeNode.child_centres (o : Octree) (n : OctreeNode) : List Vec3 :=
  let qw := n.diameter o / 4
  [(-1 : ℚ), 1].flatMap fun x => [(-1 : ℚ), 1].flatMap fun y => [(-1 : ℚ), 1].map fun z =>
    ⟨n.centre_.x + x * qw, n.centre_.y + y * qw, n.centre_.z + z * qw⟩

/-- The method `Octree::generate_vector_hash`: each coordinate rounded to 2 decimal places.  The
three rounded coordinates, in hundredths, stand for the combined `std::size_t`: two centres
have the same hash exactly when they round to the same hundredths. -/
def generate_vector_hash (vec : Vec3) : VectorHash :=
  (round_half_away (vec.x * 100), round_half_away (vec.y * 100), round_half_away (vec.z * 100))

/-- Modelled from the spec: `Octree::is_empty` (declared in `octree.h`): there is no level. -/
def Octree.is_empty (o : Octree) : Bool := o.levels_.isEmpty

/-- Modelled from the spec: `Octree::get_root` (declared in `octree.h`): the node of level 0. -/
def Octree.get_root (o : Octree) : Option OctreeNode :=
  match o.levels_ with
  | (p :: _) :: _ => some p.2
  | _ => none

/-- Modelled from the spec: `Octree::has_root` (declared in `octree.h`). -/
def Octree.has_root (o : Octree) : Bool := o.get_root.isSome

/-- The lambda `snap` of `find_node_centre_for_point`. -/
def snap (step : ℚ) (level : Nat) (v : ℚ) : ℚ :=
  step * round_half_away (v / step) +
    (if level ≠ 0 then step / 2 else 0) * (if v ≥ 0 then 1 else -1)

/-- The method `Octree::find_node_centre_for_point`. -/
def Octree.find_node_centre_for_point (o : Octree) (level : Nat) (p : Vec3) :
    Except Error Vec3 :=
  if o.is_empty then .error .OutsideBoundsError
  else
    match o.get_root with
    | none => .error .undefined_behaviour
    | some root =>
      if !root.contains o p then .error .OutsideBoundsError
      else
        let step := o.node_diameter level
        .ok ⟨snap step level p.x, snap step level p.y, snap step level p.z⟩

/-- The loop of `calculate_level`: halve the diameter of the octree while the object is smaller.
(In float arithmetic the halving reaches zero after fewer than 300 steps, which ends the loop.) -/
def calculate_level_loop (diameter : ℚ) : Nat → ℚ → Nat → Nat
  | 0, _, level => level
  | fuel + 1, octree_diameter, level =>
    if diameter < octree_diameter then
      calculate_level_loop diameter fuel (octree_diameter / 2) (level + 1)
    else level

/-- The method `Octree::calculate_level`. -/
def Octree.calculate_level (o : Octree) (diameter : ℚ) : Except Error Nat :=
  match o.get_root with
  | none => .error .OutsideBoundsError
  | some root =>
    let octree_diameter := root.diameter o
    if diameter > octree_diameter then .error .OutsideBoundsError
    else .ok (calculate_level_loop diameter 300 octree_diameter 0)

/-- The loop of `find_best_existing_node`, from the level `n - 1` down to level 0; the result
is the final level, `-1` when no node was found, and the last hash computed. -/
def Octree.find_best_loop (o : Octree) (c : Vec3) : Nat → VectorHash → Except Error (Int × VectorHash)
  | 0, hash => .ok (-1, hash)
  | final_level + 1, hash =>
    if o.levels_.length > final_level then
      match o.find_node_centre_for_point final_level c with
      | .error e => .error e
      | .ok node_centre =>
        if (o.node_at ⟨final_level, generate_vector_hash node_centre⟩).isSome then
          .ok (final_level, generate_vector_hash node_centre)
        else o.find_best_loop c final_level (generate_vector_hash node_centre)
    else o.find_best_loop c final_level hash

/-- The method `Octree::find_best_existing_node`. -/
def Octree.find_best_existing_node (o : Octree) (aabb : AABB) :
    Except Error (Int × VectorHash) :=
  match o.calculate_level aabb.max_dimension with
  | .error e => .error e
  | .ok max_level =>
    if o.is_empty then .error .OutsideBoundsError
    else o.find_best_loop (centre aabb) (max_level + 1) (0, 0, 0)

/-! ## Creating and removing nodes -/

/-- The method `Octree::create_node` (called with an existing level).  The node is in the table
and counted before the parent is looked up. -/
def Octree.create_node (o : Octree) (level : Nat) (c : Vec3) : Res NodeRef :=
  let hash := generate_vector_hash c
  if o.levels_.length ≤ level then ⟨.error .out_of_range, o⟩
  else
    let o1 : Octree :=
      { o with
        levels_ := o.levels_.modify (fun nodes => table_insert nodes hash ⟨level, c, {}, none, []⟩)
          level,
        node_count_ := o.node_count_ + 1 }
    if level > 0 then
      match o1.find_node_centre_for_point (level - 1) c with
      | .error e => ⟨.error e, o1⟩
      | .ok parent_centre =>
        let parent : NodeRef := ⟨level - 1, generate_vector_hash parent_centre⟩
        match o1.node_at parent with
        | none => ⟨.error .out_of_range, o1⟩
        | some _ =>
          let o2 := o1.modify_node ⟨level, hash⟩ fun n => { n with parent_ := some parent }
          let o3 := o2.modify_node parent fun n =>
            { n with
              children_ :=
                if (⟨level, hash⟩ : NodeRef) ∈ n.children_ then n.children_
                else n.children_ ++ [⟨level, hash⟩] }
          ⟨.ok ⟨level, hash⟩, o3⟩
    else ⟨.ok ⟨level, hash⟩, o1⟩

/-- The method `Octree::get_or_create_node(Nat, const Vec3&)`: the node and whether it
was created. -/
def Octree.get_or_create_node (o : Octree) (level : Nat) (c : Vec3) : Res (NodeRef × Bool) :=
  let hash := generate_vector_hash c
  if o.levels_.length < level then ⟨.error .MissingParentError, o⟩
  else
    let o1 : Octree :=
      if o.levels_.length = level then { o with levels_ := o.levels_ ++ [[]] } else o
    match o1.node_at ⟨level, hash⟩ with
    | some _ => ⟨.ok (⟨level, hash⟩, false), o1⟩
    | none =>
      let r := o1.create_node level c
      match r.value with
      | .error e => ⟨.error e, r.state⟩
      | .ok new_node => ⟨.ok (new_node, true), r.state⟩

/-- The method `Octree::get_or_create_node(Boundable*)`, on the box of the object. -/
def Octree.get_or_create_node_for (o : Octree) (aabb : AABB) : Res NodeRef :=
  if has_zero_area aabb then ⟨.error .InvalidBoundableInsertion, o⟩
  else if o.levels_.isEmpty then
    let r := ({ o with levels_ := o.levels_ ++ [[]] } : Octree).create_node 0 (centre aabb)
    match r.value with
    | .error e => ⟨.error e, r.state⟩
    | .ok new_node => ⟨.ok new_node, { r.state with root_width_ := aabb.max_dimension }⟩
  else
    match o.find_best_existing_node aabb with
    | .error e => ⟨.error e, o⟩
    | .ok (level, hash) =>
      if level < 0 then ⟨.error .undefined_behaviour, o⟩
      else
        match o.node_at ⟨level.toNat, hash⟩ with
        | none => ⟨.error .out_of_range, o⟩
        | some _ => ⟨.ok ⟨level.toNat, hash⟩, o⟩

/-- The method `Octree::remove_node`. -/
def Octree.remove_node (o : Octree) (r : NodeRef) : Octree :=
  match o.node_at r with
  | none => o
  | some node =>
    let level := node.level_
    let o1 : Octree :=
      match node.parent_ with
      | some parent => o.modify_node parent fun n =>
          { n with children_ := n.children_.filter fun c => !decide (c = r) }
      | none => o
    let o2 : Octree :=
      { o1 with
        actor_lookup_ := node.data_.actor_ids_.foldl (fun t p => table_erase t p.1)
          o1.actor_lookup_,
        light_lookup_ := node.data_.light_ids_.foldl (fun t p => table_erase t p.1)
          o1.light_lookup_,
        particle_system_lookup_ := node.data_.particle_system_ids_.foldl
          (fun t p => table_erase t p.1) o1.particle_system_lookup_ }
    let o3 : Octree :=
      { o2 with
        levels_ := o2.levels_.modify
          (fun nodes => table_erase nodes (generate_vector_hash node.centre_)) level }
    let o4 : Octree :=
      if level = o3.levels_.length - 1 ∧ (o3.levels_.get? level).any List.isEmpty then
        { o3 with levels_ := o3.levels_.dropLast }
      else o3
    { o4 with node_count_ := o4.node_count_ - 1 }

/-- One round of the loop of `prune_empty_nodes` over the copy of a level: the node is removed
when its payload is empty, and the flag `deleted` is set. -/
def Octree.prune_step (level : Nat) (acc : Octree × Bool) (p : VectorHash × OctreeNode) :
    Octree × Bool :=
  match acc.1.node_at ⟨level, p.1⟩ with
  | some node => if node.is_empty then (acc.1.remove_node ⟨level, p.1⟩, true) else acc
  | none => acc

/-- The body of the loop of `prune_empty_nodes` over the copy of one level: the state, and
whether a node was deleted. -/
def Octree.prune_level (o : Octree) (level : Nat) (level_nodes : LevelNodes) :
    Octree × Bool :=
  level_nodes.foldl (Octree.prune_step level) (o, false)

/-- The loop of `prune_empty_nodes`, with the levels below `n` still to scan. -/
def Octree.prune_loop : Nat → Octree → Octree
  | 0, o => o
  | level + 1, o =>
    let r := o.prune_level level ((o.levels_.get? level).getD [])
    if r.2 then Octree.prune_loop level r.1 else r.1

/-- The method `Octree::prune_empty_nodes`. -/
def Octree.prune_empty_nodes (o : Octree) : Octree :=
  Octree.prune_loop o.levels_.length o

/-- The method `Octree::merge_if_possible`: the predicate is asked, nothing is merged. -/
def Octree.merge_if_possible (cfg : Config) (_o : Octree) (nodes : List OctreeNode) : Bool :=
  if !cfg.should_merge_predicate_ nodes then false else true

/-! ## Insertion, splitting and removal -/

/-- The kinds of objects. -/
inductive Kind where
  | actor
  | light
  | particle_system
deriving DecidableEq

/-- One round of a loop of `reinsert_data`: the object is inserted, unless an earlier round
has thrown. -/
def reinsert_step (ins : Kind → Nat → Octree → Res (Option NodeRef)) (kind : Kind)
    (acc : Res Unit) (p : Nat × AABB) : Res Unit :=
  match acc.value with
  | .error _ => acc
  | .ok _ =>
    let r := ins kind p.1 acc.state
    match r.value with
    | .error e => ⟨.error e, r.state⟩
    | .ok _ => ⟨.ok (), r.state⟩

/-- The method `Octree::reinsert_data`, over an insert function for the three kinds. -/
def reinsert_data_with (ins : Kind → Nat → Octree → Res (Option NodeRef)) (data : NodeData)
    (o : Octree) : Res Unit :=
  let r1 := data.actor_ids_.foldl (reinsert_step ins .actor) ⟨.ok (), o⟩
  let r2 := data.light_ids_.foldl (reinsert_step ins .light) r1
  data.particle_system_ids_.foldl (reinsert_step ins .particle_system) r2

/-- One round of the loop of `split_if_necessary` that creates the children, unless an earlier
round has thrown. -/
def Octree.create_child (node : NodeRef) (acc : Res (List NodeRef)) (v : Vec3) :
    Res (List NodeRef) :=
  match acc.value with
  | .error _ => acc
  | .ok nodes_created =>
    let r := acc.state.get_or_create_node (node.level + 1) v
    match r.value with
    | .error e => ⟨.error e, r.state⟩
    | .ok (child, true) =>
      ⟨.ok (nodes_created ++ [child]),
        r.state.modify_node node fun n =>
          { n with
            children_ :=
              if child ∈ n.children_ then n.children_ else n.children_ ++ [child] }⟩
    | .ok (_, false) => ⟨.ok nodes_created, r.state⟩

/-- The loop of `split_if_necessary` that creates the children: the nodes created. -/
def Octree.create_children (o : Octree) (node : NodeRef) (centres : List Vec3) :
    Res (List NodeRef) :=
  centres.foldl (Octree.create_child node) ⟨.ok [], o⟩

/-- One round of the last loop of `split_if_necessary`: a created node is removed when its
payload is empty. -/
def Octree.remove_if_empty (st : Octree) (c : NodeRef) : Octree :=
  match st.node_at c with
  | some m => if m.is_empty then st.remove_node c else st
  | none => st

/-- The method `Octree::split_if_necessary`, over the function that reinserts the stashed
payload. -/
def Octree.split_if_necessary_with (cfg : Config) (reinsert : NodeData → Octree → Res Unit)
    (o : Octree) (node : NodeRef) : Res Bool :=
  match o.node_at node with
  | none => ⟨.error .undefined_behaviour, o⟩
  | some n =>
    if !cfg.should_split_predicate_ n then ⟨.ok false, o⟩
    else
      let r := o.create_children node (n.child_centres o)
      match r.value with
      | .error e => ⟨.error e, r.state⟩
      | .ok nodes_created =>
        if nodes_created.isEmpty then ⟨.ok false, r.state⟩
        else
          let data := ((r.state.node_at node).map OctreeNode.data_).getD {}
          let o1 := r.state.modify_node node fun m => { m with data_ := {} }
          let r2 := reinsert data o1
          match r2.value with
          | .error e => ⟨.error e, r2.state⟩
          | .ok _ => ⟨.ok true, nodes_created.foldl Octree.remove_if_empty r2.state⟩

/-- The box the stage gives for an object. -/
def Config.aabb (cfg : Config) : Kind → Nat → AABB
  | .actor => cfg.actor_aabb
  | .light => cfg.light_aabb
  | .particle_system => cfg.particle_system_aabb

/-- The first part of `insert_actor`, `insert_light` and `insert_particle_system`: the node for
the object is found or created, and the object is put into the payload of the node and into the
lookup table of its kind.  The lookup table is written with `operator[]` for an actor and with
`insert` for a light and a particle system. -/
def Octree.place (cfg : Config) (kind : Kind) (id : Nat) (o : Octree) : Res NodeRef :=
  let r := o.get_or_create_node_for (cfg.aabb kind id)
  match r.value with
  | .error e => ⟨.error e, r.state⟩
  | .ok node =>
    match kind with
    | .actor =>
      let st := r.state.modify_node node fun n =>
        { n with
          data_ :=
            { n.data_ with
              actor_ids_ := table_insert n.data_.actor_ids_ id (cfg.aabb kind id) } }
      ⟨.ok node, { st with actor_lookup_ := table_assign st.actor_lookup_ id node }⟩
    | .light =>
      let st := r.state.modify_node node fun n =>
        { n with
          data_ :=
            { n.data_ with
              light_ids_ := table_insert n.data_.light_ids_ id (cfg.aabb kind id) } }
      ⟨.ok node, { st with light_lookup_ := table_insert st.light_lookup_ id node }⟩
    | .particle_system =>
      let st := r.state.modify_node node fun n =>
        { n with
          data_ :=
            { n.data_ with
              particle_system_ids_ :=
                table_insert n.data_.particle_system_ids_ id (cfg.aabb kind id) } }
      ⟨.ok node,
        { st with particle_system_lookup_ := table_insert st.particle_system_lookup_ id node }⟩

/-- The methods `locate_actor`, `locate_light` and `locate_particle_system`, by kind. -/
def Octree.locate (o : Octree) : Kind → Nat → Option NodeRef
  | .actor => o.locate_actor
  | .light => o.locate_light
  | .particle_system => o.locate_particle_system

/-- The three methods `insert_actor`, `insert_light` and `insert_particle_system`, with the
depth of the recursion through `split_if_necessary` and `reinsert_data` bounded by the fuel. -/
def Octree.insert (cfg : Config) : Nat → Kind → Nat → Octree → Res (Option NodeRef)
  | 0, _, _, o => ⟨.error .out_of_fuel, o⟩
  | fuel + 1, kind, id, o =>
    let r := o.place cfg kind id
    match r.value with
    | .error e => ⟨.error e, r.state⟩
    | .ok node =>
      let r2 := r.state.split_if_necessary_with cfg
        (reinsert_data_with (Octree.insert cfg fuel)) node
      match r2.value with
      | .error e => ⟨.error e, r2.state⟩
      | .ok true => ⟨.ok (r2.state.locate kind id), r2.state⟩
      | .ok false => ⟨.ok (some node), r2.state⟩

/-- The method `Octree::reinsert_data`. -/
def Octree.reinsert_data (cfg : Config) (fuel : Nat) (o : Octree) (data : NodeData) : Res Unit :=
  reinsert_data_with (Octree.insert cfg fuel) data o

/-- The method `Octree::split_if_necessary`. -/
def Octree.split_if_necessary (cfg : Config) (fuel : Nat) (o : Octree) (node : NodeRef) :
    Res Bool :=
  o.split_if_necessary_with cfg (reinsert_data_with (Octree.insert cfg fuel)) node

/-- The method `Octree::insert_actor`. -/
def Octree.insert_actor (cfg : Config) (fuel : Nat) (o : Octree) (actor_id : Nat) :
    Res (Option NodeRef) :=
  Octree.insert cfg fuel .actor actor_id o

/-- The method `Octree::insert_light`. -/
def Octree.insert_light (cfg : Config) (fuel : Nat) (o : Octree) (light_id : Nat) :
    Res (Option NodeRef) :=
  Octree.insert cfg fuel .light light_id o

/-- The method `Octree::insert_particle_system`. -/
def Octree.insert_particle_system (cfg : Config) (fuel : Nat) (o : Octree)
    (particle_system_id : Nat) : Res (Option NodeRef) :=
  Octree.insert cfg fuel .particle_system particle_system_id o

/-- The method `Octree::remove_actor`.  (The call of `merge_if_possible` on the siblings changes
nothing and is left out.) -/
def Octree.remove_actor (o : Octree) (actor_id : Nat) : Octree :=
  match o.locate_actor actor_id with
  | none => o
  | some node =>
    let o1 := o.modify_node node fun n =>
      { n with data_ := { n.data_ with actor_ids_ := table_erase n.data_.actor_ids_ actor_id } }
    let o2 : Octree := { o1 with actor_lookup_ := table_erase o1.actor_lookup_ actor_id }
    match o2.node_at node with
    | some n => if n.is_empty then o2.prune_empty_nodes else o2
    | none => o2

/-- The method `Octree::remove_light`.  (The call of `merge_if_possible` on the siblings changes
nothing and is left out.) -/
def Octree.remove_light (o : Octree) (light_id : Nat) : Octree :=
  match o.locate_light light_id with
  | none => o
  | some node =>
    let o1 := o.modify_node node fun n =>
      { n with data_ := { n.data_ with light_ids_ := table_erase n.data_.light_ids_ light_id } }
    let o2 : Octree := { o1 with light_lookup_ := table_erase o1.light_lookup_ light_id }
    match o2.node_at node with
    | some n => if n.is_empty then o2.prune_empty_nodes else o2
    | none => o2

/-! ## Configurations of the examples -/

/-- A split predicate that splits the root only. -/
def split_root_only (n : OctreeNode) : Bool := n.level_ == 0

/-- The default split predicate. -/
def default_split_predicate (_n : OctreeNode) : Bool := true

/-- The default merge predicate. -/
def default_merge_predicate (_nodes : List OctreeNode) : Bool := true

/-- A stage for the examples.  Object 1 of every kind has the box from (1,-1,-1) to (3,1,1);
object 2 has the box from (1.5,0.125,0.125) to (1.75,0.375,0.375), with centre
(1.625,0.25,0.25); every other object has the box from (-1,-1,-1) to (1,1,1). -/
def example_aabb (id : Nat) : AABB :=
  if id = 1 then ⟨⟨1, -1, -1⟩, ⟨3, 1, 1⟩⟩
  else if id = 2 then ⟨⟨3 / 2, 1 / 8, 1 / 8⟩, ⟨7 / 4, 3 / 8, 3 / 8⟩⟩
  else ⟨⟨-1, -1, -1⟩, ⟨1, 1, 1⟩⟩

/-- The example stage with a split predicate that splits the root only. -/
def example_config : Config :=
  { actor_aabb := example_aabb
    light_aabb := example_aabb
    particle_system_aabb := example_aabb
    should_split_predicate_ := split_root_only
    should_merge_predicate_ := default_merge_predicate }

/-- The example stage with the default predicates. -/
def default_config : Config :=
  { actor_aabb := example_aabb
    light_aabb := example_aabb
    particle_system_aabb := example_aabb
    should_split_predicate_ := default_split_predicate
    should_merge_predicate_ := default_merge_predicate }

/-- The first insertion of the actors example: actor 1 into the empty octree. -/
def actors_example_first : Res (Option NodeRef) := Octree.insert_actor example_config 5 {} 1

/-- The second insertion of the actors example: actor 2 after actor 1. -/
def actors_example_second : Res (Option NodeRef) :=
  Octree.insert_actor example_config 5 actors_example_first.state 2

/-- The first insertion of the lights example: light 1 into the empty octree. -/
def lights_example_first : Res (Option NodeRef) := Octree.insert_light example_config 5 {} 1

/-- The second insertion of the lights example: light 2 after light 1. -/
def lights_example_second : Res (Option NodeRef) :=
  Octree.insert_light example_config 5 lights_example_first.state 2

/-- The octree in which actor 3 has just been put into the new root, under the default
predicates, before `split_if_necessary` is called on the root. -/
def split_example_before : Res NodeRef := Octree.place default_config .actor 3 {}

/-- The call of `split_if_necessary` on the root of `split_example_before`. -/
def split_example_after : Res Bool :=
  Octree.split_if_necessary default_config 5 split_example_before.state ⟨0, (0, 0, 0)⟩

/-- The octree of the actors example after actor 1 has been removed again. -/
def prune_example : Octree := actors_example_second.state.remove_actor 1

/-- The identifiers a payload holds of one kind. -/
def NodeData.ids (d : NodeData) : Kind → List (Nat × AABB)
  | .actor => d.actor_ids_
  | .light => d.light_ids_
  | .particle_system => d.particle_system_ids_

/-- The node holds the object in its payload. -/
def Octree.holds (o : Octree) (kind : Kind) (id : Nat) (r : NodeRef) : Prop :=
  ∃ n, o.node_at r = some n ∧ (table_find (n.data_.ids kind) id).isSome

/-- The identifiers of the objects of one kind in the payload of a node, none when the pointer
refers to no node. -/
def Octree.payload_ids (o : Octree) (kind : Kind) (r : NodeRef) : Option (List Nat) :=
  (o.node_at r).map fun n => (n.data_.ids kind).map Prod.fst

/-- The payload of the node a pointer refers to. -/
def Octree.data_at (o : Octree) (r : NodeRef) : Option NodeData :=
  (o.node_at r).map OctreeNode.data_

/-- The level, the centre and the payload of the node a pointer refers to. -/
def Octree.core_at (o : Octree) (r : NodeRef) : Option (Nat × Vec3 × NodeData) :=
  (o.node_at r).map fun n => (n.level_, n.centre_, n.data_)

/-- Every node is filed at its own level under the hash of its own centre. -/
def Octree.well_filed (o : Octree) : Prop :=
  ∀ r n, o.node_at r = some n → n.level_ = r.level ∧ generate_vector_hash n.centre_ = r.hash

/-- The octree `o1` comes from `o` by the removal of nodes with an empty payload only: every
node of `o1` is a node of `o` with the same level, centre and payload, every node of `o` with
a non-empty payload is still there, and the lookup tables are the same. -/
def Octree.pruned_from (o1 o : Octree) : Prop :=
  (∀ s c, o1.core_at s = some c → o.core_at s = some c) ∧
  (∀ s c, o.core_at s = some c → c.2.2.is_empty = false → o1.core_at s = some c) ∧
  (∀ kind id, o1.locate kind id = o.locate kind id)

/-- A check of `Octree.well_filed` on the tables of the levels from level `i` on. -/
def levels_filed : Nat → List LevelNodes → Bool
  | _, [] => true
  | i, nodes :: rest =>
    nodes.all (fun p => decide (p.2.level_ = i) && decide (generate_vector_hash p.2.centre_ = p.1))
      && levels_filed (i + 1) rest

/-- The object is held by some node. -/
def Octree.held (o : Octree) (kind : Kind) (id : Nat) : Prop := ∃ r, o.holds kind id r

/-- The octree is sound: every node is filed at its level under the hash of its centre, no
payload lists an identifier twice, and no object is in the payload of two nodes. -/
def Octree.sound (o : Octree) : Prop :=
  o.well_filed ∧
  (∀ r n kind, o.node_at r = some n → ((n.data_.ids kind).map Prod.fst).Nodup) ∧
  (∀ kind id r s, o.holds kind id r → o.holds kind id s → r = s)

/-- The octree `o1` has the payloads of `o`: a node of `o1` is a node of `o` with the same
level, centre and payload, or it has an empty payload and is filed under its level and the hash
of its centre; a node of `o` is a node of `o1` with the same level, centre and payload, or it
has an empty payload. -/
def Octree.same_payloads (o1 o : Octree) : Prop :=
  (∀ s c, o1.core_at s = some c → o.core_at s = some c ∨
    (c.2.2.is_empty = true ∧ c.1 = s.level ∧ generate_vector_hash c.2.1 = s.hash)) ∧
  (∀ s c, o.core_at s = some c → o1.core_at s = some c ∨ c.2.2.is_empty = true)

/-- What is asked of an insert function: called on a sound octree with an object that no node
holds, it leaves, when it succeeds, a sound octree that holds the object and the objects held
before, and no other. -/
def insert_keeps_objects (ins : Kind → Nat → Octree → Res (Option NodeRef)) : Prop :=
  ∀ kind id o v, o.sound → ¬ o.held kind id → (ins kind id o).value = .ok v →
    (ins kind id o).state.sound ∧
    ∀ k i, (ins kind id o).state.held k i ↔ (o.held k i ∨ (k = kind ∧ i = id))

end kglt

/-! # Further examples for the dynamic octree -/

namespace kglt
open smlt (Vec3 AABB)

/-- A second stage for the examples.  Object 1 has the box from (-1,-1,-1) to (1,1,1); object 2
is the single point (5,5,5); object 3 has the box from (4.5,4.5,4.5) to (5.5,5.5,5.5); object 4
has the box from (-2,-2,-2) to (2,2,2); object 5 has the box from (-0.1,-0.1,-0.1) to
(0.1,0.1,0.1); every other object has the box from (0,0,0) to (2,2,2). -/
def bounds_example_aabb (id : Nat) : AABB :=
  if id = 1 then ⟨⟨-1, -1, -1⟩, ⟨1, 1, 1⟩⟩
  else if id = 2 then ⟨⟨5, 5, 5⟩, ⟨5, 5, 5⟩⟩
  else if id = 3 then ⟨⟨9 / 2, 9 / 2, 9 / 2⟩, ⟨11 / 2, 11 / 2, 11 / 2⟩⟩
  else if id = 4 then ⟨⟨-2, -2, -2⟩, ⟨2, 2, 2⟩⟩
  else if id = 5 then ⟨⟨-1 / 10, -1 / 10, -1 / 10⟩, ⟨1 / 10, 1 / 10, 1 / 10⟩⟩
  else ⟨⟨0, 0, 0⟩, ⟨2, 2, 2⟩⟩

/-- The second stage with the default predicates. -/
def bounds_config : Config :=
  { actor_aabb := bounds_example_aabb
    light_aabb := bounds_example_aabb
    particle_system_aabb := bounds_example_aabb
    should_split_predicate_ := default_split_predicate
    should_merge_predicate_ := default_merge_predicate }

/-- The octree with object 1 of the second stage as its only actor. -/
def bounds_example_root : Res (Option NodeRef) := Octree.insert_actor bounds_config 10 {} 1

/-- The insertion of object 5 of the second stage after object 1. -/
def spec_example_second : Res (Option NodeRef) :=
  Octree.insert_actor bounds_config 10 bounds_example_root.state 5

/-- The insertion of object 6 of the second stage, with the box from (0,0,0) to (2,2,2), into
the empty octree. -/
def first_insert_example : Res (Option NodeRef) := Octree.insert_actor bounds_config 10 {} 6

end kglt

/-! # Further definitions for the spatial hash -/

namespace smlt

/-- Modelled from the spec: the class `Frustum` is declared outside the translated sources
(`frustum.h`).  The spatial hash uses its four near corners, its four far corners and its
intersection test with a box. -/
structure Frustum where
  near_corners : List Vec3
  far_corners : List Vec3
  intersects_aabb : AABB → Bool

/-- Modelled from the spec: the constructor `AABB(const Vec3*, count)` (declared outside the
translated sources): the smallest box that bounds the points. -/
def AABB.of_points : List Vec3 → AABB
  | [] => ⟨⟨0, 0, 0⟩, ⟨0, 0, 0⟩⟩
  | p :: ps =>
    ps.foldl
      (fun b q =>
        ⟨⟨Min.min b.min.x q.x, Min.min b.min.y q.y, Min.min b.min.z q.z⟩,
          ⟨Max.max b.max.x q.x, Max.max b.max.y q.y, Max.max b.max.z q.z⟩⟩)
      ⟨p, p⟩

/-- The function `generate_boxes_for_frustum`: one box around the near and the far corners.
(The code after the `return` is never run.) -/
def generate_boxes_for_frustum (frustum : Frustum) : List AABB :=
  [AABB.of_points (frustum.near_corners ++ frustum.far_corners)]

/-- The method `SpatialHash::find_objects_within_frustum`.  The argument `iter` gives the order
in which an `unordered_set<Key>` is iterated. -/
def SpatialHash.find_objects_within_frustum (iter : KeyList → List Key) (s : SpatialHash)
    (frustum : Frustum) : HGSHEntryList :=
  (generate_boxes_for_frustum frustum).foldl
    (fun results box =>
      (s.find_objects_within_box iter box).foldl
        (fun r result =>
          if frustum.intersects_aabb (s.entries result).hash_aabb then
            HGSHEntryList.insert r result
          else r)
        results)
    []

/-- The number of bytes that `memcpy` copies in `Key::parent_key`: `sizeof(Hash) * ancestors`,
in `std::size_t`. -/
def Key.parent_key_copy_size (k : Key) : Nat := (6 * k.ancestors) % 18446744073709551616

/-- The size of the array `hash_path` in bytes. -/
def hash_path_size : Nat := 6 * MAX_GRID_LEVELS

/-- A query box with a max dimension of 40000. -/
def huge_query_box : AABB := ⟨⟨0, 0, 0⟩, ⟨40000, 1, 1⟩⟩

/-- The key of the corner (0,0,0) of `huge_query_box`, as `find_objects_within_box` builds
it. -/
def huge_query_key : Key := make_key (find_cell_size_for_box huge_query_box) 0 0 0

/-- A spatial hash that holds entry 7 with the box from (1,1,1) to (2,2,2). -/
def small_filled : SpatialHash := SpatialHash.filled [(⟨⟨1, 1, 1⟩, ⟨2, 2, 2⟩⟩, 7)]

end smlt

/-! # The static culler (`simulant/nodes/geoms/octree_culler.cpp`)

The class template `Octree<TreeData, NodeData>` is embedded at its one instance, the type
`CullerOctree`.  A pointer to a node is the index of its slot in the vector `nodes_`.  The
recursive lambdas are bounded by a fuel argument.  The integer arithmetic of `ipow` and
`calc_index` is exact for the 5 levels `_compile` asks for; `calc_index` returns a `uint32_t`.
-/

namespace smlt

/-- The loop of `ipow`, exponentiation by squaring, with the halvings of the exponent bounded
by the fuel. -/
def ipow_loop : Nat → Nat → Nat → Nat → Nat
  | 0, _, _, result => result
  | fuel + 1, base, exp, result =>
    if exp < 1 then result
    else ipow_loop fuel (base * base) (exp / 2) (if exp % 2 ≠ 0 then result * base else result)

/-- The function `ipow(base, exp)`, with the default `result = 1`.  (An `int` exponent is
halved to zero in at most 32 steps.) -/
def ipow (base exp : Nat) : Nat := ipow_loop 32 base exp 1

/-- The struct `CullerNodeData`: the triangle indices per material. -/
structure CullerNodeData where
  triangles : List (Nat × List Nat) := []
deriving DecidableEq

/-- The struct `Octree::Node`: the level, the grid position and the data pointer, null by
default. -/
structure CullerNode where
  level : Nat := 0
  grid : Nat × Nat × Nat := (0, 0, 0)
  data : Option CullerNodeData := none
deriving DecidableEq

/-- The class `CullerOctree`: the bounds, the number of the deepest level and the vector of
the nodes. -/
structure CullerOctree where
  bounds_ : AABB := ⟨⟨0, 0, 0⟩, ⟨0, 0, 0⟩⟩
  levels_ : Nat := 0
  nodes_ : List CullerNode := []

/-- The method `Octree::is_leaf`. -/
def CullerOctree.is_leaf (t : CullerOctree) (node : CullerNode) : Bool :=
  node.level == t.levels_

/-- The method `Octree::calc_bounds`. -/
def CullerOctree.calc_bounds (t : CullerOctree) (node : CullerNode) : AABB :=
  let grid_width := ipow 2 node.level
  let cell_width := t.bounds_.max_dimension / grid_width
  let min : Vec3 :=
    ⟨node.grid.1 * cell_width, node.grid.2.1 * cell_width, node.grid.2.2 * cell_width⟩
  ⟨min, ⟨min.x + cell_width, min.y + cell_width, min.z + cell_width⟩⟩

/-- The method `Octree::calc_index`. -/
def calc_index (k x y z : Nat) : Nat :=
  let level_base := if k = 0 then 0 else ipow 8 (k - 1)
  let level_width := ipow 2 k
  let idx := x + level_width * y + level_width * level_width * z
  (level_base + idx) % 4294967296

/-- The method `Octree::child_indexes`: the indexes in the order of the three loops, `z`
outermost. -/
def child_indexes (node : CullerNode) : List Nat :=
  [0, 1].flatMap fun z => [0, 1].flatMap fun y => [0, 1].map fun x =>
    calc_index ((node.level + 1) % 256) (2 * node.grid.1 + x) (2 * node.grid.2.1 + y)
      (2 * node.grid.2.2 + z)

/-- The grid positions that the three loops of `grow` run through, `z` outermost. -/
def grow_positions (level_grid_width : Nat) : List (Nat × Nat × Nat) :=
  (List.range level_grid_width).flatMap fun z =>
    (List.range level_grid_width).flatMap fun y =>
      (List.range level_grid_width).map fun x => (x, y, z)

/-- The method `Octree::grow`.  (A write beyond the vector, which the assertion excludes, is
left out.) -/
def CullerOctree.grow (t : CullerOctree) : CullerOctree :=
  if t.levels_ = 255 then t
  else
    let k := if t.nodes_.isEmpty then 0 else t.levels_ + 1
    let level_grid_width := ipow 2 k
    let new_node_count := ipow level_grid_width 3
    { t with
      levels_ := if t.nodes_.isEmpty then t.levels_ else t.levels_ + 1,
      nodes_ := (grow_positions level_grid_width).foldl
        (fun nodes p =>
          nodes.set (calc_index k p.1 p.2.1 p.2.2)
            { level := k % 256, grid := p, data := some {} })
        (t.nodes_ ++ List.replicate new_node_count {}) }

/-- The loop `while(levels_ < max_level_count) grow()` of the constructor; it ends after
`max_level_count + 1` rounds. -/
def CullerOctree.grow_loop (max_level_count : Nat) : Nat → CullerOctree → CullerOctree
  | 0, t => t
  | fuel + 1, t =>
    if t.levels_ < max_level_count then CullerOctree.grow_loop max_level_count fuel t.grow
    else t

/-- The constructor of `Octree`: the bounds are made square about their centre and the tree is
grown to `max_level_count` levels below the root. -/
def CullerOctree.new (bounds : AABB) (max_level_count : Nat) : CullerOctree :=
  let centre_ : Vec3 :=
    ⟨(bounds.min.x + bounds.max.x) / 2, (bounds.min.y + bounds.max.y) / 2,
      (bounds.min.z + bounds.max.z) / 2⟩
  let halfd := bounds.max_dimension / 2
  CullerOctree.grow_loop max_level_count 257
    { bounds_ :=
        ⟨⟨centre_.x - halfd, centre_.y - halfd, centre_.z - halfd⟩,
          ⟨centre_.x + halfd, centre_.y + halfd, centre_.z + halfd⟩⟩ }

/-- Modelled from the spec: the method `AABB::contains_points` (declared outside the
translated sources): every point lies within the box. -/
def AABB.contains_points (b : AABB) (points : List Vec3) : Bool :=
  points.all fun p =>
    decide (b.min.x ≤ p.x ∧ p.x ≤ b.max.x ∧ b.min.y ≤ p.y ∧ p.y ≤ b.max.y ∧
      b.min.z ≤ p.z ∧ p.z ≤ b.max.z)

/-- The lambda `visitor` of `find_destination_for_triangle`, from the node in a slot: the slot
of the node the triangle goes to. -/
def CullerOctree.destination (t : CullerOctree) (vertices : List Vec3) : Nat → Nat → Option Nat
  | 0, _ => none
  | fuel + 1, i =>
    match t.nodes_.get? i with
    | none => none
    | some node =>
      if t.is_leaf node then some i
      else
        match (child_indexes node).find? fun idx =>
            match t.nodes_.get? idx with
            | some child => (t.calc_bounds child).contains_points vertices
            | none => false with
        | some idx => CullerOctree.destination t vertices fuel idx
        | none => some i

/-- The method `Octree::find_destination_for_triangle`: the tree, which is grown when it has no
node, and the slot of the destination. -/
def CullerOctree.find_destination_for_triangle (t : CullerOctree) (vertices : List Vec3)
    (fuel : Nat) : CullerOctree × Option Nat :=
  if t.nodes_.isEmpty then
    let t1 := t.grow
    ({ t1 with nodes_ := t1.nodes_.modify (fun n => { n with data := some {} }) 0 }, some 0)
  else (t, t.destination vertices fuel 0)

/-- The lambda `visitor` of `traverse_visible`, from the node in a slot: the slots the callback
is called with, in the order of the calls. -/
def CullerOctree.visit (frustum : Frustum) (t : CullerOctree) : Nat → Nat → List Nat
  | 0, _ => []
  | fuel + 1, i =>
    match t.nodes_.get? i with
    | none => []
    | some node =>
      if frustum.intersects_aabb (t.calc_bounds node) then
        i :: (if !t.is_leaf node then
            (child_indexes node).flatMap (CullerOctree.visit frustum t fuel)
          else [])
      else []

/-- The method `Octree::traverse_visible`: the slots of the nodes the callback is called with,
in the order of the calls. -/
def CullerOctree.traverse_visible (frustum : Frustum) (t : CullerOctree) (fuel : Nat) :
    List Nat :=
  if t.nodes_.isEmpty then [] else t.visit frustum fuel 0

/-- Modelled from the spec: a mesh (declared outside the translated sources), as far as
`_compile` uses it: the vertex positions, and per submesh the material and the triangles. -/
structure Mesh where
  vertices : List Vec3
  submeshes : List (Nat × List (Nat × Nat × Nat))

/-- The three `push_back` calls on `node->data->triangles[material_id]`. -/
def CullerNodeData.push_triangle (d : CullerNodeData) (material_id a b c : Nat) :
    CullerNodeData :=
  if (d.triangles.find? fun p => p.1 == material_id).isSome then
    { triangles := d.triangles.map fun p =>
        if p.1 = material_id then (p.1, p.2 ++ [a, b, c]) else p }
  else { triangles := d.triangles ++ [(material_id, [a, b, c])] }

/-- The body of the loop of `_compile` over the triangles of a submesh. -/
def CullerOctree.insert_triangle (vertices : List Vec3) (fuel : Nat) (material_id : Nat)
    (t : CullerOctree) (tri : Nat × Nat × Nat) : CullerOctree :=
  let stash := [vertices.getD tri.1 ⟨0, 0, 0⟩, vertices.getD tri.2.1 ⟨0, 0, 0⟩,
    vertices.getD tri.2.2 ⟨0, 0, 0⟩]
  let r := t.find_destination_for_triangle stash fuel
  match r.2 with
  | none => r.1
  | some i =>
    { r.1 with
      nodes_ := r.1.nodes_.modify
        (fun n =>
          { n with
            data := n.data.map fun d => d.push_triangle material_id tri.1 tri.2.1 tri.2.2 })
        i }

/-- The method `OctreeCuller::_compile`: the octree of 5 levels below the root over the bounds
of the vertices, with every triangle of the mesh in the node it goes to. -/
def OctreeCuller._compile (mesh : Mesh) (fuel : Nat) : CullerOctree :=
  mesh.submeshes.foldl
    (fun t submesh => submesh.2.foldl (CullerOctree.insert_triangle mesh.vertices fuel submesh.1) t)
    (CullerOctree.new (AABB.of_points mesh.vertices) 5)

/-- The level and the grid position of the node in a slot. -/
def CullerOctree.shape_at (t : CullerOctree) (i : Nat) : Option (Nat × Nat × Nat × Nat) :=
  (t.nodes_.get? i).map fun n => (n.level, n.grid)

/-- The tree of the constructor after the first `grow` and `n` more. -/
def CullerOctree.stage (bounds : AABB) : Nat → CullerOctree
  | 0 => ({ bounds_ := bounds } : CullerOctree).grow
  | n + 1 => (CullerOctree.stage bounds n).grow

/-- A mesh without vertices and triangles. -/
def empty_mesh : Mesh := ⟨[], []⟩

/-- A frustum whose intersection test passes every box. -/
def all_seeing_frustum : Frustum := ⟨[], [], fun _ => true⟩

end smlt

/-! # Further examples -/

namespace smlt

/-- The bounds of a mesh for the examples: the box from (-1,-1,-1) to (1,1,1). -/
def culler_example_bounds : AABB := ⟨⟨-1, -1, -1⟩, ⟨1, 1, 1⟩⟩

/-- The test in the loop of the lambda of `find_destination_for_triangle`: the bounds of the
node in slot `idx` contain all the vertices. -/
def CullerOctree.fits (t : CullerOctree) (vertices : List Vec3) (idx : Nat) : Bool :=
  match t.nodes_.get? idx with
  | some child => (t.calc_bounds child).contains_points vertices
  | none => false

/-- One step of a descent: the node in slot `i` is not a leaf, and `j` is the slot of one of
its 8 children, whose bounds contain all the vertices. -/
def CullerOctree.descends_into (t : CullerOctree) (vertices : List Vec3) (i j : Nat) : Prop :=
  ∃ node, t.nodes_.get? i = some node ∧ t.is_leaf node = false ∧ j ∈ child_indexes node ∧
    t.fits vertices j = true

/-- What the constructor leaves in slot `i` after the level `n` is added: a node of a level up
to `n`, at a grid position within the grid of its level, and of the deepest level whose slots
begin at or before `i`. -/
def CullerNode.placed (n i : Nat) (node : CullerNode) : Prop :=
  node.level ≤ n ∧ node.grid.1 < 2 ^ node.level ∧ node.grid.2.1 < 2 ^ node.level ∧
    node.grid.2.2 < 2 ^ node.level ∧
    ∀ m, 1 ≤ m → m ≤ n → 8 ^ (m - 1) ≤ i → m ≤ node.level

/-- A triangle for the examples. -/
def culler_example_triangle : List Vec3 := [⟨1 / 2, 1 / 2, 1 / 2⟩, ⟨3 / 4, 1 / 2, 1 / 2⟩,
  ⟨1 / 2, 3 / 4, 1 / 2⟩]

end smlt

namespace smlt

/-- The box of a call has a max dimension of at most 32768, the largest cell size whose keys
have a depth within the path; `remove_object` takes no box. -/
def Call.box_fits : Call → Prop
  | .insert_object_for_box box _ => box.max_dimension ≤ 32768
  | .update_object_for_box new_box _ => new_box.max_dimension ≤ 32768
  | .remove_object _ => True

/-- A box just below the origin whose corners are at the two smallest negative floats: from
(-2^-148, -2^-148, -2^-148) to (-2^-149, -2^-149, -2^-149). -/
def tiny_box : AABB :=
  ⟨⟨-(1 / 356811923176489970264571492362373784095686656),
      -(1 / 356811923176489970264571492362373784095686656),
      -(1 / 356811923176489970264571492362373784095686656)⟩,
    ⟨-(1 / 713623846352979940529142984724747568191373312),
      -(1 / 713623846352979940529142984724747568191373312),
      -(1 / 713623846352979940529142984724747568191373312)⟩⟩

/-- The box from (-0.5,-0.5,-0.5) to (0.5,0.5,0.5). -/
def half_box : AABB := ⟨⟨-(1 / 2), -(1 / 2), -(1 / 2)⟩, ⟨1 / 2, 1 / 2, 1 / 2⟩⟩

/-- The box from (-0.25,-0.25,-0.25) to (-0.125,-0.125,-0.125). -/
def eighth_box : AABB := ⟨⟨-(1 / 4), -(1 / 4), -(1 / 4)⟩, ⟨-(1 / 8), -(1 / 8), -(1 / 8)⟩⟩

/-- The bounds of a mesh for the examples: the cube from (0,0,0) to (2,2,2). -/
def cube_bounds : AABB := ⟨⟨0, 0, 0⟩, ⟨2, 2, 2⟩⟩

/-- A triangle inside the octant from (1,1,1) to (2,2,2) of that cube. -/
def octant_triangle : List Vec3 := [⟨5 / 4, 5 / 4, 5 / 4⟩, ⟨7 / 4, 5 / 4, 5 / 4⟩,
  ⟨5 / 4, 7 / 4, 5 / 4⟩]

end smlt

namespace smlt

/-! ## Order theory of keys -/

theorem lex_lt_irrefl (u : List Nat) : lex_lt u u = false := by
  induction u with
  | nil => rfl
  | cons a as ih => simp [lex_lt, ih]

theorem lex_lt_trans : ∀ (u v w : List Nat), lex_lt u v = true → lex_lt v w = true →
    lex_lt u w = true
  | [], [], _, h, _ => by simp [lex_lt] at h
  | [], _ :: _, [], _, h => by simp [lex_lt] at h
  | [], _ :: _, _ :: _, _, _ => by simp [lex_lt]
  | _ :: _, [], _, h, _ => by simp [lex_lt] at h
  | _ :: _, _ :: _, [], _, h => by simp [lex_lt] at h
  | a :: as, b :: bs, c :: cs, h1, h2 => by
    simp only [lex_lt, Bool.or_eq_true, decide_eq_true_eq, Bool.and_eq_true, beq_iff_eq] at h1 h2 ⊢
    rcases h1 with h1 | ⟨h1, h1'⟩
    · rcases h2 with h2 | ⟨h2, _⟩
      · left; omega
      · left; omega
    · rcases h2 with h2 | ⟨h2, h2'⟩
      · left; omega
      · right; exact ⟨by omega, lex_lt_trans as bs cs h1' h2'⟩

theorem lex_lt_asymm (u v : List Nat) (h : lex_lt u v = true) : lex_lt v u = false := by
  by_contra h'
  have := lex_lt_trans u v u h (by simpa using h')
  simp [lex_lt_irrefl] at this

theorem lex_lt_total (u v : List Nat) (h1 : lex_lt u v = false) (h2 : lex_lt v u = false) :
    u = v := by
  induction u generalizing v with
  | nil =>
    cases v with
    | nil => rfl
    | cons y tv => simp [lex_lt] at h1
  | cons x tu ih =>
    cases v with
    | nil => simp [lex_lt] at h2
    | cons y tv =>
      simp only [lex_lt, Bool.or_eq_false_iff, decide_eq_false_iff_not, Bool.and_eq_false_iff,
        beq_eq_false_iff_ne, ne_eq] at h1 h2
      have hxy : x = y := by omega
      subst hxy
      rw [ih tv (by simpa using h1.2) (by simpa using h2.2)]

/-- Between an initial segment and a sequence it starts, everything starts with the segment. -/
theorem lex_between : ∀ (u v w : List Nat), u <+: w → lex_lt v u = false → lex_lt w v = false →
    u <+: v
  | [], v, _, _, _, _ => List.nil_prefix
  | a :: as, v, [], h, _, _ => by simp at h
  | a :: as, [], c :: cs, _, h, _ => by simp [lex_lt] at h
  | a :: as, b :: bs, c :: cs, h, h1, h2 => by
    rw [List.cons_prefix_cons] at h
    obtain ⟨hac, hp⟩ := h
    subst hac
    simp only [lex_lt, Bool.or_eq_false_iff, decide_eq_false_iff_not, Bool.and_eq_false_iff,
      beq_eq_false_iff_ne, ne_eq] at h1 h2
    have hab : a = b := by omega
    subst hab
    rw [List.cons_prefix_cons]
    exact ⟨rfl, lex_between as bs cs hp (by simpa using h1.2) (by simpa using h2.2)⟩

theorem memcmp_self (u : List Nat) : memcmp u u = 0 := by
  induction u with
  | nil => rfl
  | cons a as ih => simp [memcmp, ih]

theorem memcmp_eq_zero (u v : List Nat) (hlen : u.length = v.length) (h0 : memcmp u v = 0) :
    u = v := by
  induction u generalizing v with
  | nil =>
    cases v with
    | nil => rfl
    | cons y tv => simp at hlen
  | cons x tu ih =>
    cases v with
    | nil => simp at hlen
    | cons y tv =>
      simp only [memcmp] at h0
      by_cases h1 : x < y
      · simp [h1] at h0
      · by_cases h2 : y < x
        · simp [h1, h2] at h0
        · simp only [h1, h2, if_false] at h0
          have hxy : x = y := by omega
          subst hxy
          rw [ih tv (by simpa using hlen) h0]

/-- The comparison that `Key::operator<` makes, on the whole significant byte sequences. -/
theorem lex_lt_eq_memcmp : ∀ (u v : List Nat),
    lex_lt u v =
      (decide (memcmp (u.take (Min.min u.length v.length)) (v.take (Min.min u.length v.length)) < 0)
        || (memcmp (u.take (Min.min u.length v.length)) (v.take (Min.min u.length v.length)) == 0
          && decide (u.length < v.length)))
  | [], [] => by simp [lex_lt, memcmp]
  | [], _ :: _ => by simp [lex_lt, memcmp]
  | _ :: _, [] => by simp [lex_lt, memcmp]
  | a :: as, b :: bs => by
    have ih := lex_lt_eq_memcmp as bs
    simp only [lex_lt, List.length_cons, Nat.add_min_add_right, List.take_succ_cons, memcmp]
    rw [ih]
    by_cases h1 : a < b
    · simp [h1]
    · by_cases h2 : b < a
      · have : ¬ a = b := by omega
        simp [h1, h2, this]
      · have : a = b := by omega
        simp [h1, h2, this]

end smlt

namespace smlt

theorem Hash.bytes_length (h : Hash) : h.bytes.length = 6 := by
  simp [Hash.bytes, int16_bytes]

theorem bytes_flatten_length (L : List Hash) :
    ((L.map Hash.bytes).flatten).length = 6 * L.length := by
  induction L with
  | nil => rfl
  | cons h t ih => simp [List.flatten, Hash.bytes_length, ih]; omega

theorem bytes_flatten_take (L : List Hash) (n : Nat) :
    ((L.map Hash.bytes).flatten).take (6 * n) = ((L.take n).map Hash.bytes).flatten := by
  induction L generalizing n with
  | nil => simp
  | cons h t ih =>
    cases n with
    | zero => simp
    | succ n =>
      have h6 : 6 * (n + 1) = h.bytes.length + 6 * n := by rw [Hash.bytes_length]; omega
      simp only [List.map_cons, List.flatten_cons, List.take_succ_cons]
      rw [h6, List.take_append, ih]

theorem Key.path_bytes_length (k : Key) (n : Nat) (h : n ≤ k.hash_path.length) :
    (k.path_bytes n).length = 6 * n := by
  unfold Key.path_bytes
  rw [bytes_flatten_length, List.length_take, Nat.min_eq_left h]

theorem Key.sig_length (k : Key) (h : k.valid) : k.sig.length = 6 * (k.ancestors + 1) := by
  unfold Key.sig
  apply Key.path_bytes_length
  have := h.1; have := h.2; omega

theorem Key.path_bytes_eq_take (k : Key) (n : Nat) (h : n ≤ k.ancestors + 1) :
    k.path_bytes n = k.sig.take (6 * n) := by
  unfold Key.sig Key.path_bytes
  rw [bytes_flatten_take, List.take_take, Nat.min_eq_left h]

theorem Key.lt_eq_lex (a b : Key) (ha : a.valid) (hb : b.valid) :
    a.lt b = lex_lt a.sig b.sig := by
  have h1 : (Min.min b.ancestors a.ancestors + 1) % 18446744073709551616
      = Min.min b.ancestors a.ancestors + 1 := by
    have := ha.2; have := hb.2
    apply Nat.mod_eq_of_lt; omega
  have hm : Min.min a.sig.length b.sig.length = 6 * (Min.min b.ancestors a.ancestors + 1) := by
    rw [Key.sig_length a ha, Key.sig_length b hb]; omega
  rw [lex_lt_eq_memcmp, hm]
  unfold Key.lt
  simp only [h1]
  rw [Key.path_bytes_eq_take a _ (by omega), Key.path_bytes_eq_take b _ (by omega),
    Key.sig_length a ha, Key.sig_length b hb]
  congr 2
  apply decide_eq_decide.mpr
  omega

theorem Key.is_ancestor_of_iff (a b : Key) (ha : a.valid) (hb : b.valid) :
    a.is_ancestor_of b = true ↔ a.sig <+: b.sig := by
  have h1 : (a.ancestors + 1) % 18446744073709551616 = a.ancestors + 1 := by
    have := ha.2
    apply Nat.mod_eq_of_lt; omega
  unfold Key.is_ancestor_of
  simp only [h1]
  by_cases hab : a.ancestors > b.ancestors
  · simp only [hab, if_true]
    constructor
    · intro h; simp at h
    · intro h
      have := h.length_le
      rw [Key.sig_length a ha, Key.sig_length b hb] at this
      omega
  · simp only [hab, if_false]
    rw [Key.path_bytes_eq_take b _ (by omega), List.prefix_iff_eq_take,
      Key.sig_length a ha]
    show (memcmp a.sig _ == 0) = true ↔ _
    rw [beq_iff_eq]
    constructor
    · intro h
      apply memcmp_eq_zero _ _ _ h
      rw [List.length_take, Key.sig_length a ha, Key.sig_length b hb]; omega
    · intro h
      rw [← h]; exact memcmp_self _

theorem Key.equiv_iff (a b : Key) (ha : a.valid) (hb : b.valid) :
    a.equiv b = true ↔ a.sig = b.sig := by
  unfold Key.equiv
  rw [Key.lt_eq_lex a b ha hb, Key.lt_eq_lex b a hb ha]
  constructor
  · intro h
    simp only [Bool.and_eq_true, Bool.not_eq_true', ] at h
    exact lex_lt_total _ _ h.1 h.2
  · intro h
    rw [h]; simp [lex_lt_irrefl]

theorem Key.eq_iff (a b : Key) (ha : a.valid) (hb : b.valid) :
    a.eq b = true ↔ a.sig = b.sig := by
  have h1 : (a.ancestors + 1) % 18446744073709551616 = a.ancestors + 1 := by
    have := ha.2
    apply Nat.mod_eq_of_lt; omega
  unfold Key.eq
  simp only [h1, Bool.and_eq_true, beq_iff_eq]
  constructor
  · rintro ⟨h, h0⟩
    have := memcmp_eq_zero _ _ (by
      rw [Key.path_bytes_length, Key.path_bytes_length]
      · have := hb.1; have := hb.2; omega
      · have := ha.1; have := ha.2; omega) h0
    unfold Key.sig
    rw [this, h]
  · intro h
    have hl : a.ancestors = b.ancestors := by
      have := congrArg List.length h
      rw [Key.sig_length a ha, Key.sig_length b hb] at this
      omega
    refine ⟨hl, ?_⟩
    have : b.path_bytes (a.ancestors + 1) = b.sig := by rw [hl]; rfl
    rw [this, ← h]
    exact memcmp_self _

theorem Key.lt_trans (a b c : Key) (ha : a.valid) (hb : b.valid) (hc : c.valid)
    (h1 : a.lt b = true) (h2 : b.lt c = true) : a.lt c = true := by
  rw [Key.lt_eq_lex _ _ ha hb] at h1
  rw [Key.lt_eq_lex _ _ hb hc] at h2
  rw [Key.lt_eq_lex _ _ ha hc]
  exact lex_lt_trans _ _ _ h1 h2

end smlt

namespace smlt

/-! ## The ordered index -/

theorem Index.WF_nil : Index.WF [] := ⟨List.Pairwise.nil, by simp⟩

theorem Index.WF_cons (q : Key × HGSHEntryList) (r : Index) :
    Index.WF (q :: r) ↔ q.1.valid ∧ (∀ x ∈ r, Key.lt q.1 x.1 = true) ∧ Index.WF r := by
  unfold Index.WF
  rw [List.pairwise_cons]
  constructor
  · rintro ⟨⟨h1, h2⟩, h3⟩
    exact ⟨h3 q (by simp), h1, h2, fun p hp => h3 p (by simp [hp])⟩
  · rintro ⟨h1, h2, h3, h4⟩
    refine ⟨⟨h2, h3⟩, ?_⟩
    intro p hp
    rcases List.mem_cons.mp hp with rfl | hp
    · exact h1
    · exact h4 p hp

theorem Key.sig_ne_of_lt (a b : Key) (ha : a.valid) (hb : b.valid) (h : a.lt b = true) :
    a.sig ≠ b.sig := by
  intro hs
  rw [Key.lt_eq_lex a b ha hb, hs, lex_lt_irrefl] at h
  exact Bool.false_ne_true h

theorem Index.find_cons (q : Key × HGSHEntryList) (r : Index) (k : Key) :
    Index.find (q :: r) k = if Key.equiv q.1 k then some q else Index.find r k := by
  unfold Index.find
  rw [List.find?_cons]
  cases Key.equiv q.1 k <;> rfl

theorem Index.find_eq_some_iff (index : Index) (h : index.WF) (k : Key) (hk : k.valid)
    (p : Key × HGSHEntryList) :
    Index.find index k = some p ↔ p ∈ index ∧ p.1.sig = k.sig := by
  induction index with
  | nil => simp [Index.find]
  | cons q r ih =>
    rw [Index.WF_cons] at h
    obtain ⟨hq, hlt, hr⟩ := h
    rw [Index.find_cons]
    by_cases he : Key.equiv q.1 k = true
    · have hs := (Key.equiv_iff _ _ hq hk).mp he
      simp only [he, if_true, Option.some.injEq, List.mem_cons]
      constructor
      · rintro rfl; exact ⟨Or.inl rfl, hs⟩
      · rintro ⟨h1 | h1, h2⟩
        · exact h1.symm
        · exfalso
          exact Key.sig_ne_of_lt q.1 p.1 hq (hr.2 p h1) (hlt p h1) (by rw [hs, h2])
    · have hs : q.1.sig ≠ k.sig := fun hs => he ((Key.equiv_iff _ _ hq hk).mpr hs)
      simp only [he, if_false, Bool.false_eq_true, List.mem_cons]
      rw [ih hr]
      constructor
      · rintro ⟨h1, h2⟩; exact ⟨Or.inr h1, h2⟩
      · rintro ⟨h1 | h1, h2⟩
        · exfalso; rw [h1] at h2; exact hs h2
        · exact ⟨h1, h2⟩

theorem Index.find_eq_none_iff (index : Index) (h : index.WF) (k : Key) (hk : k.valid) :
    Index.find index k = none ↔ ∀ p ∈ index, p.1.sig ≠ k.sig := by
  constructor
  · intro hn p hp hs
    have := (Index.find_eq_some_iff index h k hk p).mpr ⟨hp, hs⟩
    rw [hn] at this
    exact Option.noConfusion this
  · intro hall
    cases hf : Index.find index k with
    | none => rfl
    | some p =>
      have := (Index.find_eq_some_iff index h k hk p).mp hf
      exact absurd this.2 (hall p this.1)

theorem Index.mem_bucket_iff (index : Index) (h : index.WF) (k : Key) (hk : k.valid)
    (e : EntryId) :
    e ∈ Index.bucket index k ↔ ∃ p ∈ index, p.1.sig = k.sig ∧ e ∈ p.2 := by
  unfold Index.bucket
  cases hf : Index.find index k with
  | none =>
    have := (Index.find_eq_none_iff index h k hk).mp hf
    simp only [List.not_mem_nil, false_iff, not_exists, not_and]
    intro p hp hs
    exact absurd hs (this p hp)
  | some p =>
    obtain ⟨hp, hs⟩ := (Index.find_eq_some_iff index h k hk p).mp hf
    simp only
    constructor
    · intro he; exact ⟨p, hp, hs, he⟩
    · rintro ⟨q, hq, hqs, he⟩
      have := (Index.find_eq_some_iff index h k hk q).mpr ⟨hq, hqs⟩
      rw [hf] at this
      cases this
      exact he

theorem Index.modify_eq_map (f : HGSHEntryList → HGSHEntryList) (k : Key) (hk : k.valid)
    (index : Index) (h : index.WF) :
    Index.modify f k index = index.map (fun p => if p.1.sig = k.sig then (p.1, f p.2) else p) := by
  induction index with
  | nil => rfl
  | cons q r ih =>
    rw [Index.WF_cons] at h
    obtain ⟨hq, hlt, hr⟩ := h
    simp only [Index.modify, List.map_cons]
    by_cases he : Key.equiv q.1 k = true
    · have hs := (Key.equiv_iff _ _ hq hk).mp he
      simp only [he, if_true, hs]
      congr 1
      symm
      conv_rhs => rw [← List.map_id r]
      apply List.map_congr_left
      intro p hp
      have : p.1.sig ≠ k.sig := by
        rw [← hs]
        exact fun hh => Key.sig_ne_of_lt q.1 p.1 hq (hr.2 p hp) (hlt p hp) hh.symm
      simp [this]
    · have hs : q.1.sig ≠ k.sig := fun hs => he ((Key.equiv_iff _ _ hq hk).mpr hs)
      simp only [he, hs, if_false, Bool.false_eq_true]
      rw [ih hr]

theorem Index.erase_eq_filter (k : Key) (hk : k.valid) (index : Index) (h : index.WF) :
    Index.erase k index = index.filter (fun p => decide (p.1.sig ≠ k.sig)) := by
  induction index with
  | nil => rfl
  | cons q r ih =>
    rw [Index.WF_cons] at h
    obtain ⟨hq, hlt, hr⟩ := h
    simp only [Index.erase]
    by_cases he : Key.equiv q.1 k = true
    · have hs := (Key.equiv_iff _ _ hq hk).mp he
      simp only [he, if_true]
      rw [List.filter_cons_of_neg (by simp [hs])]
      symm
      apply List.filter_eq_self.mpr
      intro p hp
      have : p.1.sig ≠ k.sig := by
        rw [← hs]
        exact fun hh => Key.sig_ne_of_lt q.1 p.1 hq (hr.2 p hp) (hlt p hp) hh.symm
      simp [this]
    · have hs : q.1.sig ≠ k.sig := fun hs => he ((Key.equiv_iff _ _ hq hk).mpr hs)
      simp only [he, if_false, Bool.false_eq_true]
      rw [List.filter_cons_of_pos (by simp [hs]), ih hr]

theorem Index.WF_modify (f : HGSHEntryList → HGSHEntryList) (k : Key)
    (index : Index) (h : index.WF) : Index.WF (Index.modify f k index) := by
  induction index with
  | nil => exact h
  | cons q r ih =>
    have h0 := h
    rw [Index.WF_cons] at h
    obtain ⟨hq, hlt, hr⟩ := h
    simp only [Index.modify]
    by_cases he : Key.equiv q.1 k = true
    · simp only [he, if_true]
      rw [Index.WF_cons]
      exact ⟨hq, hlt, hr⟩
    · simp only [he, if_false, Bool.false_eq_true]
      rw [Index.WF_cons]
      refine ⟨hq, ?_, ih hr⟩
      intro x hx
      have hkeys : ∀ (l : Index), ∀ x ∈ Index.modify f k l, ∃ y ∈ l, y.1 = x.1 := by
        intro l
        induction l with
        | nil => intro x hx; simp [Index.modify] at hx
        | cons a t iht =>
          intro x hx
          simp only [Index.modify] at hx
          split_ifs at hx
          · rcases List.mem_cons.mp hx with rfl | hx
            · exact ⟨a, by simp, rfl⟩
            · exact ⟨x, by simp [hx], rfl⟩
          · rcases List.mem_cons.mp hx with rfl | hx
            · exact ⟨x, by simp, rfl⟩
            · obtain ⟨y, hy, hyx⟩ := iht x hx
              exact ⟨y, by simp [hy], hyx⟩
      obtain ⟨y, hy, hyx⟩ := hkeys r x hx
      rw [← hyx]; exact hlt y hy

theorem Index.erase_sublist (k : Key) (index : Index) : (Index.erase k index).Sublist index := by
  induction index with
  | nil => exact List.Sublist.refl _
  | cons q r ih =>
    simp only [Index.erase]
    split_ifs
    · exact List.sublist_cons_self q r
    · exact ih.cons₂ q

theorem Index.WF_sublist (l index : Index) (hs : l.Sublist index) (h : index.WF) : l.WF :=
  ⟨h.1.sublist hs, fun p hp => h.2 p (hs.subset hp)⟩

theorem Index.WF_erase (k : Key) (index : Index) (h : index.WF) : Index.WF (Index.erase k index) :=
  Index.WF_sublist _ _ (Index.erase_sublist k index) h

theorem Index.insert_of_find_none (index : Index) (k : Key) (b : HGSHEntryList)
    (hf : Index.find index k = none) :
    Index.insert index (k, b) = List.takeWhile (fun q => Key.lt q.1 k) index ++
      (k, b) :: List.dropWhile (fun q => Key.lt q.1 k) index := by
  unfold Index.insert
  simp only [hf]

theorem Index.mem_ordered_insert (k : Key) (b : HGSHEntryList) (index : Index)
    (x : Key × HGSHEntryList) :
    x ∈ List.takeWhile (fun q => Key.lt q.1 k) index ++
      (k, b) :: List.dropWhile (fun q => Key.lt q.1 k) index ↔ x = (k, b) ∨ x ∈ index := by
  conv_rhs => rw [← List.takeWhile_append_dropWhile (fun q => Key.lt q.1 k) index]
  simp only [List.mem_append, List.mem_cons]
  tauto

theorem Index.WF_ordered_insert (k : Key) (b : HGSHEntryList) (hp : k.valid) (index : Index)
    (h : index.WF) (hne : ∀ q ∈ index, q.1.sig ≠ k.sig) :
    Index.WF (List.takeWhile (fun q => Key.lt q.1 k) index ++
      (k, b) :: List.dropWhile (fun q => Key.lt q.1 k) index) := by
  induction index with
  | nil =>
    simp only [List.takeWhile_nil, List.dropWhile_nil, List.nil_append]
    rw [Index.WF_cons]
    exact ⟨hp, by simp, Index.WF_nil⟩
  | cons q r ih =>
    have h0 := h
    rw [Index.WF_cons] at h
    obtain ⟨hq, hlt, hr⟩ := h
    by_cases hl : Key.lt q.1 k = true
    · rw [List.takeWhile_cons_of_pos (by simpa using hl), List.dropWhile_cons_of_pos (by simpa using hl)]
      rw [List.cons_append, Index.WF_cons]
      refine ⟨hq, ?_, ih hr (fun x hx => hne x (by simp [hx]))⟩
      intro x hx
      rcases (Index.mem_ordered_insert k b r x).mp hx with rfl | hx
      · exact hl
      · exact hlt x hx
    · rw [List.takeWhile_cons_of_neg (by simpa using hl), List.dropWhile_cons_of_neg (by simpa using hl)]
      rw [List.nil_append, Index.WF_cons]
      have hpq : Key.lt k q.1 = true := by
        rw [Key.lt_eq_lex _ _ hp hq]
        rw [Key.lt_eq_lex _ _ hq hp] at hl
        by_contra hc
        exact hne q (by simp) (lex_lt_total _ _ (by simpa using hl) (by simpa using hc))
      refine ⟨hp, ?_, h0⟩
      intro x hx
      rcases List.mem_cons.mp hx with rfl | hx
      · exact hpq
      · exact Key.lt_trans _ _ _ hp hq (hr.2 x hx) hpq (hlt x hx)

end smlt

namespace smlt

/-! ## Filing and unfiling one entry under one key -/

theorem HGSHEntryList.mem_insert (l : HGSHEntryList) (e x : EntryId) :
    x ∈ HGSHEntryList.insert l e ↔ x ∈ l ∨ x = e := by
  unfold HGSHEntryList.insert
  split_ifs with h
  · constructor
    · exact Or.inl
    · rintro (h1 | rfl)
      · exact h1
      · exact h
  · simp

theorem HGSHEntryList.mem_erase (l : HGSHEntryList) (e x : EntryId) :
    x ∈ HGSHEntryList.erase l e ↔ x ∈ l ∧ x ≠ e := by
  unfold HGSHEntryList.erase
  simp

theorem HGSHEntryList.mem_insert_all (more l : HGSHEntryList) (x : EntryId) :
    x ∈ HGSHEntryList.insert_all l more ↔ x ∈ l ∨ x ∈ more := by
  unfold HGSHEntryList.insert_all
  induction more generalizing l with
  | nil => simp
  | cons a t ih =>
    rw [List.foldl_cons, ih, HGSHEntryList.mem_insert]
    simp only [List.mem_cons]
    tauto

theorem SpatialHash.insert_object_for_key_WF (s : SpatialHash) (key : Key) (hk : key.valid)
    (e : EntryId) (h : s.index_.WF) : (s.insert_object_for_key key e).index_.WF := by
  unfold SpatialHash.insert_object_for_key
  simp only
  cases hf : Index.find s.index_ key with
  | some p => exact Index.WF_modify _ _ _ h
  | none =>
    rw [Index.insert_of_find_none _ _ _ hf]
    exact Index.WF_ordered_insert key _ hk _ h ((Index.find_eq_none_iff _ h key hk).mp hf)

theorem SpatialHash.mem_bucket_insert (s : SpatialHash) (h : s.index_.WF) (key : Key)
    (hkey : key.valid) (e : EntryId) (k : Key) (hk : k.valid) (x : EntryId) :
    x ∈ Index.bucket (s.insert_object_for_key key e).index_ k ↔
      x ∈ Index.bucket s.index_ k ∨ (key.sig = k.sig ∧ x = e) := by
  have hwf := SpatialHash.insert_object_for_key_WF s key hkey e h
  rw [Index.mem_bucket_iff _ hwf k hk, Index.mem_bucket_iff _ h k hk]
  unfold SpatialHash.insert_object_for_key
  simp only
  cases hf : Index.find s.index_ key with
  | some p =>
    obtain ⟨hp, hps⟩ := (Index.find_eq_some_iff _ h key hkey p).mp hf
    simp only
    rw [Index.modify_eq_map _ _ hkey _ h]
    constructor
    · rintro ⟨p', hp', hs, hx⟩
      obtain ⟨q, hq, rfl⟩ := List.mem_map.mp hp'
      by_cases hqs : q.1.sig = key.sig
      · rw [if_pos hqs] at hs hx
        rcases (HGSHEntryList.mem_insert _ _ _).mp hx with hx | hx
        · exact Or.inl ⟨q, hq, hs, hx⟩
        · exact Or.inr ⟨hqs.symm.trans hs, hx⟩
      · rw [if_neg hqs] at hs hx
        exact Or.inl ⟨q, hq, hs, hx⟩
    · rintro (⟨q, hq, hs, hx⟩ | ⟨hs, rfl⟩)
      · refine ⟨_, List.mem_map.mpr ⟨q, hq, rfl⟩, ?_, ?_⟩
        · split_ifs <;> exact hs
        · split_ifs
          · exact (HGSHEntryList.mem_insert _ _ _).mpr (Or.inl hx)
          · exact hx
      · refine ⟨_, List.mem_map.mpr ⟨p, hp, rfl⟩, ?_, ?_⟩
        · rw [if_pos hps]; exact hps.trans hs
        · rw [if_pos hps]
          exact (HGSHEntryList.mem_insert _ _ _).mpr (Or.inr rfl)
  | none =>
    have hn := (Index.find_eq_none_iff _ h key hkey).mp hf
    rw [Index.insert_of_find_none _ _ _ hf]
    constructor
    · rintro ⟨p', hp', hs, hx⟩
      rcases (Index.mem_ordered_insert key _ _ _).mp hp' with hpe | hp'
      · right
        rw [hpe] at hs hx
        refine ⟨hs, ?_⟩
        have hx' : x ∈ HGSHEntryList.insert [] e := hx
        rcases (HGSHEntryList.mem_insert _ _ _).mp hx' with hx | hx
        · exact absurd hx (List.not_mem_nil _)
        · exact hx
      · exact Or.inl ⟨p', hp', hs, hx⟩
    · rintro (⟨q, hq, hs, hx⟩ | ⟨hs, rfl⟩)
      · exact ⟨q, (Index.mem_ordered_insert key _ _ _).mpr (Or.inr hq), hs, hx⟩
      · exact ⟨(key, HGSHEntryList.insert [] x),
          (Index.mem_ordered_insert key _ _ _).mpr (Or.inl rfl), hs,
          (HGSHEntryList.mem_insert [] x x).mpr (Or.inr rfl)⟩

theorem SpatialHash.erase_object_from_key_WF (s : SpatialHash) (key : Key)
    (e : EntryId) (h : s.index_.WF) : (s.erase_object_from_key key e).index_.WF := by
  unfold SpatialHash.erase_object_from_key
  cases hf : Index.find s.index_ key with
  | some p =>
    simp only
    split_ifs
    · exact Index.WF_erase _ _ h
    · exact Index.WF_modify _ _ _ h
  | none => exact h

theorem SpatialHash.erase_object_from_key_entries (s : SpatialHash) (key : Key) (e : EntryId) :
    (s.erase_object_from_key key e).entries = s.entries := by
  unfold SpatialHash.erase_object_from_key
  cases hf : Index.find s.index_ key with
  | some p => simp only; split_ifs <;> rfl
  | none => rfl

theorem SpatialHash.mem_bucket_erase (s : SpatialHash) (h : s.index_.WF) (key : Key)
    (hkey : key.valid) (e : EntryId) (k : Key) (hk : k.valid) (x : EntryId) :
    x ∈ Index.bucket (s.erase_object_from_key key e).index_ k ↔
      x ∈ Index.bucket s.index_ k ∧ ¬ (key.sig = k.sig ∧ x = e) := by
  have hwf := SpatialHash.erase_object_from_key_WF s key e h
  rw [Index.mem_bucket_iff _ hwf k hk, Index.mem_bucket_iff _ h k hk]
  unfold SpatialHash.erase_object_from_key
  cases hf : Index.find s.index_ key with
  | some p =>
    obtain ⟨hp, hps⟩ := (Index.find_eq_some_iff _ h key hkey p).mp hf
    have huniq : ∀ q ∈ s.index_, q.1.sig = key.sig → q = p := by
      intro q hq hqs
      have := (Index.find_eq_some_iff _ h key hkey q).mpr ⟨hq, hqs⟩
      rw [hf] at this
      exact (Option.some.inj this).symm
    simp only
    by_cases hemp : (HGSHEntryList.erase p.2 e).isEmpty = true
    · simp only [hemp, if_true]
      rw [Index.erase_eq_filter _ hkey _ h]
      have hall : ∀ y ∈ p.2, y = e := by
        intro y hy
        by_contra hne
        have : y ∈ HGSHEntryList.erase p.2 e := (HGSHEntryList.mem_erase _ _ _).mpr ⟨hy, hne⟩
        rw [List.isEmpty_iff] at hemp
        rw [hemp] at this
        exact List.not_mem_nil _ this
      constructor
      · rintro ⟨q, hq, hs, hx⟩
        obtain ⟨hq1, hq2⟩ := List.mem_filter.mp hq
        have hq2 : q.1.sig ≠ key.sig := by simpa using hq2
        refine ⟨⟨q, hq1, hs, hx⟩, ?_⟩
        rintro ⟨h1, _⟩
        exact hq2 (by rw [hs, h1])
      · rintro ⟨⟨q, hq, hs, hx⟩, hn⟩
        refine ⟨q, List.mem_filter.mpr ⟨hq, ?_⟩, hs, hx⟩
        simp only [ne_eq, decide_not, Bool.not_eq_true', decide_eq_false_iff_not]
        intro hqs
        have := huniq q hq hqs
        subst this
        exact hn ⟨by rw [← hqs, hs], hall x hx⟩
    · simp only [hemp, if_false, Bool.false_eq_true]
      rw [Index.modify_eq_map _ _ hkey _ h]
      constructor
      · rintro ⟨p', hp', hs, hx⟩
        obtain ⟨q, hq, rfl⟩ := List.mem_map.mp hp'
        by_cases hqs : q.1.sig = key.sig
        · rw [if_pos hqs] at hs hx
          obtain ⟨hx1, hx2⟩ := (HGSHEntryList.mem_erase _ _ _).mp hx
          exact ⟨⟨q, hq, hs, hx1⟩, fun hh => hx2 hh.2⟩
        · rw [if_neg hqs] at hs hx
          exact ⟨⟨q, hq, hs, hx⟩, fun hh => hqs (by rw [hs, hh.1])⟩
      · rintro ⟨⟨q, hq, hs, hx⟩, hn⟩
        refine ⟨_, List.mem_map.mpr ⟨q, hq, rfl⟩, ?_, ?_⟩
        · split_ifs <;> exact hs
        · split_ifs with hqs
          · refine (HGSHEntryList.mem_erase _ _ _).mpr ⟨hx, ?_⟩
            intro hxe
            exact hn ⟨by rw [← hqs, hs], hxe⟩
          · exact hx
  | none =>
    have hn := (Index.find_eq_none_iff _ h key hkey).mp hf
    simp only
    constructor
    · rintro ⟨q, hq, hs, hx⟩
      refine ⟨⟨q, hq, hs, hx⟩, ?_⟩
      rintro ⟨h1, _⟩
      exact hn q hq (by rw [hs, h1])
    · rintro ⟨hh, _⟩
      exact hh

end smlt

namespace smlt

/-! ## The merge walk of `set_difference` on unsorted ranges -/

theorem set_difference_nil (Y : List Key) : set_difference [] Y = [] := rfl

theorem set_difference_cons_nil (a : Key) (t : List Key) : set_difference (a :: t) [] = a :: t :=
  rfl

theorem set_difference_cons_cons (a : Key) (t : List Key) (b : Key) (bs : List Key) :
    set_difference (a :: t) (b :: bs) =
      if Key.lt a b then a :: set_difference t (b :: bs)
      else if Key.lt b a then set_difference (a :: t) bs
      else set_difference t bs := rfl

theorem set_difference_subset (X Y : List Key) : ∀ x ∈ set_difference X Y, x ∈ X := by
  induction X generalizing Y with
  | nil => intro x hx; simp [set_difference_nil] at hx
  | cons a t ih =>
    induction Y with
    | nil => intro x hx; exact hx
    | cons b bs ihY =>
      intro x hx
      rw [set_difference_cons_cons] at hx
      split_ifs at hx
      · rcases List.mem_cons.mp hx with rfl | hx
        · exact List.mem_cons_self _ _
        · exact List.mem_cons_of_mem _ (ih _ x hx)
      · exact ihY x hx
      · exact List.mem_cons_of_mem _ (ih _ x hx)

/-- An element of the first range that the walk does not copy was met by an equivalent element
of the second range, and the walk in the other direction copies nothing equivalent to it. -/
theorem set_difference_matched (X Y : List Key) (hX : ∀ x ∈ X, x.valid) (hY : ∀ y ∈ Y, y.valid)
    (hnd : (Y.map Key.sig).Nodup) :
    ∀ x ∈ X, x ∉ set_difference X Y →
      x.sig ∈ Y.map Key.sig ∧ x.sig ∉ (set_difference Y X).map Key.sig := by
  induction X generalizing Y with
  | nil => intro x hx; simp at hx
  | cons a t ih =>
    induction Y with
    | nil => intro x hx hn; exact absurd hx hn
    | cons b bs ihY =>
      have ha : a.valid := hX a (List.mem_cons_self _ _)
      have hb : b.valid := hY b (List.mem_cons_self _ _)
      have ht : ∀ x ∈ t, x.valid := fun x hx => hX x (List.mem_cons_of_mem _ hx)
      have hbs : ∀ y ∈ bs, y.valid := fun y hy => hY y (List.mem_cons_of_mem _ hy)
      rw [List.map_cons, List.nodup_cons] at hnd
      intro x hx hn
      rw [set_difference_cons_cons] at hn
      rw [set_difference_cons_cons]
      by_cases h1 : Key.lt a b = true
      · have h2 : Key.lt b a = false := by
          rw [Key.lt_eq_lex _ _ hb ha]
          rw [Key.lt_eq_lex _ _ ha hb] at h1
          exact lex_lt_asymm _ _ h1
        simp only [h1, if_true, List.mem_cons, not_or] at hn
        simp only [h2, h1, if_true, Bool.false_eq_true, if_false]
        have hxt : x ∈ t := by
          rcases List.mem_cons.mp hx with rfl | hx
          · exact absurd rfl hn.1
          · exact hx
        have := ih (b :: bs) ht hY (by rw [List.map_cons, List.nodup_cons]; exact hnd) x hxt hn.2
        exact this
      · by_cases h2 : Key.lt b a = true
        · simp only [h1, h2, if_true, if_false, Bool.false_eq_true] at hn
          simp only [h2, if_true]
          have := ihY hbs hnd.2 x hx hn
          refine ⟨List.mem_cons_of_mem _ this.1, ?_⟩
          rw [List.map_cons, List.mem_cons, not_or]
          refine ⟨?_, this.2⟩
          intro hxb
          exact hnd.1 (hxb ▸ this.1)
        · simp only [h1, h2, if_false, Bool.false_eq_true] at hn
          simp only [h1, h2, if_false, Bool.false_eq_true]
          have hab : a.sig = b.sig := by
            apply (Key.equiv_iff a b ha hb).mp
            unfold Key.equiv
            simp [h1, h2]
          rcases List.mem_cons.mp hx with rfl | hxt
          · refine ⟨by rw [hab]; exact List.mem_cons_self _ _, ?_⟩
            intro hc
            obtain ⟨y, hy, hys⟩ := List.mem_map.mp hc
            have hyb := set_difference_subset bs t y hy
            exact hnd.1 (by rw [← hab, ← hys]; exact List.mem_map_of_mem _ hyb)
          · have := ih bs ht hbs hnd.2 x hxt hn
            exact ⟨List.mem_cons_of_mem _ this.1, this.2⟩

/-! ## Sets of keys -/

theorem KeyList.contains_iff (s : KeyList) (hs : ∀ x ∈ s, x.valid) (k : Key) (hk : k.valid) :
    KeyList.contains s k = true ↔ k.sig ∈ s.map Key.sig := by
  unfold KeyList.contains
  rw [List.any_eq_true, List.mem_map]
  constructor
  · rintro ⟨x, hx, he⟩
    exact ⟨x, hx, (Key.eq_iff x k (hs x hx) hk).mp he⟩
  · rintro ⟨x, hx, he⟩
    exact ⟨x, hx, (Key.eq_iff x k (hs x hx) hk).mpr he⟩

theorem KeyList.insert_valid (s : KeyList) (hs : ∀ x ∈ s, x.valid) (k : Key) (hk : k.valid) :
    ∀ x ∈ KeyList.insert s k, x.valid := by
  unfold KeyList.insert
  split_ifs
  · exact hs
  · intro x hx
    rcases List.mem_append.mp hx with hx | hx
    · exact hs x hx
    · rw [List.mem_singleton.mp hx]; exact hk

theorem KeyList.insert_sigs (s : KeyList) (hs : ∀ x ∈ s, x.valid) (k : Key) (hk : k.valid)
    (t : List Nat) :
    t ∈ (KeyList.insert s k).map Key.sig ↔ t ∈ s.map Key.sig ∨ t = k.sig := by
  unfold KeyList.insert
  split_ifs with h
  · have := (KeyList.contains_iff s hs k hk).mp h
    constructor
    · exact Or.inl
    · rintro (h1 | rfl)
      · exact h1
      · exact this
  · simp

theorem KeyList.insert_nodup (s : KeyList) (hs : ∀ x ∈ s, x.valid) (k : Key) (hk : k.valid)
    (hnd : (s.map Key.sig).Nodup) : ((KeyList.insert s k).map Key.sig).Nodup := by
  unfold KeyList.insert
  split_ifs with h
  · exact hnd
  · rw [List.map_append, List.map_singleton]
    apply List.Nodup.append hnd (List.nodup_singleton _)
    intro t ht1 ht2
    rw [List.mem_singleton] at ht2
    subst ht2
    exact h ((KeyList.contains_iff s hs k hk).mpr ht1)

theorem KeyList.insert_subset (s : KeyList) (k : Key) :
    ∀ x ∈ KeyList.insert s k, x ∈ s ∨ x = k := by
  unfold KeyList.insert
  split_ifs
  · exact fun x hx => Or.inl hx
  · intro x hx
    simpa using hx

theorem KeyList.foldl_insert_valid (L : List Key) (hL : ∀ x ∈ L, x.valid) (acc : KeyList)
    (hacc : ∀ x ∈ acc, x.valid) : ∀ x ∈ L.foldl KeyList.insert acc, x.valid := by
  induction L generalizing acc with
  | nil => exact hacc
  | cons a t ih =>
    rw [List.foldl_cons]
    exact ih (fun x hx => hL x (List.mem_cons_of_mem _ hx)) _
      (KeyList.insert_valid acc hacc a (hL a (List.mem_cons_self _ _)))

theorem KeyList.foldl_insert_sigs (L : List Key) (hL : ∀ x ∈ L, x.valid) (acc : KeyList)
    (hacc : ∀ x ∈ acc, x.valid) (t : List Nat) :
    t ∈ (L.foldl KeyList.insert acc).map Key.sig ↔ t ∈ acc.map Key.sig ∨ t ∈ L.map Key.sig := by
  induction L generalizing acc with
  | nil => simp
  | cons a tl ih =>
    rw [List.foldl_cons, ih (fun x hx => hL x (List.mem_cons_of_mem _ hx)) _
      (KeyList.insert_valid acc hacc a (hL a (List.mem_cons_self _ _))),
      KeyList.insert_sigs acc hacc a (hL a (List.mem_cons_self _ _))]
    simp only [List.map_cons, List.mem_cons]
    tauto

theorem KeyList.foldl_insert_nodup (L : List Key) (hL : ∀ x ∈ L, x.valid) (acc : KeyList)
    (hacc : ∀ x ∈ acc, x.valid) (hnd : (acc.map Key.sig).Nodup) :
    ((L.foldl KeyList.insert acc).map Key.sig).Nodup := by
  induction L generalizing acc with
  | nil => exact hnd
  | cons a tl ih =>
    rw [List.foldl_cons]
    exact ih (fun x hx => hL x (List.mem_cons_of_mem _ hx)) _
      (KeyList.insert_valid acc hacc a (hL a (List.mem_cons_self _ _)))
      (KeyList.insert_nodup acc hacc a (hL a (List.mem_cons_self _ _)) hnd)

end smlt

namespace smlt

/-! ## Cell sizes and the depth of keys -/

theorem clog2_search_spec (fuel t n : Nat) (h : t ≤ 2 ^ (n + fuel)) :
    t ≤ 2 ^ clog2_search fuel t n ∧ n ≤ clog2_search fuel t n ∧
      clog2_search fuel t n ≤ n + fuel ∧
      ∀ m, n ≤ m → m < clog2_search fuel t n → 2 ^ m < t := by
  induction fuel generalizing n with
  | zero =>
    simp only [clog2_search]
    exact ⟨h, le_refl _, le_refl _, fun m h1 h2 => absurd h2 (by omega)⟩
  | succ f ih =>
    simp only [clog2_search]
    split_ifs with h1
    · exact ⟨h1, le_refl _, by omega, fun m h2 h3 => absurd h3 (by omega)⟩
    · have := ih (n + 1) (by rw [show n + 1 + f = n + (f + 1) by omega]; exact h)
      refine ⟨this.1, by omega, by omega, ?_⟩
      intro m hm1 hm2
      by_cases hmn : m = n
      · subst hmn; omega
      · exact this.2.2.2 m (by omega) hm2

theorem ceil_log2_spec (q : ℚ) :
    q ≤ 2 ^ ceil_log2 q ∧ ∀ m, m < ceil_log2 q → (2 : ℚ) ^ m < q := by
  have h := clog2_search_spec ⌈q⌉₊ ⌈q⌉₊ 0 (by
    rw [Nat.zero_add]; exact le_of_lt (Nat.lt_two_pow _))
  unfold ceil_log2
  constructor
  · calc q ≤ (⌈q⌉₊ : ℚ) := Nat.le_ceil q
      _ ≤ ((2 ^ clog2_search ⌈q⌉₊ ⌈q⌉₊ 0 : Nat) : ℚ) := by exact_mod_cast h.1
      _ = 2 ^ clog2_search ⌈q⌉₊ ⌈q⌉₊ 0 := by push_cast; rfl
  · intro m hm
    have := h.2.2.2 m (Nat.zero_le _) hm
    have h2 : ((2 ^ m : Nat) : ℚ) < q := Nat.lt_ceil.mp this
    simpa using h2

theorem ceil_log2_le (q : ℚ) (n : Nat) (h : q ≤ 2 ^ n) : ceil_log2 q ≤ n := by
  by_contra hc
  have := (ceil_log2_spec q).2 n (by omega)
  exact absurd h (not_le.mpr this)

theorem ceil_log2_mono (q q' : ℚ) (h : q ≤ q') : ceil_log2 q ≤ ceil_log2 q' :=
  ceil_log2_le q _ (le_trans h (ceil_log2_spec q').1)

theorem cell_exponent_le (box : AABB) (h : box.max_dimension ≤ 32768) : cell_exponent box ≤ 15 := by
  unfold cell_exponent
  split_ifs
  · omega
  · exact ceil_log2_le _ 15 (by norm_num; exact h)

theorem wrap_int32_pow (n : Nat) (h : n ≤ 15) : wrap_int32 (2 ^ n) = 2 ^ n := by
  interval_cases n <;> decide

theorem find_cell_size_eq (box : AABB) (h : box.max_dimension ≤ 32768) :
    find_cell_size_for_box box = 2 ^ cell_exponent box := by
  have hc := cell_exponent_le box h
  unfold find_cell_size_for_box cell_exponent at *
  simp only
  split_ifs with h1
  · simp
  · simp only [h1, if_false] at hc
    rw [Nat.mod_eq_of_lt (by omega)]
    exact wrap_int32_pow _ hc

theorem max_dimension_le_cell (box : AABB) :
    box.max_dimension ≤ 2 ^ cell_exponent box := by
  unfold cell_exponent
  split_ifs with h1
  · simpa using le_of_lt h1
  · exact (ceil_log2_spec _).1

theorem cell_exponent_mono (b B : AABB) (h : b.max_dimension ≤ B.max_dimension) :
    cell_exponent b ≤ cell_exponent B := by
  unfold cell_exponent
  split_ifs with h1 h2 h2
  · exact le_refl _
  · exact Nat.zero_le _
  · exfalso; exact h1 (lt_of_le_of_lt h h2)
  · exact ceil_log2_mono _ _ h

theorem make_key_ancestors (n : Nat) (h : n ≤ 15) (x y z : ℚ) :
    (make_key (2 ^ n) x y z).ancestors = 15 - n := by
  unfold make_key
  simp only
  interval_cases n <;> decide

theorem make_key_length (c : Int) (x y z : ℚ) : (make_key c x y z).hash_path.length = 16 := by
  simp [make_key, MAX_GRID_LEVELS]

theorem make_key_valid (n : Nat) (h : n ≤ 15) (x y z : ℚ) : (make_key (2 ^ n) x y z).valid :=
  ⟨make_key_length _ x y z, by rw [make_key_ancestors n h]; omega⟩

theorem corner_keys_valid (box : AABB) (h : box.max_dimension ≤ 32768) :
    ∀ k ∈ corner_keys box, k.valid := by
  intro k hk
  unfold corner_keys at hk
  obtain ⟨c, _, rfl⟩ := List.mem_map.mp hk
  rw [find_cell_size_eq box h]
  exact make_key_valid _ (cell_exponent_le box h) _ _ _

end smlt

namespace smlt

/-! ## Filing and unfiling an entry under a list of keys -/

theorem SpatialHash.foldl_erase (e : EntryId) (ks : List Key) (hks : ∀ k ∈ ks, k.valid)
    (s : SpatialHash) (hwf : s.index_.WF) :
    (ks.foldl (fun st key => st.erase_object_from_key key e) s).index_.WF ∧
    (ks.foldl (fun st key => st.erase_object_from_key key e) s).entries = s.entries ∧
    ∀ k, k.valid → ∀ x,
      (x ∈ Index.bucket (ks.foldl (fun st key => st.erase_object_from_key key e) s).index_ k ↔
        x ∈ Index.bucket s.index_ k ∧ ¬ (x = e ∧ k.sig ∈ ks.map Key.sig)) := by
  induction ks generalizing s with
  | nil => exact ⟨hwf, rfl, fun k _ x => by simp⟩
  | cons a t ih =>
    have ha := hks a (List.mem_cons_self _ _)
    have hwf1 := SpatialHash.erase_object_from_key_WF s a e hwf
    obtain ⟨h1, h2, h3⟩ := ih (fun k hk => hks k (List.mem_cons_of_mem _ hk))
      (s.erase_object_from_key a e) hwf1
    rw [List.foldl_cons]
    refine ⟨h1, by rw [h2, SpatialHash.erase_object_from_key_entries], ?_⟩
    intro k hk x
    rw [h3 k hk x, SpatialHash.mem_bucket_erase s hwf a ha e k hk x]
    simp only [List.map_cons, List.mem_cons]
    constructor
    · rintro ⟨⟨hx, hn1⟩, hn2⟩
      refine ⟨hx, ?_⟩
      rintro ⟨hxe, hh | hh⟩
      · exact hn1 ⟨hh.symm, hxe⟩
      · exact hn2 ⟨hxe, hh⟩
    · rintro ⟨hx, hn⟩
      exact ⟨⟨hx, fun hh => hn ⟨hh.2, Or.inl hh.1.symm⟩⟩, fun hh => hn ⟨hh.1, Or.inr hh.2⟩⟩

theorem SpatialHash.insert_object_for_key_entries_ne (s : SpatialHash) (key : Key) (e x : EntryId)
    (h : x ≠ e) : (s.insert_object_for_key key e).entries x = s.entries x := by
  unfold SpatialHash.insert_object_for_key
  simp only
  exact Function.update_noteq h _ _

theorem SpatialHash.insert_object_for_key_entries_self (s : SpatialHash) (key : Key)
    (e : EntryId) :
    (s.insert_object_for_key key e).entries e = (s.entries e).push_key key := by
  unfold SpatialHash.insert_object_for_key
  simp only
  exact Function.update_same _ _ _

theorem SpatialHash.foldl_insert (e : EntryId) (ks : List Key) (hks : ∀ k ∈ ks, k.valid)
    (s : SpatialHash) (hwf : s.index_.WF) :
    (ks.foldl (fun st key => st.insert_object_for_key key e) s).index_.WF ∧
    (∀ x, x ≠ e →
      (ks.foldl (fun st key => st.insert_object_for_key key e) s).entries x = s.entries x) ∧
    ((ks.foldl (fun st key => st.insert_object_for_key key e) s).entries e).keys_ =
      ks.foldl KeyList.insert (s.entries e).keys_ ∧
    ((ks.foldl (fun st key => st.insert_object_for_key key e) s).entries e).hash_aabb_ =
      (s.entries e).hash_aabb_ ∧
    ∀ k, k.valid → ∀ x,
      (x ∈ Index.bucket (ks.foldl (fun st key => st.insert_object_for_key key e) s).index_ k ↔
        x ∈ Index.bucket s.index_ k ∨ (x = e ∧ k.sig ∈ ks.map Key.sig)) := by
  induction ks generalizing s with
  | nil => exact ⟨hwf, fun _ _ => rfl, rfl, rfl, fun k _ x => by simp⟩
  | cons a t ih =>
    have ha := hks a (List.mem_cons_self _ _)
    have hwf1 := SpatialHash.insert_object_for_key_WF s a ha e hwf
    obtain ⟨h1, h2, h3, h4, h5⟩ := ih (fun k hk => hks k (List.mem_cons_of_mem _ hk))
      (s.insert_object_for_key a e) hwf1
    rw [List.foldl_cons]
    refine ⟨h1, ?_, ?_, ?_, ?_⟩
    · intro x hx
      rw [h2 x hx, SpatialHash.insert_object_for_key_entries_ne s a e x hx]
    · rw [h3, SpatialHash.insert_object_for_key_entries_self]
      rfl
    · rw [h4, SpatialHash.insert_object_for_key_entries_self]
      rfl
    · intro k hk x
      rw [h5 k hk x, SpatialHash.mem_bucket_insert s hwf a ha e k hk x]
      simp only [List.map_cons, List.mem_cons]
      constructor
      · rintro ((hx | ⟨hs, hxe⟩) | ⟨hxe, hh⟩)
        · exact Or.inl hx
        · exact Or.inr ⟨hxe, Or.inl hs.symm⟩
        · exact Or.inr ⟨hxe, Or.inr hh⟩
      · rintro (hx | ⟨hxe, hh | hh⟩)
        · exact Or.inl (Or.inl hx)
        · exact Or.inl (Or.inr ⟨hh.symm, hxe⟩)
        · exact Or.inr ⟨hxe, hh⟩

/-- The net effect of the two walks of `update_object_for_box`: what is kept of the old keys
together with what is added is the new key set, whatever the order of the two ranges. -/
theorem set_difference_update (N O : List Key) (hN : ∀ x ∈ N, x.valid) (hO : ∀ x ∈ O, x.valid)
    (hNd : (N.map Key.sig).Nodup) (hOd : (O.map Key.sig).Nodup) (t : List Nat) :
    ((t ∈ O.map Key.sig ∧ t ∉ (set_difference O N).map Key.sig) ∨
      t ∈ (set_difference N O).map Key.sig) ↔ t ∈ N.map Key.sig := by
  constructor
  · rintro (⟨h1, h2⟩ | h)
    · obtain ⟨x, hx, rfl⟩ := List.mem_map.mp h1
      have hx2 : x ∉ set_difference O N := fun hh => h2 (List.mem_map_of_mem _ hh)
      exact (set_difference_matched O N hO hN hNd x hx hx2).1
    · obtain ⟨x, hx, rfl⟩ := List.mem_map.mp h
      exact List.mem_map_of_mem _ (set_difference_subset N O x hx)
  · intro h
    obtain ⟨x, hx, rfl⟩ := List.mem_map.mp h
    by_cases hx2 : x ∈ set_difference N O
    · exact Or.inr (List.mem_map_of_mem _ hx2)
    · exact Or.inl (set_difference_matched N O hN hO hOd x hx hx2)

theorem corner_keys_ne_nil (box : AABB) : corner_keys box ≠ [] := by
  simp [corner_keys, AABB.corners]

/-- The set `new_keys` that `update_object_for_box` and the query build from the corners. -/
theorem new_keys_spec (box : AABB) (h : box.max_dimension ≤ 32768) :
    (∀ x ∈ (corner_keys box).foldl KeyList.insert [], x.valid) ∧
    (((corner_keys box).foldl KeyList.insert []).map Key.sig).Nodup ∧
    (∀ t, t ∈ ((corner_keys box).foldl KeyList.insert []).map Key.sig ↔
      t ∈ (corner_keys box).map Key.sig) ∧
    (corner_keys box).foldl KeyList.insert [] ≠ [] := by
  have hv := corner_keys_valid box h
  have h3 : ∀ t, t ∈ ((corner_keys box).foldl KeyList.insert []).map Key.sig ↔
      t ∈ (corner_keys box).map Key.sig := by
    intro t
    rw [KeyList.foldl_insert_sigs _ hv [] (by simp)]
    simp
  refine ⟨KeyList.foldl_insert_valid _ hv [] (by simp),
    KeyList.foldl_insert_nodup _ hv [] (by simp) (by simp), h3, ?_⟩
  intro hnil
  cases hc : corner_keys box with
  | nil => exact corner_keys_ne_nil box hc
  | cons a t =>
    have : a.sig ∈ (corner_keys box).map Key.sig := by rw [hc]; simp
    rw [← h3, hnil] at this
    simp at this

theorem SpatialHash.update_object_for_box_eq (iter : KeyList → List Key) (s : SpatialHash)
    (new_box : AABB) (e : EntryId)
    (hne : (corner_keys new_box).foldl KeyList.insert [] ≠ []) :
    s.update_object_for_box iter new_box e =
      { index_ :=
          ((iter ((set_difference (iter ((corner_keys new_box).foldl KeyList.insert []))
              (iter (s.entries e).keys)).foldl KeyList.insert [])).foldl
            (fun st key => st.insert_object_for_key key e)
            ((iter ((set_difference (iter (s.entries e).keys)
                (iter ((corner_keys new_box).foldl KeyList.insert []))).foldl
                  KeyList.insert [])).foldl
              (fun st key => st.erase_object_from_key key e) s)).index_
        entries := Function.update
          ((iter ((set_difference (iter ((corner_keys new_box).foldl KeyList.insert []))
              (iter (s.entries e).keys)).foldl KeyList.insert [])).foldl
            (fun st key => st.insert_object_for_key key e)
            ((iter ((set_difference (iter (s.entries e).keys)
                (iter ((corner_keys new_box).foldl KeyList.insert []))).foldl
                  KeyList.insert [])).foldl
              (fun st key => st.erase_object_from_key key e) s)).entries e
          { keys_ := (corner_keys new_box).foldl KeyList.insert [], hash_aabb_ := new_box } } := by
  have hne' : ((corner_keys new_box).foldl KeyList.insert []).isEmpty = false := by
    cases h : (corner_keys new_box).foldl KeyList.insert [] with
    | nil => exact absurd h hne
    | cons a t => rfl
  unfold corner_keys at hne' ⊢
  rw [List.foldl_map] at hne' ⊢
  unfold SpatialHash.update_object_for_box
  simp only [hne', Bool.false_and, Bool.false_eq_true, if_false]
  rfl

end smlt

namespace smlt

/-! ## `update_object_for_box` -/

theorem KeyList.nodup_sigs (l : KeyList) (hv : ∀ k ∈ l, k.valid)
    (h : l.Pairwise (fun a b => Key.eq a b = false)) : (l.map Key.sig).Nodup := by
  unfold List.Nodup
  rw [List.pairwise_map]
  apply List.Pairwise.imp_of_mem _ h
  intro a b ha hb hab hs
  rw [(Key.eq_iff a b (hv a ha) (hv b hb)).mpr hs] at hab
  exact Bool.noConfusion hab

theorem KeyList.pairwise_of_nodup_sigs (l : KeyList) (hv : ∀ k ∈ l, k.valid)
    (h : (l.map Key.sig).Nodup) : l.Pairwise (fun a b => Key.eq a b = false) := by
  unfold List.Nodup at h
  rw [List.pairwise_map] at h
  apply List.Pairwise.imp_of_mem _ h
  intro a b ha hb hab
  by_contra hc
  exact hab ((Key.eq_iff a b (hv a ha) (hv b hb)).mp (by simpa using hc))

theorem exists_eq_iff_sig (L : List Key) (hL : ∀ x ∈ L, x.valid) (k : Key) (hk : k.valid) :
    (∃ c ∈ L, Key.eq c k = true) ↔ k.sig ∈ L.map Key.sig := by
  rw [List.mem_map]
  constructor
  · rintro ⟨c, hc, he⟩; exact ⟨c, hc, (Key.eq_iff c k (hL c hc) hk).mp he⟩
  · rintro ⟨c, hc, he⟩; exact ⟨c, hc, (Key.eq_iff c k (hL c hc) hk).mpr he⟩

/-- The effect of `update_object_for_box` in terms of significant bytes: for any iteration
order of the key sets, the entry ends up filed under the new key set. -/
theorem SpatialHash.update_object_for_box_spec (iter : KeyList → List Key)
    (hiter : ∀ l, (iter l).Perm l) (s : SpatialHash) (new_box : AABB) (e : EntryId)
    (hwf : s.index_.WF) (hkv : ∀ k ∈ (s.entries e).keys, k.valid)
    (hknd : ((s.entries e).keys.map Key.sig).Nodup)
    (hbox : new_box.max_dimension ≤ 32768) :
    (s.update_object_for_box iter new_box e).index_.WF ∧
    (s.update_object_for_box iter new_box e).entries =
      Function.update s.entries e
        { keys_ := (corner_keys new_box).foldl KeyList.insert [], hash_aabb_ := new_box } ∧
    ∀ k, k.valid → ∀ x,
      (x ∈ Index.bucket (s.update_object_for_box iter new_box e).index_ k ↔
        if x = e then
          ((x ∈ Index.bucket s.index_ k ∧ k.sig ∉ (set_difference (iter (s.entries e).keys)
              (iter ((corner_keys new_box).foldl KeyList.insert []))).map Key.sig) ∨
            k.sig ∈ (set_difference (iter ((corner_keys new_box).foldl KeyList.insert []))
              (iter (s.entries e).keys)).map Key.sig)
        else x ∈ Index.bucket s.index_ k) := by
  obtain ⟨hNv, hNd, hNs, hNne⟩ := new_keys_spec new_box hbox
  rw [SpatialHash.update_object_for_box_eq iter s new_box e hNne]
  simp only
  have hiN : ∀ x ∈ iter ((corner_keys new_box).foldl KeyList.insert []), x.valid :=
    fun x hx => hNv x ((hiter _).mem_iff.mp hx)
  have hiO : ∀ x ∈ iter (s.entries e).keys, x.valid :=
    fun x hx => hkv x ((hiter _).mem_iff.mp hx)
  have hremv : ∀ x ∈ set_difference (iter (s.entries e).keys)
      (iter ((corner_keys new_box).foldl KeyList.insert [])), x.valid :=
    fun x hx => hiO x (set_difference_subset _ _ x hx)
  have haddv : ∀ x ∈ set_difference (iter ((corner_keys new_box).foldl KeyList.insert []))
      (iter (s.entries e).keys), x.valid :=
    fun x hx => hiN x (set_difference_subset _ _ x hx)
  have hrem2 := KeyList.foldl_insert_valid _ hremv [] (by simp)
  have hadd2 := KeyList.foldl_insert_valid _ haddv [] (by simp)
  have hrem3 : ∀ x ∈ iter ((set_difference (iter (s.entries e).keys)
      (iter ((corner_keys new_box).foldl KeyList.insert []))).foldl KeyList.insert []), x.valid :=
    fun x hx => hrem2 x ((hiter _).mem_iff.mp hx)
  have hadd3 : ∀ x ∈ iter ((set_difference (iter ((corner_keys new_box).foldl KeyList.insert []))
      (iter (s.entries e).keys)).foldl KeyList.insert []), x.valid :=
    fun x hx => hadd2 x ((hiter _).mem_iff.mp hx)
  obtain ⟨he1, he2, he3⟩ := SpatialHash.foldl_erase e _ hrem3 s hwf
  obtain ⟨hi1, hi2, _, _, hi5⟩ := SpatialHash.foldl_insert e _ hadd3 _ he1
  refine ⟨hi1, ?_, ?_⟩
  · funext x
    by_cases hx : x = e
    · subst hx; simp
    · rw [Function.update_noteq hx, Function.update_noteq hx, hi2 x hx, he2]
  · intro k hk x
    rw [hi5 k hk x, he3 k hk x]
    have hs1 : k.sig ∈ (iter ((set_difference (iter (s.entries e).keys)
        (iter ((corner_keys new_box).foldl KeyList.insert []))).foldl
          KeyList.insert [])).map Key.sig ↔
        k.sig ∈ (set_difference (iter (s.entries e).keys)
          (iter ((corner_keys new_box).foldl KeyList.insert []))).map Key.sig := by
      rw [((hiter _).map Key.sig).mem_iff, KeyList.foldl_insert_sigs _ hremv [] (by simp)]
      simp
    have hs2 : k.sig ∈ (iter ((set_difference (iter ((corner_keys new_box).foldl KeyList.insert []))
        (iter (s.entries e).keys)).foldl KeyList.insert [])).map Key.sig ↔
        k.sig ∈ (set_difference (iter ((corner_keys new_box).foldl KeyList.insert []))
          (iter (s.entries e).keys)).map Key.sig := by
      rw [((hiter _).map Key.sig).mem_iff, KeyList.foldl_insert_sigs _ haddv [] (by simp)]
      simp
    rw [hs1, hs2]
    by_cases hx : x = e
    · simp only [hx, if_true, true_and]
    · simp only [hx, if_false, false_and, not_false_eq_true, and_true, or_false]

/-- For an entry whose stored keys match the index, `update_object_for_box` leaves the entry filed
under exactly the corner keys of the new box, whatever the iteration order of the key sets. -/
theorem SpatialHash.update_object_for_box_refiles (iter : KeyList → List Key)
    (hiter : ∀ l, (iter l).Perm l) (s : SpatialHash) (new_box : AABB) (e : EntryId)
    (hwf : s.index_.WF) (hkv : ∀ k ∈ (s.entries e).keys, k.valid)
    (hknd : (s.entries e).keys.Pairwise (fun a b => Key.eq a b = false))
    (hmatch : ∀ k, k.valid →
      (e ∈ Index.bucket s.index_ k ↔ KeyList.contains (s.entries e).keys k = true))
    (hbox : new_box.max_dimension ≤ 32768) :
    (∀ k, k.valid → (e ∈ Index.bucket (s.update_object_for_box iter new_box e).index_ k ↔
      ∃ c ∈ corner_keys new_box, Key.eq c k = true)) ∧
    (∀ k, k.valid →
      (KeyList.contains ((s.update_object_for_box iter new_box e).entries e).keys k = true ↔
        ∃ c ∈ corner_keys new_box, Key.eq c k = true)) ∧
    ((s.update_object_for_box iter new_box e).entries e).hash_aabb = new_box ∧
    (∀ x, x ≠ e → (s.update_object_for_box iter new_box e).entries x = s.entries x ∧
      ∀ k, k.valid → (x ∈ Index.bucket (s.update_object_for_box iter new_box e).index_ k ↔
        x ∈ Index.bucket s.index_ k)) ∧
    (s.update_object_for_box iter new_box e).index_.WF := by
  have hOd := KeyList.nodup_sigs _ hkv hknd
  obtain ⟨hNv, hNd, hNs, hNne⟩ := new_keys_spec new_box hbox
  obtain ⟨h1, h2, h3⟩ :=
    SpatialHash.update_object_for_box_spec iter hiter s new_box e hwf hkv hOd hbox
  have hcv := corner_keys_valid new_box hbox
  refine ⟨?_, ?_, ?_, ?_, h1⟩
  · intro k hk
    rw [h3 k hk e, if_pos rfl, hmatch k hk, KeyList.contains_iff _ hkv k hk,
      exists_eq_iff_sig _ hcv k hk, ← hNs]
    rw [← ((hiter (s.entries e).keys).map Key.sig).mem_iff,
      ← ((hiter ((corner_keys new_box).foldl KeyList.insert [])).map Key.sig).mem_iff]
    exact set_difference_update _ _
      (fun x hx => hNv x ((hiter _).mem_iff.mp hx)) (fun x hx => hkv x ((hiter _).mem_iff.mp hx))
      (((hiter _).map Key.sig).nodup_iff.mpr hNd) (((hiter _).map Key.sig).nodup_iff.mpr hOd) _
  · intro k hk
    rw [h2, Function.update_same]
    unfold SpatialHashEntry.keys
    simp only
    rw [KeyList.contains_iff _ hNv k hk, exists_eq_iff_sig _ hcv k hk, hNs]
  · rw [h2, Function.update_same]
    unfold SpatialHashEntry.hash_aabb
    simp only
  · intro x hx
    refine ⟨by rw [h2, Function.update_noteq hx], ?_⟩
    intro k hk
    rw [h3 k hk x, if_neg hx]

end smlt

namespace smlt

/-! ## No empty buckets -/

theorem Index.no_empty_modify (f : HGSHEntryList → HGSHEntryList) (key : Key) (index : Index)
    (h : index.no_empty) (hf : ∀ p ∈ index, Key.equiv p.1 key = true → f p.2 ≠ []) :
    Index.no_empty (Index.modify f key index) := by
  induction index with
  | nil => exact h
  | cons q r ih =>
    simp only [Index.modify]
    split_ifs with he
    · intro p hp
      rcases List.mem_cons.mp hp with rfl | hp
      · exact hf q (List.mem_cons_self _ _) he
      · exact h p (List.mem_cons_of_mem _ hp)
    · intro p hp
      rcases List.mem_cons.mp hp with rfl | hp
      · exact h p (List.mem_cons_self _ _)
      · exact ih (fun x hx => h x (List.mem_cons_of_mem _ hx))
          (fun x hx => hf x (List.mem_cons_of_mem _ hx)) p hp

theorem HGSHEntryList.insert_ne_nil (l : HGSHEntryList) (e : EntryId) :
    HGSHEntryList.insert l e ≠ [] := by
  intro h
  have := (HGSHEntryList.mem_insert l e e).mpr (Or.inr rfl)
  rw [h] at this
  exact List.not_mem_nil _ this

theorem SpatialHash.insert_object_for_key_no_empty (s : SpatialHash) (key : Key) (e : EntryId)
    (h : s.index_.no_empty) : (s.insert_object_for_key key e).index_.no_empty := by
  unfold SpatialHash.insert_object_for_key
  simp only
  cases hf : Index.find s.index_ key with
  | some p =>
    exact Index.no_empty_modify _ _ _ h (fun p _ _ => HGSHEntryList.insert_ne_nil _ _)
  | none =>
    simp only
    rw [Index.insert_of_find_none _ _ _ hf]
    intro p hp
    rcases (Index.mem_ordered_insert key _ _ _).mp hp with rfl | hp
    · exact HGSHEntryList.insert_ne_nil [] e
    · exact h p hp

theorem SpatialHash.erase_object_from_key_no_empty (s : SpatialHash) (key : Key)
    (hkey : key.valid) (e : EntryId) (hwf : s.index_.WF) (h : s.index_.no_empty) :
    (s.erase_object_from_key key e).index_.no_empty := by
  unfold SpatialHash.erase_object_from_key
  cases hf : Index.find s.index_ key with
  | some p =>
    simp only
    split_ifs with hemp
    · exact fun q hq => h q ((Index.erase_sublist key s.index_).subset hq)
    · apply Index.no_empty_modify _ _ _ h
      intro q hq heq hnil
      have hqs := (Key.equiv_iff _ _ (hwf.2 q hq) hkey).mp heq
      have := (Index.find_eq_some_iff _ hwf key hkey q).mpr ⟨hq, hqs⟩
      rw [hf] at this
      cases this
      rw [hnil] at hemp
      exact hemp rfl
  | none => exact h

theorem SpatialHash.foldl_erase_no_empty (e : EntryId) (ks : List Key) (hks : ∀ k ∈ ks, k.valid)
    (s : SpatialHash) (hwf : s.index_.WF) (h : s.index_.no_empty) :
    (ks.foldl (fun st key => st.erase_object_from_key key e) s).index_.no_empty := by
  induction ks generalizing s with
  | nil => exact h
  | cons a t ih =>
    rw [List.foldl_cons]
    exact ih (fun k hk => hks k (List.mem_cons_of_mem _ hk)) _
      (SpatialHash.erase_object_from_key_WF s a e hwf)
      (SpatialHash.erase_object_from_key_no_empty s a (hks a (List.mem_cons_self _ _)) e hwf h)

theorem SpatialHash.foldl_insert_no_empty (e : EntryId) (ks : List Key)
    (s : SpatialHash) (h : s.index_.no_empty) :
    (ks.foldl (fun st key => st.insert_object_for_key key e) s).index_.no_empty := by
  induction ks generalizing s with
  | nil => exact h
  | cons a t ih =>
    rw [List.foldl_cons]
    exact ih _ (SpatialHash.insert_object_for_key_no_empty s a e h)

theorem Index.find_isSome_iff (index : Index) (hwf : index.WF) (h : index.no_empty) (k : Key)
    (hk : k.valid) : (Index.find index k).isSome ↔ ∃ x, x ∈ Index.bucket index k := by
  unfold Index.bucket
  cases hf : Index.find index k with
  | none => simp
  | some p =>
    have hp := ((Index.find_eq_some_iff index hwf k hk p).mp hf).1
    simp only [Option.isSome_some, true_iff]
    cases hb : p.2 with
    | nil => exact absurd hb (h p hp)
    | cons a t => exact ⟨a, by simp⟩

theorem SpatialHash.update_object_for_box_no_empty (iter : KeyList → List Key)
    (hiter : ∀ l, (iter l).Perm l) (s : SpatialHash) (new_box : AABB) (e : EntryId)
    (hwf : s.index_.WF) (hne : s.index_.no_empty) (hkv : ∀ k ∈ (s.entries e).keys, k.valid)
    (hbox : new_box.max_dimension ≤ 32768) :
    (s.update_object_for_box iter new_box e).index_.no_empty := by
  obtain ⟨hNv, hNd, hNs, hNne⟩ := new_keys_spec new_box hbox
  rw [SpatialHash.update_object_for_box_eq iter s new_box e hNne]
  simp only
  apply SpatialHash.foldl_insert_no_empty
  apply SpatialHash.foldl_erase_no_empty _ _ _ _ hwf hne
  intro k hk
  have hk2 := (hiter _).mem_iff.mp hk
  apply KeyList.foldl_insert_valid _ _ [] (by simp) k hk2
  intro x hx
  exact hkv x ((hiter _).mem_iff.mp (set_difference_subset _ _ x hx))

end smlt

namespace smlt

/-! ## `insert_object_for_box` and `remove_object` -/

theorem SpatialHash.insert_object_for_box_eq (s : SpatialHash) (box : AABB) (e : EntryId) :
    s.insert_object_for_box box e =
      (corner_keys box).foldl (fun st key => st.insert_object_for_key key e)
        { s with entries := Function.update s.entries e ((s.entries e).set_hash_aabb box) } := by
  unfold SpatialHash.insert_object_for_box corner_keys
  rw [List.foldl_map]

theorem SpatialHash.foldl_insert_keys (e : EntryId) (ks : List Key) (s : SpatialHash) :
    (∀ x, x ≠ e →
      (ks.foldl (fun st key => st.insert_object_for_key key e) s).entries x = s.entries x) ∧
    ((ks.foldl (fun st key => st.insert_object_for_key key e) s).entries e).keys_ =
      ks.foldl KeyList.insert (s.entries e).keys_ ∧
    ((ks.foldl (fun st key => st.insert_object_for_key key e) s).entries e).hash_aabb_ =
      (s.entries e).hash_aabb_ := by
  induction ks generalizing s with
  | nil => exact ⟨fun _ _ => rfl, rfl, rfl⟩
  | cons a t ih =>
    obtain ⟨h2, h3, h4⟩ := ih (s.insert_object_for_key a e)
    rw [List.foldl_cons]
    refine ⟨?_, ?_, ?_⟩
    · intro x hx
      rw [h2 x hx, SpatialHash.insert_object_for_key_entries_ne s a e x hx]
    · rw [h3, SpatialHash.insert_object_for_key_entries_self]
      rfl
    · rw [h4, SpatialHash.insert_object_for_key_entries_self]
      rfl

theorem SpatialHash.insert_object_for_box_entries (s : SpatialHash) (box : AABB) (e : EntryId) :
    (∀ x, x ≠ e → (s.insert_object_for_box box e).entries x = s.entries x) ∧
    ((s.insert_object_for_box box e).entries e).keys =
      (corner_keys box).foldl KeyList.insert (s.entries e).keys ∧
    ((s.insert_object_for_box box e).entries e).hash_aabb = box := by
  rw [SpatialHash.insert_object_for_box_eq]
  obtain ⟨h2, h3, h4⟩ := SpatialHash.foldl_insert_keys e (corner_keys box)
    { s with entries := Function.update s.entries e ((s.entries e).set_hash_aabb box) }
  refine ⟨?_, ?_, ?_⟩
  · intro x hx
    rw [h2 x hx]
    exact Function.update_noteq hx _ _
  · unfold SpatialHashEntry.keys
    rw [h3]
    simp only [Function.update_same]
    rfl
  · unfold SpatialHashEntry.hash_aabb
    rw [h4]
    simp only [Function.update_same]
    rfl

theorem SpatialHash.insert_object_for_box_index (s : SpatialHash) (box : AABB) (e : EntryId)
    (hwf : s.index_.WF) (hbox : box.max_dimension ≤ 32768) :
    (s.insert_object_for_box box e).index_.WF ∧
    (s.index_.no_empty → (s.insert_object_for_box box e).index_.no_empty) ∧
    ∀ k, k.valid → ∀ x,
      (x ∈ Index.bucket (s.insert_object_for_box box e).index_ k ↔
        x ∈ Index.bucket s.index_ k ∨ (x = e ∧ k.sig ∈ (corner_keys box).map Key.sig)) := by
  rw [SpatialHash.insert_object_for_box_eq]
  obtain ⟨h1, _, _, _, h5⟩ := SpatialHash.foldl_insert e (corner_keys box)
    (corner_keys_valid box hbox)
    { s with entries := Function.update s.entries e ((s.entries e).set_hash_aabb box) } hwf
  exact ⟨h1, fun hne => SpatialHash.foldl_insert_no_empty e _ _ hne, h5⟩

theorem SpatialHash.remove_object_entries (iter : KeyList → List Key) (s : SpatialHash)
    (e : EntryId) :
    ((s.remove_object iter e).entries e).keys = [] ∧
    ((s.remove_object iter e).entries e).hash_aabb = (s.entries e).hash_aabb ∧
    ∀ x, x ≠ e → (s.remove_object iter e).entries x = s.entries x := by
  have hent : ∀ (ks : List Key) (st : SpatialHash),
      (ks.foldl (fun st key => st.erase_object_from_key key e) st).entries = st.entries := by
    intro ks
    induction ks with
    | nil => intro st; rfl
    | cons a t ih =>
      intro st
      rw [List.foldl_cons, ih, SpatialHash.erase_object_from_key_entries]
  unfold SpatialHash.remove_object
  simp only [hent]
  refine ⟨?_, ?_, ?_⟩
  · simp [SpatialHashEntry.keys, SpatialHashEntry.set_keys]
  · simp [SpatialHashEntry.hash_aabb, SpatialHashEntry.set_keys]
  · intro x hx
    exact Function.update_noteq hx _ _

theorem KeyList.insert_key_ne_nil (s : KeyList) (k : Key) : KeyList.insert s k ≠ [] := by
  unfold KeyList.insert KeyList.contains
  split_ifs with h
  · intro hs
    rw [hs] at h
    simp at h
  · simp

theorem KeyList.foldl_insert_ne_nil (L : List Key) (acc : KeyList) (h : acc ≠ [] ∨ L ≠ []) :
    L.foldl KeyList.insert acc ≠ [] := by
  induction L generalizing acc with
  | nil =>
    rcases h with h | h
    · exact h
    · exact absurd rfl h
  | cons a t ih =>
    rw [List.foldl_cons]
    exact ih _ (Or.inl (KeyList.insert_key_ne_nil acc a))

theorem SpatialHash.update_object_for_box_entries (iter : KeyList → List Key) (s : SpatialHash)
    (new_box : AABB) (e : EntryId) :
    ((s.update_object_for_box iter new_box e).entries e).keys =
      (corner_keys new_box).foldl KeyList.insert [] ∧
    ((s.update_object_for_box iter new_box e).entries e).hash_aabb = new_box ∧
    ∀ x, x ≠ e → (s.update_object_for_box iter new_box e).entries x = s.entries x := by
  have hNne := KeyList.foldl_insert_ne_nil (corner_keys new_box) [] (Or.inr (corner_keys_ne_nil new_box))
  rw [SpatialHash.update_object_for_box_eq iter s new_box e hNne]
  unfold SpatialHashEntry.keys SpatialHashEntry.hash_aabb
  simp only [Function.update_same, true_and]
  intro x hx
  rw [Function.update_noteq hx]
  have hent : ∀ (ks : List Key) (st : SpatialHash),
      (ks.foldl (fun st key => st.erase_object_from_key key e) st).entries = st.entries := by
    intro ks
    induction ks with
    | nil => intro st; rfl
    | cons a t ih =>
      intro st
      rw [List.foldl_cons, ih, SpatialHash.erase_object_from_key_entries]
  rw [(SpatialHash.foldl_insert_keys e _ _).1 x hx, hent]

end smlt

namespace smlt

/-! ## Consistency of an entry with the index -/

theorem SpatialHash.consistent_update (iter : KeyList → List Key) (hiter : ∀ l, (iter l).Perm l)
    (s : SpatialHash) (new_box : AABB) (e : EntryId) (hc : s.consistent e)
    (hbox : new_box.max_dimension ≤ 32768) :
    (s.update_object_for_box iter new_box e).consistent e := by
  obtain ⟨hwf, hne, hkv, hknd, hmatch⟩ := hc
  obtain ⟨ha, hb, _, _, hwf'⟩ :=
    SpatialHash.update_object_for_box_refiles iter hiter s new_box e hwf hkv hknd hmatch hbox
  obtain ⟨hNv, hNd, hNs, hNne⟩ := new_keys_spec new_box hbox
  have hk := (SpatialHash.update_object_for_box_entries iter s new_box e).1
  refine ⟨hwf', SpatialHash.update_object_for_box_no_empty iter hiter s new_box e hwf hne hkv hbox,
    ?_, ?_, ?_⟩
  · rw [hk]; exact hNv
  · rw [hk]; exact KeyList.pairwise_of_nodup_sigs _ hNv hNd
  · intro k hkv'
    rw [ha k hkv', hb k hkv']

theorem SpatialHash.consistent_insert (s : SpatialHash) (box : AABB) (e : EntryId)
    (hc : s.consistent e) (hbox : box.max_dimension ≤ 32768) :
    (s.insert_object_for_box box e).consistent e := by
  obtain ⟨hwf, hne, hkv, hknd, hmatch⟩ := hc
  obtain ⟨h1, h2, h3⟩ := SpatialHash.insert_object_for_box_index s box e hwf hbox
  have hk := (SpatialHash.insert_object_for_box_entries s box e).2.1
  have hcv := corner_keys_valid box hbox
  have hv' := KeyList.foldl_insert_valid _ hcv _ hkv
  refine ⟨h1, h2 hne, ?_, ?_, ?_⟩
  · rw [hk]; exact hv'
  · rw [hk]
    exact KeyList.pairwise_of_nodup_sigs _ hv'
      (KeyList.foldl_insert_nodup _ hcv _ hkv (KeyList.nodup_sigs _ hkv hknd))
  · intro k hkv'
    rw [h3 k hkv' e, hk, KeyList.contains_iff _ hv' k hkv', KeyList.foldl_insert_sigs _ hcv _ hkv,
      hmatch k hkv', KeyList.contains_iff _ hkv k hkv']
    simp

/-- An update with the cached box of an entry whose keys are those of the cached box, and match
the index, changes nothing. -/
theorem SpatialHash.update_same_box (iter : KeyList → List Key) (hiter : ∀ l, (iter l).Perm l)
    (s : SpatialHash) (e : EntryId) (hc : s.consistent e) (hm : s.keys_match_box e)
    (hbox : (s.entries e).hash_aabb.max_dimension ≤ 32768) :
    s.same_contents (s.update_object_for_box iter (s.entries e).hash_aabb e) := by
  have hc' := SpatialHash.consistent_update iter hiter s _ e hc hbox
  obtain ⟨hwf, hne, hkv, hknd, hmatch⟩ := hc
  obtain ⟨ha, hb, hh, ho, hwf'⟩ :=
    SpatialHash.update_object_for_box_refiles iter hiter s _ e hwf hkv hknd hmatch hbox
  obtain ⟨hNv, hNd, hNs, hNne⟩ := new_keys_spec (s.entries e).hash_aabb hbox
  have hcv := corner_keys_valid (s.entries e).hash_aabb hbox
  have hold : ∀ k, k.valid → (KeyList.contains (s.entries e).keys k = true ↔
      ∃ c ∈ corner_keys (s.entries e).hash_aabb, Key.eq c k = true) := by
    intro k hk
    rw [KeyList.contains_iff _ hkv k hk, exists_eq_iff_sig _ hcv k hk, ← hNs]
    unfold SpatialHash.keys_match_box at hm
    rw [← hm]
  have hbucket : ∀ k, k.valid → ∀ x,
      (x ∈ Index.bucket (s.update_object_for_box iter (s.entries e).hash_aabb e).index_ k ↔
        x ∈ Index.bucket s.index_ k) := by
    intro k hk x
    by_cases hx : x = e
    · subst hx
      rw [ha k hk, hmatch k hk, hold k hk]
    · exact (ho x hx).2 k hk
  refine ⟨?_, hbucket, ?_⟩
  · intro k hk
    rw [Index.find_isSome_iff _ hc'.1 hc'.2.1 k hk, Index.find_isSome_iff _ hwf hne k hk]
    constructor
    · rintro ⟨x, hx⟩; exact ⟨x, (hbucket k hk x).mp hx⟩
    · rintro ⟨x, hx⟩; exact ⟨x, (hbucket k hk x).mpr hx⟩
  · intro x
    by_cases hx : x = e
    · subst hx
      refine ⟨hh, ?_⟩
      intro k hk
      rw [hb k hk, hold k hk]
    · rw [(ho x hx).1]
      exact ⟨rfl, fun _ _ => Iff.rfl⟩

theorem SpatialHash.keys_match_box_update (iter : KeyList → List Key) (s : SpatialHash)
    (new_box : AABB) (e : EntryId) :
    (s.update_object_for_box iter new_box e).keys_match_box e := by
  obtain ⟨h1, h2, _⟩ := SpatialHash.update_object_for_box_entries iter s new_box e
  unfold SpatialHash.keys_match_box
  rw [h1, h2]

theorem SpatialHash.keys_match_box_insert (s : SpatialHash) (box : AABB) (e : EntryId)
    (hfresh : (s.entries e).keys = []) : (s.insert_object_for_box box e).keys_match_box e := by
  obtain ⟨_, h1, h2⟩ := SpatialHash.insert_object_for_box_entries s box e
  unfold SpatialHash.keys_match_box
  rw [h1, h2, hfresh]

/-- One call keeps the entry invariant of every entry, an insert being made on an entry that is
not filed. -/
theorem SpatialHash.call_keeps_keys (iter : KeyList → List Key) (s : SpatialHash) (c : Call)
    (hfresh : match c with
      | .insert_object_for_box _ object => (s.entries object).keys = []
      | _ => True)
    (h : ∀ e, (s.entries e).keys = [] ∨ s.keys_match_box e) :
    ∀ e, ((s.call iter c).entries e).keys = [] ∨ (s.call iter c).keys_match_box e := by
  intro e
  cases c with
  | insert_object_for_box box object =>
    simp only [SpatialHash.call]
    by_cases he : e = object
    · subst he
      exact Or.inr (SpatialHash.keys_match_box_insert s box e hfresh)
    · have := (SpatialHash.insert_object_for_box_entries s box object).1 e he
      unfold SpatialHash.keys_match_box
      rw [this]
      exact h e
  | update_object_for_box box object =>
    simp only [SpatialHash.call]
    by_cases he : e = object
    · subst he
      exact Or.inr (SpatialHash.keys_match_box_update iter s box e)
    · have := (SpatialHash.update_object_for_box_entries iter s box object).2.2 e he
      unfold SpatialHash.keys_match_box
      rw [this]
      exact h e
  | remove_object object =>
    simp only [SpatialHash.call]
    by_cases he : e = object
    · subst he
      exact Or.inl (SpatialHash.remove_object_entries iter s e).1
    · have := (SpatialHash.remove_object_entries iter s object).2.2 e he
      unfold SpatialHash.keys_match_box
      rw [this]
      exact h e

theorem SpatialHash.calls_keep_keys (iter : KeyList → List Key) (cs : List Call)
    (s : SpatialHash) (hfresh : s.inserts_fresh iter cs)
    (h : ∀ e, (s.entries e).keys = [] ∨ s.keys_match_box e) :
    ∀ e, ((s.calls iter cs).entries e).keys = [] ∨ (s.calls iter cs).keys_match_box e := by
  induction cs generalizing s with
  | nil => exact h
  | cons c t ih =>
    unfold SpatialHash.calls
    rw [List.foldl_cons]
    exact ih (s.call iter c) hfresh.2 (SpatialHash.call_keeps_keys iter s c hfresh.1 h)

end smlt

namespace smlt

/-! ## Geometry of the keys -/

theorem floor_div_coarser (X x s : ℚ) (hs : 0 < s) (t : Nat) (ht : 0 < t)
    (h : ⌊X / s⌋ = ⌊x / s⌋) : ⌊X / (s * t)⌋ = ⌊x / (s * t)⌋ := by
  have ht' : (0 : ℚ) < t := by exact_mod_cast ht
  have key : ∀ (y : ℚ) (m : Int), (m ≤ ⌊y / (s * t)⌋ ↔ m * (t : Int) ≤ ⌊y / s⌋) := by
    intro y m
    rw [Int.le_floor, Int.le_floor]
    push_cast
    rw [le_div_iff₀ (mul_pos hs ht'), le_div_iff₀ hs]
    constructor <;> intro hh <;> nlinarith
  apply le_antisymm
  · rw [key x, ← h, ← key X]
  · rw [key X, h, ← key x]

theorem floor_corner (lo hi c s : ℚ) (hs : 0 < s) (h1 : lo ≤ c) (h2 : c ≤ hi)
    (h3 : hi - lo ≤ s) : ⌊lo / s⌋ = ⌊c / s⌋ ∨ ⌊hi / s⌋ = ⌊c / s⌋ := by
  have hlo : ⌊lo / s⌋ ≤ ⌊c / s⌋ := Int.floor_mono (div_le_div_of_nonneg_right h1 (le_of_lt hs))
  have hhi : ⌊c / s⌋ ≤ ⌊hi / s⌋ := Int.floor_mono (div_le_div_of_nonneg_right h2 (le_of_lt hs))
  have hspan : ⌊hi / s⌋ ≤ ⌊lo / s⌋ + 1 := by
    rw [← Int.floor_add_one]
    apply Int.floor_mono
    rw [div_add_one (ne_of_gt hs)]
    apply div_le_div_of_nonneg_right _ (le_of_lt hs)
    linarith
  by_cases h : ⌊lo / s⌋ = ⌊c / s⌋
  · exact Or.inl h
  · right; omega

theorem max_path_size_div (i : Nat) (hi : i ≤ 15) : MAX_PATH_SIZE / 2 ^ i = 2 ^ (15 - i) := by
  unfold MAX_PATH_SIZE
  interval_cases i <;> decide

theorem underflow_bound_eq : UNDERFLOW_BOUND = 1 / 2 ^ 150 := by
  unfold UNDERFLOW_BOUND
  norm_num

/-- Where the quotient does not underflow, the floored binary32 quotient is the floor of the
exact quotient. -/
theorem floor_quotient_of_no_underflow (v : ℚ) (m : Nat) (hm : m ≤ 15) (h : no_underflow v) :
    floor_quotient v (2 ^ m) = ⌊v / (2 : ℚ) ^ m⌋ := by
  unfold floor_quotient
  push_cast
  rw [if_neg]
  rintro ⟨h1, h2⟩
  have hpos : (0 : ℚ) < 2 ^ m := by positivity
  rcases h with h | h
  · have : 0 ≤ v / (2 : ℚ) ^ m := div_nonneg h (le_of_lt hpos)
    linarith
  · rw [underflow_bound_eq, le_div_iff₀ hpos] at h2
    have hle : (2 : ℚ) ^ m ≤ 2 ^ 15 := pow_le_pow_right₀ (by norm_num) hm
    have h3 : (1 / 2 ^ 150 : ℚ) * 2 ^ m ≤ 1 / 2 ^ 150 * 2 ^ 15 :=
      mul_le_mul_of_nonneg_left hle (by positivity)
    have h4 : (1 / 2 ^ 150 : ℚ) * 2 ^ 15 = 1 / 43556142965880123323311949751266331066368 := by
      norm_num
    linarith

theorem make_hash_of_no_underflow (m : Nat) (hm : m ≤ 15) (p : Vec3) (hp : p.no_underflow) :
    make_hash (2 ^ m) p.x p.y p.z
      = ⟨wrap_int16 ⌊p.x / (2 : ℚ) ^ m⌋, wrap_int16 ⌊p.y / (2 : ℚ) ^ m⌋,
          wrap_int16 ⌊p.z / (2 : ℚ) ^ m⌋⟩ := by
  unfold make_hash
  rw [floor_quotient_of_no_underflow _ m hm hp.1, floor_quotient_of_no_underflow _ m hm hp.2.1,
    floor_quotient_of_no_underflow _ m hm hp.2.2]

theorem make_hash_eq_of_floor (N : Nat) (i : Nat) (hi : i + N ≤ 15) (P p : Vec3)
    (hP : P.no_underflow) (hpu : p.no_underflow)
    (hx : ⌊P.x / (2 : ℚ) ^ N⌋ = ⌊p.x / (2 : ℚ) ^ N⌋)
    (hy : ⌊P.y / (2 : ℚ) ^ N⌋ = ⌊p.y / (2 : ℚ) ^ N⌋)
    (hz : ⌊P.z / (2 : ℚ) ^ N⌋ = ⌊p.z / (2 : ℚ) ^ N⌋) :
    make_hash (MAX_PATH_SIZE / 2 ^ i) P.x P.y P.z = make_hash (MAX_PATH_SIZE / 2 ^ i) p.x p.y p.z := by
  rw [max_path_size_div i (by omega)]
  have hc : (2 : ℚ) ^ (15 - i) = (2 : ℚ) ^ N * ((2 ^ (15 - i - N) : Nat) : ℚ) := by
    push_cast
    rw [← pow_add]
    congr 1
    omega
  have hp : (0 : ℚ) < 2 ^ N := by positivity
  have ht : 0 < 2 ^ (15 - i - N) := by positivity
  rw [make_hash_of_no_underflow _ (by omega) P hP, make_hash_of_no_underflow _ (by omega) p hpu]
  rw [hc]
  rw [floor_div_coarser _ _ _ hp _ ht hx, floor_div_coarser _ _ _ hp _ ht hy,
    floor_div_coarser _ _ _ hp _ ht hz]

theorem make_key_take (n : Nat) (hn : n ≤ 15) (x y z : ℚ) (m : Nat) (hm : m ≤ 16 - n) :
    (make_key (2 ^ n) x y z).hash_path.take m =
      (List.range m).map fun i => make_hash (MAX_PATH_SIZE / 2 ^ i) x y z := by
  have ha := make_key_ancestors n hn x y z
  have hp : (make_key (2 ^ n) x y z).hash_path = (List.range MAX_GRID_LEVELS).map fun i =>
      if i = 0 ∨ (make_key (2 ^ n) x y z).ancestors > i - 1 then
        make_hash (MAX_PATH_SIZE / 2 ^ i) x y z else {} := rfl
  rw [hp, ha, ← List.map_take, List.take_range]
  have : Min.min m MAX_GRID_LEVELS = m := by unfold MAX_GRID_LEVELS; omega
  rw [this]
  apply List.map_congr_left
  intro i hi
  rw [List.mem_range] at hi
  rw [if_pos]
  omega

/-- A key at a coarser cell size is an ancestor of a key at a finer cell size when the two
points share the grid cell at the coarser size. -/
theorem make_key_is_ancestor (n N : Nat) (hnN : n ≤ N) (hN : N ≤ 15) (P p : Vec3)
    (hP : P.no_underflow) (hpu : p.no_underflow)
    (hx : ⌊P.x / (2 : ℚ) ^ N⌋ = ⌊p.x / (2 : ℚ) ^ N⌋)
    (hy : ⌊P.y / (2 : ℚ) ^ N⌋ = ⌊p.y / (2 : ℚ) ^ N⌋)
    (hz : ⌊P.z / (2 : ℚ) ^ N⌋ = ⌊p.z / (2 : ℚ) ^ N⌋) :
    (make_key (2 ^ N) P.x P.y P.z).is_ancestor_of (make_key (2 ^ n) p.x p.y p.z) = true := by
  unfold Key.is_ancestor_of
  rw [make_key_ancestors N hN, make_key_ancestors n (by omega)]
  rw [if_neg (by omega)]
  have hmod : (15 - N + 1) % 18446744073709551616 = 16 - N := by
    rw [Nat.mod_eq_of_lt (by omega)]; omega
  rw [hmod]
  unfold Key.path_bytes
  rw [make_key_take N hN _ _ _ _ (le_refl _), make_key_take n (by omega) _ _ _ _ (by omega)]
  have : ((List.range (16 - N)).map fun i => make_hash (MAX_PATH_SIZE / 2 ^ i) P.x P.y P.z) =
      ((List.range (16 - N)).map fun i => make_hash (MAX_PATH_SIZE / 2 ^ i) p.x p.y p.z) := by
    apply List.map_congr_left
    intro i hi
    rw [List.mem_range] at hi
    exact make_hash_eq_of_floor N i (by omega) P p hP hpu hx hy hz
  rw [this, memcmp_self]
  rfl

theorem AABB.inside_max_dimension (b B : AABB) (h : b.inside B) :
    b.max_dimension ≤ B.max_dimension := by
  obtain ⟨⟨hx1, hx2, hx3⟩, ⟨hy1, hy2, hy3⟩, ⟨hz1, hz2, hz3⟩⟩ := h
  unfold AABB.max_dimension
  apply max_le
  · exact le_max_of_le_left (by linarith)
  · apply max_le
    · exact le_max_of_le_right (le_max_of_le_left (by linarith))
    · exact le_max_of_le_right (le_max_of_le_right (by linarith))

theorem AABB.corner_mem (B : AABB) (x y z : ℚ) (hx : x = B.min.x ∨ x = B.max.x)
    (hy : y = B.min.y ∨ y = B.max.y) (hz : z = B.min.z ∨ z = B.max.z) :
    (⟨x, y, z⟩ : Vec3) ∈ B.corners := by
  unfold AABB.corners
  rcases hx with rfl | rfl <;> rcases hy with rfl | rfl <;> rcases hz with rfl | rfl <;> simp

/-- For a box inside a query box, the key of its min corner has an ancestor among the corner
keys of the query box. -/
theorem corner_key_covered (b B : AABB) (h : b.inside B) (hB : B.max_dimension ≤ 32768)
    (hbu : b.no_underflow) (hBu : B.no_underflow) :
    ∃ q ∈ corner_keys B,
      q.is_ancestor_of (make_key (find_cell_size_for_box b) b.min.x b.min.y b.min.z) = true := by
  have hmd := AABB.inside_max_dimension b B h
  have hb : b.max_dimension ≤ 32768 := le_trans hmd hB
  have hN := cell_exponent_le B hB
  have hnN := cell_exponent_mono b B hmd
  have hcell := max_dimension_le_cell B
  have hp : (0 : ℚ) < 2 ^ cell_exponent B := by positivity
  obtain ⟨⟨hx1, hx2, hx3⟩, ⟨hy1, hy2, hy3⟩, ⟨hz1, hz2, hz3⟩⟩ := h
  have hdx : B.max.x - B.min.x ≤ 2 ^ cell_exponent B :=
    le_trans (le_max_left _ _) hcell
  have hdy : B.max.y - B.min.y ≤ 2 ^ cell_exponent B :=
    le_trans (le_trans (le_max_left _ _) (le_max_right _ _)) hcell
  have hdz : B.max.z - B.min.z ≤ 2 ^ cell_exponent B :=
    le_trans (le_trans (le_max_right _ _) (le_max_right _ _)) hcell
  obtain ⟨X, hX, hXu, hXf⟩ : ∃ X, (X = B.min.x ∨ X = B.max.x) ∧ no_underflow X ∧
      ⌊X / (2 : ℚ) ^ cell_exponent B⌋ = ⌊b.min.x / (2 : ℚ) ^ cell_exponent B⌋ := by
    rcases floor_corner B.min.x B.max.x b.min.x _ hp hx1 (by linarith) hdx with h | h
    · exact ⟨_, Or.inl rfl, hBu.1.1, h⟩
    · exact ⟨_, Or.inr rfl, hBu.2.1, h⟩
  obtain ⟨Y, hY, hYu, hYf⟩ : ∃ Y, (Y = B.min.y ∨ Y = B.max.y) ∧ no_underflow Y ∧
      ⌊Y / (2 : ℚ) ^ cell_exponent B⌋ = ⌊b.min.y / (2 : ℚ) ^ cell_exponent B⌋ := by
    rcases floor_corner B.min.y B.max.y b.min.y _ hp hy1 (by linarith) hdy with h | h
    · exact ⟨_, Or.inl rfl, hBu.1.2.1, h⟩
    · exact ⟨_, Or.inr rfl, hBu.2.2.1, h⟩
  obtain ⟨Z, hZ, hZu, hZf⟩ : ∃ Z, (Z = B.min.z ∨ Z = B.max.z) ∧ no_underflow Z ∧
      ⌊Z / (2 : ℚ) ^ cell_exponent B⌋ = ⌊b.min.z / (2 : ℚ) ^ cell_exponent B⌋ := by
    rcases floor_corner B.min.z B.max.z b.min.z _ hp hz1 (by linarith) hdz with h | h
    · exact ⟨_, Or.inl rfl, hBu.1.2.2, h⟩
    · exact ⟨_, Or.inr rfl, hBu.2.2.2, h⟩
  refine ⟨make_key (find_cell_size_for_box B) X Y Z, ?_, ?_⟩
  · unfold corner_keys
    exact List.mem_map.mpr ⟨⟨X, Y, Z⟩, AABB.corner_mem B X Y Z hX hY hZ, rfl⟩
  · rw [find_cell_size_eq B hB, find_cell_size_eq b hb]
    exact make_key_is_ancestor _ _ hnN hN ⟨X, Y, Z⟩ b.min ⟨hXu, hYu, hZu⟩ hbu.1 hXf hYf hZf

end smlt

namespace smlt

/-! ## The scan of `gather_objects` -/

theorem Index.lower_bound_not_lt (index : Index) (hwf : index.WF) (q : Key) (hq : q.valid) :
    ∀ x ∈ Index.lower_bound index q, Key.lt x.1 q = false := by
  induction index with
  | nil => intro x hx; simp [Index.lower_bound] at hx
  | cons p r ih =>
    rw [Index.WF_cons] at hwf
    obtain ⟨hp, hlt, hr⟩ := hwf
    unfold Index.lower_bound
    by_cases hl : Key.lt p.1 q = true
    · rw [List.dropWhile_cons_of_pos (by simpa using hl)]
      exact ih hr
    · rw [List.dropWhile_cons_of_neg (by simpa using hl)]
      intro x hx
      rcases List.mem_cons.mp hx with rfl | hx
      · simpa using hl
      · by_contra hc
        have hxq : Key.lt x.1 q = true := by simpa using hc
        exact hl (Key.lt_trans _ _ _ hp (hr.2 x hx) hq (hlt x hx) hxq)

theorem Index.mem_lower_bound (index : Index) (q : Key) (p : Key × HGSHEntryList)
    (hp : p ∈ index) (h : Key.lt p.1 q = false) : p ∈ Index.lower_bound index q := by
  unfold Index.lower_bound
  rw [← List.takeWhile_append_dropWhile (fun p => Key.lt p.1 q) index] at hp
  rcases List.mem_append.mp hp with hp | hp
  · have := List.mem_takeWhile_imp hp
    simp only at this
    rw [h] at this
    exact Bool.noConfusion this
  · exact hp

theorem Index.mem_takeWhile_descendants (L : Index) (hwf : L.WF) (q : Key) (hq : q.valid)
    (hge : ∀ x ∈ L, Key.lt x.1 q = false) (p : Key × HGSHEntryList) (hp : p ∈ L)
    (hanc : q.is_ancestor_of p.1 = true) :
    p ∈ L.takeWhile (fun x => q.is_ancestor_of x.1) := by
  induction L with
  | nil => exact absurd hp (List.not_mem_nil _)
  | cons a r ih =>
    rw [Index.WF_cons] at hwf
    obtain ⟨ha, hlt, hr⟩ := hwf
    rcases List.mem_cons.mp hp with rfl | hp
    · simp only [List.takeWhile_cons, hanc, if_true]
      exact List.mem_cons_self _ _
    · have hpv := hr.2 p hp
      have haq : q.is_ancestor_of a.1 = true := by
        rw [Key.is_ancestor_of_iff q a.1 hq ha]
        have h1 := (Key.is_ancestor_of_iff q p.1 hq hpv).mp hanc
        have h2 : lex_lt a.1.sig q.sig = false := by
          rw [← Key.lt_eq_lex _ _ ha hq]
          exact hge a (List.mem_cons_self _ _)
        have h3 : lex_lt p.1.sig a.1.sig = false := by
          apply lex_lt_asymm
          rw [← Key.lt_eq_lex _ _ ha hpv]
          exact hlt p hp
        exact lex_between _ _ _ h1 h2 h3
      simp only [List.takeWhile_cons, haq, if_true]
      exact List.mem_cons_of_mem _
        (ih hr (fun x hx => hge x (List.mem_cons_of_mem _ hx)) hp)

theorem HGSHEntryList.mem_foldl_insert_all (L : Index) (objects : HGSHEntryList) (x : EntryId) :
    x ∈ L.foldl (fun acc p => HGSHEntryList.insert_all acc p.2) objects ↔
      x ∈ objects ∨ ∃ p ∈ L, x ∈ p.2 := by
  induction L generalizing objects with
  | nil => simp
  | cons a t ih =>
    rw [List.foldl_cons, ih, HGSHEntryList.mem_insert_all]
    simp only [List.mem_cons, exists_eq_or_imp]
    tauto

theorem gather_ancestors_mono (index : Index) (n : Nat) (path : Key) (objects : HGSHEntryList)
    (x : EntryId) (hx : x ∈ objects) : x ∈ gather_ancestors index n path objects := by
  induction n generalizing path objects with
  | zero => exact hx
  | succ n ih =>
    simp only [gather_ancestors]
    split_ifs
    · exact hx
    · split
      · split_ifs
        · exact ih _ _ ((HGSHEntryList.mem_insert_all _ _ _).mpr (Or.inl hx))
        · exact ih _ _ hx
      · exact ih _ _ hx

theorem gather_objects_mono (index : Index) (key : Key) (objects : HGSHEntryList)
    (x : EntryId) (hx : x ∈ objects) : x ∈ gather_objects index key objects := by
  unfold gather_objects
  simp only
  split_ifs
  · exact hx
  · apply gather_ancestors_mono
    exact (HGSHEntryList.mem_foldl_insert_all _ _ _).mpr (Or.inl hx)

/-- The first loop of `gather_objects` collects the bucket of every descendant of the key. -/
theorem gather_objects_descendant (index : Index) (hwf : index.WF) (q : Key) (hq : q.valid)
    (p : Key × HGSHEntryList) (hp : p ∈ index) (hanc : q.is_ancestor_of p.1 = true)
    (objects : HGSHEntryList) (x : EntryId) (hx : x ∈ p.2) :
    x ∈ gather_objects index q objects := by
  have hpv := hwf.2 p hp
  have hnlt : Key.lt p.1 q = false := by
    rw [Key.lt_eq_lex _ _ hpv hq]
    have h1 := (Key.is_ancestor_of_iff q p.1 hq hpv).mp hanc
    have := lex_between q.sig q.sig p.1.sig h1 (lex_lt_irrefl _)
    by_contra hc
    have hlt : lex_lt p.1.sig q.sig = true := by simpa using hc
    have hlen := h1.length_le
    have hasym := lex_lt_asymm _ _ hlt
    have hpre := lex_between q.sig p.1.sig p.1.sig h1
    rw [lex_lt_eq_memcmp] at hlt
    have hmin : Min.min p.1.sig.length q.sig.length = q.sig.length := by omega
    rw [hmin, List.take_of_length_le (le_refl _), ← List.prefix_iff_eq_take.mp h1,
      memcmp_self] at hlt
    simp at hlt
    omega
  have hmem := Index.mem_lower_bound index q p hp hnlt
  have hwf2 : Index.WF (Index.lower_bound index q) :=
    Index.WF_sublist _ _ (List.dropWhile_sublist _) hwf
  have htw := Index.mem_takeWhile_descendants _ hwf2 q hq
    (Index.lower_bound_not_lt index hwf q hq) p hmem hanc
  unfold gather_objects
  simp only
  rw [if_neg]
  · apply gather_ancestors_mono
    exact (HGSHEntryList.mem_foldl_insert_all _ _ _).mpr (Or.inr ⟨p, htw, hx⟩)
  · intro hemp
    rw [List.isEmpty_iff] at hemp
    rw [hemp] at hmem
    exact List.not_mem_nil _ hmem

theorem find_objects_within_box_eq (iter : KeyList → List Key) (s : SpatialHash) (box : AABB) :
    s.find_objects_within_box iter box =
      (iter ((corner_keys box).foldl KeyList.insert [])).foldl
        (fun objects key => gather_objects s.index_ key objects) [] := by
  unfold SpatialHash.find_objects_within_box corner_keys
  rw [List.foldl_map]

theorem mem_foldl_gather (index : Index) (L : List Key) (objects : HGSHEntryList) (x : EntryId)
    (h : x ∈ objects ∨ ∃ q ∈ L, ∀ o, x ∈ gather_objects index q o) :
    x ∈ L.foldl (fun objects key => gather_objects index key objects) objects := by
  induction L generalizing objects with
  | nil =>
    rcases h with h | ⟨q, hq, _⟩
    · exact h
    · exact absurd hq (List.not_mem_nil _)
  | cons a t ih =>
    rw [List.foldl_cons]
    apply ih
    rcases h with h | ⟨q, hq, hg⟩
    · exact Or.inl (gather_objects_mono _ _ _ _ h)
    · rcases List.mem_cons.mp hq with rfl | hq
      · exact Or.inl (hg _)
      · exact Or.inr ⟨q, hq, hg⟩

end smlt

namespace smlt

/-! ## A spatial hash filled by inserts -/

theorem SpatialHash.foldl_insert_object_for_box (ops : List (AABB × EntryId))
    (hops : ∀ p ∈ ops, p.1.max_dimension ≤ 32768) (s : SpatialHash) (hwf : s.index_.WF) :
    (ops.foldl (fun st p => st.insert_object_for_box p.1 p.2) s).index_.WF ∧
    (∀ k, k.valid → ∀ x, x ∈ Index.bucket s.index_ k →
      x ∈ Index.bucket (ops.foldl (fun st p => st.insert_object_for_box p.1 p.2) s).index_ k) ∧
    ∀ p ∈ ops, ∀ k, k.valid → k.sig ∈ (corner_keys p.1).map Key.sig →
      p.2 ∈ Index.bucket (ops.foldl (fun st p => st.insert_object_for_box p.1 p.2) s).index_ k := by
  induction ops generalizing s with
  | nil => exact ⟨hwf, fun _ _ _ h => h, fun p hp => absurd hp (List.not_mem_nil _)⟩
  | cons a t ih =>
    have ha := hops a (List.mem_cons_self _ _)
    obtain ⟨h1, _, h3⟩ := SpatialHash.insert_object_for_box_index s a.1 a.2 hwf ha
    obtain ⟨i1, i2, i3⟩ := ih (fun p hp => hops p (List.mem_cons_of_mem _ hp))
      (s.insert_object_for_box a.1 a.2) h1
    rw [List.foldl_cons]
    refine ⟨i1, ?_, ?_⟩
    · intro k hk x hx
      exact i2 k hk x ((h3 k hk x).mpr (Or.inl hx))
    · intro p hp k hk hs
      rcases List.mem_cons.mp hp with rfl | hp
      · exact i2 k hk _ ((h3 k hk _).mpr (Or.inr ⟨rfl, hs⟩))
      · exact i3 p hp k hk hs

theorem min_corner_key_mem (b : AABB) :
    make_key (find_cell_size_for_box b) b.min.x b.min.y b.min.z ∈ corner_keys b := by
  unfold corner_keys
  exact List.mem_map.mpr ⟨⟨b.min.x, b.min.y, b.min.z⟩, by simp [AABB.corners], rfl⟩

/-- No false negatives where no quotient of `make_hash` underflows: an entry inserted with a
box is found by a query with every box that contains it, all boxes having a max dimension of at
most 32768. -/
theorem SpatialHash.filled_found (iter : KeyList → List Key) (hiter : ∀ l, (iter l).Perm l)
    (ops : List (AABB × EntryId)) (hops : ∀ p ∈ ops, p.1.max_dimension ≤ 32768)
    (b : AABB) (e : EntryId) (hmem : (b, e) ∈ ops) (B : AABB) (hin : b.inside B)
    (hB : B.max_dimension ≤ 32768) (hbu : b.no_underflow) (hBu : B.no_underflow) :
    e ∈ (SpatialHash.filled ops).find_objects_within_box iter B := by
  obtain ⟨hwf, _, hfiled⟩ :=
    SpatialHash.foldl_insert_object_for_box ops hops {} Index.WF_nil
  have hb : b.max_dimension ≤ 32768 := hops (b, e) hmem
  have hkmem := min_corner_key_mem b
  have hkv := corner_keys_valid b hb _ hkmem
  have hbk := hfiled (b, e) hmem _ hkv (List.mem_map_of_mem _ hkmem)
  obtain ⟨p, hp, hps, hep⟩ := (Index.mem_bucket_iff _ hwf _ hkv e).mp hbk
  obtain ⟨q0, hq0, hanc0⟩ := corner_key_covered b B hin hB hbu hBu
  have hq0v := corner_keys_valid B hB q0 hq0
  obtain ⟨hNv, _, hNs, _⟩ := new_keys_spec B hB
  obtain ⟨q, hq, hqs⟩ := List.mem_map.mp ((hNs q0.sig).mpr (List.mem_map_of_mem _ hq0))
  have hqv := hNv q hq
  have hpv := hwf.2 p hp
  have hanc : q.is_ancestor_of p.1 = true := by
    rw [Key.is_ancestor_of_iff q p.1 hqv hpv, hqs, hps]
    exact (Key.is_ancestor_of_iff q0 _ hq0v hkv).mp hanc0
  rw [find_objects_within_box_eq]
  apply mem_foldl_gather
  right
  refine ⟨q, (hiter _).mem_iff.mpr hq, ?_⟩
  intro o
  exact gather_objects_descendant _ hwf q hqv p hp hanc o e hep

end smlt

namespace smlt

/-! ## Concrete keys -/

set_option maxRecDepth 1000000 in
unseal Rat.add Rat.mul Rat.inv Rat.sub in
theorem corner_keys_box_0_3 : corner_keys ⟨⟨0, 0, 0⟩, ⟨3, 3, 3⟩⟩ =
    List.replicate 8 ⟨List.replicate 16 {}, 13, path_hash_code (List.replicate 16 {})⟩ := by
  decide

set_option maxRecDepth 1000000 in
unseal Rat.add Rat.mul Rat.inv Rat.sub in
theorem corner_keys_box_1_half : corner_keys ⟨⟨1, 1, 1⟩, ⟨3 / 2, 3 / 2, 3 / 2⟩⟩ =
    List.replicate 8 ⟨List.replicate 15 ({} : Hash) ++ [⟨1, 1, 1⟩], 15,
      path_hash_code (List.replicate 15 ({} : Hash) ++ [⟨1, 1, 1⟩])⟩ := by
  decide

theorem max_dimension_box_0_3 : (⟨⟨0, 0, 0⟩, ⟨3, 3, 3⟩⟩ : AABB).max_dimension ≤ 32768 := by
  norm_num [AABB.max_dimension]

theorem max_dimension_box_1_half :
    (⟨⟨1, 1, 1⟩, ⟨3 / 2, 3 / 2, 3 / 2⟩⟩ : AABB).max_dimension ≤ 32768 := by
  norm_num [AABB.max_dimension]

theorem inside_box_1_half_box_0_3 :
    (⟨⟨1, 1, 1⟩, ⟨3 / 2, 3 / 2, 3 / 2⟩⟩ : AABB).inside ⟨⟨0, 0, 0⟩, ⟨3, 3, 3⟩⟩ := by
  norm_num [AABB.inside]

theorem consistent_empty (e : EntryId) : ({} : SpatialHash).consistent e :=
  ⟨Index.WF_nil, fun p hp => absurd hp (List.not_mem_nil _),
    fun k hk => absurd hk (List.not_mem_nil _), List.Pairwise.nil,
    fun k _ => by simp [Index.bucket, Index.find, KeyList.contains, SpatialHashEntry.keys]⟩

/-! ## The claims on the spatial hash -/

set_option maxRecDepth 1000000 in
unseal Rat.add Rat.mul Rat.inv Rat.sub in
theorem tiny_box_keys :
    find_cell_size_for_box tiny_box = 1 ∧ find_cell_size_for_box half_box = 1 ∧
    (make_key 1 tiny_box.min.x tiny_box.min.y tiny_box.min.z).hash_path.get? 0
      = some ⟨0, 0, 0⟩ ∧
    (make_key 1 tiny_box.min.x tiny_box.min.y tiny_box.min.z).hash_path.get? 15
      = some ⟨-1, -1, -1⟩ ∧
    (make_key 1 half_box.min.x half_box.min.y half_box.min.z).hash_path.get? 0
      = some ⟨-1, -1, -1⟩ ∧
    (make_key 1 half_box.max.x half_box.max.y half_box.max.z).hash_path.get? 0
      = some ⟨0, 0, 0⟩ ∧
    (make_key 1 half_box.max.x half_box.max.y half_box.max.z).hash_path.get? 15
      = some ⟨0, 0, 0⟩ := by
  decide

set_option maxRecDepth 1000000 in
unseal Rat.add Rat.mul Rat.inv Rat.sub in
theorem tiny_box_query :
    (SpatialHash.filled [(tiny_box, 7)]).find_objects_within_box (fun l => l) half_box = [] ∧
    (SpatialHash.filled [(tiny_box, 7)]).find_objects_within_box List.reverse half_box
      = [] ∧
    7 ∈ Index.bucket (SpatialHash.filled [(tiny_box, 7)]).index_
      (make_key 1 tiny_box.min.x tiny_box.min.y tiny_box.min.z) ∧
    (SpatialHash.filled [(eighth_box, 7)]).find_objects_within_box (fun l => l) half_box
      = [7] := by
  decide

/-- C1, evaluated at the failing input.  Entry 7 is inserted with the box from
(-2^-148,-2^-148,-2^-148) to (-2^-149,-2^-149,-2^-149), which lies inside the query box from
(-0.5,-0.5,-0.5) to (0.5,0.5,0.5); both boxes have the cell size 1.  At the cell size 32768
the quotient of the coordinate -2^-148 underflows to -0.0, so level 0 of the key of the entry
is (0,0,0) while its level 15 is (-1,-1,-1); the keys of the query box have -1 or 0 at all
levels of a coordinate.  The entry is filed under its keys, but no key of the query is an
ancestor of one of them, and the query returns nothing, in either iteration order of its key
set.  An entry with the box from (-0.25,-0.25,-0.25) to (-0.125,-0.125,-0.125), where no
quotient underflows, is returned by the same query. -/
theorem find_objects_within_box_misses_tiny_box :
    tiny_box.inside half_box ∧ half_box.max_dimension ≤ 32768 ∧
    (make_key (find_cell_size_for_box tiny_box) tiny_box.min.x tiny_box.min.y
        tiny_box.min.z).hash_path.get? 0 = some ⟨0, 0, 0⟩ ∧
    (make_key (find_cell_size_for_box tiny_box) tiny_box.min.x tiny_box.min.y
        tiny_box.min.z).hash_path.get? 15 = some ⟨-1, -1, -1⟩ ∧
    (make_key (find_cell_size_for_box half_box) half_box.min.x half_box.min.y
        half_box.min.z).hash_path.get? 0 = some ⟨-1, -1, -1⟩ ∧
    (make_key (find_cell_size_for_box half_box) half_box.max.x half_box.max.y
        half_box.max.z).hash_path.get? 0 = some ⟨0, 0, 0⟩ ∧
    (make_key (find_cell_size_for_box half_box) half_box.max.x half_box.max.y
        half_box.max.z).hash_path.get? 15 = some ⟨0, 0, 0⟩ ∧
    7 ∈ Index.bucket (SpatialHash.filled [(tiny_box, 7)]).index_
      (make_key (find_cell_size_for_box tiny_box) tiny_box.min.x tiny_box.min.y
        tiny_box.min.z) ∧
    (SpatialHash.filled [(tiny_box, 7)]).find_objects_within_box (fun l => l) half_box = [] ∧
    (SpatialHash.filled [(tiny_box, 7)]).find_objects_within_box List.reverse half_box
      = [] ∧
    eighth_box.inside half_box ∧
    (SpatialHash.filled [(eighth_box, 7)]).find_objects_within_box (fun l => l) half_box
      = [7] := by
  obtain ⟨h1, h2, h3, h4, h5, h6, h7⟩ := tiny_box_keys
  rw [h1, h2]
  refine ⟨?_, ?_, h3, h4, h5, h6, h7, tiny_box_query.2.2.1, tiny_box_query.1,
    tiny_box_query.2.1, ?_, tiny_box_query.2.2.2⟩
  · norm_num [AABB.inside, tiny_box, half_box]
  · norm_num [AABB.max_dimension, half_box]
  · norm_num [AABB.inside, eighth_box, half_box]

/-- C2, evaluated at the failing input.  Entry 7 is inserted with the box from (0,0,0) to
(3,3,3) and is filed under the key `k` of cell size 4.  The query box from (1,1,1) to
(1.5,1.5,1.5) has the corner key `q` of cell size 1, and `k` is an ancestor of `q`.  All keys of
the index sort before `q`, so `lower_bound` is `end()`, `gather_objects` returns before its
second loop, and the query returns nothing. -/
theorem find_objects_within_box_misses_ancestor :
    make_key (find_cell_size_for_box ⟨⟨1, 1, 1⟩, ⟨3 / 2, 3 / 2, 3 / 2⟩⟩) 1 1 1 ∈
      corner_keys ⟨⟨1, 1, 1⟩, ⟨3 / 2, 3 / 2, 3 / 2⟩⟩ ∧
    (make_key 4 0 0 0).is_ancestor_of
      (make_key (find_cell_size_for_box ⟨⟨1, 1, 1⟩, ⟨3 / 2, 3 / 2, 3 / 2⟩⟩) 1 1 1) = true ∧
    7 ∈ Index.bucket (SpatialHash.filled [(⟨⟨0, 0, 0⟩, ⟨3, 3, 3⟩⟩, 7)]).index_
      (make_key 4 0 0 0) ∧
    (SpatialHash.filled [(⟨⟨0, 0, 0⟩, ⟨3, 3, 3⟩⟩, 7)]).find_objects_within_box (fun l => l)
      ⟨⟨1, 1, 1⟩, ⟨3 / 2, 3 / 2, 3 / 2⟩⟩ = [] := by
  have hk : make_key 4 0 0 0 =
      ⟨List.replicate 16 {}, 13, path_hash_code (List.replicate 16 {})⟩ := by
    simp [make_key, make_hash, floor_quotient, int_log2, log2_floor, wrap_int32, to_size_t,
      MAX_GRID_LEVELS, MAX_PATH_SIZE, List.range, List.range.loop, wrap_int16, List.replicate]
  have hq : make_key (find_cell_size_for_box ⟨⟨1, 1, 1⟩, ⟨3 / 2, 3 / 2, 3 / 2⟩⟩) 1 1 1 =
      ⟨List.replicate 15 ({} : Hash) ++ [⟨1, 1, 1⟩], 15,
        path_hash_code (List.replicate 15 ({} : Hash) ++ [⟨1, 1, 1⟩])⟩ := by
    have hc : find_cell_size_for_box ⟨⟨1, 1, 1⟩, ⟨3 / 2, 3 / 2, 3 / 2⟩⟩ = 1 := by
      simp [find_cell_size_for_box, AABB.max_dimension, ceil_log2, clog2_search, wrap_int32]
      norm_num
    rw [hc]
    simp [make_key, make_hash, floor_quotient, int_log2, log2_floor, wrap_int32, to_size_t,
      MAX_GRID_LEVELS, MAX_PATH_SIZE, List.range, List.range.loop, wrap_int16, List.replicate]
    norm_num
  have hs : (SpatialHash.filled [(⟨⟨0, 0, 0⟩, ⟨3, 3, 3⟩⟩, 7)]).index_ =
      [(⟨List.replicate 16 {}, 13, path_hash_code (List.replicate 16 {})⟩, [7])] := by
    unfold SpatialHash.filled
    simp only [List.foldl]
    rw [SpatialHash.insert_object_for_box_eq, corner_keys_box_0_3]
    decide
  refine ⟨?_, ?_, ?_, ?_⟩
  · rw [hq, corner_keys_box_1_half]
    decide
  · rw [hq, hk]
    decide
  · rw [hs, hk]
    decide
  · rw [find_objects_within_box_eq, corner_keys_box_1_half, hs]
    decide

end smlt

namespace smlt

/-- C3.  For an entry whose stored keys match the index and a box of max dimension at most 32768,
`update_object_for_box` leaves the entry filed under exactly the corner keys of the new box and
under no other key, the key set of the entry is that key set, its cached box is the new box, and
the buckets and the stored state of every other entry are unchanged; this for every iteration
order of the unordered key sets. -/
theorem update_object_for_box_files_corner_keys (iter : KeyList → List Key)
    (hiter : ∀ l, (iter l).Perm l) (s : SpatialHash) (new_box : AABB) (e : EntryId)
    (hwf : s.index_.WF) (hkv : ∀ k ∈ (s.entries e).keys, k.valid)
    (hknd : (s.entries e).keys.Pairwise (fun a b => Key.eq a b = false))
    (hmatch : ∀ k, k.valid →
      (e ∈ Index.bucket s.index_ k ↔ KeyList.contains (s.entries e).keys k = true))
    (hbox : new_box.max_dimension ≤ 32768) :
    (∀ k, k.valid → (e ∈ Index.bucket (s.update_object_for_box iter new_box e).index_ k ↔
      ∃ c ∈ corner_keys new_box, Key.eq c k = true)) ∧
    (∀ k, k.valid →
      (KeyList.contains ((s.update_object_for_box iter new_box e).entries e).keys k = true ↔
        ∃ c ∈ corner_keys new_box, Key.eq c k = true)) ∧
    ((s.update_object_for_box iter new_box e).entries e).hash_aabb = new_box ∧
    (∀ x, x ≠ e → (s.update_object_for_box iter new_box e).entries x = s.entries x ∧
      ∀ k, k.valid → (x ∈ Index.bucket (s.update_object_for_box iter new_box e).index_ k ↔
        x ∈ Index.bucket s.index_ k)) ∧
    (s.update_object_for_box iter new_box e).index_.WF :=
  SpatialHash.update_object_for_box_refiles iter hiter s new_box e hwf hkv hknd hmatch hbox

/-- Witness of C3: entry 7, filed with the box from (1,1,1) to (1.5,1.5,1.5), is moved to the box
from (0,0,0) to (3,3,3), the key sets being iterated in reverse. -/
theorem update_object_for_box_files_corner_keys_witness :
    ((SpatialHash.update_object_for_box List.reverse
      (({} : SpatialHash).insert_object_for_box ⟨⟨1, 1, 1⟩, ⟨3 / 2, 3 / 2, 3 / 2⟩⟩ 7)
      ⟨⟨0, 0, 0⟩, ⟨3, 3, 3⟩⟩ 7).entries 7).hash_aabb = ⟨⟨0, 0, 0⟩, ⟨3, 3, 3⟩⟩ ∧
    (7 ∈ Index.bucket (SpatialHash.update_object_for_box List.reverse
      (({} : SpatialHash).insert_object_for_box ⟨⟨1, 1, 1⟩, ⟨3 / 2, 3 / 2, 3 / 2⟩⟩ 7)
      ⟨⟨0, 0, 0⟩, ⟨3, 3, 3⟩⟩ 7).index_
        ⟨List.replicate 16 {}, 13, path_hash_code (List.replicate 16 {})⟩ ↔
      ∃ c ∈ corner_keys ⟨⟨0, 0, 0⟩, ⟨3, 3, 3⟩⟩,
        Key.eq c ⟨List.replicate 16 {}, 13, path_hash_code (List.replicate 16 {})⟩ = true) := by
  have hc := SpatialHash.consistent_insert {} ⟨⟨1, 1, 1⟩, ⟨3 / 2, 3 / 2, 3 / 2⟩⟩ 7
    (consistent_empty 7) max_dimension_box_1_half
  have h := update_object_for_box_files_corner_keys List.reverse (fun l => List.reverse_perm l)
    (({} : SpatialHash).insert_object_for_box ⟨⟨1, 1, 1⟩, ⟨3 / 2, 3 / 2, 3 / 2⟩⟩ 7)
    ⟨⟨0, 0, 0⟩, ⟨3, 3, 3⟩⟩ 7 hc.1 hc.2.2.1 hc.2.2.2.1 hc.2.2.2.2 max_dimension_box_0_3
  exact ⟨h.2.2.1, h.1 _ (by decide)⟩

/-- C4 as stated fails: entry 7 is filed with `insert_object_for_box` twice, first with the box
from (1,1,1) to (1.5,1.5,1.5) and then with the box from (0,0,0) to (3,3,3).  The update with its
cached box then takes it out of the bucket of the first box. -/
theorem update_object_for_box_same_box_changes_index :
    ¬ SpatialHash.same_contents
      ((({} : SpatialHash).insert_object_for_box ⟨⟨1, 1, 1⟩, ⟨3 / 2, 3 / 2, 3 / 2⟩⟩
        7).insert_object_for_box ⟨⟨0, 0, 0⟩, ⟨3, 3, 3⟩⟩ 7)
      (((({} : SpatialHash).insert_object_for_box ⟨⟨1, 1, 1⟩, ⟨3 / 2, 3 / 2, 3 / 2⟩⟩
        7).insert_object_for_box ⟨⟨0, 0, 0⟩, ⟨3, 3, 3⟩⟩ 7).update_object_for_box
        (fun l => l)
        (((({} : SpatialHash).insert_object_for_box ⟨⟨1, 1, 1⟩, ⟨3 / 2, 3 / 2, 3 / 2⟩⟩
          7).insert_object_for_box ⟨⟨0, 0, 0⟩, ⟨3, 3, 3⟩⟩ 7).entries 7).hash_aabb 7) := by
  have hc1 := SpatialHash.consistent_insert {} ⟨⟨1, 1, 1⟩, ⟨3 / 2, 3 / 2, 3 / 2⟩⟩ 7
    (consistent_empty 7) max_dimension_box_1_half
  have hc2 := SpatialHash.consistent_insert _ ⟨⟨0, 0, 0⟩, ⟨3, 3, 3⟩⟩ 7 hc1 max_dimension_box_0_3
  have hbox := (SpatialHash.insert_object_for_box_entries
    (({} : SpatialHash).insert_object_for_box ⟨⟨1, 1, 1⟩, ⟨3 / 2, 3 / 2, 3 / 2⟩⟩ 7)
    ⟨⟨0, 0, 0⟩, ⟨3, 3, 3⟩⟩ 7).2.2
  have hq : (⟨List.replicate 15 ({} : Hash) ++ [⟨1, 1, 1⟩], 15,
      path_hash_code (List.replicate 15 ({} : Hash) ++ [⟨1, 1, 1⟩])⟩ : Key).valid := by decide
  have hfiled1 := ((SpatialHash.insert_object_for_box_index {}
    ⟨⟨1, 1, 1⟩, ⟨3 / 2, 3 / 2, 3 / 2⟩⟩ 7 Index.WF_nil max_dimension_box_1_half).2.2 _ hq 7).mpr
    (Or.inr ⟨rfl, by rw [corner_keys_box_1_half]; decide⟩)
  have hfiled := ((SpatialHash.insert_object_for_box_index _
    ⟨⟨0, 0, 0⟩, ⟨3, 3, 3⟩⟩ 7 hc1.1 max_dimension_box_0_3).2.2 _ hq 7).mpr (Or.inl hfiled1)
  intro hsame
  rw [hbox] at hsame
  have hafter := (SpatialHash.update_object_for_box_refiles (fun l => l)
    (fun l => List.Perm.refl l) _ ⟨⟨0, 0, 0⟩, ⟨3, 3, 3⟩⟩ 7 hc2.1 hc2.2.2.1 hc2.2.2.2.1
    hc2.2.2.2.2 max_dimension_box_0_3).1 _ hq
  have h7 := (hsame.2.1 _ hq 7).mpr hfiled
  obtain ⟨c, hc, heq⟩ := hafter.mp h7
  rw [corner_keys_box_0_3] at hc
  rw [List.eq_of_mem_replicate hc] at heq
  revert heq
  decide

/-- C4, amended.  After `update_object_for_box` on an entry whose keys match the index, and after
`insert_object_for_box` on such an entry that is not filed (its key set is empty), a call of
`update_object_for_box` with the cached box of the entry changes nothing: the same keys are in
the index with the same buckets, and every entry keeps its key set and its cached box, for every
iteration order of the key sets (boxes of max dimension at most 32768). -/
theorem update_object_for_box_same_box_noop (iter iter2 : KeyList → List Key)
    (hiter : ∀ l, (iter l).Perm l) (hiter2 : ∀ l, (iter2 l).Perm l) (s : SpatialHash)
    (box : AABB) (e : EntryId) (hc : s.consistent e) (hbox : box.max_dimension ≤ 32768) :
    SpatialHash.same_contents (s.update_object_for_box iter box e)
      ((s.update_object_for_box iter box e).update_object_for_box iter2
        ((s.update_object_for_box iter box e).entries e).hash_aabb e) ∧
    ((s.entries e).keys = [] →
      SpatialHash.same_contents (s.insert_object_for_box box e)
        ((s.insert_object_for_box box e).update_object_for_box iter2
          ((s.insert_object_for_box box e).entries e).hash_aabb e)) := by
  constructor
  · apply SpatialHash.update_same_box iter2 hiter2 _ e
      (SpatialHash.consistent_update iter hiter s box e hc hbox)
      (SpatialHash.keys_match_box_update iter s box e)
    rw [(SpatialHash.update_object_for_box_entries iter s box e).2.1]
    exact hbox
  · intro hfresh
    apply SpatialHash.update_same_box iter2 hiter2 _ e
      (SpatialHash.consistent_insert s box e hc hbox)
      (SpatialHash.keys_match_box_insert s box e hfresh)
    rw [(SpatialHash.insert_object_for_box_entries s box e).2.2]
    exact hbox

/-- Witness of C4, amended: entry 7 is inserted with the box from (0,0,0) to (3,3,3) into the
empty spatial hash and then updated with its cached box. -/
theorem update_object_for_box_same_box_noop_witness :
    SpatialHash.same_contents
      (({} : SpatialHash).insert_object_for_box ⟨⟨0, 0, 0⟩, ⟨3, 3, 3⟩⟩ 7)
      ((({} : SpatialHash).insert_object_for_box ⟨⟨0, 0, 0⟩, ⟨3, 3, 3⟩⟩ 7).update_object_for_box
        List.reverse
        ((({} : SpatialHash).insert_object_for_box ⟨⟨0, 0, 0⟩, ⟨3, 3, 3⟩⟩ 7).entries 7).hash_aabb
        7) :=
  (update_object_for_box_same_box_noop (fun l => l) List.reverse (fun l => List.Perm.refl l)
    (fun l => List.reverse_perm l) {} ⟨⟨0, 0, 0⟩, ⟨3, 3, 3⟩⟩ 7 (consistent_empty 7)
    max_dimension_box_0_3).2 rfl

/-- C5 as stated fails: after `insert_object_for_box` and then `remove_object` the key set of the
entry is empty, while its cached box still has corner keys. -/
theorem entry_keys_empty_after_remove_object :
    (((({} : SpatialHash).calls (fun l => l)
      [Call.insert_object_for_box ⟨⟨0, 0, 0⟩, ⟨3, 3, 3⟩⟩ 7, Call.remove_object 7]).entries
        7).keys = []) ∧
    corner_keys ((({} : SpatialHash).calls (fun l => l)
      [Call.insert_object_for_box ⟨⟨0, 0, 0⟩, ⟨3, 3, 3⟩⟩ 7, Call.remove_object 7]).entries
        7).hash_aabb ≠ [] ∧
    ¬ SpatialHash.keys_match_box (({} : SpatialHash).calls (fun l => l)
      [Call.insert_object_for_box ⟨⟨0, 0, 0⟩, ⟨3, 3, 3⟩⟩ 7, Call.remove_object 7]) 7 := by
  have hcalls : ({} : SpatialHash).calls (fun l => l)
      [Call.insert_object_for_box ⟨⟨0, 0, 0⟩, ⟨3, 3, 3⟩⟩ 7, Call.remove_object 7] =
      (({} : SpatialHash).insert_object_for_box ⟨⟨0, 0, 0⟩, ⟨3, 3, 3⟩⟩ 7).remove_object
        (fun l => l) 7 := rfl
  rw [hcalls]
  have hk := (SpatialHash.remove_object_entries (fun l => l)
    (({} : SpatialHash).insert_object_for_box ⟨⟨0, 0, 0⟩, ⟨3, 3, 3⟩⟩ 7) 7).1
  refine ⟨hk, corner_keys_ne_nil _, ?_⟩
  intro hm
  unfold SpatialHash.keys_match_box at hm
  rw [hk] at hm
  exact KeyList.foldl_insert_ne_nil _ [] (Or.inr (corner_keys_ne_nil _)) hm.symm

/-- C5, amended.  After every sequence of `insert_object_for_box`, `update_object_for_box` and
`remove_object` calls in which every insert is made on an entry that is not filed at that moment,
the key set of every entry is either empty (the entry was removed or never filed) or exactly the
set of corner keys of its cached box. -/
theorem entry_keys_match_cached_box (iter : KeyList → List Key) (cs : List Call)
    (s : SpatialHash) (hfresh : s.inserts_fresh iter cs)
    (h : ∀ e, (s.entries e).keys = [] ∨ s.keys_match_box e) (e : EntryId) :
    ((s.calls iter cs).entries e).keys = [] ∨
      ((s.calls iter cs).entries e).keys =
        (corner_keys ((s.calls iter cs).entries e).hash_aabb).foldl KeyList.insert [] :=
  SpatialHash.calls_keep_keys iter cs s hfresh h e

/-- Witness of C5, amended: entry 7 is inserted, updated, removed and inserted again. -/
theorem entry_keys_match_cached_box_witness :
    ((({} : SpatialHash).calls List.reverse
      [Call.insert_object_for_box ⟨⟨0, 0, 0⟩, ⟨3, 3, 3⟩⟩ 7,
        Call.update_object_for_box ⟨⟨1, 1, 1⟩, ⟨3 / 2, 3 / 2, 3 / 2⟩⟩ 7,
        Call.remove_object 7,
        Call.insert_object_for_box ⟨⟨0, 0, 0⟩, ⟨3, 3, 3⟩⟩ 7]).entries 7).keys = [] ∨
    ((({} : SpatialHash).calls List.reverse
      [Call.insert_object_for_box ⟨⟨0, 0, 0⟩, ⟨3, 3, 3⟩⟩ 7,
        Call.update_object_for_box ⟨⟨1, 1, 1⟩, ⟨3 / 2, 3 / 2, 3 / 2⟩⟩ 7,
        Call.remove_object 7,
        Call.insert_object_for_box ⟨⟨0, 0, 0⟩, ⟨3, 3, 3⟩⟩ 7]).entries 7).keys =
      (corner_keys ((({} : SpatialHash).calls List.reverse
        [Call.insert_object_for_box ⟨⟨0, 0, 0⟩, ⟨3, 3, 3⟩⟩ 7,
          Call.update_object_for_box ⟨⟨1, 1, 1⟩, ⟨3 / 2, 3 / 2, 3 / 2⟩⟩ 7,
          Call.remove_object 7,
          Call.insert_object_for_box ⟨⟨0, 0, 0⟩, ⟨3, 3, 3⟩⟩ 7]).entries 7).hash_aabb).foldl
        KeyList.insert [] := by
  have hfresh : SpatialHash.inserts_fresh List.reverse {}
      [Call.insert_object_for_box ⟨⟨0, 0, 0⟩, ⟨3, 3, 3⟩⟩ 7,
        Call.update_object_for_box ⟨⟨1, 1, 1⟩, ⟨3 / 2, 3 / 2, 3 / 2⟩⟩ 7,
        Call.remove_object 7,
        Call.insert_object_for_box ⟨⟨0, 0, 0⟩, ⟨3, 3, 3⟩⟩ 7] := by
    refine And.intro rfl (And.intro trivial (And.intro trivial (And.intro ?_ trivial)))
    exact (SpatialHash.remove_object_entries List.reverse _ 7).1
  exact entry_keys_match_cached_box List.reverse _ {} hfresh (fun _ => Or.inl rfl) 7

end smlt

/-! # The dynamic octree -/

namespace kglt
open smlt (Vec3 AABB)

/-! ## The examples, evaluated -/

set_option maxRecDepth 100000 in
unseal Rat.add Rat.mul Rat.inv Rat.sub in
/-- C6. A successful `insert_actor` can return, and `locate_actor` can then give, a node whose
cell does not contain the centre of the box of the object.  Actor 1, with the box from (1,-1,-1)
to (3,1,1), makes the root with centre (2,0,0) and width 2.  Actor 2 has its centre at
(1.625,0.25,0.25): it ends in the node of level 1 with centre (2.5,0.5,0.5), whose cell starts
at x = 2. -/
theorem insert_actor_node_misses_centre :
    actors_example_first.value = .ok (some ⟨0, (200, 0, 0)⟩) ∧
    actors_example_second.value = .ok (some ⟨1, (250, 50, 50)⟩) ∧
    actors_example_second.state.locate_actor 2 = some ⟨1, (250, 50, 50)⟩ ∧
    actors_example_second.state.payload_ids .actor ⟨1, (250, 50, 50)⟩ = some [2] ∧
    centre (example_config.actor_aabb 2) = ⟨13 / 8, 1 / 4, 1 / 4⟩ ∧
    (actors_example_second.state.node_at ⟨1, (250, 50, 50)⟩).map
        (fun n => (n.centre_, n.diameter actors_example_second.state,
          n.contains actors_example_second.state (centre (example_config.actor_aabb 2))))
      = some (⟨5 / 2, 1 / 2, 1 / 2⟩, 1, false) := by
  decide

set_option maxRecDepth 100000 in
unseal Rat.add Rat.mul Rat.inv Rat.sub in
/-- C8. After two successful `insert_light` calls the lookup table can refer to a node whose
payload does not hold the light.  Light 1 makes the root; the insertion of light 2 splits the
root and moves light 2 into the node of level 1 with hash (250,50,50), but `light_lookup_`
still gives the root for light 2, and that is also what the insertion returns.  The same two
insertions of actors leave `actor_lookup_` pointing at the node that holds actor 2. -/
theorem insert_light_lookup_is_stale :
    lights_example_first.value = .ok (some ⟨0, (200, 0, 0)⟩) ∧
    lights_example_second.value = .ok (some ⟨0, (200, 0, 0)⟩) ∧
    lights_example_second.state.locate_light 2 = some ⟨0, (200, 0, 0)⟩ ∧
    lights_example_second.state.payload_ids .light ⟨0, (200, 0, 0)⟩ = some [1] ∧
    lights_example_second.state.payload_ids .light ⟨1, (250, 50, 50)⟩ = some [2] ∧
    actors_example_second.state.locate_actor 2 = some ⟨1, (250, 50, 50)⟩ ∧
    actors_example_second.state.payload_ids .actor ⟨1, (250, 50, 50)⟩ = some [2] := by
  decide

set_option maxRecDepth 100000 in
unseal Rat.add Rat.mul Rat.inv Rat.sub in
/-- C7, counterexample. Under the default predicates `split_if_necessary` on the root that holds
actor 3, whose box made the root, returns true, and afterwards actor 3 is held by the root
again: the octree has no node of level 1 at all. -/
theorem split_if_necessary_keeps_object_in_node :
    split_example_before.value = .ok ⟨0, (0, 0, 0)⟩ ∧
    split_example_before.state.payload_ids .actor ⟨0, (0, 0, 0)⟩ = some [3] ∧
    split_example_after.value = .ok true ∧
    split_example_after.state.payload_ids .actor ⟨0, (0, 0, 0)⟩ = some [3] ∧
    split_example_after.state.levels_.length = 1 := by
  decide

set_option maxRecDepth 100000 in
unseal Rat.add Rat.mul Rat.inv Rat.sub in
/-- C10, counterexample. In the octree of the actors example with actor 1 removed the root has
an empty payload and its child holds actor 2; `prune_empty_nodes` leaves the empty root in
place. -/
theorem prune_empty_nodes_keeps_empty_root :
    prune_example.payload_ids .actor ⟨1, (250, 50, 50)⟩ = some [2] ∧
    (prune_example.node_at ⟨0, (200, 0, 0)⟩).map OctreeNode.is_empty = some true ∧
    (prune_example.prune_empty_nodes.node_at ⟨0, (200, 0, 0)⟩).map OctreeNode.is_empty
      = some true := by
  decide

end kglt

/-! ## Tables and node pointers -/

namespace kglt
open smlt (Vec3 AABB)

section tables
variable {κ β : Type} [DecidableEq κ]

theorem table_find_nil (k : κ) : table_find ([] : List (κ × β)) k = none := rfl

theorem table_find_cons (p : κ × β) (t : List (κ × β)) (k : κ) :
    table_find (p :: t) k = if p.1 = k then some p.2 else table_find t k := by
  unfold table_find
  by_cases h : p.1 = k <;> simp [List.find?_cons, h]

theorem table_find_erase_self (t : List (κ × β)) (k : κ) :
    table_find (table_erase t k) k = none := by
  induction t with
  | nil => rfl
  | cons p t ih =>
    unfold table_erase at ih ⊢
    by_cases h : p.1 = k
    · simpa [List.filter_cons, h] using ih
    · simp only [List.filter_cons, h, decide_False, Bool.not_false, if_true, table_find_cons,
        if_false]
      exact ih

theorem table_find_erase_ne (t : List (κ × β)) {k k1 : κ} (hne : k1 ≠ k) :
    table_find (table_erase t k) k1 = table_find t k1 := by
  induction t with
  | nil => rfl
  | cons p t ih =>
    unfold table_erase at ih ⊢
    by_cases h : p.1 = k
    · have h1 : ¬ p.1 = k1 := fun h2 => hne (h2.symm.trans h)
      rw [table_find_cons, if_neg h1, List.filter_cons]
      simpa [h] using ih
    · simp only [List.filter_cons, h, decide_False, Bool.not_false, if_true, table_find_cons]
      rw [ih]

theorem table_find_erase (t : List (κ × β)) (k k1 : κ) :
    table_find (table_erase t k) k1 = if k1 = k then none else table_find t k1 := by
  by_cases h : k1 = k
  · rw [if_pos h, h, table_find_erase_self]
  · rw [if_neg h, table_find_erase_ne t h]

theorem table_find_append (t s : List (κ × β)) (k : κ) :
    table_find (t ++ s) k = (table_find t k).orElse fun _ => table_find s k := by
  induction t with
  | nil => rfl
  | cons p t ih =>
    rw [List.cons_append, table_find_cons, table_find_cons]
    by_cases h : p.1 = k
    · simp [h]
    · simp [h, ih]

theorem table_find_insert (t : List (κ × β)) (k : κ) (v : β) (k1 : κ) :
    table_find (table_insert t k v) k1 =
      if k1 = k then some ((table_find t k).getD v) else table_find t k1 := by
  unfold table_insert
  by_cases hk : (table_find t k).isSome
  · rw [if_pos hk]
    by_cases h : k1 = k
    · rw [if_pos h, h]
      obtain ⟨x, hx⟩ := Option.isSome_iff_exists.mp hk
      rw [hx]
      rfl
    · rw [if_neg h]
  · rw [if_neg hk, table_find_append]
    have hnone : table_find t k = none := by
      cases hx : table_find t k with
      | none => rfl
      | some x => rw [hx] at hk; exact absurd rfl hk
    by_cases h : k1 = k
    · rw [if_pos h, h, hnone]
      simp [table_find_cons]
    · rw [if_neg h]
      have h1 : ¬ k = k1 := fun h2 => h h2.symm
      cases hx : table_find t k1 <;> simp [table_find_cons, h1, table_find_nil]

theorem table_find_map_update (t : List (κ × β)) (k : κ) (f : β → β) (k1 : κ) :
    table_find (t.map fun p => if p.1 = k then (p.1, f p.2) else p) k1 =
      if k1 = k then (table_find t k).map f else table_find t k1 := by
  induction t with
  | nil => by_cases h : k1 = k <;> simp [h, table_find_nil]
  | cons p t ih =>
    rw [List.map_cons, table_find_cons, ih]
    by_cases hp : p.1 = k
    · by_cases h : k1 = k
      · simp [hp, h, table_find_cons]
      · have h1 : ¬ k = k1 := fun h2 => h h2.symm
        simp [hp, h, h1, table_find_cons]
    · by_cases h : k1 = k
      · have h1 : ¬ p.1 = k1 := fun h2 => hp (h2.trans h)
        simp only [hp, if_false, h1, h, if_true]
        rw [← h, table_find_cons, if_neg h1]
      · simp only [hp, if_false, h, table_find_cons]

theorem table_find_mem {t : List (κ × β)} {k : κ} {v : β} (h : table_find t k = some v) :
    (k, v) ∈ t := by
  induction t with
  | nil => simp [table_find_nil] at h
  | cons p t ih =>
    rw [table_find_cons] at h
    by_cases hp : p.1 = k
    · rw [if_pos hp] at h
      have hv : p.2 = v := Option.some.inj h
      have : p = (k, v) := Prod.ext hp hv
      rw [this]
      exact List.mem_cons_self _ _
    · rw [if_neg hp] at h
      exact List.mem_cons_of_mem _ (ih h)

theorem table_find_isSome_of_mem {t : List (κ × β)} {p : κ × β} (h : p ∈ t) :
    (table_find t p.1).isSome := by
  induction t with
  | nil => simp at h
  | cons q t ih =>
    rw [table_find_cons]
    by_cases hq : q.1 = p.1
    · simp [hq]
    · rw [if_neg hq]
      rcases List.mem_cons.mp h with h1 | h1
      · exact absurd (by rw [h1]) hq
      · exact ih h1

end tables

/-! ### Reading a node after a write -/

theorem Octree.node_at_eq (o : Octree) (r : NodeRef) :
    o.node_at r = (o.levels_[r.level]?).bind fun nodes => table_find nodes r.hash := by
  unfold Octree.node_at
  rw [List.get?_eq_getElem?]
  cases o.levels_[r.level]? <;> rfl

theorem NodeRef.ref_eq_iff (r s : NodeRef) : r = s ↔ r.level = s.level ∧ r.hash = s.hash := by
  cases r
  cases s
  simp

theorem Octree.node_at_modify_levels (o : Octree) (g : LevelNodes → LevelNodes) (level : Nat)
    (ls : List LevelNodes) (hls : ls = o.levels_.modify g level) (r : NodeRef) (o1 : Octree)
    (ho1 : o1.levels_ = ls) :
    o1.node_at r =
      if r.level = level then (o.levels_[level]?).bind fun nodes => table_find (g nodes) r.hash
      else o.node_at r := by
  rw [Octree.node_at_eq, Octree.node_at_eq, ho1, hls, List.getElem?_modify]
  by_cases h : r.level = level
  · rw [if_pos h, h]
    cases o.levels_[level]? <;> simp
  · rw [if_neg h]
    have h1 : ¬ level = r.level := fun h2 => h h2.symm
    cases o.levels_[r.level]? <;> simp [h1]

theorem Octree.node_at_modify_node (o : Octree) (r : NodeRef) (f : OctreeNode → OctreeNode)
    (s : NodeRef) :
    (o.modify_node r f).node_at s = if s = r then (o.node_at r).map f else o.node_at s := by
  rw [Octree.node_at_modify_levels o _ r.level _ rfl s (o.modify_node r f) rfl]
  by_cases hl : s.level = r.level
  · rw [if_pos hl]
    by_cases hh : s.hash = r.hash
    · have hs : s = r := (NodeRef.ref_eq_iff s r).mpr ⟨hl, hh⟩
      rw [if_pos hs, Octree.node_at_eq]
      cases o.levels_[r.level]? with
      | none => rfl
      | some nodes =>
        simp only [Option.some_bind]
        rw [table_find_map_update, if_pos hh]
    · have hs : ¬ s = r := fun h => hh (by rw [h])
      rw [if_neg hs, Octree.node_at_eq, hl]
      cases o.levels_[r.level]? with
      | none => rfl
      | some nodes =>
        simp only [Option.some_bind]
        rw [table_find_map_update, if_neg hh]
  · have hs : ¬ s = r := fun h => hl (by rw [h])
    rw [if_neg hl, if_neg hs]

theorem Octree.modify_node_lookups (o : Octree) (r : NodeRef) (f : OctreeNode → OctreeNode) :
    (o.modify_node r f).actor_lookup_ = o.actor_lookup_ ∧
    (o.modify_node r f).light_lookup_ = o.light_lookup_ ∧
    (o.modify_node r f).particle_system_lookup_ = o.particle_system_lookup_ :=
  ⟨rfl, rfl, rfl⟩

theorem Octree.modify_node_length (o : Octree) (r : NodeRef) (f : OctreeNode → OctreeNode) :
    (o.modify_node r f).levels_.length = o.levels_.length := by
  unfold Octree.modify_node
  simp

theorem Octree.node_at_level_lt {o : Octree} {r : NodeRef} {n : OctreeNode}
    (h : o.node_at r = some n) : r.level < o.levels_.length := by
  rw [Octree.node_at_eq] at h
  by_contra hlt
  rw [List.getElem?_eq_none (Nat.le_of_not_lt hlt)] at h
  simp at h

end kglt

/-! ## Removing nodes -/

namespace kglt
open smlt (Vec3 AABB)

theorem table_find_foldl_erase {β : Type} (ids : List (Nat × AABB)) (t : List (Nat × β))
    (k : Nat) :
    table_find (ids.foldl (fun t p => table_erase t p.1) t) k =
      if k ∈ ids.map Prod.fst then none else table_find t k := by
  induction ids generalizing t with
  | nil => simp
  | cons p ids ih =>
    rw [List.foldl_cons, ih, table_find_erase]
    by_cases h1 : k ∈ ids.map Prod.fst
    · simp [h1]
    · by_cases h2 : k = p.1
      · simp [h2]
      · simp [h1, h2]

theorem Octree.core_at_modify_node (o : Octree) (r : NodeRef) (f : OctreeNode → OctreeNode)
    (hf : ∀ n, (f n).level_ = n.level_ ∧ (f n).centre_ = n.centre_ ∧ (f n).data_ = n.data_)
    (s : NodeRef) : (o.modify_node r f).core_at s = o.core_at s := by
  unfold Octree.core_at
  rw [Octree.node_at_modify_node]
  by_cases h : s = r
  · rw [if_pos h, h]
    cases o.node_at r with
    | none => rfl
    | some n =>
      obtain ⟨h1, h2, h3⟩ := hf n
      simp [h1, h2, h3]
  · rw [if_neg h]

theorem Octree.node_at_drop_last (o o1 : Octree) (ho1 : o1.levels_ = o.levels_.dropLast)
    (hempty : (o.levels_.get? (o.levels_.length - 1)).any List.isEmpty = true) (s : NodeRef) :
    o1.node_at s = o.node_at s := by
  rw [Octree.node_at_eq, Octree.node_at_eq, ho1, List.dropLast_eq_take, List.getElem?_take]
  by_cases h : s.level < o.levels_.length - 1
  · rw [if_pos h]
  · rw [if_neg h]
    by_cases h2 : s.level = o.levels_.length - 1
    · rw [h2]
      rw [List.get?_eq_getElem?] at hempty
      cases hl : o.levels_[o.levels_.length - 1]? with
      | none => rfl
      | some nodes =>
        rw [hl] at hempty
        simp only [Option.any_some, List.isEmpty_iff] at hempty
        rw [hempty]
        rfl
    · have h3 : o.levels_.length ≤ s.level := by
        omega
      rw [List.getElem?_eq_none h3]

theorem Octree.remove_node_of_none {o : Octree} {r : NodeRef} (h : o.node_at r = none) :
    o.remove_node r = o := by
  unfold Octree.remove_node
  rw [h]

/-- What is left of the nodes after `remove_node`: the node is gone and every other node keeps
its level, centre and payload. -/
theorem Octree.core_at_remove_node {o : Octree} {r : NodeRef} {node : OctreeNode}
    (h : o.node_at r = some node)
    (hwf : node.level_ = r.level ∧ generate_vector_hash node.centre_ = r.hash) (s : NodeRef) :
    (o.remove_node r).core_at s = if s = r then none else o.core_at s := by
  obtain ⟨hl, hh⟩ := hwf
  -- the parent loses a child
  have h1 : ∀ t, (match node.parent_ with
      | some parent => o.modify_node parent fun n =>
          { n with children_ := n.children_.filter fun c => !decide (c = r) }
      | none => o).node_at t = none ↔ o.node_at t = none := by
    intro t
    cases node.parent_ with
    | none => exact Iff.rfl
    | some parent =>
      simp only [Octree.node_at_modify_node]
      by_cases ht : t = parent
      · rw [if_pos ht, ht]
        cases o.node_at parent <;> simp
      · rw [if_neg ht]
  have h2 : ∀ t, (match node.parent_ with
      | some parent => o.modify_node parent fun n =>
          { n with children_ := n.children_.filter fun c => !decide (c = r) }
      | none => o).core_at t = o.core_at t := by
    intro t
    cases node.parent_ with
    | none => rfl
    | some parent =>
      dsimp only
      refine Octree.core_at_modify_node o parent _ ?_ t
      exact fun n => ⟨rfl, rfl, rfl⟩
  unfold Octree.remove_node
  rw [h]
  simp only []
  generalize (match node.parent_ with
      | some parent => o.modify_node parent fun n =>
          { n with children_ := n.children_.filter fun c => !decide (c = r) }
      | none => o) = o1 at h1 h2
  -- the node is erased from its level
  have h3 : ∀ (o3 : Octree),
      o3.levels_ = o1.levels_.modify
        (fun nodes => table_erase nodes (generate_vector_hash node.centre_)) node.level_ →
      o3.core_at s = if s = r then none else o.core_at s := by
    intro o3 ho3
    rw [← h2 s]
    unfold Octree.core_at
    rw [Octree.node_at_modify_levels o1 _ node.level_ _ rfl s o3 ho3, hl, hh]
    by_cases hsl : s.level = r.level
    · rw [if_pos hsl]
      by_cases hsh : s.hash = r.hash
      · have hs : s = r := (NodeRef.ref_eq_iff s r).mpr ⟨hsl, hsh⟩
        rw [if_pos hs, hsh]
        cases o1.levels_[r.level]? with
        | none => rfl
        | some nodes => simp [table_find_erase_self]
      · have hs : ¬ s = r := fun e => hsh (by rw [e])
        rw [if_neg hs, Octree.node_at_eq, hsl]
        cases o1.levels_[r.level]? with
        | none => rfl
        | some nodes => simp [table_find_erase_ne nodes hsh]
    · have hs : ¬ s = r := fun e => hsl (by rw [e])
      rw [if_neg hsl, if_neg hs]
  generalize (if s = r then none else o.core_at s) = rhs at h3 ⊢
  split_ifs with hlast
  · have hc : ∀ (ls : List LevelNodes) (o4 : Octree), ls = o1.levels_.modify
          (fun nodes => table_erase nodes (generate_vector_hash node.centre_)) node.level_ →
        o4.levels_ = ls.dropLast →
        (ls.get? (ls.length - 1)).any List.isEmpty = true →
        o4.core_at s = rhs := by
      intro ls o4 hls ho4 he
      have ho3 : ({ o1 with levels_ := ls } : Octree).levels_ = ls := rfl
      rw [← h3 { o1 with levels_ := ls } (ho3.trans hls)]
      unfold Octree.core_at
      rw [Octree.node_at_drop_last { o1 with levels_ := ls } o4 ho4 he]
    refine hc _ _ rfl ?_ ?_
    · rfl
    obtain ⟨hlv, hemp⟩ := hlast
    rw [← hlv]
    exact hemp
  · refine h3 _ ?_
    rfl

theorem Octree.remove_node_lookups {o : Octree} {r : NodeRef} {node : OctreeNode}
    (h : o.node_at r = some node) :
    (o.remove_node r).actor_lookup_
      = node.data_.actor_ids_.foldl (fun t p => table_erase t p.1) o.actor_lookup_ ∧
    (o.remove_node r).light_lookup_
      = node.data_.light_ids_.foldl (fun t p => table_erase t p.1) o.light_lookup_ ∧
    (o.remove_node r).particle_system_lookup_
      = node.data_.particle_system_ids_.foldl (fun t p => table_erase t p.1)
          o.particle_system_lookup_ := by
  unfold Octree.remove_node
  rw [h]
  simp only []
  split_ifs <;> cases node.parent_ <;> exact ⟨rfl, rfl, rfl⟩

theorem Octree.locate_remove_node (o : Octree) (r : NodeRef) (kind : Kind) (id : Nat) :
    (o.remove_node r).locate kind id =
      match o.node_at r with
      | some node => if id ∈ (node.data_.ids kind).map Prod.fst then none else o.locate kind id
      | none => o.locate kind id := by
  cases h : o.node_at r with
  | none => rw [Octree.remove_node_of_none h]
  | some node =>
    obtain ⟨h1, h2, h3⟩ := Octree.remove_node_lookups h
    cases kind
    · simp only [Octree.locate, Octree.locate_actor, h1, table_find_foldl_erase, NodeData.ids]
    · simp only [Octree.locate, Octree.locate_light, h2, table_find_foldl_erase, NodeData.ids]
    · simp only [Octree.locate, Octree.locate_particle_system, h3, table_find_foldl_erase,
        NodeData.ids]

end kglt

/-! ## Pruning -/

namespace kglt
open smlt (Vec3 AABB)

theorem Octree.core_at_eq_some {o : Octree} {s : NodeRef} {c : Nat × Vec3 × NodeData} :
    o.core_at s = some c ↔
      ∃ n, o.node_at s = some n ∧ n.level_ = c.1 ∧ n.centre_ = c.2.1 ∧ n.data_ = c.2.2 := by
  unfold Octree.core_at
  cases o.node_at s with
  | none => simp
  | some n =>
    simp only [Option.map_some', Option.some.injEq, exists_eq_left']
    constructor
    · intro h
      rw [← h]
      exact ⟨rfl, rfl, rfl⟩
    · rintro ⟨h1, h2, h3⟩
      exact Prod.ext h1 (Prod.ext h2 h3)

theorem Octree.core_at_of_node_at {o : Octree} {s : NodeRef} {n : OctreeNode}
    (h : o.node_at s = some n) : o.core_at s = some (n.level_, n.centre_, n.data_) := by
  unfold Octree.core_at
  rw [h]
  rfl

theorem Octree.well_filed_iff (o : Octree) :
    o.well_filed ↔
      ∀ s c, o.core_at s = some c → c.1 = s.level ∧ generate_vector_hash c.2.1 = s.hash := by
  constructor
  · intro h s c hc
    obtain ⟨n, hn, h1, h2, _⟩ := Octree.core_at_eq_some.mp hc
    rw [← h1, ← h2]
    exact h s n hn
  · intro h s n hn
    exact h s _ (Octree.core_at_of_node_at hn)

theorem Octree.pruned_from_refl (o : Octree) : o.pruned_from o :=
  ⟨fun _ _ h => h, fun _ _ h _ => h, fun _ _ => rfl⟩

theorem Octree.pruned_from_trans {o2 o1 o : Octree} (h2 : o2.pruned_from o1)
    (h1 : o1.pruned_from o) : o2.pruned_from o :=
  ⟨fun s c h => h1.1 s c (h2.1 s c h), fun s c h he => h2.2.1 s c (h1.2.1 s c h he) he,
    fun kind id => (h2.2.2 kind id).trans (h1.2.2 kind id)⟩

theorem Octree.well_filed_of_pruned_from {o1 o : Octree} (h : o1.pruned_from o)
    (hwf : o.well_filed) : o1.well_filed := by
  rw [Octree.well_filed_iff] at hwf ⊢
  intro s c hc
  exact hwf s c (h.1 s c hc)

theorem NodeData.ids_eq_nil_of_is_empty {d : NodeData} (h : d.is_empty = true) (kind : Kind) :
    d.ids kind = [] := by
  unfold NodeData.is_empty at h
  simp only [Bool.and_eq_true, List.isEmpty_iff] at h
  cases kind
  · exact h.1.1
  · exact h.1.2
  · exact h.2

/-- The removal of a node with an empty payload. -/
theorem Octree.remove_node_pruned_from {o : Octree} (hwf : o.well_filed) {r : NodeRef}
    {node : OctreeNode} (h : o.node_at r = some node) (hempty : node.is_empty = true) :
    (o.remove_node r).pruned_from o := by
  have hcore := Octree.core_at_remove_node h (hwf r node h)
  refine ⟨?_, ?_, ?_⟩
  · intro s c hc
    rw [hcore s] at hc
    by_cases hs : s = r
    · rw [if_pos hs] at hc
      exact absurd hc (by simp)
    · rw [if_neg hs] at hc
      exact hc
  · intro s c hc hne
    rw [hcore s]
    by_cases hs : s = r
    · rw [hs, Octree.core_at_of_node_at h] at hc
      have hd : node.data_ = c.2.2 := by rw [← Option.some.inj hc]
      unfold OctreeNode.is_empty at hempty
      rw [hd, hne] at hempty
      exact absurd hempty (by simp)
    · rw [if_neg hs]
      exact hc
  · intro kind id
    rw [Octree.locate_remove_node, h]
    simp only []
    rw [NodeData.ids_eq_nil_of_is_empty hempty kind]
    simp

theorem Octree.remove_node_other {o : Octree} (hwf : o.well_filed) (r s : NodeRef)
    (hs : s ≠ r) : (o.remove_node r).core_at s = o.core_at s := by
  cases h : o.node_at r with
  | none => rw [Octree.remove_node_of_none h]
  | some node => rw [Octree.core_at_remove_node h (hwf r node h) s, if_neg hs]

theorem Octree.prune_step_pruned_from (level : Nat) (acc : Octree × Bool)
    (p : VectorHash × OctreeNode) (hwf : acc.1.well_filed) :
    (Octree.prune_step level acc p).1.pruned_from acc.1 := by
  unfold Octree.prune_step
  cases h : acc.1.node_at ⟨level, p.1⟩ with
  | none => exact Octree.pruned_from_refl _
  | some node =>
    simp only []
    by_cases he : node.is_empty = true
    · rw [if_pos he]
      exact Octree.remove_node_pruned_from hwf h he
    · rw [if_neg he]
      exact Octree.pruned_from_refl _

theorem Octree.prune_step_other (level : Nat) (acc : Octree × Bool)
    (p : VectorHash × OctreeNode) (hwf : acc.1.well_filed) (s : NodeRef)
    (hs : s ≠ ⟨level, p.1⟩) :
    (Octree.prune_step level acc p).1.core_at s = acc.1.core_at s := by
  unfold Octree.prune_step
  cases h : acc.1.node_at ⟨level, p.1⟩ with
  | none => rfl
  | some node =>
    simp only []
    by_cases he : node.is_empty = true
    · rw [if_pos he]
      exact Octree.remove_node_other hwf _ s hs
    · rw [if_neg he]

theorem Octree.foldl_prune_step_pruned_from (level : Nat) (ps : LevelNodes)
    (acc : Octree × Bool) (hwf : acc.1.well_filed) :
    (ps.foldl (Octree.prune_step level) acc).1.pruned_from acc.1 := by
  induction ps generalizing acc with
  | nil => exact Octree.pruned_from_refl _
  | cons p ps ih =>
    rw [List.foldl_cons]
    have h1 := Octree.prune_step_pruned_from level acc p hwf
    exact Octree.pruned_from_trans (ih _ (Octree.well_filed_of_pruned_from h1 hwf)) h1

theorem Octree.foldl_prune_step_other (level : Nat) (ps : LevelNodes)
    (acc : Octree × Bool) (hwf : acc.1.well_filed) (s : NodeRef) (hs : s.level ≠ level) :
    (ps.foldl (Octree.prune_step level) acc).1.core_at s = acc.1.core_at s := by
  induction ps generalizing acc with
  | nil => rfl
  | cons p ps ih =>
    rw [List.foldl_cons]
    have h1 := Octree.prune_step_pruned_from level acc p hwf
    rw [ih _ (Octree.well_filed_of_pruned_from h1 hwf)]
    exact Octree.prune_step_other level acc p hwf s (fun e => hs (by rw [e]))

/-- The flag `deleted` after the loop over a level: it was set before, or a node of the copy
had an empty payload. -/
theorem Octree.foldl_prune_step_flag (level : Nat) (ps : LevelNodes) (acc : Octree × Bool) :
    (ps.foldl (Octree.prune_step level) acc).2 = true ↔
      acc.2 = true ∨
        ∃ p ∈ ps, ∃ n, acc.1.node_at ⟨level, p.1⟩ = some n ∧ n.is_empty = true := by
  induction ps generalizing acc with
  | nil => simp
  | cons p ps ih =>
    rw [List.foldl_cons, ih]
    cases h : acc.1.node_at ⟨level, p.1⟩ with
    | none =>
      have hstep : Octree.prune_step level acc p = acc := by
        unfold Octree.prune_step
        rw [h]
      rw [hstep]
      constructor
      · rintro (hb | ⟨q, hq, n, hn, he⟩)
        · exact Or.inl hb
        · exact Or.inr ⟨q, List.mem_cons_of_mem _ hq, n, hn, he⟩
      · rintro (hb | ⟨q, hq, n, hn, he⟩)
        · exact Or.inl hb
        · rcases List.mem_cons.mp hq with hqp | hq
          · rw [hqp, h] at hn
            exact absurd hn (by simp)
          · exact Or.inr ⟨q, hq, n, hn, he⟩
    | some node =>
      by_cases hempty : node.is_empty = true
      · have hstep : Octree.prune_step level acc p = (acc.1.remove_node ⟨level, p.1⟩, true) := by
          unfold Octree.prune_step
          rw [h]
          simp only []
          rw [if_pos hempty]
        rw [hstep]
        constructor
        · intro _
          exact Or.inr ⟨p, List.mem_cons_self _ _, node, h, hempty⟩
        · intro _
          exact Or.inl rfl
      · have hstep : Octree.prune_step level acc p = acc := by
          unfold Octree.prune_step
          rw [h]
          simp only []
          rw [if_neg hempty]
        rw [hstep]
        constructor
        · rintro (hb | ⟨q, hq, n, hn, he⟩)
          · exact Or.inl hb
          · exact Or.inr ⟨q, List.mem_cons_of_mem _ hq, n, hn, he⟩
        · rintro (hb | ⟨q, hq, n, hn, he⟩)
          · exact Or.inl hb
          · rcases List.mem_cons.mp hq with hqp | hq
            · rw [hqp, h] at hn
              rw [← Option.some.inj hn] at he
              exact absurd he hempty
            · exact Or.inr ⟨q, hq, n, hn, he⟩

/-- After the loop over a level, no node under a key of the copy has an empty payload. -/
theorem Octree.foldl_prune_step_no_empty (level : Nat) (ps : LevelNodes) (acc : Octree × Bool)
    (hwf : acc.1.well_filed) (q : VectorHash) (hq : q ∈ ps.map Prod.fst)
    (c : Nat × Vec3 × NodeData)
    (hc : (ps.foldl (Octree.prune_step level) acc).1.core_at ⟨level, q⟩ = some c) :
    c.2.2.is_empty = false := by
  induction ps generalizing acc with
  | nil => simp at hq
  | cons p ps ih =>
    rw [List.foldl_cons] at hc
    have h1 := Octree.prune_step_pruned_from level acc p hwf
    have hwf1 := Octree.well_filed_of_pruned_from h1 hwf
    by_cases hmem : q ∈ ps.map Prod.fst
    · exact ih _ hwf1 hmem hc
    · have hqp : q = p.1 := by
        rw [List.map_cons] at hq
        rcases List.mem_cons.mp hq with h | h
        · exact h
        · exact absurd h hmem
      have h2 := (Octree.foldl_prune_step_pruned_from level ps _ hwf1).1 _ c hc
      rw [hqp] at h2
      unfold Octree.prune_step at h2
      cases h : acc.1.node_at ⟨level, p.1⟩ with
      | none =>
        rw [h] at h2
        simp only [] at h2
        unfold Octree.core_at at h2
        rw [h] at h2
        exact absurd h2 (by simp)
      | some node =>
        rw [h] at h2
        simp only [] at h2
        by_cases hempty : node.is_empty = true
        · rw [if_pos hempty] at h2
          simp only [] at h2
          rw [Octree.core_at_remove_node h (hwf _ node h), if_pos rfl] at h2
          exact absurd h2 (by simp)
        · rw [if_neg hempty, Octree.core_at_of_node_at h] at h2
          rw [← Option.some.inj h2]
          simpa [OctreeNode.is_empty] using hempty

theorem Octree.prune_loop_pruned_from (n : Nat) (o : Octree) (hwf : o.well_filed) :
    (Octree.prune_loop n o).pruned_from o := by
  induction n generalizing o with
  | zero => exact Octree.pruned_from_refl o
  | succ level ih =>
    unfold Octree.prune_loop
    simp only []
    have h1 : (o.prune_level level ((o.levels_.get? level).getD [])).1.pruned_from o :=
      Octree.foldl_prune_step_pruned_from level _ (o, false) hwf
    split_ifs
    · exact Octree.pruned_from_trans (ih _ (Octree.well_filed_of_pruned_from h1 hwf)) h1
    · exact h1

theorem Octree.key_mem_level {o : Octree} {level : Nat} {h : VectorHash}
    {c : Nat × Vec3 × NodeData} (hc : o.core_at ⟨level, h⟩ = some c) :
    h ∈ ((o.levels_.get? level).getD []).map Prod.fst := by
  obtain ⟨n, hn, _⟩ := Octree.core_at_eq_some.mp hc
  unfold Octree.node_at at hn
  simp only [] at hn
  cases hl : o.levels_.get? level with
  | none =>
    rw [hl] at hn
    exact absurd hn (by simp)
  | some nodes =>
    rw [hl] at hn
    simp only [] at hn
    exact List.mem_map.mpr ⟨(h, n), table_find_mem hn, rfl⟩

/-- An empty payload survives the loop of `prune_empty_nodes` only above a level that had no
node with an empty payload. -/
theorem Octree.prune_loop_scanned (n : Nat) (o : Octree) (hwf : o.well_filed) (s : NodeRef)
    (c : Nat × Vec3 × NodeData) (hc : (Octree.prune_loop n o).core_at s = some c)
    (hempty : c.2.2.is_empty = true) (hs : s.level < n) :
    ∃ level, s.level < level ∧ level < n ∧
      ∀ h c1, o.core_at ⟨level, h⟩ = some c1 → c1.2.2.is_empty = false := by
  induction n generalizing o with
  | zero => exact absurd hs (Nat.not_lt_zero _)
  | succ level ih =>
    unfold Octree.prune_loop at hc
    simp only [] at hc
    have h1 : (o.prune_level level ((o.levels_.get? level).getD [])).1.pruned_from o :=
      Octree.foldl_prune_step_pruned_from level _ (o, false) hwf
    have hwf1 := Octree.well_filed_of_pruned_from h1 hwf
    have hflag := Octree.foldl_prune_step_flag level ((o.levels_.get? level).getD []) (o, false)
    have hnot : ∀ t, ¬ ((⟨t.level, t.hash⟩ : NodeRef).level = level ∧
        ∃ c1, (o.prune_level level ((o.levels_.get? level).getD [])).1.core_at t = some c1 ∧
          c1.2.2.is_empty = true) := by
      rintro ⟨tl, th⟩ ⟨htl, c1, hc1, he1⟩
      simp only [] at htl
      subst htl
      have hin := Octree.key_mem_level (h1.1 _ c1 hc1)
      have := Octree.foldl_prune_step_no_empty tl _ (o, false) hwf th hin c1 hc1
      rw [this] at he1
      exact absurd he1 (by simp)
    by_cases hb : (o.prune_level level ((o.levels_.get? level).getD [])).2 = true
    · rw [if_pos hb] at hc
      by_cases hsl : s.level = level
      · exfalso
        have h2 := (Octree.prune_loop_pruned_from level _ hwf1).1 s c hc
        exact hnot s ⟨hsl, c, h2, hempty⟩
      · have hlt : s.level < level := by omega
        obtain ⟨l1, hl1, hl2, hl3⟩ := ih _ hwf1 hc hlt
        refine ⟨l1, hl1, by omega, ?_⟩
        intro h c1 hc1
        have hne : (⟨l1, h⟩ : NodeRef).level ≠ level := by
          simp only []
          omega
        have h3 : (o.prune_level level ((o.levels_.get? level).getD [])).1.core_at ⟨l1, h⟩
            = o.core_at ⟨l1, h⟩ :=
          Octree.foldl_prune_step_other level _ (o, false) hwf ⟨l1, h⟩ hne
        rw [← h3] at hc1
        exact hl3 h c1 hc1
    · rw [if_neg hb] at hc
      by_cases hsl : s.level = level
      · exfalso
        exact hnot s ⟨hsl, c, hc, hempty⟩
      · refine ⟨level, by omega, Nat.lt_succ_self _, ?_⟩
        intro h c1 hc1
        cases he : c1.2.2.is_empty with
        | false => rfl
        | true =>
          exfalso
          apply hb
          apply hflag.mpr
          right
          obtain ⟨n1, hn1, _, _, hd⟩ := Octree.core_at_eq_some.mp hc1
          obtain ⟨p, hp, hp1⟩ := List.mem_map.mp (Octree.key_mem_level hc1)
          refine ⟨p, hp, n1, ?_, ?_⟩
          · rw [hp1]
            exact hn1
          · unfold OctreeNode.is_empty
            rw [hd]
            exact he

theorem Octree.locate_prune_empty_nodes_shrinks (o : Octree) (kind : Kind) (id : Nat)
    (h : o.locate kind id = none) : o.prune_empty_nodes.locate kind id = none := by
  have hstep : ∀ level (acc : Octree × Bool) p, acc.1.locate kind id = none →
      (Octree.prune_step level acc p).1.locate kind id = none := by
    intro level acc p hacc
    unfold Octree.prune_step
    cases hn : acc.1.node_at ⟨level, p.1⟩ with
    | none => exact hacc
    | some node =>
      simp only []
      split_ifs
      · simp only []
        rw [Octree.locate_remove_node, hn]
        simp only []
        split_ifs
        · rfl
        · exact hacc
      · exact hacc
  have hfold : ∀ level (ps : LevelNodes) (acc : Octree × Bool), acc.1.locate kind id = none →
      (ps.foldl (Octree.prune_step level) acc).1.locate kind id = none := by
    intro level ps
    induction ps with
    | nil => exact fun _ hacc => hacc
    | cons p ps ih => exact fun acc hacc => ih _ (hstep level acc p hacc)
  have hloop : ∀ n (o1 : Octree), o1.locate kind id = none →
      (Octree.prune_loop n o1).locate kind id = none := by
    intro n
    induction n with
    | zero => exact fun _ ho1 => ho1
    | succ level ih =>
      intro o1 ho1
      unfold Octree.prune_loop
      simp only []
      have h2 := hfold level ((o1.levels_.get? level).getD []) (o1, false) ho1
      split_ifs
      · exact ih _ h2
      · exact h2
  exact hloop _ o h

end kglt

/-! ## Removal of objects, and pruning -/

namespace kglt
open smlt (Vec3 AABB)

theorem levels_filed_spec (i : Nat) (ls : List LevelNodes) (h : levels_filed i ls = true)
    (j : Nat) (nodes : LevelNodes) (hj : ls[j]? = some nodes) (p : VectorHash × OctreeNode)
    (hp : p ∈ nodes) : p.2.level_ = i + j ∧ generate_vector_hash p.2.centre_ = p.1 := by
  induction ls generalizing i j with
  | nil => simp at hj
  | cons l ls ih =>
    unfold levels_filed at h
    rw [Bool.and_eq_true] at h
    cases j with
    | zero =>
      simp only [List.getElem?_cons_zero, Option.some.injEq] at hj
      rw [hj] at h
      have := List.all_eq_true.mp h.1 p hp
      simpa using this
    | succ j =>
      simp only [List.getElem?_cons_succ] at hj
      have := ih (i + 1) h.2 j hj
      rw [show i + (j + 1) = i + 1 + j by omega]
      exact this

theorem Octree.well_filed_of_levels_filed (o : Octree) (h : levels_filed 0 o.levels_ = true) :
    o.well_filed := by
  intro r n hn
  rw [Octree.node_at_eq] at hn
  cases hl : o.levels_[r.level]? with
  | none =>
    rw [hl] at hn
    simp at hn
  | some nodes =>
    rw [hl] at hn
    simp only [Option.some_bind] at hn
    have := levels_filed_spec 0 o.levels_ h r.level nodes hl (r.hash, n) (table_find_mem hn)
    simpa using this

theorem Octree.locate_actor_remove_actor (o : Octree) (id : Nat) :
    (o.remove_actor id).locate_actor id = none := by
  unfold Octree.remove_actor
  cases h : o.locate_actor id with
  | none => exact h
  | some node =>
    simp only []
    have h2 : ∀ (o2 : Octree), o2.actor_lookup_ = table_erase o.actor_lookup_ id →
        o2.locate .actor id = none := by
      intro o2 ho2
      unfold Octree.locate Octree.locate_actor
      simp only []
      rw [ho2, table_find_erase_self]
    generalize hg : ({ o.modify_node node fun n =>
        { n with
          data_ := { n.data_ with actor_ids_ := table_erase n.data_.actor_ids_ id } } with
      actor_lookup_ := table_erase (o.modify_node node fun n =>
        { n with
          data_ :=
            { n.data_ with actor_ids_ := table_erase n.data_.actor_ids_ id } }).actor_lookup_
          id } : Octree) = o2
    have h3 : o2.locate .actor id = none := h2 o2 (by rw [← hg]; rfl)
    cases o2.node_at node with
    | none => exact h3
    | some n =>
      simp only []
      split_ifs
      · exact Octree.locate_prune_empty_nodes_shrinks o2 .actor id h3
      · exact h3

theorem Octree.locate_light_remove_light (o : Octree) (id : Nat) :
    (o.remove_light id).locate_light id = none := by
  unfold Octree.remove_light
  cases h : o.locate_light id with
  | none => exact h
  | some node =>
    simp only []
    have h2 : ∀ (o2 : Octree), o2.light_lookup_ = table_erase o.light_lookup_ id →
        o2.locate .light id = none := by
      intro o2 ho2
      unfold Octree.locate Octree.locate_light
      simp only []
      rw [ho2, table_find_erase_self]
    generalize hg : ({ o.modify_node node fun n =>
        { n with
          data_ := { n.data_ with light_ids_ := table_erase n.data_.light_ids_ id } } with
      light_lookup_ := table_erase (o.modify_node node fun n =>
        { n with
          data_ :=
            { n.data_ with light_ids_ := table_erase n.data_.light_ids_ id } }).light_lookup_
          id } : Octree) = o2
    have h3 : o2.locate .light id = none := h2 o2 (by rw [← hg]; rfl)
    cases o2.node_at node with
    | none => exact h3
    | some n =>
      simp only []
      split_ifs
      · exact Octree.locate_prune_empty_nodes_shrinks o2 .light id h3
      · exact h3

/-- C9. For every octree state and every identifier, `insert_actor(id)` followed by
`remove_actor(id)` leaves no entry for the identifier in the lookup table of the actors, and
`locate_actor(id)` finds no node.  The same holds for `insert_light(id)` followed by
`remove_light(id)`, the lookup table of the lights and `locate_light(id)`. -/
theorem locate_none_after_insert_then_remove (cfg : Config) (fuel : Nat) (o : Octree)
    (id : Nat) :
    table_find ((Octree.insert_actor cfg fuel o id).state.remove_actor id).actor_lookup_ id
      = none ∧
    ((Octree.insert_actor cfg fuel o id).state.remove_actor id).locate_actor id = none ∧
    table_find ((Octree.insert_light cfg fuel o id).state.remove_light id).light_lookup_ id
      = none ∧
    ((Octree.insert_light cfg fuel o id).state.remove_light id).locate_light id = none :=
  ⟨Octree.locate_actor_remove_actor _ id, Octree.locate_actor_remove_actor _ id,
    Octree.locate_light_remove_light _ id, Octree.locate_light_remove_light _ id⟩

theorem Octree.data_of_core {o1 : Octree} {s : NodeRef} {n : OctreeNode}
    (h : o1.core_at s = some (n.level_, n.centre_, n.data_)) :
    ∃ n1, o1.node_at s = some n1 ∧ n1.data_ = n.data_ := by
  obtain ⟨n1, hn1, _, _, hd⟩ := Octree.core_at_eq_some.mp h
  exact ⟨n1, hn1, hd⟩

/-- C10 (amended). In an octree whose nodes are filed at their level under the hash of their
centre, `prune_empty_nodes` removes nodes with an empty payload only: a node with a non-empty
payload stays, with its payload; every node left was there before, with the same payload; the
lookup tables are unchanged.  It scans the levels from the deepest one upward and stops at the
first level in which no payload is empty: a node with an empty payload is left only at a level
above a level in which no node had an empty payload. -/
theorem prune_empty_nodes_removes_only_empty_nodes (o : Octree) (hwf : o.well_filed) :
    (∀ s n, o.node_at s = some n → n.is_empty = false →
      ∃ n1, o.prune_empty_nodes.node_at s = some n1 ∧ n1.data_ = n.data_) ∧
    (∀ s n1, o.prune_empty_nodes.node_at s = some n1 →
      ∃ n, o.node_at s = some n ∧ n.data_ = n1.data_) ∧
    (∀ kind id, o.prune_empty_nodes.locate kind id = o.locate kind id) ∧
    (∀ s n1, o.prune_empty_nodes.node_at s = some n1 → n1.is_empty = true →
      ∃ level, s.level < level ∧ level < o.levels_.length ∧
        ∀ h n, o.node_at ⟨level, h⟩ = some n → n.is_empty = false) := by
  have hp : o.prune_empty_nodes.pruned_from o := Octree.prune_loop_pruned_from _ o hwf
  refine ⟨?_, ?_, hp.2.2, ?_⟩
  · intro s n hn hne
    exact Octree.data_of_core (hp.2.1 s _ (Octree.core_at_of_node_at hn) hne)
  · intro s n1 hn1
    exact Octree.data_of_core (hp.1 s _ (Octree.core_at_of_node_at hn1))
  · intro s n1 hn1 hempty
    have hc := Octree.core_at_of_node_at hn1
    obtain ⟨n, hn, _⟩ := Octree.data_of_core (hp.1 s _ hc)
    have hlt : s.level < o.levels_.length := Octree.node_at_level_lt hn
    obtain ⟨level, h1, h2, h3⟩ :=
      Octree.prune_loop_scanned o.levels_.length o hwf s _ hc hempty hlt
    refine ⟨level, h1, h2, ?_⟩
    intro h m hm
    exact h3 h _ (Octree.core_at_of_node_at hm)

set_option maxRecDepth 100000 in
unseal Rat.add Rat.mul Rat.inv Rat.sub in
theorem prune_example_levels_filed : levels_filed 0 prune_example.levels_ = true := by
  decide

set_option maxRecDepth 100000 in
unseal Rat.add Rat.mul Rat.inv Rat.sub in
theorem prune_example_levels :
    prune_example.payload_ids .actor ⟨1, (250, 50, 50)⟩ = some [2] ∧
    prune_example.payload_ids .actor ⟨0, (200, 0, 0)⟩ = some [] := by
  decide

/-- C10 (amended), on the octree of the actors example with actor 1 removed: the root has an
empty payload, its child holds actor 2. -/
theorem prune_empty_nodes_removes_only_empty_nodes_witness :
    prune_example.well_filed ∧
    (prune_example.payload_ids .actor ⟨1, (250, 50, 50)⟩ = some [2] ∧
      prune_example.payload_ids .actor ⟨0, (200, 0, 0)⟩ = some []) ∧
    ((∀ s n, prune_example.node_at s = some n → n.is_empty = false →
      ∃ n1, prune_example.prune_empty_nodes.node_at s = some n1 ∧ n1.data_ = n.data_) ∧
    (∀ s n1, prune_example.prune_empty_nodes.node_at s = some n1 →
      ∃ n, prune_example.node_at s = some n ∧ n.data_ = n1.data_) ∧
    (∀ kind id, prune_example.prune_empty_nodes.locate kind id = prune_example.locate kind id) ∧
    (∀ s n1, prune_example.prune_empty_nodes.node_at s = some n1 → n1.is_empty = true →
      ∃ level, s.level < level ∧ level < prune_example.levels_.length ∧
        ∀ h n, prune_example.node_at ⟨level, h⟩ = some n → n.is_empty = false)) :=
  ⟨Octree.well_filed_of_levels_filed _ prune_example_levels_filed, prune_example_levels,
    prune_empty_nodes_removes_only_empty_nodes prune_example
      (Octree.well_filed_of_levels_filed _ prune_example_levels_filed)⟩

end kglt

/-! ## Payloads across the operations of the octree -/

namespace kglt
open smlt (Vec3 AABB)

theorem Octree.holds_iff_core (o : Octree) (kind : Kind) (id : Nat) (r : NodeRef) :
    o.holds kind id r ↔
      ∃ c, o.core_at r = some c ∧ (table_find (c.2.2.ids kind) id).isSome = true := by
  unfold Octree.holds
  constructor
  · rintro ⟨n, hn, hf⟩
    exact ⟨_, Octree.core_at_of_node_at hn, hf⟩
  · rintro ⟨c, hc, hf⟩
    obtain ⟨n, hn, _, _, hd⟩ := Octree.core_at_eq_some.mp hc
    exact ⟨n, hn, by rw [hd]; exact hf⟩

theorem NodeData.find_of_is_empty {d : NodeData} (h : d.is_empty = true) (kind : Kind)
    (id : Nat) : (table_find (d.ids kind) id).isSome = false := by
  rw [NodeData.ids_eq_nil_of_is_empty h kind]
  rfl

theorem Octree.same_payloads_refl (o : Octree) : o.same_payloads o :=
  ⟨fun _ _ h => Or.inl h, fun _ _ h => Or.inl h⟩

theorem Octree.same_payloads_trans {o2 o1 o : Octree} (h2 : o2.same_payloads o1)
    (h1 : o1.same_payloads o) : o2.same_payloads o := by
  refine ⟨?_, ?_⟩
  · intro s c hc
    rcases h2.1 s c hc with h | h
    · exact h1.1 s c h
    · exact Or.inr h
  · intro s c hc
    rcases h1.2 s c hc with h | h
    · exact h2.2 s c h
    · exact Or.inr h

theorem Octree.same_payloads_of_core_eq {o1 o : Octree} (h : ∀ s, o1.core_at s = o.core_at s) :
    o1.same_payloads o :=
  ⟨fun s c hc => Or.inl (by rw [← h s]; exact hc), fun s c hc => Or.inl (by rw [h s]; exact hc)⟩

theorem Octree.same_payloads_of_pruned_from {o1 o : Octree} (h : o1.pruned_from o) :
    o1.same_payloads o := by
  refine ⟨fun s c hc => Or.inl (h.1 s c hc), ?_⟩
  intro s c hc
  cases he : c.2.2.is_empty with
  | true => exact Or.inr rfl
  | false => exact Or.inl (h.2.1 s c hc he)

theorem Octree.holds_of_same_payloads {o1 o : Octree} (h : o1.same_payloads o) (kind : Kind)
    (id : Nat) (r : NodeRef) : o1.holds kind id r ↔ o.holds kind id r := by
  rw [Octree.holds_iff_core, Octree.holds_iff_core]
  constructor
  · rintro ⟨c, hc, hf⟩
    rcases h.1 r c hc with h1 | h1
    · exact ⟨c, h1, hf⟩
    · rw [NodeData.find_of_is_empty h1.1] at hf
      exact absurd hf (by simp)
  · rintro ⟨c, hc, hf⟩
    rcases h.2 r c hc with h1 | h1
    · exact ⟨c, h1, hf⟩
    · rw [NodeData.find_of_is_empty h1] at hf
      exact absurd hf (by simp)

theorem Octree.held_of_same_payloads {o1 o : Octree} (h : o1.same_payloads o) (kind : Kind)
    (id : Nat) : o1.held kind id ↔ o.held kind id := by
  unfold Octree.held
  constructor
  · rintro ⟨r, hr⟩
    exact ⟨r, (Octree.holds_of_same_payloads h kind id r).mp hr⟩
  · rintro ⟨r, hr⟩
    exact ⟨r, (Octree.holds_of_same_payloads h kind id r).mpr hr⟩

theorem Octree.sound_iff_core (o : Octree) :
    o.sound ↔
      (∀ s c, o.core_at s = some c → c.1 = s.level ∧ generate_vector_hash c.2.1 = s.hash) ∧
      (∀ s c kind, o.core_at s = some c → ((c.2.2.ids kind).map Prod.fst).Nodup) ∧
      (∀ kind id r s, o.holds kind id r → o.holds kind id s → r = s) := by
  unfold Octree.sound
  rw [Octree.well_filed_iff]
  constructor
  · rintro ⟨h1, h2, h3⟩
    refine ⟨h1, ?_, h3⟩
    intro s c kind hc
    obtain ⟨n, hn, _, _, hd⟩ := Octree.core_at_eq_some.mp hc
    rw [← hd]
    exact h2 s n kind hn
  · rintro ⟨h1, h2, h3⟩
    refine ⟨h1, ?_, h3⟩
    intro s n kind hn
    exact h2 s _ kind (Octree.core_at_of_node_at hn)

theorem Octree.sound_of_same_payloads {o1 o : Octree} (h : o1.same_payloads o)
    (hs : o.sound) : o1.sound := by
  rw [Octree.sound_iff_core] at hs ⊢
  obtain ⟨h1, h2, h3⟩ := hs
  refine ⟨?_, ?_, ?_⟩
  · intro s c hc
    rcases h.1 s c hc with hc1 | hc1
    · exact h1 s c hc1
    · exact hc1.2
  · intro s c kind hc
    rcases h.1 s c hc with hc1 | hc1
    · exact h2 s c kind hc1
    · rw [NodeData.ids_eq_nil_of_is_empty hc1.1 kind]
      exact List.nodup_nil
  · intro kind id r s hr hs
    exact h3 kind id r s ((Octree.holds_of_same_payloads h kind id r).mp hr)
      ((Octree.holds_of_same_payloads h kind id s).mp hs)

theorem Octree.sound_empty : ({} : Octree).sound := by
  refine ⟨?_, ?_, ?_⟩
  · intro r n hn
    rw [Octree.node_at_eq] at hn
    simp at hn
  · intro r n kind hn
    rw [Octree.node_at_eq] at hn
    simp at hn
  · rintro kind id r s ⟨n, hn, _⟩
    rw [Octree.node_at_eq] at hn
    simp at hn

/-! ### Creating nodes -/

theorem Octree.core_at_congr {o1 o : Octree} (h : o1.levels_ = o.levels_) (s : NodeRef) :
    o1.core_at s = o.core_at s := by
  unfold Octree.core_at
  rw [Octree.node_at_eq, Octree.node_at_eq, h]

theorem Octree.core_at_push_level (o o1 : Octree) (h : o1.levels_ = o.levels_ ++ [[]])
    (s : NodeRef) : o1.core_at s = o.core_at s := by
  unfold Octree.core_at
  rw [Octree.node_at_eq, Octree.node_at_eq, h]
  by_cases hlt : s.level < o.levels_.length
  · rw [List.getElem?_append_left hlt]
  · have hge : o.levels_.length ≤ s.level := Nat.le_of_not_lt hlt
    rw [List.getElem?_eq_none hge]
    by_cases heq : s.level = o.levels_.length
    · rw [heq, List.getElem?_append_right (Nat.le_refl _)]
      simp [table_find_nil]
    · rw [List.getElem?_eq_none]
      simp only [List.length_append, List.length_singleton]
      omega

/-- The table of a level after the new node has been put in. -/
theorem Octree.core_at_insert_node (o o1 : Octree) (level : Nat) (c : Vec3)
    (h : o1.levels_ = o.levels_.modify
      (fun nodes => table_insert nodes (generate_vector_hash c) ⟨level, c, {}, none, []⟩) level) :
    o1.same_payloads o ∧
      (level < o.levels_.length → (o1.node_at ⟨level, generate_vector_hash c⟩).isSome) := by
  have hnode : ∀ s, o1.node_at s =
      if s.level = level then (o.levels_[level]?).bind fun nodes =>
        table_find (table_insert nodes (generate_vector_hash c) ⟨level, c, {}, none, []⟩) s.hash
      else o.node_at s := fun s => Octree.node_at_modify_levels o _ level _ rfl s o1 h
  have hcore : ∀ s, o1.core_at s = o.core_at s ∨
      (o1.core_at s = some (level, c, {}) ∧ s = ⟨level, generate_vector_hash c⟩ ∧
        o.core_at s = none) := by
    intro s
    unfold Octree.core_at
    rw [hnode s]
    by_cases hl : s.level = level
    · rw [if_pos hl, Octree.node_at_eq, hl]
      cases o.levels_[level]? with
      | none => exact Or.inl rfl
      | some nodes =>
        simp only [Option.some_bind]
        rw [table_find_insert]
        by_cases hh : s.hash = generate_vector_hash c
        · rw [if_pos hh, hh]
          cases hf : table_find nodes (generate_vector_hash c) with
          | none =>
            right
            exact ⟨rfl, (NodeRef.ref_eq_iff _ _).mpr ⟨hl, hh⟩, rfl⟩
          | some n => exact Or.inl rfl
        · rw [if_neg hh]
          exact Or.inl rfl
    · rw [if_neg hl]
      exact Or.inl rfl
  refine ⟨⟨?_, ?_⟩, ?_⟩
  · intro s c1 hc1
    rcases hcore s with h1 | ⟨h1, h2, _⟩
    · rw [h1] at hc1
      exact Or.inl hc1
    · rw [h1] at hc1
      rw [← Option.some.inj hc1, h2]
      exact Or.inr ⟨rfl, rfl, rfl⟩
  · intro s c1 hc1
    rcases hcore s with h1 | ⟨_, _, h3⟩
    · rw [← h1] at hc1
      exact Or.inl hc1
    · rw [h3] at hc1
      exact absurd hc1 (by simp)
  · intro hlt
    rw [hnode, if_pos rfl, List.getElem?_eq_getElem hlt]
    simp only [Option.some_bind]
    rw [table_find_insert, if_pos rfl]
    rfl

theorem Octree.same_payloads_modify_node (o : Octree) (r : NodeRef)
    (f : OctreeNode → OctreeNode)
    (hf : ∀ n, (f n).level_ = n.level_ ∧ (f n).centre_ = n.centre_ ∧ (f n).data_ = n.data_) :
    (o.modify_node r f).same_payloads o :=
  Octree.same_payloads_of_core_eq (Octree.core_at_modify_node o r f hf)

theorem Octree.node_at_isSome_modify_node (o : Octree) (r : NodeRef)
    (f : OctreeNode → OctreeNode) (s : NodeRef) :
    ((o.modify_node r f).node_at s).isSome = (o.node_at s).isSome := by
  rw [Octree.node_at_modify_node]
  by_cases h : s = r
  · rw [if_pos h, h]
    cases o.node_at r <;> rfl
  · rw [if_neg h]

/-- The call `create_node` leaves the payloads as they are, whether it returns or throws, and
the node it returns is in the octree. -/
theorem Octree.create_node_spec (o : Octree) (level : Nat) (c : Vec3) :
    (o.create_node level c).state.same_payloads o ∧
      ∀ node, (o.create_node level c).value = .ok node →
        ((o.create_node level c).state.node_at node).isSome := by
  unfold Octree.create_node
  simp only []
  by_cases hlen : o.levels_.length ≤ level
  · rw [if_pos hlen]
    exact ⟨Octree.same_payloads_refl o, fun node h => absurd h (by simp)⟩
  · rw [if_neg hlen]
    have hlt : level < o.levels_.length := Nat.lt_of_not_le hlen
    generalize ho1 : ({ o with
        levels_ := o.levels_.modify
          (fun nodes => table_insert nodes (generate_vector_hash c) ⟨level, c, {}, none, []⟩)
          level,
        node_count_ := o.node_count_ + 1 } : Octree) = o1
    have h1 := Octree.core_at_insert_node o o1 level c (by rw [← ho1])
    have hsome := h1.2 hlt
    by_cases hpos : level > 0
    · rw [if_pos hpos]
      cases o1.find_node_centre_for_point (level - 1) c with
      | error e => exact ⟨h1.1, fun node h => absurd h (by simp)⟩
      | ok parent_centre =>
        simp only []
        cases o1.node_at ⟨level - 1, generate_vector_hash parent_centre⟩ with
        | none => exact ⟨h1.1, fun node h => absurd h (by simp)⟩
        | some pn =>
          simp only []
          refine ⟨?_, ?_⟩
          · refine Octree.same_payloads_trans (Octree.same_payloads_modify_node _ _ _ ?_)
              (Octree.same_payloads_trans (Octree.same_payloads_modify_node _ _ _ ?_) h1.1)
            · exact fun n => ⟨rfl, rfl, rfl⟩
            · exact fun n => ⟨rfl, rfl, rfl⟩
          · intro node hnode
            have hn : node = ⟨level, generate_vector_hash c⟩ := by
              simp only [Except.ok.injEq] at hnode
              exact hnode.symm
            rw [hn, Octree.node_at_isSome_modify_node, Octree.node_at_isSome_modify_node]
            exact hsome
    · rw [if_neg hpos]
      refine ⟨h1.1, ?_⟩
      intro node hnode
      have hn : node = ⟨level, generate_vector_hash c⟩ := by
        simp only [Except.ok.injEq] at hnode
        exact hnode.symm
      rw [hn]
      exact hsome

end kglt

/-! ## Insertion and splitting keep the objects -/

namespace kglt
open smlt (Vec3 AABB)

theorem Octree.get_or_create_node_spec (o : Octree) (level : Nat) (c : Vec3) :
    (o.get_or_create_node level c).state.same_payloads o := by
  unfold Octree.get_or_create_node
  simp only []
  by_cases hlt : o.levels_.length < level
  · rw [if_pos hlt]
    exact Octree.same_payloads_refl o
  · rw [if_neg hlt]
    generalize ho1 : (if o.levels_.length = level then
        ({ o with levels_ := o.levels_ ++ [[]] } : Octree) else o) = o1
    have h1 : o1.same_payloads o := by
      rw [← ho1]
      split_ifs
      · exact Octree.same_payloads_of_core_eq (Octree.core_at_push_level o _ rfl)
      · exact Octree.same_payloads_refl o
    cases o1.node_at ⟨level, generate_vector_hash c⟩ with
    | some n => exact h1
    | none =>
      simp only []
      have h2 := (Octree.create_node_spec o1 level c).1
      cases (o1.create_node level c).value with
      | error e => exact Octree.same_payloads_trans h2 h1
      | ok node => exact Octree.same_payloads_trans h2 h1

theorem Octree.get_or_create_node_for_spec (o : Octree) (aabb : AABB) :
    (o.get_or_create_node_for aabb).state.same_payloads o ∧
      ∀ node, (o.get_or_create_node_for aabb).value = .ok node →
        ((o.get_or_create_node_for aabb).state.node_at node).isSome := by
  unfold Octree.get_or_create_node_for
  by_cases hz : has_zero_area aabb = true
  · rw [if_pos hz]
    exact ⟨Octree.same_payloads_refl o, fun node h => absurd h (by simp)⟩
  · rw [if_neg hz]
    by_cases he : o.levels_.isEmpty = true
    · rw [if_pos he]
      simp only []
      generalize ho1 : ({ o with levels_ := o.levels_ ++ [[]] } : Octree) = o1
      have h1 : o1.same_payloads o :=
        Octree.same_payloads_of_core_eq (Octree.core_at_push_level o o1 (by rw [← ho1]))
      have h2 := Octree.create_node_spec o1 0 (centre aabb)
      cases hv : (o1.create_node 0 (centre aabb)).value with
      | error e =>
        exact ⟨Octree.same_payloads_trans h2.1 h1, fun node h => absurd h (by simp)⟩
      | ok new_node =>
        simp only []
        refine ⟨?_, ?_⟩
        · exact Octree.same_payloads_trans
            (Octree.same_payloads_of_core_eq (Octree.core_at_congr rfl)) 
            (Octree.same_payloads_trans h2.1 h1)
        · intro node hnode
          have hn : node = new_node := by
            simp only [Except.ok.injEq] at hnode
            exact hnode.symm
          rw [hn]
          exact h2.2 new_node hv
    · rw [if_neg he]
      cases o.find_best_existing_node aabb with
      | error e => exact ⟨Octree.same_payloads_refl o, fun node h => absurd h (by simp)⟩
      | ok lh =>
        obtain ⟨level, hash⟩ := lh
        simp only []
        by_cases hneg : level < 0
        · rw [if_pos hneg]
          exact ⟨Octree.same_payloads_refl o, fun node h => absurd h (by simp)⟩
        · rw [if_neg hneg]
          cases hn : o.node_at ⟨level.toNat, hash⟩ with
          | none => exact ⟨Octree.same_payloads_refl o, fun node h => absurd h (by simp)⟩
          | some n =>
            refine ⟨Octree.same_payloads_refl o, ?_⟩
            intro node hnode
            have hnd : node = ⟨level.toNat, hash⟩ := by
              simp only [Except.ok.injEq] at hnode
              exact hnode.symm
            simp only []
            rw [hnd, hn]
            rfl

theorem Octree.create_child_spec (node : NodeRef) (acc : Res (List NodeRef)) (v : Vec3) :
    (Octree.create_child node acc v).state.same_payloads acc.state := by
  unfold Octree.create_child
  cases acc.value with
  | error e => exact Octree.same_payloads_refl _
  | ok nodes_created =>
    simp only []
    have h1 := Octree.get_or_create_node_spec acc.state (node.level + 1) v
    cases (acc.state.get_or_create_node (node.level + 1) v).value with
    | error e => exact h1
    | ok cb =>
      obtain ⟨child, b⟩ := cb
      cases b with
      | false => exact h1
      | true =>
        simp only []
        refine Octree.same_payloads_trans (Octree.same_payloads_modify_node _ _ _ ?_) h1
        exact fun n => ⟨rfl, rfl, rfl⟩

theorem Octree.create_children_spec (o : Octree) (node : NodeRef) (centres : List Vec3) :
    (o.create_children node centres).state.same_payloads o := by
  unfold Octree.create_children
  have h : ∀ (acc : Res (List NodeRef)),
      (centres.foldl (Octree.create_child node) acc).state.same_payloads acc.state := by
    induction centres with
    | nil => exact fun acc => Octree.same_payloads_refl _
    | cons v vs ih =>
      intro acc
      rw [List.foldl_cons]
      exact Octree.same_payloads_trans (ih _) (Octree.create_child_spec node acc v)
  exact h _

theorem Octree.remove_if_empty_spec (st : Octree) (c : NodeRef) (hwf : st.well_filed) :
    (st.remove_if_empty c).pruned_from st := by
  unfold Octree.remove_if_empty
  cases h : st.node_at c with
  | none => exact Octree.pruned_from_refl st
  | some m =>
    simp only []
    by_cases he : m.is_empty = true
    · rw [if_pos he]
      exact Octree.remove_node_pruned_from hwf h he
    · rw [if_neg he]
      exact Octree.pruned_from_refl st

theorem Octree.foldl_remove_if_empty_spec (cs : List NodeRef) (st : Octree)
    (hwf : st.well_filed) : (cs.foldl Octree.remove_if_empty st).pruned_from st := by
  induction cs generalizing st with
  | nil => exact Octree.pruned_from_refl st
  | cons c cs ih =>
    rw [List.foldl_cons]
    have h1 := Octree.remove_if_empty_spec st c hwf
    exact Octree.pruned_from_trans (ih _ (Octree.well_filed_of_pruned_from h1 hwf)) h1

end kglt

namespace kglt
open smlt (Vec3 AABB)

theorem table_insert_keys_nodup {β : Type} (t : List (Nat × β)) (k : Nat) (v : β)
    (h : (t.map Prod.fst).Nodup) : ((table_insert t k v).map Prod.fst).Nodup := by
  unfold table_insert
  by_cases hk : (table_find t k).isSome = true
  · rw [if_pos hk]
    exact h
  · rw [if_neg hk, List.map_append, List.map_singleton]
    refine List.Nodup.append h (List.nodup_singleton _) ?_
    intro x hx hx1
    rw [List.mem_singleton] at hx1
    obtain ⟨p, hp, hp1⟩ := List.mem_map.mp hx
    apply hk
    have := table_find_isSome_of_mem hp
    rw [hp1, hx1] at this
    exact this

theorem table_find_isSome_iff_mem_keys {β : Type} (t : List (Nat × β)) (k : Nat) :
    (table_find t k).isSome = true ↔ k ∈ t.map Prod.fst := by
  constructor
  · intro h
    obtain ⟨v, hv⟩ := Option.isSome_iff_exists.mp h
    exact List.mem_map.mpr ⟨(k, v), table_find_mem hv, rfl⟩
  · intro h
    obtain ⟨p, hp, hp1⟩ := List.mem_map.mp h
    rw [← hp1]
    exact table_find_isSome_of_mem hp

theorem table_find_insert_isSome {β : Type} (t : List (Nat × β)) (k : Nat) (v : β) (i : Nat) :
    (table_find (table_insert t k v) i).isSome = true ↔
      ((table_find t i).isSome = true ∨ i = k) := by
  rw [table_find_insert]
  by_cases h : i = k
  · simp [h]
  · simp [h]

theorem Octree.place_levels (cfg : Config) (kind : Kind) (id : Nat) (o : Octree)
    (node : NodeRef) (h : (o.place cfg kind id).value = .ok node) :
    ∃ f : OctreeNode → OctreeNode,
      (∀ n, (f n).level_ = n.level_ ∧ (f n).centre_ = n.centre_ ∧
        ∀ k, (f n).data_.ids k =
          if k = kind then table_insert (n.data_.ids k) id (cfg.aabb kind id)
          else n.data_.ids k) ∧
      (o.get_or_create_node_for (cfg.aabb kind id)).value = .ok node ∧
      (o.place cfg kind id).state.levels_ =
        ((o.get_or_create_node_for (cfg.aabb kind id)).state.modify_node node f).levels_ := by
  unfold Octree.place at h ⊢
  simp only [] at h ⊢
  cases hv : (o.get_or_create_node_for (cfg.aabb kind id)).value with
  | error e =>
    rw [hv] at h
    exact absurd h (by simp)
  | ok nd =>
    rw [hv] at h
    simp only []
    cases kind with
    | actor =>
      simp only [Except.ok.injEq] at h
      subst h
      simp only []
      refine ⟨_, ?_, trivial, rfl⟩
      intro n
      refine ⟨rfl, rfl, ?_⟩
      intro k
      cases k <;> simp [NodeData.ids]
    | light =>
      simp only [Except.ok.injEq] at h
      subst h
      simp only []
      refine ⟨_, ?_, trivial, rfl⟩
      intro n
      refine ⟨rfl, rfl, ?_⟩
      intro k
      cases k <;> simp [NodeData.ids]
    | particle_system =>
      simp only [Except.ok.injEq] at h
      subst h
      simp only []
      refine ⟨_, ?_, trivial, rfl⟩
      intro n
      refine ⟨rfl, rfl, ?_⟩
      intro k
      cases k <;> simp [NodeData.ids]

/-- What `place` does to the nodes: the node it returns gets the object into its payload, and
nothing else changes but for what the creation of the root does. -/
theorem Octree.place_spec (cfg : Config) (kind : Kind) (id : Nat) (o : Octree) (node : NodeRef)
    (h : (o.place cfg kind id).value = .ok node) :
    ∃ oc : Octree, oc.same_payloads o ∧
      (∀ s, s ≠ node → (o.place cfg kind id).state.core_at s = oc.core_at s) ∧
      ∃ c d, oc.core_at node = some c ∧
        (o.place cfg kind id).state.core_at node = some (c.1, c.2.1, d) ∧
        ∀ k, d.ids k =
          if k = kind then table_insert (c.2.2.ids k) id (cfg.aabb kind id) else c.2.2.ids k := by
  have hmain : ∀ (oc : Octree) (f : OctreeNode → OctreeNode) (o1 : Octree),
      (oc.node_at node).isSome = true →
      (∀ n, (f n).level_ = n.level_ ∧ (f n).centre_ = n.centre_ ∧
        ∀ k, (f n).data_.ids k =
          if k = kind then table_insert (n.data_.ids k) id (cfg.aabb kind id)
          else n.data_.ids k) →
      o1.levels_ = (oc.modify_node node f).levels_ →
      (∀ s, s ≠ node → o1.core_at s = oc.core_at s) ∧
      ∃ c d, oc.core_at node = some c ∧ o1.core_at node = some (c.1, c.2.1, d) ∧
        ∀ k, d.ids k =
          if k = kind then table_insert (c.2.2.ids k) id (cfg.aabb kind id)
          else c.2.2.ids k := by
    intro oc f o1 hsome hf ho1
    refine ⟨?_, ?_⟩
    · intro s hs
      rw [Octree.core_at_congr ho1]
      unfold Octree.core_at
      rw [Octree.node_at_modify_node, if_neg hs]
    · obtain ⟨n, hn⟩ := Option.isSome_iff_exists.mp hsome
      refine ⟨(n.level_, n.centre_, n.data_), (f n).data_, Octree.core_at_of_node_at hn, ?_,
        (hf n).2.2⟩
      rw [Octree.core_at_congr ho1]
      unfold Octree.core_at
      rw [Octree.node_at_modify_node, if_pos rfl, hn]
      simp only [Option.map_some', (hf n).1, (hf n).2.1]
  obtain ⟨f, hf, hv, hlev⟩ := Octree.place_levels cfg kind id o node h
  have hg := Octree.get_or_create_node_for_spec o (cfg.aabb kind id)
  exact ⟨(o.get_or_create_node_for (cfg.aabb kind id)).state, hg.1,
    hmain _ f _ (hg.2 node hv) hf hlev⟩

/-- After a successful `place` of an object that no node held, the octree is sound and the
object is held by the node returned, next to what was held before. -/
theorem Octree.place_sound (cfg : Config) (kind : Kind) (id : Nat) (o : Octree) (node : NodeRef)
    (hs : o.sound) (hfresh : ¬ o.held kind id) (h : (o.place cfg kind id).value = .ok node) :
    (o.place cfg kind id).state.sound ∧
      ∀ k i r, (o.place cfg kind id).state.holds k i r ↔
        (o.holds k i r ∨ (k = kind ∧ i = id ∧ r = node)) := by
  obtain ⟨oc, hoc, hother, c, d, hc, hd, hids⟩ := Octree.place_spec cfg kind id o node h
  have hsc : oc.sound := Octree.sound_of_same_payloads hoc hs
  have hholds : ∀ k i r, (o.place cfg kind id).state.holds k i r ↔
      (oc.holds k i r ∨ (k = kind ∧ i = id ∧ r = node)) := by
    intro k i r
    rw [Octree.holds_iff_core, Octree.holds_iff_core]
    by_cases hr : r = node
    · rw [hr, hd, hc]
      simp only [Option.some.injEq, exists_eq_left', hids k]
      by_cases hk : k = kind
      · rw [if_pos hk, table_find_insert_isSome]
        simp [hk]
      · rw [if_neg hk]
        simp [hk]
    · rw [hother r hr]
      simp [hr]
  refine ⟨?_, ?_⟩
  · rw [Octree.sound_iff_core] at hsc ⊢
    obtain ⟨h1, h2, h3⟩ := hsc
    refine ⟨?_, ?_, ?_⟩
    · intro s c1 hc1
      by_cases hsn : s = node
      · rw [hsn, hd] at hc1
        rw [hsn, ← Option.some.inj hc1]
        exact h1 node c hc
      · rw [hother s hsn] at hc1
        exact h1 s c1 hc1
    · intro s c1 k hc1
      by_cases hsn : s = node
      · rw [hsn, hd] at hc1
        rw [← Option.some.inj hc1]
        simp only []
        rw [hids k]
        by_cases hk : k = kind
        · rw [if_pos hk]
          exact table_insert_keys_nodup _ _ _ (h2 node c k hc)
        · rw [if_neg hk]
          exact h2 node c k hc
      · rw [hother s hsn] at hc1
        exact h2 s c1 k hc1
    · intro k i r s hr hs1
      rcases (hholds k i r).mp hr with hr1 | ⟨hk, hi, hrn⟩
      · rcases (hholds k i s).mp hs1 with hs2 | ⟨hk, hi, hsn⟩
        · exact h3 k i r s hr1 hs2
        · exfalso
          apply hfresh
          rw [← hk, ← hi]
          exact ⟨r, (Octree.holds_of_same_payloads hoc k i r).mp hr1⟩
      · rcases (hholds k i s).mp hs1 with hs2 | ⟨_, _, hsn⟩
        · exfalso
          apply hfresh
          rw [← hk, ← hi]
          exact ⟨s, (Octree.holds_of_same_payloads hoc k i s).mp hs2⟩
        · rw [hrn, hsn]
  · intro k i r
    rw [hholds k i r, Octree.holds_of_same_payloads hoc k i r]

end kglt

namespace kglt
open smlt (Vec3 AABB)

/-- The node is wiped: it holds nothing, every other node holds what it held. -/
theorem Octree.clear_sound (o : Octree) (node : NodeRef) (hs : o.sound) :
    (o.modify_node node fun m => { m with data_ := {} }).sound ∧
      ∀ k i r, (o.modify_node node fun m => { m with data_ := {} }).holds k i r ↔
        (o.holds k i r ∧ r ≠ node) := by
  have hcore : ∀ s, (o.modify_node node fun m => { m with data_ := {} }).core_at s =
      if s = node then (o.core_at node).map fun c => (c.1, c.2.1, ({} : NodeData))
      else o.core_at s := by
    intro s
    unfold Octree.core_at
    rw [Octree.node_at_modify_node]
    by_cases h : s = node
    · rw [if_pos h, if_pos h]
      cases o.node_at node <;> rfl
    · rw [if_neg h, if_neg h]
  have hholds : ∀ k i r, (o.modify_node node fun m => { m with data_ := {} }).holds k i r ↔
      (o.holds k i r ∧ r ≠ node) := by
    intro k i r
    rw [Octree.holds_iff_core, Octree.holds_iff_core, hcore r]
    by_cases h : r = node
    · rw [if_pos h]
      constructor
      · rintro ⟨c, hc, hf⟩
        cases hn : o.core_at node with
        | none =>
          rw [hn] at hc
          exact absurd hc (by simp)
        | some c0 =>
          rw [hn] at hc
          simp only [Option.map_some', Option.some.injEq] at hc
          rw [← hc] at hf
          cases k <;> exact absurd hf (by simp [NodeData.ids, table_find_nil])
      · rintro ⟨_, hne⟩
        exact absurd h hne
    · rw [if_neg h]
      simp [h]
  refine ⟨?_, hholds⟩
  rw [Octree.sound_iff_core] at hs ⊢
  obtain ⟨h1, h2, h3⟩ := hs
  refine ⟨?_, ?_, ?_⟩
  · intro s c hc
    rw [hcore s] at hc
    by_cases h : s = node
    · rw [if_pos h] at hc
      cases hn : o.core_at node with
      | none =>
        rw [hn] at hc
        exact absurd hc (by simp)
      | some c0 =>
        rw [hn] at hc
        simp only [Option.map_some', Option.some.injEq] at hc
        rw [← hc, h]
        exact h1 node c0 hn
    · rw [if_neg h] at hc
      exact h1 s c hc
  · intro s c k hc
    rw [hcore s] at hc
    by_cases h : s = node
    · rw [if_pos h] at hc
      cases hn : o.core_at node with
      | none =>
        rw [hn] at hc
        exact absurd hc (by simp)
      | some c0 =>
        rw [hn] at hc
        simp only [Option.map_some', Option.some.injEq] at hc
        rw [← hc]
        cases k <;> exact List.nodup_nil
    · rw [if_neg h] at hc
      exact h2 s c k hc
  · intro k i r s hr hs1
    exact h3 k i r s ((hholds k i r).mp hr).1 ((hholds k i s).mp hs1).1

theorem reinsert_step_error (ins : Kind → Nat → Octree → Res (Option NodeRef)) (kind : Kind)
    (ps : List (Nat × AABB)) (acc : Res Unit) (e : Error) (h : acc.value = .error e) :
    ps.foldl (reinsert_step ins kind) acc = acc := by
  induction ps with
  | nil => rfl
  | cons p ps ih =>
    rw [List.foldl_cons]
    have : reinsert_step ins kind acc p = acc := by
      unfold reinsert_step
      rw [h]
    rw [this]
    exact ih

/-- One loop of `reinsert_data`: when it ends without an exception, the octree is sound and
holds the objects of the list next to what it held. -/
theorem reinsert_fold_spec (ins : Kind → Nat → Octree → Res (Option NodeRef))
    (hP : insert_keeps_objects ins) (kind : Kind) (ps : List (Nat × AABB)) (acc : Res Unit)
    (hacc : acc.value = .ok ()) (hs : acc.state.sound) (hnd : (ps.map Prod.fst).Nodup)
    (hfresh : ∀ id ∈ ps.map Prod.fst, ¬ acc.state.held kind id)
    (hok : (ps.foldl (reinsert_step ins kind) acc).value = .ok ()) :
    (ps.foldl (reinsert_step ins kind) acc).state.sound ∧
      ∀ k i, (ps.foldl (reinsert_step ins kind) acc).state.held k i ↔
        (acc.state.held k i ∨ (k = kind ∧ i ∈ ps.map Prod.fst)) := by
  induction ps generalizing acc with
  | nil =>
    refine ⟨hs, ?_⟩
    intro k i
    simp
  | cons p ps ih =>
    rw [List.foldl_cons] at hok ⊢
    rw [List.map_cons, List.nodup_cons] at hnd
    cases hv : (ins kind p.1 acc.state).value with
    | error e =>
      have hstep : (reinsert_step ins kind acc p).value = .error e := by
        unfold reinsert_step
        rw [hacc]
        simp only []
        rw [hv]
      rw [reinsert_step_error ins kind ps _ e hstep, hstep] at hok
      exact absurd hok (by simp)
    | ok v =>
      have hstep : reinsert_step ins kind acc p = ⟨.ok (), (ins kind p.1 acc.state).state⟩ := by
        unfold reinsert_step
        rw [hacc]
        simp only []
        rw [hv]
      have hp := hP kind p.1 acc.state v hs
        (hfresh p.1 (by rw [List.map_cons]; exact List.mem_cons_self _ _)) hv
      rw [hstep] at hok ⊢
      have hfresh1 : ∀ id ∈ ps.map Prod.fst,
          ¬ (⟨.ok (), (ins kind p.1 acc.state).state⟩ : Res Unit).state.held kind id := by
        intro id hid hheld
        rcases (hp.2 kind id).mp hheld with h1 | ⟨_, h1⟩
        · exact hfresh id (by rw [List.map_cons]; exact List.mem_cons_of_mem _ hid) h1
        · rw [h1] at hid
          exact hnd.1 hid
      have := ih ⟨.ok (), (ins kind p.1 acc.state).state⟩ rfl hp.1 hnd.2 hfresh1 hok
      refine ⟨this.1, ?_⟩
      intro k i
      rw [this.2 k i]
      have h2 : (⟨.ok (), (ins kind p.1 acc.state).state⟩ : Res Unit).state.held k i ↔
          (acc.state.held k i ∨ (k = kind ∧ i = p.1)) := hp.2 k i
      rw [h2, List.map_cons, List.mem_cons]
      constructor
      · rintro ((h | ⟨hk, hi⟩) | ⟨hk, hi⟩)
        · exact Or.inl h
        · exact Or.inr ⟨hk, Or.inl hi⟩
        · exact Or.inr ⟨hk, Or.inr hi⟩
      · rintro (h | ⟨hk, hi | hi⟩)
        · exact Or.inl (Or.inl h)
        · exact Or.inl (Or.inr ⟨hk, hi⟩)
        · exact Or.inr ⟨hk, hi⟩

theorem Res.value_unit (r : Res Unit) : (∃ e, r.value = .error e) ∨ r.value = .ok () := by
  cases h : r.value with
  | error e => exact Or.inl ⟨e, rfl⟩
  | ok u => exact Or.inr rfl

/-- The method `reinsert_data`: when it ends without an exception, the octree is sound and
holds the stashed objects next to what it held. -/
theorem reinsert_data_with_spec (ins : Kind → Nat → Octree → Res (Option NodeRef))
    (hP : insert_keeps_objects ins) (data : NodeData) (o : Octree) (hs : o.sound)
    (hnd : ∀ kind, ((data.ids kind).map Prod.fst).Nodup)
    (hfresh : ∀ kind, ∀ id ∈ (data.ids kind).map Prod.fst, ¬ o.held kind id)
    (hok : (reinsert_data_with ins data o).value = .ok ()) :
    (reinsert_data_with ins data o).state.sound ∧
      ∀ k i, (reinsert_data_with ins data o).state.held k i ↔
        (o.held k i ∨ i ∈ (data.ids k).map Prod.fst) := by
  unfold reinsert_data_with at hok ⊢
  simp only [] at hok ⊢
  generalize hr1 : data.actor_ids_.foldl (reinsert_step ins .actor) ⟨.ok (), o⟩ = r1 at hok ⊢
  generalize hr2 : data.light_ids_.foldl (reinsert_step ins .light) r1 = r2 at hok ⊢
  have hv2 : r2.value = .ok () := by
    rcases Res.value_unit r2 with ⟨e, he⟩ | h
    · rw [reinsert_step_error ins _ _ r2 e he, he] at hok
      exact absurd hok (by simp)
    · exact h
  have hv1 : r1.value = .ok () := by
    rcases Res.value_unit r1 with ⟨e, he⟩ | h
    · rw [← hr2, reinsert_step_error ins _ _ r1 e he, he] at hv2
      exact absurd hv2 (by simp)
    · exact h
  have h1 := reinsert_fold_spec ins hP .actor data.actor_ids_ ⟨.ok (), o⟩ rfl hs
    (hnd .actor) (hfresh .actor) (by rw [hr1]; exact hv1)
  rw [hr1] at h1
  have h2 := reinsert_fold_spec ins hP .light data.light_ids_ r1 hv1 h1.1 (hnd .light)
    (by
      intro id hid hheld
      rcases (h1.2 .light id).mp hheld with h | ⟨h, _⟩
      · exact hfresh .light id hid h
      · exact absurd h (by simp))
    (by rw [hr2]; exact hv2)
  rw [hr2] at h2
  have h3 := reinsert_fold_spec ins hP .particle_system data.particle_system_ids_ r2 hv2 h2.1
    (hnd .particle_system)
    (by
      intro id hid hheld
      rcases (h2.2 .particle_system id).mp hheld with h | ⟨h, _⟩
      · rcases (h1.2 .particle_system id).mp h with h | ⟨h, _⟩
        · exact hfresh .particle_system id hid h
        · exact absurd h (by simp)
      · exact absurd h (by simp))
    hok
  refine ⟨h3.1, ?_⟩
  intro k i
  rw [h3.2 k i, h2.2 k i, h1.2 k i]
  cases k <;> simp [NodeData.ids]

end kglt

namespace kglt
open smlt (Vec3 AABB)

/-- The part of `split_if_necessary` after the children have been created: the payload of the
node is stashed, the node is wiped, the payload is reinserted and the created nodes left
empty are removed. -/
theorem Octree.relocate_spec (ins : Kind → Nat → Octree → Res (Option NodeRef))
    (hP : insert_keeps_objects ins) (rs : Octree) (node : NodeRef) (cs : List NodeRef)
    (hs : rs.sound)
    (hok : (reinsert_data_with ins (((rs.node_at node).map OctreeNode.data_).getD {})
      (rs.modify_node node fun m => { m with data_ := {} })).value = .ok ()) :
    (cs.foldl Octree.remove_if_empty
      (reinsert_data_with ins (((rs.node_at node).map OctreeNode.data_).getD {})
        (rs.modify_node node fun m => { m with data_ := {} })).state).sound ∧
    ∀ k i, (cs.foldl Octree.remove_if_empty
      (reinsert_data_with ins (((rs.node_at node).map OctreeNode.data_).getD {})
        (rs.modify_node node fun m => { m with data_ := {} })).state).held k i ↔
      rs.held k i := by
  have hclear := Octree.clear_sound rs node hs
  generalize hdata : ((rs.node_at node).map OctreeNode.data_).getD {} = data at hok ⊢
  -- the stash is the payload of the node
  have hstash : ∀ k i, i ∈ (data.ids k).map Prod.fst ↔ rs.holds k i node := by
    intro k i
    unfold Octree.holds
    cases hn : rs.node_at node with
    | none =>
      rw [hn] at hdata
      simp only [Option.map_none', Option.getD_none] at hdata
      rw [← hdata]
      cases k <;> simp [NodeData.ids]
    | some m =>
      rw [hn] at hdata
      simp only [Option.map_some', Option.getD_some] at hdata
      rw [← hdata, ← table_find_isSome_iff_mem_keys]
      simp
  have hnd : ∀ kind, ((data.ids kind).map Prod.fst).Nodup := by
    intro kind
    cases hn : rs.node_at node with
    | none =>
      rw [hn] at hdata
      simp only [Option.map_none', Option.getD_none] at hdata
      rw [← hdata]
      cases kind <;> exact List.nodup_nil
    | some m =>
      rw [hn] at hdata
      simp only [Option.map_some', Option.getD_some] at hdata
      rw [← hdata]
      exact hs.2.1 node m kind hn
  have hfresh : ∀ kind, ∀ id ∈ (data.ids kind).map Prod.fst,
      ¬ (rs.modify_node node fun m => { m with data_ := {} }).held kind id := by
    rintro kind id hid ⟨r, hr⟩
    obtain ⟨hr1, hr2⟩ := (hclear.2 kind id r).mp hr
    exact hr2 (hs.2.2 kind id r node hr1 ((hstash kind id).mp hid))
  have h2 := reinsert_data_with_spec ins hP data _ hclear.1 hnd hfresh hok
  have h3 := Octree.same_payloads_of_pruned_from
    (Octree.foldl_remove_if_empty_spec cs _ h2.1.1)
  refine ⟨Octree.sound_of_same_payloads h3 h2.1, ?_⟩
  intro k i
  rw [Octree.held_of_same_payloads h3 k i, h2.2 k i]
  constructor
  · rintro (⟨r, hr⟩ | hi)
    · exact ⟨r, ((hclear.2 k i r).mp hr).1⟩
    · exact ⟨node, (hstash k i).mp hi⟩
  · rintro ⟨r, hr⟩
    by_cases hrn : r = node
    · right
      rw [hrn] at hr
      exact (hstash k i).mpr hr
    · left
      exact ⟨r, (hclear.2 k i r).mpr ⟨hr, hrn⟩⟩

/-- The method `split_if_necessary` over an insert function that keeps the objects: when it
returns, the octree is sound and holds the objects it held. -/
theorem Octree.split_if_necessary_with_spec (cfg : Config)
    (ins : Kind → Nat → Octree → Res (Option NodeRef)) (hP : insert_keeps_objects ins)
    (o : Octree) (node : NodeRef) (b : Bool) (hs : o.sound)
    (h : (o.split_if_necessary_with cfg (reinsert_data_with ins) node).value = .ok b) :
    (o.split_if_necessary_with cfg (reinsert_data_with ins) node).state.sound ∧
      ∀ k i, (o.split_if_necessary_with cfg (reinsert_data_with ins) node).state.held k i ↔
        o.held k i := by
  unfold Octree.split_if_necessary_with at h ⊢
  cases hn : o.node_at node with
  | none =>
    rw [hn] at h
    exact absurd h (by simp)
  | some n =>
    rw [hn] at h
    simp only [] at h ⊢
    by_cases hpred : (!cfg.should_split_predicate_ n) = true
    · rw [if_pos hpred]
      exact ⟨hs, fun k i => Iff.rfl⟩
    · rw [if_neg hpred] at h ⊢
      have hsp := Octree.create_children_spec o node (n.child_centres o)
      generalize o.create_children node (n.child_centres o) = r at h hsp ⊢
      have hsr : r.state.sound := Octree.sound_of_same_payloads hsp hs
      cases hv : r.value with
      | error e =>
        rw [hv] at h
        exact absurd h (by simp)
      | ok nodes_created =>
        rw [hv] at h
        simp only [] at h ⊢
        by_cases hemp : nodes_created.isEmpty = true
        · rw [if_pos hemp]
          exact ⟨hsr, fun k i => Octree.held_of_same_payloads hsp k i⟩
        · rw [if_neg hemp] at h ⊢
          rcases Res.value_unit (reinsert_data_with ins
            (((r.state.node_at node).map OctreeNode.data_).getD {})
            (r.state.modify_node node fun m => { m with data_ := {} })) with ⟨e, he⟩ | hok
          · rw [he] at h
            exact absurd h (by simp)
          · rw [hok]
            simp only []
            have := Octree.relocate_spec ins hP r.state node nodes_created hsr hok
            refine ⟨this.1, ?_⟩
            intro k i
            rw [this.2 k i]
            exact Octree.held_of_same_payloads hsp k i

/-- The methods `insert_actor`, `insert_light` and `insert_particle_system` keep the objects,
whatever the fuel. -/
theorem Octree.insert_sound (cfg : Config) (fuel : Nat) :
    insert_keeps_objects (Octree.insert cfg fuel) := by
  induction fuel with
  | zero =>
    intro kind id o v hs hfresh hv
    unfold Octree.insert at hv
    exact absurd hv (by simp)
  | succ fuel ih =>
    intro kind id o v hs hfresh hv
    unfold Octree.insert at hv ⊢
    simp only [] at hv ⊢
    cases hp : (o.place cfg kind id).value with
    | error e =>
      rw [hp] at hv
      exact absurd hv (by simp)
    | ok node =>
      rw [hp] at hv
      simp only [] at hv ⊢
      have hps := Octree.place_sound cfg kind id o node hs hfresh hp
      have hheld : ∀ k i, (o.place cfg kind id).state.held k i ↔
          (o.held k i ∨ (k = kind ∧ i = id)) := by
        intro k i
        unfold Octree.held
        constructor
        · rintro ⟨r, hr⟩
          rcases (hps.2 k i r).mp hr with h1 | ⟨h1, h2, _⟩
          · exact Or.inl ⟨r, h1⟩
          · exact Or.inr ⟨h1, h2⟩
        · rintro (⟨r, hr⟩ | ⟨h1, h2⟩)
          · exact ⟨r, (hps.2 k i r).mpr (Or.inl hr)⟩
          · exact ⟨node, (hps.2 k i node).mpr (Or.inr ⟨h1, h2, rfl⟩)⟩
      have hsplit := Octree.split_if_necessary_with_spec cfg (Octree.insert cfg fuel) ih
        (o.place cfg kind id).state node
      generalize (o.place cfg kind id).state.split_if_necessary_with cfg
        (reinsert_data_with (Octree.insert cfg fuel)) node = r2 at hv hsplit ⊢
      cases hv2 : r2.value with
      | error e =>
        rw [hv2] at hv
        exact absurd hv (by simp)
      | ok b =>
        have h3 := hsplit b hps.1 hv2
        cases b with
        | false =>
          simp only []
          exact ⟨h3.1, fun k i => (h3.2 k i).trans (hheld k i)⟩
        | true =>
          simp only []
          exact ⟨h3.1, fun k i => (h3.2 k i).trans (hheld k i)⟩

/-- C7 (amended). When `split_if_necessary(node)` performs a split (returns true) on a sound
octree, every object the node held before is held afterwards by exactly one node of the
octree, the octree holds the same objects as before, and no object is held by two nodes: no
object is lost and none is duplicated. -/
theorem split_if_necessary_keeps_objects (cfg : Config) (fuel : Nat) (o : Octree)
    (node : NodeRef) (hs : o.sound)
    (h : (o.split_if_necessary cfg fuel node).value = .ok true) :
    (∀ kind id, o.holds kind id node →
      ∃ r, (o.split_if_necessary cfg fuel node).state.holds kind id r ∧
        ∀ s, (o.split_if_necessary cfg fuel node).state.holds kind id s → s = r) ∧
    (∀ kind id, (o.split_if_necessary cfg fuel node).state.held kind id ↔ o.held kind id) ∧
    (∀ kind id r s, (o.split_if_necessary cfg fuel node).state.holds kind id r →
      (o.split_if_necessary cfg fuel node).state.holds kind id s → r = s) := by
  have h1 := Octree.split_if_necessary_with_spec cfg (Octree.insert cfg fuel)
    (Octree.insert_sound cfg fuel) o node true hs h
  refine ⟨?_, h1.2, h1.1.2.2⟩
  intro kind id hheld
  obtain ⟨r, hr⟩ := (h1.2 kind id).mpr ⟨node, hheld⟩
  exact ⟨r, hr, fun s hs1 => h1.1.2.2 kind id s r hs1 hr⟩

set_option maxRecDepth 100000 in
unseal Rat.add Rat.mul Rat.inv Rat.sub in
theorem split_example_values :
    split_example_before.value = .ok ⟨0, (0, 0, 0)⟩ ∧ split_example_after.value = .ok true := by
  decide

theorem split_example_before_sound : split_example_before.state.sound :=
  (Octree.place_sound default_config .actor 3 {} ⟨0, (0, 0, 0)⟩ Octree.sound_empty
    (by
      rintro ⟨r, n, hn, _⟩
      rw [Octree.node_at_eq] at hn
      simp at hn)
    split_example_values.1).1

/-- C7 (amended), on the root that holds actor 3 under the default predicates: the split
returns true and actor 3 is held by exactly one node afterwards. -/
theorem split_if_necessary_keeps_objects_witness :
    split_example_before.state.sound ∧
    (split_example_before.state.split_if_necessary default_config 5 ⟨0, (0, 0, 0)⟩).value
      = .ok true ∧
    ((∀ kind id, split_example_before.state.holds kind id ⟨0, (0, 0, 0)⟩ →
      ∃ r, (split_example_before.state.split_if_necessary default_config 5
          ⟨0, (0, 0, 0)⟩).state.holds kind id r ∧
        ∀ s, (split_example_before.state.split_if_necessary default_config 5
          ⟨0, (0, 0, 0)⟩).state.holds kind id s → s = r) ∧
    (∀ kind id, (split_example_before.state.split_if_necessary default_config 5
        ⟨0, (0, 0, 0)⟩).state.held kind id ↔ split_example_before.state.held kind id) ∧
    (∀ kind id r s, (split_example_before.state.split_if_necessary default_config 5
        ⟨0, (0, 0, 0)⟩).state.holds kind id r →
      (split_example_before.state.split_if_necessary default_config 5
        ⟨0, (0, 0, 0)⟩).state.holds kind id s → r = s)) :=
  ⟨split_example_before_sound, split_example_values.2,
    split_if_necessary_keeps_objects default_config 5 split_example_before.state ⟨0, (0, 0, 0)⟩
      split_example_before_sound split_example_values.2⟩

end kglt

/-! ## Insertions that are refused -/

namespace kglt
open smlt (Vec3 AABB)

theorem Octree.insert_zero_area (cfg : Config) (fuel : Nat) (kind : Kind) (id : Nat)
    (o : Octree) (h : has_zero_area (cfg.aabb kind id) = true) :
    Octree.insert cfg (fuel + 1) kind id o = ⟨.error .InvalidBoundableInsertion, o⟩ := by
  have hg : o.get_or_create_node_for (cfg.aabb kind id)
      = ⟨.error .InvalidBoundableInsertion, o⟩ := by
    unfold Octree.get_or_create_node_for
    rw [if_pos h]
  have hp : o.place cfg kind id = ⟨.error .InvalidBoundableInsertion, o⟩ := by
    unfold Octree.place
    simp only [hg]
  unfold Octree.insert
  simp only [hp]

/-- C12. An object whose box has zero area is refused by `insert_actor`, `insert_light` and
`insert_particle_system` with `InvalidBoundableInsertion`, and the octree is left as it was:
the levels, the nodes, the node count, the root width and the lookup tables are the same,
whether there is a root or not. -/
theorem insert_zero_area_rejected (cfg : Config) (fuel : Nat) (id : Nat) (o : Octree) :
    (has_zero_area (cfg.actor_aabb id) = true →
      Octree.insert_actor cfg (fuel + 1) o id = ⟨.error .InvalidBoundableInsertion, o⟩) ∧
    (has_zero_area (cfg.light_aabb id) = true →
      Octree.insert_light cfg (fuel + 1) o id = ⟨.error .InvalidBoundableInsertion, o⟩) ∧
    (has_zero_area (cfg.particle_system_aabb id) = true →
      Octree.insert_particle_system cfg (fuel + 1) o id
        = ⟨.error .InvalidBoundableInsertion, o⟩) :=
  ⟨fun h => Octree.insert_zero_area cfg fuel .actor id o h,
    fun h => Octree.insert_zero_area cfg fuel .light id o h,
    fun h => Octree.insert_zero_area cfg fuel .particle_system id o h⟩

unseal Rat.add Rat.mul Rat.inv Rat.sub in
theorem bounds_example_zero_area : has_zero_area (bounds_example_aabb 2) = true := by
  decide

/-- C12, on the single point (5,5,5) as the box of an actor, a light and a particle system,
inserted into the octree whose root holds object 1. -/
theorem insert_zero_area_rejected_witness :
    has_zero_area (bounds_example_aabb 2) = true ∧
    Octree.insert_actor bounds_config 10 bounds_example_root.state 2
      = ⟨.error .InvalidBoundableInsertion, bounds_example_root.state⟩ ∧
    Octree.insert_light bounds_config 10 bounds_example_root.state 2
      = ⟨.error .InvalidBoundableInsertion, bounds_example_root.state⟩ ∧
    Octree.insert_particle_system bounds_config 10 bounds_example_root.state 2
      = ⟨.error .InvalidBoundableInsertion, bounds_example_root.state⟩ :=
  ⟨bounds_example_zero_area,
    (insert_zero_area_rejected bounds_config 9 2 bounds_example_root.state).1
      bounds_example_zero_area,
    (insert_zero_area_rejected bounds_config 9 2 bounds_example_root.state).2.1
      bounds_example_zero_area,
    (insert_zero_area_rejected bounds_config 9 2 bounds_example_root.state).2.2
      bounds_example_zero_area⟩

theorem Octree.find_best_loop_outside (o : Octree) (root : OctreeNode) (c : Vec3)
    (hroot : o.get_root = some root) (hc : root.contains o c = false) (n : Nat)
    (hash : VectorHash) : o.find_best_loop c (n + 1) hash = .error .OutsideBoundsError := by
  have hne : o.levels_.length ≥ 1 := by
    unfold Octree.get_root at hroot
    cases hl : o.levels_ with
    | nil => rw [hl] at hroot; simp at hroot
    | cons l ls => simp
  have hemp : o.is_empty = false := by
    unfold Octree.is_empty
    cases hl : o.levels_ with
    | nil => rw [hl] at hne; simp at hne
    | cons l ls => rfl
  have hpoint : ∀ level, o.find_node_centre_for_point level c = .error .OutsideBoundsError := by
    intro level
    unfold Octree.find_node_centre_for_point
    simp [hemp, hroot, hc]
  induction n with
  | zero =>
    unfold Octree.find_best_loop
    rw [if_pos (Nat.lt_of_lt_of_le Nat.zero_lt_one hne), hpoint]
  | succ m ih =>
    unfold Octree.find_best_loop
    by_cases hlen : o.levels_.length > m + 1
    · rw [if_pos hlen, hpoint]
    · rw [if_neg hlen]
      exact ih

theorem Octree.find_best_existing_node_outside (o : Octree) (root : OctreeNode) (aabb : AABB)
    (hroot : o.get_root = some root)
    (h : aabb.max_dimension > root.diameter o ∨ root.contains o (centre aabb) = false) :
    o.find_best_existing_node aabb = .error .OutsideBoundsError := by
  unfold Octree.find_best_existing_node Octree.calculate_level
  rw [hroot]
  simp only []
  by_cases hd : aabb.max_dimension > root.diameter o
  · rw [if_pos hd]
  · rw [if_neg hd]
    simp only []
    have hc : root.contains o (centre aabb) = false := by
      rcases h with h | h
      · exact absurd h hd
      · exact h
    split_ifs
    · rfl
    · exact Octree.find_best_loop_outside o root (centre aabb) hroot hc _ _

theorem Octree.insert_outside (cfg : Config) (fuel : Nat) (kind : Kind) (id : Nat)
    (o : Octree) (root : OctreeNode) (hroot : o.get_root = some root)
    (hz : has_zero_area (cfg.aabb kind id) = false)
    (h : (cfg.aabb kind id).max_dimension > root.diameter o ∨
      root.contains o (centre (cfg.aabb kind id)) = false) :
    Octree.insert cfg (fuel + 1) kind id o = ⟨.error .OutsideBoundsError, o⟩ := by
  have hemp : o.levels_.isEmpty = false := by
    unfold Octree.get_root at hroot
    cases hl : o.levels_ with
    | nil => rw [hl] at hroot; simp at hroot
    | cons l ls => rfl
  have hg : o.get_or_create_node_for (cfg.aabb kind id)
      = ⟨.error .OutsideBoundsError, o⟩ := by
    unfold Octree.get_or_create_node_for
    simp [hz, hemp, Octree.find_best_existing_node_outside o root _ hroot h]
  have hp : o.place cfg kind id = ⟨.error .OutsideBoundsError, o⟩ := by
    unfold Octree.place
    simp only [hg]
  unfold Octree.insert
  simp only [hp]

end kglt

namespace kglt
open smlt (Vec3 AABB)

set_option maxRecDepth 100000 in
unseal Rat.add Rat.mul Rat.inv Rat.sub in
/-- C13, counterexample. The octree holds object 1, whose box from (-1,-1,-1) to (1,1,1) made
the root.  The single point (5,5,5) as the box of an actor has its centre outside the cell of
the root, and its insertion fails with `InvalidBoundableInsertion`, not with
`OutsideBoundsError`. -/
theorem insert_outside_zero_area_is_invalid :
    bounds_example_root.value = .ok (some ⟨0, (0, 0, 0)⟩) ∧
    bounds_example_root.state.get_root.map
        (fun root => root.contains bounds_example_root.state
          (centre (bounds_config.actor_aabb 2)))
      = some false ∧
    (Octree.insert_actor bounds_config 10 bounds_example_root.state 2).value
      = .error .InvalidBoundableInsertion := by
  decide

/-- C13 (amended). Once a root exists, the insertion of an object whose box has a non-zero area
and a max dimension greater than the diameter of the root, or a centre outside the cell of the
root, fails with `OutsideBoundsError` and leaves the octree as it was.  (The methods
`insert_actor`, `insert_light` and `insert_particle_system` are `Octree.insert` at the three
kinds.) -/
theorem insert_outside_bounds_rejected (cfg : Config) (fuel : Nat) (kind : Kind) (id : Nat)
    (o : Octree) (root : OctreeNode) (hroot : o.get_root = some root)
    (hz : has_zero_area (cfg.aabb kind id) = false)
    (h : (cfg.aabb kind id).max_dimension > root.diameter o ∨
      root.contains o (centre (cfg.aabb kind id)) = false) :
    Octree.insert cfg (fuel + 1) kind id o = ⟨.error .OutsideBoundsError, o⟩ :=
  Octree.insert_outside cfg fuel kind id o root hroot hz h

set_option maxRecDepth 100000 in
unseal Rat.add Rat.mul Rat.inv Rat.sub in
theorem bounds_example_root_facts :
    bounds_example_root.state.get_root
      = some ⟨0, ⟨0, 0, 0⟩, { actor_ids_ := [(1, ⟨⟨-1, -1, -1⟩, ⟨1, 1, 1⟩⟩)] }, none, []⟩ ∧
    has_zero_area (bounds_config.aabb .actor 3) = false ∧
    has_zero_area (bounds_config.aabb .light 4) = false ∧
    (⟨0, ⟨0, 0, 0⟩, { actor_ids_ := [(1, ⟨⟨-1, -1, -1⟩, ⟨1, 1, 1⟩⟩)] }, none, []⟩ :
      OctreeNode).contains bounds_example_root.state (centre (bounds_config.aabb .actor 3))
      = false ∧
    (bounds_config.aabb .light 4).max_dimension >
      (⟨0, ⟨0, 0, 0⟩, { actor_ids_ := [(1, ⟨⟨-1, -1, -1⟩, ⟨1, 1, 1⟩⟩)] }, none, []⟩ :
        OctreeNode).diameter bounds_example_root.state := by
  decide

/-- C13 (amended), on the octree whose root holds object 1: an actor with the box from
(4.5,4.5,4.5) to (5.5,5.5,5.5), outside the root, and a light with the box from (-2,-2,-2) to
(2,2,2), larger than the root. -/
theorem insert_outside_bounds_rejected_witness :
    Octree.insert bounds_config 10 .actor 3 bounds_example_root.state
      = ⟨.error .OutsideBoundsError, bounds_example_root.state⟩ ∧
    Octree.insert bounds_config 10 .light 4 bounds_example_root.state
      = ⟨.error .OutsideBoundsError, bounds_example_root.state⟩ :=
  ⟨insert_outside_bounds_rejected bounds_config 9 .actor 3 bounds_example_root.state _
      bounds_example_root_facts.1 bounds_example_root_facts.2.1
      (Or.inr bounds_example_root_facts.2.2.2.1),
    insert_outside_bounds_rejected bounds_config 9 .light 4 bounds_example_root.state _
      bounds_example_root_facts.1 bounds_example_root_facts.2.2.1
      (Or.inl bounds_example_root_facts.2.2.2.2)⟩

set_option maxRecDepth 100000 in
unseal Rat.add Rat.mul Rat.inv Rat.sub in
/-- C19. Under the default predicates the insertion of an actor with the box from (0,0,0) to
(2,2,2) into the empty octree does not complete: the root is created with centre (1,1,1) and
diameter 2 and receives the actor, and then `split_if_necessary` throws `std::out_of_range`
out of `create_node`, because `find_node_centre_for_point` gives (0,0,0) as the centre of the
parent of the first child. -/
theorem insert_first_object_throws :
    has_zero_area (bounds_config.actor_aabb 6) = false ∧
    first_insert_example.value = .error .out_of_range ∧
    first_insert_example.state.get_root.map (fun root => (root.level_, root.centre_))
      = some (0, centre (bounds_config.actor_aabb 6)) ∧
    first_insert_example.state.node_diameter 0 = (bounds_config.actor_aabb 6).max_dimension ∧
    first_insert_example.state.payload_ids .actor ⟨0, (100, 100, 100)⟩ = some [6] ∧
    (first_insert_example.state.find_node_centre_for_point 0 ⟨1 / 2, 1 / 2, 1 / 2⟩).toOption
      = some ⟨0, 0, 0⟩ := by
  decide

set_option maxRecDepth 100000 in
unseal Rat.add Rat.mul Rat.inv Rat.sub in
/-- C20. Under the default predicates, with the actor of the box from (-1,-1,-1) to (1,1,1) in
the root, the insertion of the actor with the box from (-0.1,-0.1,-0.1) to (0.1,0.1,0.1)
throws `std::out_of_range`.  The eight children of level 1 are created and the second actor
is moved into the child with centre (0.5,0.5,0.5); the split of that child then asks for the
parent of the grandchild with centre (0.25,0.25,0.75), and `find_node_centre_for_point` gives
(0.5,0.5,1.5), where there is no node. -/
theorem insert_spec_example_throws :
    bounds_example_root.value = .ok (some ⟨0, (0, 0, 0)⟩) ∧
    spec_example_second.value = .error .out_of_range ∧
    (spec_example_second.state.levels_.map List.length) = [1, 8, 2] ∧
    spec_example_second.state.payload_ids .actor ⟨1, (50, 50, 50)⟩ = some [5] ∧
    (spec_example_second.state.find_node_centre_for_point 1 ⟨1 / 4, 1 / 4, 3 / 4⟩).toOption
      = some ⟨1 / 2, 1 / 2, 3 / 2⟩ ∧
    spec_example_second.state.node_at ⟨1, (50, 50, 150)⟩ = none := by
  decide

end kglt

/-! ## Cell sizes, keys and queries of the spatial hash -/

namespace smlt

unseal Rat.add Rat.mul Rat.inv Rat.sub in
/-- C15. For the box from (0,0,0) to (3,3,3), with max dimension 3, `find_cell_size_for_box`
returns 4: the smallest power of two that is at least the max dimension, and less than twice
the max dimension, 6. -/
theorem find_cell_size_is_not_doubled :
    (⟨⟨0, 0, 0⟩, ⟨3, 3, 3⟩⟩ : AABB).max_dimension = 3 ∧
    find_cell_size_for_box ⟨⟨0, 0, 0⟩, ⟨3, 3, 3⟩⟩ = 4 ∧
    (4 : ℚ) < 2 * (⟨⟨0, 0, 0⟩, ⟨3, 3, 3⟩⟩ : AABB).max_dimension := by
  decide

set_option maxRecDepth 100000 in
unseal Rat.add Rat.mul Rat.inv Rat.sub in
/-- C14. For the query box from (0,0,0) to (40000,1,1) the cell size is 65536 and the key of
the corner (0,0,0) has the depth 2^64 - 1.  On the spatial hash that holds one entry with the
box from (1,1,1) to (2,2,2), `lower_bound` finds an element, the key is not the root, and
`parent_key` is called on it: its `memcpy` copies 2^64 - 6 bytes out of the 96 bytes of the
hash path. -/
theorem find_objects_within_box_key_depth_wraps :
    find_cell_size_for_box huge_query_box = 65536 ∧
    huge_query_key.ancestors = 18446744073709551615 ∧
    (Index.lower_bound small_filled.index_ huge_query_key).isEmpty = false ∧
    huge_query_key.is_root = false ∧
    huge_query_key.parent_key_copy_size = 18446744073709551610 ∧
    hash_path_size = 96 := by
  decide

end smlt

namespace smlt

set_option maxRecDepth 100000 in
unseal Rat.add Rat.mul Rat.inv Rat.sub in
/-- C16, counterexample. In the key of the point (5,0,0) at cell size 1, level 0 of the hash
path is the grid coordinate at cell size 32768, which is 0, and not the grid coordinate at the
cell size of the object, which is 5; level 1 is at cell size 16384, half that of level 0, and
level 15, the last one, is at cell size 1.  For the point (40000,0,0) the grid coordinate at
cell size 1 does not fit an `int16_t`; its low 16 bits, which the embedding keeps, are
-25536.  For the coordinate -2^-149 the quotient by the cell size 2 underflows to -0.0, and
level 14 holds 0 where the floor of the quotient is -1, as level 15 shows. -/
theorem make_key_level_zero_is_coarsest :
    (make_key 1 5 0 0).hash_path.get? 0 = some ⟨0, 0, 0⟩ ∧
    make_hash 1 5 0 0 = ⟨5, 0, 0⟩ ∧
    (make_key 1 20000 0 0).hash_path.get? 0 = some (make_hash 32768 20000 0 0) ∧
    (make_key 1 20000 0 0).hash_path.get? 1 = some (make_hash 16384 20000 0 0) ∧
    (make_key 1 20000 0 0).hash_path.get? 1 = some ⟨1, 0, 0⟩ ∧
    (make_key 1 5 0 0).hash_path.get? 15 = some ⟨5, 0, 0⟩ ∧
    (make_key 1 40000 0 0).hash_path.get? 15 = some ⟨-25536, 0, 0⟩ ∧
    (make_key 1 tiny_box.max.x 0 0).hash_path.get? 14 = some ⟨0, 0, 0⟩ ∧
    (make_key 1 tiny_box.max.x 0 0).hash_path.get? 15 = some ⟨-1, 0, 0⟩ := by
  decide

theorem wrap_int16_of_fits (v : Int) (h1 : -32768 ≤ v) (h2 : v ≤ 32767) : wrap_int16 v = v := by
  unfold wrap_int16
  rw [Int.emod_eq_of_lt (by omega) (by omega)]
  omega

theorem floor_fits_int16 (x : ℚ) (n m : Nat) (hnm : n ≤ m)
    (h1 : -32768 * (2 : ℚ) ^ n ≤ x) (h2 : x < 32768 * (2 : ℚ) ^ n) :
    -32768 ≤ ⌊x / (2 : ℚ) ^ m⌋ ∧ ⌊x / (2 : ℚ) ^ m⌋ ≤ 32767 := by
  have hm : (0 : ℚ) < 2 ^ m := by positivity
  have hle : (2 : ℚ) ^ n ≤ 2 ^ m := pow_le_pow_right₀ (by norm_num) hnm
  constructor
  · rw [Int.le_floor]
    rw [le_div_iff₀ hm]
    push_cast
    nlinarith
  · have : ⌊x / (2 : ℚ) ^ m⌋ < 32768 := by
      rw [Int.floor_lt]
      rw [div_lt_iff₀ hm]
      push_cast
      nlinarith
    omega

theorem floor_quotient_of_fits (v : ℚ) (n m : Nat) (hnm : n ≤ m)
    (h1 : -32768 * (2 : ℚ) ^ n ≤ v) (h2 : v < 32768 * (2 : ℚ) ^ n) :
    wrap_int16 (floor_quotient v (2 ^ m))
      = if v / (2 : ℚ) ^ m < 0 ∧ -(1 / 2 ^ 150) ≤ v / (2 : ℚ) ^ m then 0
        else ⌊v / (2 : ℚ) ^ m⌋ := by
  unfold floor_quotient
  rw [underflow_bound_eq]
  push_cast
  by_cases hc : v / (2 : ℚ) ^ m < 0 ∧ -(1 / 2 ^ 150) ≤ v / (2 : ℚ) ^ m
  · rw [if_pos hc]
    rfl
  · rw [if_neg hc]
    have h := floor_fits_int16 v n m hnm h1 h2
    exact wrap_int16_of_fits _ h.1 h.2

theorem make_hash_of_fits (x y z : ℚ) (n m : Nat) (hnm : n ≤ m)
    (hx : -32768 * (2 : ℚ) ^ n ≤ x ∧ x < 32768 * (2 : ℚ) ^ n)
    (hy : -32768 * (2 : ℚ) ^ n ≤ y ∧ y < 32768 * (2 : ℚ) ^ n)
    (hz : -32768 * (2 : ℚ) ^ n ≤ z ∧ z < 32768 * (2 : ℚ) ^ n) :
    make_hash (2 ^ m) x y z
      = ⟨if x / (2 : ℚ) ^ m < 0 ∧ -(1 / 2 ^ 150) ≤ x / (2 : ℚ) ^ m then 0
          else ⌊x / (2 : ℚ) ^ m⌋,
        if y / (2 : ℚ) ^ m < 0 ∧ -(1 / 2 ^ 150) ≤ y / (2 : ℚ) ^ m then 0
          else ⌊y / (2 : ℚ) ^ m⌋,
        if z / (2 : ℚ) ^ m < 0 ∧ -(1 / 2 ^ 150) ≤ z / (2 : ℚ) ^ m then 0
          else ⌊z / (2 : ℚ) ^ m⌋⟩ := by
  unfold make_hash
  rw [floor_quotient_of_fits x n m hnm hx.1 hx.2, floor_quotient_of_fits y n m hnm hy.1 hy.2,
    floor_quotient_of_fits z n m hnm hz.1 hz.2]

/-- C16 (amended). For the cell size `2 ^ n` with `n ≤ 15` and a point whose grid coordinates at
that cell size fit an `int16_t`, the key of `make_key` has the depth `15 - n`; level `i` of its
hash path, for `i` from 0 to `15 - n`, is the grid coordinate of the point at the cell size
`2 ^ (15 - i)`: level 0 is at the coarsest cell size, 32768, each further level is at half the
cell size of the level before, and the last used level, `15 - n`, is at the cell size of the
object.  The grid coordinate is the floor of the quotient of the coordinate by the cell size,
except where the binary32 quotient underflows: for a negative quotient of magnitude at most
`2 ^ -150` it is 0. -/
theorem make_key_levels (n : Nat) (hn : n ≤ 15) (x y z : ℚ)
    (hx : -32768 * (2 : ℚ) ^ n ≤ x ∧ x < 32768 * (2 : ℚ) ^ n)
    (hy : -32768 * (2 : ℚ) ^ n ≤ y ∧ y < 32768 * (2 : ℚ) ^ n)
    (hz : -32768 * (2 : ℚ) ^ n ≤ z ∧ z < 32768 * (2 : ℚ) ^ n) :
    (make_key (2 ^ n) x y z).ancestors = 15 - n ∧
    ∀ i, i ≤ 15 - n →
      (make_key (2 ^ n) x y z).hash_path.get? i
        = some ⟨if x / (2 : ℚ) ^ (15 - i) < 0 ∧ -(1 / 2 ^ 150) ≤ x / (2 : ℚ) ^ (15 - i) then 0
            else ⌊x / (2 : ℚ) ^ (15 - i)⌋,
          if y / (2 : ℚ) ^ (15 - i) < 0 ∧ -(1 / 2 ^ 150) ≤ y / (2 : ℚ) ^ (15 - i) then 0
            else ⌊y / (2 : ℚ) ^ (15 - i)⌋,
          if z / (2 : ℚ) ^ (15 - i) < 0 ∧ -(1 / 2 ^ 150) ≤ z / (2 : ℚ) ^ (15 - i) then 0
            else ⌊z / (2 : ℚ) ^ (15 - i)⌋⟩ := by
  refine ⟨make_key_ancestors n hn x y z, ?_⟩
  intro i hi
  have htake := make_key_take n hn x y z (16 - n) (Nat.le_refl _)
  have hget : (make_key (2 ^ n) x y z).hash_path.get? i
      = ((make_key (2 ^ n) x y z).hash_path.take (16 - n)).get? i := by
    rw [List.get?_eq_getElem?, List.get?_eq_getElem?, List.getElem?_take]
    rw [if_pos (by omega)]
  rw [hget, htake, List.get?_eq_getElem?, List.getElem?_map, List.getElem?_range (by omega)]
  simp only [Option.map_some']
  rw [max_path_size_div i (by omega), make_hash_of_fits x y z n (15 - i) (by omega) hx hy hz]

/-- C16 (amended), at cell size 4 and the point (21,-3,6): the depth is 13, level 0 is at cell
size 32768 and level 13 at cell size 4. -/
theorem make_key_levels_witness :
    (make_key (2 ^ 2) 21 (-3) 6).ancestors = 15 - 2 ∧
    ∀ i, i ≤ 15 - 2 →
      (make_key (2 ^ 2) 21 (-3) 6).hash_path.get? i
        = some ⟨if (21 : ℚ) / (2 : ℚ) ^ (15 - i) < 0 ∧
              -(1 / 2 ^ 150) ≤ (21 : ℚ) / (2 : ℚ) ^ (15 - i) then 0
            else ⌊(21 : ℚ) / (2 : ℚ) ^ (15 - i)⌋,
          if (-3 : ℚ) / (2 : ℚ) ^ (15 - i) < 0 ∧
              -(1 / 2 ^ 150) ≤ (-3 : ℚ) / (2 : ℚ) ^ (15 - i) then 0
            else ⌊(-3 : ℚ) / (2 : ℚ) ^ (15 - i)⌋,
          if (6 : ℚ) / (2 : ℚ) ^ (15 - i) < 0 ∧
              -(1 / 2 ^ 150) ≤ (6 : ℚ) / (2 : ℚ) ^ (15 - i) then 0
            else ⌊(6 : ℚ) / (2 : ℚ) ^ (15 - i)⌋⟩ :=
  make_key_levels 2 (by norm_num) 21 (-3) 6 (by norm_num) (by norm_num) (by norm_num)

/-- C18. For two keys of the same depth, `a.is_ancestor_of(b)` is `a == b`; every key is its
own ancestor, a root key included; and two keys of the same depth whose paths differ within
the levels in use are not ancestors of each other. -/
theorem is_ancestor_of_same_depth (a b : Key) (h : a.ancestors = b.ancestors) :
    a.is_ancestor_of b = a.eq b ∧
    a.is_ancestor_of a = true ∧
    (a.path_bytes ((a.ancestors + 1) % 18446744073709551616)
        ≠ b.path_bytes ((a.ancestors + 1) % 18446744073709551616) →
      a.hash_path.length = b.hash_path.length →
      a.is_ancestor_of b = false ∧ b.is_ancestor_of a = false) := by
  refine ⟨?_, ?_, ?_⟩
  · unfold Key.is_ancestor_of Key.eq
    rw [if_neg (by omega)]
    simp [h]
  · unfold Key.is_ancestor_of
    rw [if_neg (by omega), memcmp_self]
    rfl
  · intro hne hlen
    have hl : (a.path_bytes ((a.ancestors + 1) % 18446744073709551616)).length
        = (b.path_bytes ((a.ancestors + 1) % 18446744073709551616)).length := by
      unfold Key.path_bytes
      rw [bytes_flatten_length, bytes_flatten_length, List.length_take, List.length_take, hlen]
    constructor
    · unfold Key.is_ancestor_of
      rw [if_neg (by omega)]
      cases hm : memcmp (a.path_bytes ((a.ancestors + 1) % 18446744073709551616))
          (b.path_bytes ((a.ancestors + 1) % 18446744073709551616)) == 0 with
      | false => rfl
      | true => exact absurd (memcmp_eq_zero _ _ hl (by simpa using hm)) hne
    · unfold Key.is_ancestor_of
      rw [if_neg (by omega), ← h]
      cases hm : memcmp (b.path_bytes ((a.ancestors + 1) % 18446744073709551616))
          (a.path_bytes ((a.ancestors + 1) % 18446744073709551616)) == 0 with
      | false => rfl
      | true => exact absurd (memcmp_eq_zero _ _ hl.symm (by simpa using hm)).symm hne

set_option maxRecDepth 100000 in
unseal Rat.add Rat.mul Rat.inv Rat.sub in
theorem root_keys_differ :
    (make_key 32768 0 0 0).ancestors = (make_key 32768 40000 0 0).ancestors ∧
    (make_key 32768 0 0 0).is_root = true ∧
    (make_key 32768 0 0 0).path_bytes
        (((make_key 32768 0 0 0).ancestors + 1) % 18446744073709551616)
      ≠ (make_key 32768 40000 0 0).path_bytes
        (((make_key 32768 0 0 0).ancestors + 1) % 18446744073709551616) ∧
    (make_key 32768 0 0 0).hash_path.length = (make_key 32768 40000 0 0).hash_path.length := by
  decide

/-- C18, on the root keys of the points (0,0,0) and (40000,0,0) at cell size 32768: they have
the depth 0 and differ in level 0. -/
theorem is_ancestor_of_same_depth_witness :
    (make_key 32768 0 0 0).ancestors = (make_key 32768 40000 0 0).ancestors ∧
    (make_key 32768 0 0 0).is_root = true ∧
    (make_key 32768 0 0 0).is_ancestor_of (make_key 32768 40000 0 0)
      = (make_key 32768 0 0 0).eq (make_key 32768 40000 0 0) ∧
    (make_key 32768 0 0 0).is_ancestor_of (make_key 32768 0 0 0) = true ∧
    (make_key 32768 0 0 0).is_ancestor_of (make_key 32768 40000 0 0) = false ∧
    (make_key 32768 40000 0 0).is_ancestor_of (make_key 32768 0 0 0) = false :=
  ⟨root_keys_differ.1, root_keys_differ.2.1,
    (is_ancestor_of_same_depth (make_key 32768 0 0 0) (make_key 32768 40000 0 0)
      root_keys_differ.1).1,
    (is_ancestor_of_same_depth (make_key 32768 0 0 0) (make_key 32768 40000 0 0)
      root_keys_differ.1).2.1,
    (is_ancestor_of_same_depth (make_key 32768 0 0 0) (make_key 32768 40000 0 0)
      root_keys_differ.1).2.2 root_keys_differ.2.2.1 root_keys_differ.2.2.2⟩

end smlt

namespace smlt

theorem HGSHEntryList.mem_foldl_filter_insert (p : EntryId → Bool) (found : HGSHEntryList)
    (results : HGSHEntryList) (x : EntryId) :
    x ∈ found.foldl (fun r result => if p result then HGSHEntryList.insert r result else r)
        results ↔
      x ∈ results ∨ (x ∈ found ∧ p x = true) := by
  induction found generalizing results with
  | nil => simp
  | cons e es ih =>
    rw [List.foldl_cons, ih]
    by_cases hp : p e = true
    · rw [if_pos hp, HGSHEntryList.mem_insert]
      constructor
      · rintro ((h | h) | ⟨h1, h2⟩)
        · exact Or.inl h
        · exact Or.inr ⟨by rw [h]; exact List.mem_cons_self _ _, by rw [h]; exact hp⟩
        · exact Or.inr ⟨List.mem_cons_of_mem _ h1, h2⟩
      · rintro (h | ⟨h1, h2⟩)
        · exact Or.inl (Or.inl h)
        · rcases List.mem_cons.mp h1 with h3 | h3
          · exact Or.inl (Or.inr h3)
          · exact Or.inr ⟨h3, h2⟩
    · rw [if_neg hp]
      constructor
      · rintro (h | ⟨h1, h2⟩)
        · exact Or.inl h
        · exact Or.inr ⟨List.mem_cons_of_mem _ h1, h2⟩
      · rintro (h | ⟨h1, h2⟩)
        · exact Or.inl h
        · rcases List.mem_cons.mp h1 with h3 | h3
          · rw [h3] at h2
            exact absurd h2 hp
          · exact Or.inr ⟨h3, h2⟩

/-- C17. For every frustum and every state, `generate_boxes_for_frustum` gives the one box
that bounds the near and the far corners, and `find_objects_within_frustum` returns exactly
those entries of `find_objects_within_box` on that box whose cached box passes
`intersects_aabb`. -/
theorem find_objects_within_frustum_filters_box_query (iter : KeyList → List Key)
    (s : SpatialHash) (frustum : Frustum) :
    generate_boxes_for_frustum frustum
      = [AABB.of_points (frustum.near_corners ++ frustum.far_corners)] ∧
    ∀ e, e ∈ s.find_objects_within_frustum iter frustum ↔
      (e ∈ s.find_objects_within_box iter
          (AABB.of_points (frustum.near_corners ++ frustum.far_corners)) ∧
        frustum.intersects_aabb (s.entries e).hash_aabb = true) := by
  refine ⟨rfl, ?_⟩
  intro e
  unfold SpatialHash.find_objects_within_frustum generate_boxes_for_frustum
  rw [List.foldl_cons, List.foldl_nil]
  rw [HGSHEntryList.mem_foldl_filter_insert
    (fun result => frustum.intersects_aabb (s.entries result).hash_aabb)]
  simp

end smlt

/-! ## The static culler: what the slots of the node vector hold -/

namespace smlt

theorem foldl_set_length {α β : Type} (ws : List α) (idx : α → Nat) (val : α → β)
    (ns : List β) :
    (ws.foldl (fun ns w => ns.set (idx w) (val w)) ns).length = ns.length := by
  induction ws generalizing ns with
  | nil => rfl
  | cons w ws ih => rw [List.foldl_cons, ih, List.length_set]

theorem foldl_set_get_other {α β : Type} (ws : List α) (idx : α → Nat) (val : α → β)
    (ns : List β) (i : Nat) (h : ∀ w ∈ ws, idx w ≠ i) :
    (ws.foldl (fun ns w => ns.set (idx w) (val w)) ns)[i]? = ns[i]? := by
  induction ws generalizing ns with
  | nil => rfl
  | cons w ws ih =>
    rw [List.foldl_cons, ih _ (fun u hu => h u (List.mem_cons_of_mem _ hu))]
    exact List.getElem?_set_ne (h w (List.mem_cons_self _ _))

theorem foldl_set_get_written {α β : Type} (ws : List α) (idx : α → Nat) (val : α → β)
    (ns : List β) (i : Nat) (v : β) (hval : ∀ w ∈ ws, idx w = i → val w = v)
    (hex : ∃ w ∈ ws, idx w = i) (hi : i < ns.length) :
    (ws.foldl (fun ns w => ns.set (idx w) (val w)) ns)[i]? = some v := by
  induction ws generalizing ns with
  | nil =>
    obtain ⟨w, hw, _⟩ := hex
    simp at hw
  | cons w ws ih =>
    rw [List.foldl_cons]
    by_cases hlater : ∃ u ∈ ws, idx u = i
    · exact ih _ (fun u hu => hval u (List.mem_cons_of_mem _ hu)) hlater
        (by rw [List.length_set]; exact hi)
    · have hnone : ∀ u ∈ ws, idx u ≠ i := fun u hu hidx => hlater ⟨u, hu, hidx⟩
      rw [foldl_set_get_other ws idx val _ i hnone]
      obtain ⟨u, hu, hidx⟩ := hex
      have huw : u = w := by
        rcases List.mem_cons.mp hu with h1 | h1
        · exact h1
        · exact absurd hidx (hnone u h1)
      rw [huw] at hidx
      rw [hidx, List.getElem?_set_self hi, hval w (List.mem_cons_self _ _) hidx]

theorem mem_grow_positions (w : Nat) (p : Nat × Nat × Nat) :
    p ∈ grow_positions w ↔ p.1 < w ∧ p.2.1 < w ∧ p.2.2 < w := by
  unfold grow_positions
  simp only [List.mem_flatMap, List.mem_map, List.mem_range]
  constructor
  · rintro ⟨z, hz, y, hy, x, hx, rfl⟩
    exact ⟨hx, hy, hz⟩
  · rintro ⟨hx, hy, hz⟩
    exact ⟨p.2.2, hz, p.2.1, hy, p.1, hx, rfl⟩

/-- One call of `grow` on a tree with nodes: the level `k` it adds has its first slot at `B`,
the slots below `B` keep their nodes, and slot `B` holds the node of level `k` at the grid
position (0,0,0). -/
theorem CullerOctree.grow_slots (t : CullerOctree) (k B W C : Nat)
    (hne : t.nodes_.isEmpty = false) (hlv : t.levels_ + 1 = k) (h255 : k ≤ 255)
    (hW : ipow 2 k = W) (hC : ipow W 3 = C) (hWpos : 0 < W)
    (hge : ∀ x y z, x < W → y < W → z < W → B ≤ calc_index k x y z)
    (hzero : ∀ x y z, x < W → y < W → z < W → calc_index k x y z = B → x = 0 ∧ y = 0 ∧ z = 0)
    (h0 : calc_index k 0 0 0 = B) (hB : B < t.nodes_.length + C) :
    t.grow.levels_ = k ∧ t.grow.bounds_ = t.bounds_ ∧
    t.grow.nodes_.length = t.nodes_.length + C ∧
    (∀ i, i < B → i < t.nodes_.length → t.grow.nodes_[i]? = t.nodes_[i]?) ∧
    t.grow.nodes_[B]? = some ⟨k, (0, 0, 0), some {}⟩ := by
  have hl : ¬ t.levels_ = 255 := by omega
  have hk : (if t.nodes_.isEmpty = true then 0 else t.levels_ + 1) = k := by
    rw [hne]
    simpa using hlv
  have hgrow : t.grow =
      { t with
        levels_ := k,
        nodes_ := (grow_positions W).foldl
          (fun nodes p =>
            nodes.set (calc_index k p.1 p.2.1 p.2.2) { level := k % 256, grid := p, data := some {} })
          (t.nodes_ ++ List.replicate C {}) } := by
    unfold CullerOctree.grow
    rw [if_neg hl]
    simp only [hk, hW, hC]
    rw [hne]
    simp [hlv]
  rw [hgrow]
  refine ⟨rfl, rfl, ?_, ?_, ?_⟩
  · simp only []
    rw [foldl_set_length, List.length_append, List.length_replicate]
  · intro i hiB hilen
    simp only []
    rw [foldl_set_get_other, List.getElem?_append_left hilen]
    intro p hp
    obtain ⟨hx, hy, hz⟩ := (mem_grow_positions W p).mp hp
    have := hge p.1 p.2.1 p.2.2 hx hy hz
    omega
  · simp only []
    apply foldl_set_get_written
    · intro p hp hidx
      obtain ⟨hx, hy, hz⟩ := (mem_grow_positions W p).mp hp
      obtain ⟨h1, h2, h3⟩ := hzero p.1 p.2.1 p.2.2 hx hy hz hidx
      have hp0 : p = (0, 0, 0) := Prod.ext h1 (Prod.ext h2 h3)
      rw [hp0, Nat.mod_eq_of_lt (by omega)]
    · exact ⟨(0, 0, 0), (mem_grow_positions W _).mpr ⟨hWpos, hWpos, hWpos⟩, h0⟩
    · rw [List.length_append, List.length_replicate]
      exact hB

theorem ipow_values :
    ipow 2 1 = 2 ∧ ipow 2 2 = 4 ∧ ipow 2 3 = 8 ∧ ipow 2 4 = 16 ∧ ipow 2 5 = 32 ∧
    ipow 8 0 = 1 ∧ ipow 8 1 = 8 ∧ ipow 8 2 = 64 ∧ ipow 8 3 = 512 ∧ ipow 8 4 = 4096 ∧
    ipow 2 3 = 8 ∧ ipow 4 3 = 64 ∧ ipow 8 3 = 512 ∧ ipow 16 3 = 4096 ∧ ipow 32 3 = 32768 := by
  decide

theorem calc_index_level (k : Nat) (hk1 : 1 ≤ k) (hk5 : k ≤ 5) (x y z : Nat) :
    calc_index k x y z = (8 ^ (k - 1) + (x + 2 ^ k * y + 2 ^ k * 2 ^ k * z)) % 4294967296 := by
  unfold calc_index
  interval_cases k <;> simp [ipow_values]

end smlt

namespace smlt

theorem calc_index_facts (k : Nat) (hk1 : 1 ≤ k) (hk5 : k ≤ 5) :
    (∀ x y z, x < 2 ^ k → y < 2 ^ k → z < 2 ^ k → 8 ^ (k - 1) ≤ calc_index k x y z) ∧
    (∀ x y z, x < 2 ^ k → y < 2 ^ k → z < 2 ^ k → calc_index k x y z = 8 ^ (k - 1) →
      x = 0 ∧ y = 0 ∧ z = 0) ∧
    calc_index k 0 0 0 = 8 ^ (k - 1) := by
  refine ⟨?_, ?_, ?_⟩
  · intro x y z hx hy hz
    rw [calc_index_level k hk1 hk5]
    interval_cases k <;> simp only [Nat.reducePow, Nat.reduceSub, Nat.reduceMul] at * <;> omega
  · intro x y z hx hy hz
    rw [calc_index_level k hk1 hk5]
    interval_cases k <;> simp only [Nat.reducePow, Nat.reduceSub, Nat.reduceMul] at * <;> omega
  · rw [calc_index_level k hk1 hk5]
    interval_cases k <;> rfl

theorem CullerOctree.stage_zero (b : AABB) :
    CullerOctree.stage b 0 = { bounds_ := b, levels_ := 0, nodes_ := [⟨0, (0, 0, 0), some {}⟩] } := by
  rfl

/-- The step from one stage of the constructor to the next, for the levels 1 to 5. -/
theorem CullerOctree.stage_succ (b : AABB) (n : Nat) (hn : n + 1 ≤ 5) (len : Nat)
    (hlv : (CullerOctree.stage b n).levels_ = n)
    (hlen : (CullerOctree.stage b n).nodes_.length = len) (hpos : 0 < len)
    (hB : 8 ^ n < len + 8 ^ (n + 1)) :
    (CullerOctree.stage b (n + 1)).levels_ = n + 1 ∧
    (CullerOctree.stage b (n + 1)).bounds_ = (CullerOctree.stage b n).bounds_ ∧
    (CullerOctree.stage b (n + 1)).nodes_.length = len + 8 ^ (n + 1) ∧
    (∀ i, i < 8 ^ n → i < len →
      (CullerOctree.stage b (n + 1)).nodes_[i]? = (CullerOctree.stage b n).nodes_[i]?) ∧
    (CullerOctree.stage b (n + 1)).nodes_[8 ^ n]? = some ⟨n + 1, (0, 0, 0), some {}⟩ := by
  have hne : (CullerOctree.stage b n).nodes_.isEmpty = false := by
    cases hl : (CullerOctree.stage b n).nodes_ with
    | nil => rw [hl] at hlen; simp at hlen; omega
    | cons x xs => rfl
  obtain ⟨h1, h2, h3⟩ := calc_index_facts (n + 1) (by omega) hn
  have hn4 : n ≤ 4 := by omega
  have hW : ipow 2 (n + 1) = 2 ^ (n + 1) := by
    interval_cases n <;> simp [ipow_values]
  have hC : ipow (2 ^ (n + 1)) 3 = 8 ^ (n + 1) := by
    interval_cases n <;> simp [ipow_values]
  have := CullerOctree.grow_slots (CullerOctree.stage b n) (n + 1) (8 ^ n) (2 ^ (n + 1))
    (8 ^ (n + 1)) hne (by rw [hlv]) (by omega) hW hC (by positivity) h1 h2 h3
    (by rw [hlen]; exact hB)
  rw [hlen] at this
  exact this

/-- The tree of the constructor with 5 levels: its size, and the nodes in the first slot of
each level. -/
theorem CullerOctree.stage_five (b : AABB) :
    (CullerOctree.stage b 5).levels_ = 5 ∧ (CullerOctree.stage b 5).bounds_ = b ∧
    (CullerOctree.stage b 5).nodes_.length = 37449 ∧
    (CullerOctree.stage b 5).shape_at 0 = some (0, 0, 0, 0) ∧
    (CullerOctree.stage b 5).shape_at 1 = some (1, 0, 0, 0) ∧
    (CullerOctree.stage b 5).shape_at 8 = some (2, 0, 0, 0) ∧
    (CullerOctree.stage b 5).shape_at 64 = some (3, 0, 0, 0) ∧
    (CullerOctree.stage b 5).shape_at 512 = some (4, 0, 0, 0) ∧
    (CullerOctree.stage b 5).shape_at 4096 = some (5, 0, 0, 0) ∧
    (∀ n, n < 5 → (CullerOctree.stage b n).levels_ = n) := by
  have s0 := CullerOctree.stage_zero b
  have l0 : (CullerOctree.stage b 0).levels_ = 0 := by rw [s0]
  have n0 : (CullerOctree.stage b 0).nodes_.length = 1 := by rw [s0]; rfl
  have b0 : (CullerOctree.stage b 0).bounds_ = b := by rw [s0]
  have g0 : (CullerOctree.stage b 0).nodes_[0]? = some ⟨0, (0, 0, 0), some {}⟩ := by
    rw [s0]; rfl
  obtain ⟨l1, b1, n1, k1, g1⟩ := CullerOctree.stage_succ b 0 (by norm_num) 1 l0 n0
    (by norm_num) (by norm_num)
  obtain ⟨l2, b2, n2, k2, g2⟩ := CullerOctree.stage_succ b 1 (by norm_num) _ l1 n1
    (by norm_num) (by norm_num)
  obtain ⟨l3, b3, n3, k3, g3⟩ := CullerOctree.stage_succ b 2 (by norm_num) _ l2 n2
    (by norm_num) (by norm_num)
  obtain ⟨l4, b4, n4, k4, g4⟩ := CullerOctree.stage_succ b 3 (by norm_num) _ l3 n3
    (by norm_num) (by norm_num)
  obtain ⟨l5, b5, n5, k5, g5⟩ := CullerOctree.stage_succ b 4 (by norm_num) _ l4 n4
    (by norm_num) (by norm_num)
  have e0 : (CullerOctree.stage b 5).nodes_[0]? = some ⟨0, (0, 0, 0), some {}⟩ := by
    rw [k5 0 (by norm_num) (by norm_num), k4 0 (by norm_num) (by norm_num),
      k3 0 (by norm_num) (by norm_num), k2 0 (by norm_num) (by norm_num),
      k1 0 (by norm_num) (by norm_num), g0]
  have e1 : (CullerOctree.stage b 5).nodes_[1]? = some ⟨1, (0, 0, 0), some {}⟩ := by
    rw [k5 1 (by norm_num) (by norm_num), k4 1 (by norm_num) (by norm_num),
      k3 1 (by norm_num) (by norm_num), k2 1 (by norm_num) (by norm_num)]
    exact g1
  have e2 : (CullerOctree.stage b 5).nodes_[8]? = some ⟨2, (0, 0, 0), some {}⟩ := by
    rw [k5 8 (by norm_num) (by norm_num), k4 8 (by norm_num) (by norm_num),
      k3 8 (by norm_num) (by norm_num)]
    exact g2
  have e3 : (CullerOctree.stage b 5).nodes_[64]? = some ⟨3, (0, 0, 0), some {}⟩ := by
    rw [k5 64 (by norm_num) (by norm_num), k4 64 (by norm_num) (by norm_num)]
    exact g3
  have e4 : (CullerOctree.stage b 5).nodes_[512]? = some ⟨4, (0, 0, 0), some {}⟩ := by
    rw [k5 512 (by norm_num) (by norm_num)]
    exact g4
  have shape : ∀ i lv, (CullerOctree.stage b 5).nodes_[i]? = some ⟨lv, (0, 0, 0), some {}⟩ →
      (CullerOctree.stage b 5).shape_at i = some (lv, 0, 0, 0) := by
    intro i lv h
    unfold CullerOctree.shape_at
    rw [List.get?_eq_getElem?, h]
    rfl
  refine ⟨l5, ?_, n5, shape 0 0 e0, shape 1 1 e1, shape 8 2 e2, shape 64 3 e3,
    shape 512 4 e4, shape 4096 5 g5, ?_⟩
  · rw [b5, b4, b3, b2, b1, b0]
  · intro n hn
    interval_cases n
    · exact l0
    · exact l1
    · exact l2
    · exact l3
    · exact l4

end smlt

/-! ## The static culler: the traversal -/

namespace smlt

theorem CullerOctree.grow_loop_succ (m n : Nat) (t : CullerOctree) :
    CullerOctree.grow_loop m (n + 1) t =
      if t.levels_ < m then CullerOctree.grow_loop m n t.grow else t := rfl

theorem CullerOctree.stage_zero_def (b : AABB) :
    CullerOctree.stage b 0 = ({ bounds_ := b } : CullerOctree).grow := rfl

theorem CullerOctree.stage_succ_def (b : AABB) (n : Nat) :
    CullerOctree.stage b (n + 1) = (CullerOctree.stage b n).grow := rfl

/-- The constructor with 5 levels runs `grow` six times. -/
theorem CullerOctree.new_five (bounds : AABB) :
    ∃ b, CullerOctree.new bounds 5 = CullerOctree.stage b 5 := by
  have hmain : ∀ b : AABB, CullerOctree.grow_loop 5 257 ({ bounds_ := b } : CullerOctree)
      = CullerOctree.stage b 5 := by
    intro b
    obtain ⟨l5, _, _, _, _, _, _, _, _, hl⟩ := CullerOctree.stage_five b
    have h0 : CullerOctree.grow_loop 5 257 ({ bounds_ := b } : CullerOctree)
        = CullerOctree.grow_loop 5 256 (CullerOctree.stage b 0) := by
      rw [show (257 : Nat) = 256 + 1 from rfl, CullerOctree.grow_loop_succ,
        if_pos (show ({ bounds_ := b } : CullerOctree).levels_ < 5 from Nat.zero_lt_succ 4),
        CullerOctree.stage_zero_def]
    have hstep : ∀ n f, n < 5 → CullerOctree.grow_loop 5 (f + 1) (CullerOctree.stage b n)
        = CullerOctree.grow_loop 5 f (CullerOctree.stage b (n + 1)) := by
      intro n f hn
      rw [CullerOctree.grow_loop_succ, hl n hn, if_pos hn, CullerOctree.stage_succ_def]
    rw [h0, show (256 : Nat) = 255 + 1 from rfl, hstep 0 255 (by norm_num),
      show (255 : Nat) = 254 + 1 from rfl, hstep 1 254 (by norm_num),
      show (254 : Nat) = 253 + 1 from rfl, hstep 2 253 (by norm_num),
      show (253 : Nat) = 252 + 1 from rfl, hstep 3 252 (by norm_num),
      show (252 : Nat) = 251 + 1 from rfl, hstep 4 251 (by norm_num),
      show (251 : Nat) = 250 + 1 from rfl, CullerOctree.grow_loop_succ, l5,
      if_neg (by norm_num)]
  exact ⟨_, hmain _⟩

theorem CullerOctree.shape_at_modify (t t1 : CullerOctree) (f : CullerNode → CullerNode)
    (hf : ∀ n, (f n).level = n.level ∧ (f n).grid = n.grid) (j : Nat)
    (h : t1.nodes_ = t.nodes_.modify f j) (i : Nat) : t1.shape_at i = t.shape_at i := by
  unfold CullerOctree.shape_at
  rw [List.get?_eq_getElem?, List.get?_eq_getElem?, h, List.getElem?_modify]
  cases t.nodes_[i]? with
  | none => rfl
  | some n =>
    by_cases hji : j = i
    · simp [hji, (hf n).1, (hf n).2]
    · simp [hji]

/-- A triangle changes the data of one node and nothing else. -/
theorem CullerOctree.insert_triangle_shape (vertices : List Vec3) (fuel material_id : Nat)
    (t : CullerOctree) (tri : Nat × Nat × Nat) (hne : t.nodes_.isEmpty = false) :
    (t.insert_triangle vertices fuel material_id tri).levels_ = t.levels_ ∧
    (t.insert_triangle vertices fuel material_id tri).nodes_.isEmpty = false ∧
    ∀ i, (t.insert_triangle vertices fuel material_id tri).shape_at i = t.shape_at i := by
  have hd : ∀ st, t.find_destination_for_triangle st fuel = (t, t.destination st fuel 0) := by
    intro st
    unfold CullerOctree.find_destination_for_triangle
    rw [hne]
    rfl
  unfold CullerOctree.insert_triangle
  simp only []
  rw [hd]
  cases t.destination [vertices.getD tri.1 ⟨0, 0, 0⟩, vertices.getD tri.2.1 ⟨0, 0, 0⟩,
      vertices.getD tri.2.2 ⟨0, 0, 0⟩] fuel 0 with
  | none => exact ⟨rfl, hne, fun _ => rfl⟩
  | some j =>
    refine ⟨rfl, ?_, ?_⟩
    · cases hn : t.nodes_ with
      | nil => rw [hn] at hne; simp at hne
      | cons x xs => cases j <;> rfl
    · intro i
      refine CullerOctree.shape_at_modify t _ _ ?_ j rfl i
      exact fun n => ⟨rfl, rfl⟩

theorem CullerOctree.foldl_insert_triangle_shape (vertices : List Vec3)
    (fuel material_id : Nat) (tris : List (Nat × Nat × Nat)) (t : CullerOctree)
    (hne : t.nodes_.isEmpty = false) :
    (tris.foldl (CullerOctree.insert_triangle vertices fuel material_id) t).levels_
      = t.levels_ ∧
    (tris.foldl (CullerOctree.insert_triangle vertices fuel material_id) t).nodes_.isEmpty
      = false ∧
    ∀ i, (tris.foldl (CullerOctree.insert_triangle vertices fuel material_id) t).shape_at i
      = t.shape_at i := by
  induction tris generalizing t with
  | nil => exact ⟨rfl, hne, fun _ => rfl⟩
  | cons tri tris ih =>
    rw [List.foldl_cons]
    obtain ⟨h1, h2, h3⟩ := CullerOctree.insert_triangle_shape vertices fuel material_id t tri hne
    obtain ⟨g1, g2, g3⟩ := ih _ h2
    exact ⟨g1.trans h1, g2, fun i => (g3 i).trans (h3 i)⟩

/-- The tree that `_compile` leaves: 5 levels, and the nodes of the constructor in the first
slot of each level. -/
theorem OctreeCuller.compile_shape (mesh : Mesh) (fuel : Nat) :
    (OctreeCuller._compile mesh fuel).levels_ = 5 ∧
    (OctreeCuller._compile mesh fuel).nodes_.isEmpty = false ∧
    (OctreeCuller._compile mesh fuel).shape_at 0 = some (0, 0, 0, 0) ∧
    (OctreeCuller._compile mesh fuel).shape_at 1 = some (1, 0, 0, 0) ∧
    (OctreeCuller._compile mesh fuel).shape_at 8 = some (2, 0, 0, 0) ∧
    (OctreeCuller._compile mesh fuel).shape_at 64 = some (3, 0, 0, 0) ∧
    (OctreeCuller._compile mesh fuel).shape_at 512 = some (4, 0, 0, 0) ∧
    (OctreeCuller._compile mesh fuel).shape_at 4096 = some (5, 0, 0, 0) := by
  obtain ⟨b, hb⟩ := CullerOctree.new_five (AABB.of_points mesh.vertices)
  obtain ⟨l5, _, n5, e0, e1, e2, e3, e4, e5, _⟩ := CullerOctree.stage_five b
  have hne5 : (CullerOctree.stage b 5).nodes_.isEmpty = false := by
    cases hn : (CullerOctree.stage b 5).nodes_ with
    | nil => rw [hn] at n5; simp at n5
    | cons x xs => rfl
  have hall : ∀ (subs : List (Nat × List (Nat × Nat × Nat))) (t : CullerOctree),
      t.nodes_.isEmpty = false →
      (subs.foldl (fun t submesh =>
        submesh.2.foldl (CullerOctree.insert_triangle mesh.vertices fuel submesh.1) t) t).levels_
        = t.levels_ ∧
      (subs.foldl (fun t submesh =>
        submesh.2.foldl (CullerOctree.insert_triangle mesh.vertices fuel submesh.1)
          t) t).nodes_.isEmpty = false ∧
      ∀ i, (subs.foldl (fun t submesh =>
        submesh.2.foldl (CullerOctree.insert_triangle mesh.vertices fuel submesh.1)
          t) t).shape_at i = t.shape_at i := by
    intro subs
    induction subs with
    | nil => exact fun t hne => ⟨rfl, hne, fun _ => rfl⟩
    | cons sm subs ih =>
      intro t hne
      rw [List.foldl_cons]
      obtain ⟨h1, h2, h3⟩ :=
        CullerOctree.foldl_insert_triangle_shape mesh.vertices fuel sm.1 sm.2 t hne
      obtain ⟨g1, g2, g3⟩ := ih _ h2
      exact ⟨g1.trans h1, g2, fun i => (g3 i).trans (h3 i)⟩
  unfold OctreeCuller._compile
  rw [hb]
  obtain ⟨g1, g2, g3⟩ := hall mesh.submeshes _ hne5
  exact ⟨g1.trans l5, g2, (g3 0).trans e0, (g3 1).trans e1, (g3 8).trans e2,
    (g3 64).trans e3, (g3 512).trans e4, (g3 4096).trans e5⟩

end smlt

namespace smlt

theorem CullerOctree.node_of_shape {t : CullerOctree} {i lv : Nat} {g : Nat × Nat × Nat}
    (h : t.shape_at i = some (lv, g)) :
    ∃ node, t.nodes_.get? i = some node ∧ node.level = lv ∧ node.grid = g := by
  unfold CullerOctree.shape_at at h
  cases hn : t.nodes_.get? i with
  | none => rw [hn] at h; simp at h
  | some node =>
    rw [hn] at h
    simp only [Option.map_some', Option.some.injEq, Prod.mk.injEq] at h
    exact ⟨node, rfl, h.1, h.2⟩

theorem CullerOctree.visit_leaf (frustum : Frustum) (hall : ∀ b, frustum.intersects_aabb b = true)
    (t : CullerOctree) (fuel i : Nat) (g : Nat × Nat × Nat)
    (h : t.shape_at i = some (t.levels_, g)) : t.visit frustum (fuel + 1) i = [i] := by
  obtain ⟨node, hn, hl, _⟩ := CullerOctree.node_of_shape h
  unfold CullerOctree.visit
  rw [hn]
  simp only [hall, if_true]
  have : t.is_leaf node = true := by
    unfold CullerOctree.is_leaf
    rw [hl]
    simp
  rw [this]
  rfl

theorem CullerOctree.visit_inner (frustum : Frustum)
    (hall : ∀ b, frustum.intersects_aabb b = true) (t : CullerOctree) (fuel i lv : Nat)
    (g : Nat × Nat × Nat) (h : t.shape_at i = some (lv, g)) (hlv : lv ≠ t.levels_) :
    t.visit frustum (fuel + 1) i
      = i :: (child_indexes ⟨lv, g, none⟩).flatMap (t.visit frustum fuel) := by
  obtain ⟨node, hn, hl, hg⟩ := CullerOctree.node_of_shape h
  unfold CullerOctree.visit
  rw [hn]
  simp only [hall, if_true]
  have hleaf : t.is_leaf node = false := by
    unfold CullerOctree.is_leaf
    rw [hl]
    simpa using hlv
  have hch : child_indexes node = child_indexes ⟨lv, g, none⟩ := by
    unfold child_indexes
    rw [hl, hg]
  rw [hleaf, hch]
  rfl

theorem child_indexes_first_slots :
    child_indexes ⟨0, (0, 0, 0), none⟩ = [1, 2, 3, 4, 5, 6, 7, 8] ∧
    child_indexes ⟨1, (0, 0, 0), none⟩ = [8, 9, 12, 13, 24, 25, 28, 29] ∧
    child_indexes ⟨2, (0, 0, 0), none⟩ = [64, 65, 72, 73, 128, 129, 136, 137] ∧
    child_indexes ⟨3, (0, 0, 0), none⟩ = [512, 513, 528, 529, 768, 769, 784, 785] ∧
    child_indexes ⟨4, (0, 0, 0), none⟩
      = [4096, 4097, 4128, 4129, 5120, 5121, 5152, 5153] := by
  decide

theorem count_le_visit_first (x : Nat) (f : Nat → List Nat) (i c : Nat) (rest : List Nat) :
    (f c).count x ≤ (i :: (c :: rest).flatMap f).count x := by
  rw [List.flatMap_cons, List.count_cons, List.count_append]
  omega

/-- With a frustum that every box intersects, the traversal of a tree with the first slots of
the 5 levels as `_compile` leaves them calls the callback at least twice with slot 4096. -/
theorem CullerOctree.visit_twice (frustum : Frustum)
    (hall : ∀ b, frustum.intersects_aabb b = true) (t : CullerOctree) (n : Nat)
    (hl : t.levels_ = 5) (hne : t.nodes_.isEmpty = false)
    (e0 : t.shape_at 0 = some (0, 0, 0, 0)) (e1 : t.shape_at 1 = some (1, 0, 0, 0))
    (e2 : t.shape_at 8 = some (2, 0, 0, 0)) (e3 : t.shape_at 64 = some (3, 0, 0, 0))
    (e4 : t.shape_at 512 = some (4, 0, 0, 0)) (e5 : t.shape_at 4096 = some (5, 0, 0, 0)) :
    2 ≤ (t.traverse_visible frustum (n + 6)).count 4096 := by
  obtain ⟨c0, c1, c2, c3, c4⟩ := child_indexes_first_slots
  have v5 : ∀ f, (t.visit frustum (f + 1) 4096).count 4096 = 1 := by
    intro f
    rw [CullerOctree.visit_leaf frustum hall t f 4096 (0, 0, 0) (by rw [hl]; exact e5)]
    rfl
  have v4 : ∀ f, 1 ≤ (t.visit frustum (f + 2) 512).count 4096 := by
    intro f
    rw [CullerOctree.visit_inner frustum hall t (f + 1) 512 4 _ e4 (by rw [hl]; norm_num), c4]
    calc 1 = (t.visit frustum (f + 1) 4096).count 4096 := (v5 f).symm
      _ ≤ _ := count_le_visit_first 4096 _ _ _ _
  have v3 : ∀ f, 1 ≤ (t.visit frustum (f + 3) 64).count 4096 := by
    intro f
    rw [CullerOctree.visit_inner frustum hall t (f + 2) 64 3 _ e3 (by rw [hl]; norm_num), c3]
    exact le_trans (v4 f) (count_le_visit_first 4096 _ _ _ _)
  have v2 : ∀ f, 1 ≤ (t.visit frustum (f + 4) 8).count 4096 := by
    intro f
    rw [CullerOctree.visit_inner frustum hall t (f + 3) 8 2 _ e2 (by rw [hl]; norm_num), c2]
    exact le_trans (v3 f) (count_le_visit_first 4096 _ _ _ _)
  have v1 : ∀ f, 1 ≤ (t.visit frustum (f + 5) 1).count 4096 := by
    intro f
    rw [CullerOctree.visit_inner frustum hall t (f + 4) 1 1 _ e1 (by rw [hl]; norm_num), c1]
    exact le_trans (v2 f) (count_le_visit_first 4096 _ _ _ _)
  unfold CullerOctree.traverse_visible
  rw [hne]
  simp only [Bool.false_eq_true, if_false]
  rw [CullerOctree.visit_inner frustum hall t (n + 5) 0 0 _ e0 (by rw [hl]; norm_num), c0]
  simp only [List.flatMap_cons, List.flatMap_nil, List.count_cons, List.count_append,
    List.count_nil]
  have h1 := v1 n
  have h8 : 1 ≤ (t.visit frustum (n + 5) 8).count 4096 := v2 (n + 1)
  omega

/-- C11. For every mesh, the tree that `_compile` builds has a leaf in slot 4096 (level 5, grid
position (0,0,0)), and `traverse_visible` with a frustum that every box intersects calls the
callback with that leaf at least twice: once on the way through slot 1, the child (0,0,0) of
the root, and once on the way through slot 8, which `calc_index` gives for the child (1,1,1)
of the root and for the node (0,0,0) of level 2. -/
theorem traverse_visible_visits_leaf_twice (mesh : Mesh) (fuel n : Nat) (frustum : Frustum)
    (hall : ∀ b, frustum.intersects_aabb b = true) :
    calc_index 1 1 1 1 = 8 ∧ calc_index 2 0 0 0 = 8 ∧
    ((OctreeCuller._compile mesh fuel).nodes_.get? 4096).map
        (OctreeCuller._compile mesh fuel).is_leaf = some true ∧
    2 ≤ ((OctreeCuller._compile mesh fuel).traverse_visible frustum (n + 6)).count 4096 := by
  obtain ⟨hl, hne, e0, e1, e2, e3, e4, e5⟩ := OctreeCuller.compile_shape mesh fuel
  refine ⟨by decide, by decide, ?_, ?_⟩
  · obtain ⟨node, hn, hlv, _⟩ := CullerOctree.node_of_shape e5
    rw [hn]
    unfold CullerOctree.is_leaf
    simp [hlv, hl]
  · exact CullerOctree.visit_twice frustum hall _ n hl hne e0 e1 e2 e3 e4 e5

/-- C11, on the mesh without triangles and the frustum whose test passes every box. -/
theorem traverse_visible_visits_leaf_twice_witness :
    (∀ b, all_seeing_frustum.intersects_aabb b = true) ∧
    calc_index 1 1 1 1 = 8 ∧ calc_index 2 0 0 0 = 8 ∧
    ((OctreeCuller._compile empty_mesh 6).nodes_.get? 4096).map
        (OctreeCuller._compile empty_mesh 6).is_leaf = some true ∧
    2 ≤ ((OctreeCuller._compile empty_mesh 6).traverse_visible all_seeing_frustum
      (0 + 6)).count 4096 :=
  ⟨fun _ => rfl,
    traverse_visible_visits_leaf_twice empty_mesh 6 0 all_seeing_frustum (fun _ => rfl)⟩

end smlt

/-! ## The order of the keys -/

namespace smlt

theorem lex_lt_of_prefix (u w : List Nat) (h : u <+: w) : lex_lt w u = false := by
  induction u generalizing w with
  | nil => cases w <;> rfl
  | cons a as ih =>
    cases w with
    | nil => simp at h
    | cons c cs =>
      rw [List.cons_prefix_cons] at h
      obtain ⟨hac, hp⟩ := h
      subst hac
      simp [lex_lt, ih cs hp]

set_option maxRecDepth 100000 in
unseal Rat.add Rat.mul Rat.inv Rat.sub in
/-- C22, counterexample. The keys `make_key` returns for the cell size 65536 have the depth
2^64 - 1; on them `Key::operator<` is not transitive: the key of (0,0,0) at cell size 65536 is
less than the key of (1,0,0) at cell size 1, which is less than the key of (40000,0,0) at cell
size 65536, but the first is not less than the third.  All three have the 16 elements of the
path, and no comparison reads beyond them. -/
theorem key_lt_not_transitive_on_wrapped_depth :
    (make_key 65536 0 0 0).ancestors = 18446744073709551615 ∧
    (make_key 65536 40000 0 0).ancestors = 18446744073709551615 ∧
    (make_key 1 1 0 0).ancestors = 15 ∧
    (make_key 65536 0 0 0).hash_path.length = 16 ∧
    (make_key 65536 40000 0 0).hash_path.length = 16 ∧
    (make_key 65536 0 0 0).lt (make_key 1 1 0 0) = true ∧
    (make_key 1 1 0 0).lt (make_key 65536 40000 0 0) = true ∧
    (make_key 65536 0 0 0).lt (make_key 65536 40000 0 0) = false := by
  decide

/-- C22 (amended). On keys of a depth of at most 15 `Key::operator<` is a strict total order
that agrees with `Key::operator==`: it is irreflexive and transitive, and of `a < b`, `a == b`
and `b < a` exactly one holds. -/
theorem key_lt_strict_total_order (a b c : Key) (ha : a.valid) (hb : b.valid) (hc : c.valid) :
    a.lt a = false ∧
    (a.lt b = true → b.lt c = true → a.lt c = true) ∧
    ((a.lt b = true ∧ a.eq b = false ∧ b.lt a = false) ∨
      (a.lt b = false ∧ a.eq b = true ∧ b.lt a = false) ∨
      (a.lt b = false ∧ a.eq b = false ∧ b.lt a = true)) := by
  refine ⟨?_, Key.lt_trans a b c ha hb hc, ?_⟩
  · rw [Key.lt_eq_lex a a ha ha]
    exact lex_lt_irrefl _
  · rw [Key.lt_eq_lex a b ha hb, Key.lt_eq_lex b a hb ha]
    have heq := Key.eq_iff a b ha hb
    cases h1 : lex_lt a.sig b.sig with
    | true =>
      left
      refine ⟨rfl, ?_, lex_lt_asymm _ _ h1⟩
      cases he : a.eq b with
      | false => rfl
      | true =>
        rw [heq.mp he, lex_lt_irrefl] at h1
        exact absurd h1 (by simp)
    | false =>
      cases h2 : lex_lt b.sig a.sig with
      | true =>
        right
        right
        refine ⟨rfl, ?_, rfl⟩
        cases he : a.eq b with
        | false => rfl
        | true =>
          rw [heq.mp he, lex_lt_irrefl] at h2
          exact absurd h2 (by simp)
      | false =>
        right
        left
        exact ⟨rfl, heq.mpr (lex_lt_total _ _ h1 h2), rfl⟩

set_option maxRecDepth 100000 in
unseal Rat.add Rat.mul Rat.inv Rat.sub in
theorem example_keys_valid :
    (make_key 4 0 0 0).valid ∧ (make_key 1 5 0 0).valid ∧ (make_key 1 9 0 0).valid ∧
    (make_key 4 0 0 0).is_ancestor_of (make_key 1 1 0 0) = true ∧ (make_key 1 1 0 0).valid ∧
    (make_key 2 0 0 0).valid ∧
    (make_key 2 0 0 0).lt (make_key 4 0 0 0) = false ∧
    (make_key 1 1 0 0).lt (make_key 2 0 0 0) = false := by
  decide

/-- C22 (amended), on the keys of the points (0,0,0) at cell size 4, (5,0,0) at cell size 1
and (9,0,0) at cell size 1. -/
theorem key_lt_strict_total_order_witness :
    (make_key 4 0 0 0).lt (make_key 4 0 0 0) = false ∧
    ((make_key 4 0 0 0).lt (make_key 1 5 0 0) = true →
      (make_key 1 5 0 0).lt (make_key 1 9 0 0) = true →
      (make_key 4 0 0 0).lt (make_key 1 9 0 0) = true) ∧
    (((make_key 4 0 0 0).lt (make_key 1 5 0 0) = true ∧
        (make_key 4 0 0 0).eq (make_key 1 5 0 0) = false ∧
        (make_key 1 5 0 0).lt (make_key 4 0 0 0) = false) ∨
      ((make_key 4 0 0 0).lt (make_key 1 5 0 0) = false ∧
        (make_key 4 0 0 0).eq (make_key 1 5 0 0) = true ∧
        (make_key 1 5 0 0).lt (make_key 4 0 0 0) = false) ∨
      ((make_key 4 0 0 0).lt (make_key 1 5 0 0) = false ∧
        (make_key 4 0 0 0).eq (make_key 1 5 0 0) = false ∧
        (make_key 1 5 0 0).lt (make_key 4 0 0 0) = true)) :=
  key_lt_strict_total_order (make_key 4 0 0 0) (make_key 1 5 0 0) (make_key 1 9 0 0)
    example_keys_valid.1 example_keys_valid.2.1 example_keys_valid.2.2.1

set_option maxRecDepth 100000 in
unseal Rat.add Rat.mul Rat.inv Rat.sub in
/-- C21, counterexample. The keys `make_key` returns for the cell size 65536 have the depth
2^64 - 1.  The key `k` of (0,0,0) at cell size 65536 is an ancestor of the key `c` of
(40000,0,0) at cell size 65536; the key `b` of (1,0,0) at cell size 1 is not less than `k` and
`c` is not less than `b`, yet `k` is not an ancestor of `b`. -/
theorem descendants_not_adjacent_on_wrapped_depth :
    (make_key 65536 0 0 0).ancestors = 18446744073709551615 ∧
    (make_key 65536 40000 0 0).ancestors = 18446744073709551615 ∧
    (make_key 65536 0 0 0).is_ancestor_of (make_key 65536 40000 0 0) = true ∧
    (make_key 1 1 0 0).lt (make_key 65536 0 0 0) = false ∧
    (make_key 65536 40000 0 0).lt (make_key 1 1 0 0) = false ∧
    (make_key 65536 0 0 0).is_ancestor_of (make_key 1 1 0 0) = false := by
  decide

/-- C21 (amended). On keys of a depth of at most 15 the descendants of a key sort adjacently,
starting at the key: a key `b` that is not less than `k` and not greater than a descendant `c`
of `k` is a descendant of `k`, and no descendant of `k` is less than `k`.  Hence in an index of
such keys every element whose key is a descendant of `k` is in the run that the scan of
`gather_objects` walks, from `lower_bound(k)` to the first key that is not a descendant, and
its bucket is collected. -/
theorem descendants_sort_adjacently (k b c : Key) (hk : k.valid) (hb : b.valid) (hc : c.valid)
    (hkc : k.is_ancestor_of c = true) :
    (b.lt k = false → c.lt b = false → k.is_ancestor_of b = true) ∧
    c.lt k = false ∧
    ∀ index : Index, index.WF → ∀ p ∈ index, k.is_ancestor_of p.1 = true →
      p ∈ (Index.lower_bound index k).takeWhile (fun x => k.is_ancestor_of x.1) ∧
      ∀ objects x, x ∈ p.2 → x ∈ gather_objects index k objects := by
  have hpre := (Key.is_ancestor_of_iff k c hk hc).mp hkc
  have hdesc : ∀ d : Key, d.valid → k.is_ancestor_of d = true → d.lt k = false := by
    intro d hd hkd
    rw [Key.lt_eq_lex d k hd hk]
    exact lex_lt_of_prefix _ _ ((Key.is_ancestor_of_iff k d hk hd).mp hkd)
  refine ⟨?_, hdesc c hc hkc, ?_⟩
  · intro h1 h2
    rw [Key.lt_eq_lex b k hb hk] at h1
    rw [Key.lt_eq_lex c b hc hb] at h2
    rw [Key.is_ancestor_of_iff k b hk hb]
    exact lex_between _ _ _ hpre h1 h2
  · intro index hwf p hp hanc
    have hpv := hwf.2 p hp
    have hmem := Index.mem_lower_bound index k p hp (hdesc p.1 hpv hanc)
    have hwf2 : Index.WF (Index.lower_bound index k) :=
      Index.WF_sublist _ _ (List.dropWhile_sublist _) hwf
    exact ⟨Index.mem_takeWhile_descendants _ hwf2 k hk
        (Index.lower_bound_not_lt index hwf k hk) p hmem hanc,
      fun objects x hx => gather_objects_descendant index hwf k hk p hp hanc objects x hx⟩

/-- C21 (amended), on the key of (0,0,0) at cell size 4, its descendant at (1,0,0) and cell
size 1, and the key of (0,0,0) at cell size 2 between them. -/
theorem descendants_sort_adjacently_witness :
    (make_key 4 0 0 0).is_ancestor_of (make_key 1 1 0 0) = true ∧
    (make_key 4 0 0 0).is_ancestor_of (make_key 2 0 0 0) = true ∧
    (make_key 1 1 0 0).lt (make_key 4 0 0 0) = false :=
  ⟨example_keys_valid.2.2.2.1,
    (descendants_sort_adjacently (make_key 4 0 0 0) (make_key 2 0 0 0) (make_key 1 1 0 0)
      example_keys_valid.1 example_keys_valid.2.2.2.2.2.1 example_keys_valid.2.2.2.2.1
      example_keys_valid.2.2.2.1).1 example_keys_valid.2.2.2.2.2.2.1
      example_keys_valid.2.2.2.2.2.2.2,
    (descendants_sort_adjacently (make_key 4 0 0 0) (make_key 2 0 0 0) (make_key 1 1 0 0)
      example_keys_valid.1 example_keys_valid.2.2.2.2.2.1 example_keys_valid.2.2.2.2.1
      example_keys_valid.2.2.2.1).2.1⟩

theorem parent_key_path_take (n : Nat) (hn : n ≤ 14) (x y z : ℚ) :
    (make_key (2 ^ n) x y z).parent_key.hash_path.take (15 - n)
      = (List.range (15 - n)).map fun i => make_hash (MAX_PATH_SIZE / 2 ^ i) x y z := by
  unfold Key.parent_key
  simp only []
  rw [make_key_ancestors n (by omega)]
  have hlen : ((make_key (2 ^ n) x y z).hash_path.take (15 - n)).length = 15 - n := by
    rw [List.length_take, make_key_length]
    omega
  rw [List.take_append_of_le_length (by rw [hlen]), List.take_take, Nat.min_self]
  exact make_key_take n (by omega) x y z (15 - n) (by omega)

/-- C30. For the cell size `2 ^ n` with `n ≤ 14` and every point, the parent key of the key
of the point is equal, by `Key::operator==`, to the key of the point at the cell size
`2 ^ (n + 1)`, and it is an ancestor of the key of the point. -/
theorem parent_key_is_key_of_coarser_cell (n : Nat) (hn : n ≤ 14) (x y z : ℚ) :
    (make_key (2 ^ n) x y z).parent_key.eq (make_key (2 ^ (n + 1)) x y z) = true ∧
    (make_key (2 ^ n) x y z).parent_key.is_ancestor_of (make_key (2 ^ n) x y z) = true := by
  have hanc : (make_key (2 ^ n) x y z).parent_key.ancestors = 14 - n := by
    unfold Key.parent_key
    simp only []
    rw [make_key_ancestors n (by omega)]
    omega
  have hmod : (14 - n + 1) % 18446744073709551616 = 15 - n := by
    rw [Nat.mod_eq_of_lt (by omega)]
    omega
  have hp := parent_key_path_take n hn x y z
  constructor
  · unfold Key.eq
    rw [hanc, make_key_ancestors (n + 1) (by omega), hmod]
    have h2 : (make_key (2 ^ (n + 1)) x y z).path_bytes (15 - n)
        = (make_key (2 ^ n) x y z).parent_key.path_bytes (15 - n) := by
      unfold Key.path_bytes
      rw [hp, make_key_take (n + 1) (by omega) x y z (15 - n) (by omega)]
    rw [h2, memcmp_self]
    simp
  · unfold Key.is_ancestor_of
    rw [hanc, make_key_ancestors n (by omega), if_neg (by omega), hmod]
    have h2 : (make_key (2 ^ n) x y z).path_bytes (15 - n)
        = (make_key (2 ^ n) x y z).parent_key.path_bytes (15 - n) := by
      unfold Key.path_bytes
      rw [hp, make_key_take n (by omega) x y z (15 - n) (by omega)]
    rw [h2, memcmp_self]
    rfl

/-- C30, at cell size 4 and the point (21,-3,6). -/
theorem parent_key_is_key_of_coarser_cell_witness :
    (make_key (2 ^ 2) 21 (-3) 6).parent_key.eq (make_key (2 ^ (2 + 1)) 21 (-3) 6) = true ∧
    (make_key (2 ^ 2) 21 (-3) 6).parent_key.is_ancestor_of (make_key (2 ^ 2) 21 (-3) 6)
      = true :=
  parent_key_is_key_of_coarser_cell 2 (by norm_num) 21 (-3) 6

end smlt

/-! ## Cell centres, levels and node bounds -/

namespace kglt
open smlt (Vec3 AABB)

set_option maxRecDepth 100000 in
unseal Rat.add Rat.mul Rat.inv Rat.sub in
/-- C25. In the octree whose root has the centre (2,0,0) and the width 2, the point
(1.625,0.25,0.25) lies in the root, and `find_node_centre_for_point` at level 1 gives
(2.5,0.5,0.5) for it: the cube of side 1 about that centre starts at x = 2 and does not
contain the point.  The points (1.25,0.25,0.25) and (1.75,0.25,0.25) lie in the same cell of
level 1, between x = 1 and x = 2, and get the centres (1.5,0.5,0.5) and (2.5,0.5,0.5). -/
theorem find_node_centre_for_point_rounds :
    actors_example_first.state.get_root.map (fun root => (root.centre_, root.level_))
      = some (⟨2, 0, 0⟩, 0) ∧
    actors_example_first.state.node_diameter 0 = 2 ∧
    actors_example_first.state.node_diameter 1 = 1 ∧
    actors_example_first.state.get_root.map
        (fun root => root.contains actors_example_first.state ⟨13 / 8, 1 / 4, 1 / 4⟩)
      = some true ∧
    actors_example_first.state.find_node_centre_for_point 1 ⟨13 / 8, 1 / 4, 1 / 4⟩
      = .ok ⟨5 / 2, 1 / 2, 1 / 2⟩ ∧
    (13 / 8 : ℚ) < 5 / 2 - 1 / 2 ∧
    actors_example_first.state.find_node_centre_for_point 1 ⟨5 / 4, 1 / 4, 1 / 4⟩
      = .ok ⟨3 / 2, 1 / 2, 1 / 2⟩ ∧
    actors_example_first.state.find_node_centre_for_point 1 ⟨7 / 4, 1 / 4, 1 / 4⟩
      = .ok ⟨5 / 2, 1 / 2, 1 / 2⟩ := by
  decide

set_option maxRecDepth 100000 in
unseal Rat.add Rat.mul Rat.inv Rat.sub in
/-- C29, counterexample. With a root of diameter 2, `calculate_level` returns 1 for the object
diameter 1.5, although `log2(2 / 1.5)` rounded down is 0; the cell diameter at level 1 is 1,
less than the object diameter. -/
theorem calculate_level_rounds_up :
    actors_example_first.state.get_root.map
        (fun root => root.diameter actors_example_first.state) = some 2 ∧
    actors_example_first.state.calculate_level (3 / 2) = .ok 1 ∧
    ((2 : ℚ) ^ 0 ≤ 2 / (3 / 2) ∧ (2 : ℚ) / (3 / 2) < 2 ^ 1) ∧
    actors_example_first.state.node_diameter 1 < 3 / 2 := by
  decide

theorem calculate_level_loop_spec (d : ℚ) (fuel : Nat) (od : ℚ) (level : Nat)
    (hfuel : od ≤ d * 2 ^ fuel) :
    od / 2 ^ (calculate_level_loop d fuel od level - level) ≤ d ∧
    level ≤ calculate_level_loop d fuel od level ∧
    (level < calculate_level_loop d fuel od level →
      d < od / 2 ^ (calculate_level_loop d fuel od level - level - 1)) := by
  induction fuel generalizing od level with
  | zero =>
    unfold calculate_level_loop
    simp only [Nat.sub_self, pow_zero, div_one, le_refl, lt_self_iff_false, false_implies,
      and_true]
    simpa using hfuel
  | succ fuel ih =>
    unfold calculate_level_loop
    by_cases hlt : d < od
    · rw [if_pos hlt]
      have h2 : od / 2 ≤ d * 2 ^ fuel := by
        rw [pow_succ] at hfuel
        linarith
      obtain ⟨h3, h4, h5⟩ := ih (od / 2) (level + 1) h2
      generalize calculate_level_loop d fuel (od / 2) (level + 1) = r at h3 h4 h5 ⊢
      have hr : r - level = (r - (level + 1)) + 1 := by omega
      refine ⟨?_, by omega, ?_⟩
      · rw [hr, pow_succ, ← div_div, div_right_comm]
        exact h3
      · intro _
        by_cases hr1 : level + 1 < r
        · have h6 := h5 hr1
          have hr2 : r - level - 1 = (r - (level + 1) - 1) + 1 := by omega
          rw [hr2, pow_succ, ← div_div, div_right_comm]
          exact h6
        · have hr3 : r - level - 1 = 0 := by omega
          rw [hr3, pow_zero, div_one]
          exact hlt
    · rw [if_neg hlt]
      simp only [Nat.sub_self, pow_zero, div_one, le_refl, lt_self_iff_false, false_implies,
        and_true]
      exact not_lt.mp hlt

/-- C29 (amended). With a root of diameter `D`, `calculate_level(d)` for an object diameter `d`
with `d ≤ D` and `D ≤ d * 2 ^ 300` (the object is not larger than the root, and the loop
ends on the comparison) returns the smallest
level at which the cell diameter `D / 2 ^ level` is at most `d`, that is `log2(D / d)` rounded
up: the cell at the returned level is not larger than the object, and the cell one level above
is larger. -/
theorem calculate_level_is_smallest_fitting (o : Octree) (root : OctreeNode) (d : ℚ)
    (hroot : o.get_root = some root) (hle : d ≤ root.diameter o)
    (hfuel : root.diameter o ≤ d * 2 ^ 300) :
    ∃ level, o.calculate_level d = .ok level ∧
      root.diameter o / 2 ^ level ≤ d ∧
      (0 < level → d < root.diameter o / 2 ^ (level - 1)) := by
  refine ⟨calculate_level_loop d 300 (root.diameter o) 0, ?_, ?_⟩
  · unfold Octree.calculate_level
    rw [hroot]
    simp only []
    rw [if_neg (not_lt.mpr hle)]
  · obtain ⟨h1, _, h3⟩ := calculate_level_loop_spec d 300 (root.diameter o) 0 hfuel
    simp only [Nat.sub_zero] at h1 h3
    exact ⟨h1, h3⟩

set_option maxRecDepth 100000 in
unseal Rat.add Rat.mul Rat.inv Rat.sub in
theorem calculate_level_example_facts :
    actors_example_first.state.get_root
      = some ⟨0, ⟨2, 0, 0⟩, { actor_ids_ := [(1, ⟨⟨1, -1, -1⟩, ⟨3, 1, 1⟩⟩)] }, none, []⟩ ∧
    (⟨0, ⟨2, 0, 0⟩, { actor_ids_ := [(1, ⟨⟨1, -1, -1⟩, ⟨3, 1, 1⟩⟩)] }, none, []⟩ :
      OctreeNode).diameter actors_example_first.state = 2 := by
  decide

/-- C29 (amended), on the root of diameter 2 and the object diameter 1.5. -/
theorem calculate_level_is_smallest_fitting_witness :
    ∃ level, actors_example_first.state.calculate_level (3 / 2) = .ok level ∧
      (⟨0, ⟨2, 0, 0⟩, { actor_ids_ := [(1, ⟨⟨1, -1, -1⟩, ⟨3, 1, 1⟩⟩)] }, none, []⟩ :
        OctreeNode).diameter actors_example_first.state / 2 ^ level ≤ 3 / 2 ∧
      (0 < level → (3 / 2 : ℚ) <
        (⟨0, ⟨2, 0, 0⟩, { actor_ids_ := [(1, ⟨⟨1, -1, -1⟩, ⟨3, 1, 1⟩⟩)] }, none, []⟩ :
          OctreeNode).diameter actors_example_first.state / 2 ^ (level - 1)) :=
  calculate_level_is_smallest_fitting actors_example_first.state _ (3 / 2)
    calculate_level_example_facts.1
    (by rw [calculate_level_example_facts.2]; norm_num)
    (by rw [calculate_level_example_facts.2]; norm_num)

end kglt

namespace smlt

theorem CullerOctree.grow_bounds (t : CullerOctree) : t.grow.bounds_ = t.bounds_ := by
  unfold CullerOctree.grow
  split_ifs <;> rfl

theorem CullerOctree.grow_loop_bounds (m f : Nat) (t : CullerOctree) :
    (CullerOctree.grow_loop m f t).bounds_ = t.bounds_ := by
  induction f generalizing t with
  | zero => rfl
  | succ f ih =>
    rw [CullerOctree.grow_loop_succ]
    split_ifs
    · rw [ih, CullerOctree.grow_bounds]
    · rfl

theorem CullerOctree.new_def (bounds : AABB) (m : Nat) :
    CullerOctree.new bounds m = CullerOctree.grow_loop m 257
      { bounds_ :=
          ⟨⟨(bounds.min.x + bounds.max.x) / 2 - bounds.max_dimension / 2,
              (bounds.min.y + bounds.max.y) / 2 - bounds.max_dimension / 2,
              (bounds.min.z + bounds.max.z) / 2 - bounds.max_dimension / 2⟩,
            ⟨(bounds.min.x + bounds.max.x) / 2 + bounds.max_dimension / 2,
              (bounds.min.y + bounds.max.y) / 2 + bounds.max_dimension / 2,
              (bounds.min.z + bounds.max.z) / 2 + bounds.max_dimension / 2⟩⟩ } := rfl

/-- The constructor with 5 levels: the bounds are the cube about the centre of the box given,
and the tree is the one six calls of `grow` build. -/
theorem CullerOctree.new_five_eq (bounds : AABB) :
    CullerOctree.new bounds 5 = CullerOctree.stage (CullerOctree.new bounds 5).bounds_ 5 ∧
    (CullerOctree.new bounds 5).bounds_ =
      ⟨⟨(bounds.min.x + bounds.max.x) / 2 - bounds.max_dimension / 2,
          (bounds.min.y + bounds.max.y) / 2 - bounds.max_dimension / 2,
          (bounds.min.z + bounds.max.z) / 2 - bounds.max_dimension / 2⟩,
        ⟨(bounds.min.x + bounds.max.x) / 2 + bounds.max_dimension / 2,
          (bounds.min.y + bounds.max.y) / 2 + bounds.max_dimension / 2,
          (bounds.min.z + bounds.max.z) / 2 + bounds.max_dimension / 2⟩⟩ := by
  obtain ⟨b, hb⟩ := CullerOctree.new_five bounds
  have hbb := (CullerOctree.stage_five b).2.1
  have h1 : (CullerOctree.new bounds 5).bounds_ = b := by rw [hb, hbb]
  refine ⟨by rw [h1]; exact hb, ?_⟩
  rw [CullerOctree.new_def, CullerOctree.grow_loop_bounds]

/-- C26. `calc_index` gives slot 8 both for the cell (1,1,1) of level 1 and for the cell
(0,0,0) of level 2, and after the construction with 5 levels the node in that slot has the
level 2 and the grid position (0,0,0): the cell (1,1,1) of level 1 has no node of its own. -/
theorem calc_index_is_not_injective (bounds : AABB) :
    calc_index 1 1 1 1 = 8 ∧ calc_index 2 0 0 0 = 8 ∧
    (CullerOctree.new bounds 5).levels_ = 5 ∧
    (CullerOctree.new bounds 5).nodes_.length = 37449 ∧
    (CullerOctree.new bounds 5).shape_at (calc_index 1 1 1 1) = some (2, 0, 0, 0) := by
  obtain ⟨b, hb⟩ := CullerOctree.new_five bounds
  obtain ⟨l5, _, n5, _, _, e2, _⟩ := CullerOctree.stage_five b
  rw [hb]
  exact ⟨by decide, by decide, l5, n5, e2⟩

unseal Rat.add Rat.mul Rat.inv Rat.sub in
theorem root_bounds_facts :
    (⟨⟨(culler_example_bounds.min.x + culler_example_bounds.max.x) / 2
          - culler_example_bounds.max_dimension / 2,
        (culler_example_bounds.min.y + culler_example_bounds.max.y) / 2
          - culler_example_bounds.max_dimension / 2,
        (culler_example_bounds.min.z + culler_example_bounds.max.z) / 2
          - culler_example_bounds.max_dimension / 2⟩,
      ⟨(culler_example_bounds.min.x + culler_example_bounds.max.x) / 2
          + culler_example_bounds.max_dimension / 2,
        (culler_example_bounds.min.y + culler_example_bounds.max.y) / 2
          + culler_example_bounds.max_dimension / 2,
        (culler_example_bounds.min.z + culler_example_bounds.max.z) / 2
          + culler_example_bounds.max_dimension / 2⟩⟩ : AABB) = culler_example_bounds ∧
    (({ bounds_ := culler_example_bounds } : CullerOctree).calc_bounds ⟨0, (0, 0, 0), none⟩)
      = ⟨⟨0, 0, 0⟩, ⟨2, 2, 2⟩⟩ := by
  decide

/-- C27. For the bounds from (-1,-1,-1) to (1,1,1) the octree keeps these bounds, which are a
cube already, but `calc_bounds` of the root node is the box from (0,0,0) to (2,2,2): it is not
the bounding cube and does not contain the corner (-1,-1,-1). -/
theorem root_bounds_start_at_origin :
    (CullerOctree.new culler_example_bounds 5).bounds_ = ⟨⟨-1, -1, -1⟩, ⟨1, 1, 1⟩⟩ ∧
    ((CullerOctree.new culler_example_bounds 5).nodes_.get? 0).map
        (CullerOctree.new culler_example_bounds 5).calc_bounds
      = some ⟨⟨0, 0, 0⟩, ⟨2, 2, 2⟩⟩ := by
  obtain ⟨h1, h2⟩ := CullerOctree.new_five_eq culler_example_bounds
  rw [root_bounds_facts.1] at h2
  have e0 := (CullerOctree.stage_five (CullerOctree.new culler_example_bounds 5).bounds_).2.2.2.1
  rw [← h1] at e0
  obtain ⟨node, hn, hl, hg⟩ := CullerOctree.node_of_shape e0
  refine ⟨h2, ?_⟩
  rw [hn]
  have hc : (CullerOctree.new culler_example_bounds 5).calc_bounds node
      = ({ bounds_ := culler_example_bounds } : CullerOctree).calc_bounds
          ⟨0, (0, 0, 0), none⟩ := by
    unfold CullerOctree.calc_bounds
    rw [hl, hg, h2]
  rw [Option.map_some', hc, root_bounds_facts.2]

end smlt

/-! ## Consistency of the index with the key sets of all entries -/

namespace smlt

theorem SpatialHash.remove_object_index (iter : KeyList → List Key) (s : SpatialHash)
    (e : EntryId) :
    (s.remove_object iter e).index_ =
      ((iter (s.entries e).keys).foldl (fun st key => st.erase_object_from_key key e) s).index_ :=
  rfl

/-- The index after `remove_object`: the entry is taken out of the buckets of its keys. -/
theorem SpatialHash.remove_object_spec (iter : KeyList → List Key)
    (hiter : ∀ l, (iter l).Perm l) (s : SpatialHash) (e : EntryId) (hwf : s.index_.WF)
    (hne : s.index_.no_empty) (hkv : ∀ k ∈ (s.entries e).keys, k.valid) :
    (s.remove_object iter e).index_.WF ∧ (s.remove_object iter e).index_.no_empty ∧
    ∀ k, k.valid → ∀ x,
      (x ∈ Index.bucket (s.remove_object iter e).index_ k ↔
        x ∈ Index.bucket s.index_ k ∧ ¬ (x = e ∧ k.sig ∈ (s.entries e).keys.map Key.sig)) := by
  have hv : ∀ k ∈ iter (s.entries e).keys, k.valid :=
    fun k hk => hkv k ((hiter _).mem_iff.mp hk)
  obtain ⟨h1, _, h3⟩ := SpatialHash.foldl_erase e (iter (s.entries e).keys) hv s hwf
  rw [SpatialHash.remove_object_index]
  refine ⟨h1, SpatialHash.foldl_erase_no_empty e _ hv s hwf hne, ?_⟩
  intro k hk x
  rw [h3 k hk x, ((hiter (s.entries e).keys).map Key.sig).mem_iff]

theorem SpatialHash.consistent_remove (iter : KeyList → List Key)
    (hiter : ∀ l, (iter l).Perm l) (s : SpatialHash) (e : EntryId) (hc : s.consistent e) :
    (s.remove_object iter e).consistent e := by
  obtain ⟨hwf, hne, hkv, _, hmatch⟩ := hc
  obtain ⟨h1, h2, h3⟩ := SpatialHash.remove_object_spec iter hiter s e hwf hne hkv
  have hk := (SpatialHash.remove_object_entries iter s e).1
  refine ⟨h1, h2, ?_, ?_, ?_⟩
  · rw [hk]; exact fun k hk' => absurd hk' (List.not_mem_nil _)
  · rw [hk]; exact List.Pairwise.nil
  · intro k hkv'
    rw [h3 k hkv' e, hk, hmatch k hkv', KeyList.contains_iff _ hkv k hkv']
    simp [KeyList.contains]

/-- An entry whose own record and bucket memberships are as before stays consistent. -/
theorem SpatialHash.consistent_of_same (s s' : SpatialHash) (x : EntryId)
    (hc : s.consistent x) (hwf : s'.index_.WF) (hne : s'.index_.no_empty)
    (hent : s'.entries x = s.entries x)
    (hb : ∀ k, k.valid → (x ∈ Index.bucket s'.index_ k ↔ x ∈ Index.bucket s.index_ k)) :
    s'.consistent x := by
  obtain ⟨_, _, hkv, hknd, hmatch⟩ := hc
  refine ⟨hwf, hne, ?_, ?_, ?_⟩
  · rw [hent]; exact hkv
  · rw [hent]; exact hknd
  · intro k hk
    rw [hb k hk, hent]
    exact hmatch k hk

/-- One call keeps every entry consistent with the index. -/
theorem SpatialHash.call_keeps_consistent (iter : KeyList → List Key)
    (hiter : ∀ l, (iter l).Perm l) (s : SpatialHash) (c : Call) (hfit : c.box_fits)
    (h : ∀ e, s.consistent e) : ∀ e, (s.call iter c).consistent e := by
  intro x
  cases c with
  | insert_object_for_box box e =>
    simp only [SpatialHash.call]
    have he := SpatialHash.consistent_insert s box e (h e) hfit
    by_cases hx : x = e
    · subst hx; exact he
    · refine SpatialHash.consistent_of_same s _ x (h x) he.1 he.2.1
        ((SpatialHash.insert_object_for_box_entries s box e).1 x hx) ?_
      intro k hk
      rw [(SpatialHash.insert_object_for_box_index s box e (h e).1 hfit).2.2 k hk x]
      simp [hx]
  | update_object_for_box box e =>
    simp only [SpatialHash.call]
    have he := SpatialHash.consistent_update iter hiter s box e (h e) hfit
    by_cases hx : x = e
    · subst hx; exact he
    · obtain ⟨hwf, _, hkv, hknd, hmatch⟩ := h e
      have h4 := (SpatialHash.update_object_for_box_refiles iter hiter s box e hwf hkv hknd
        hmatch hfit).2.2.2.1 x hx
      exact SpatialHash.consistent_of_same s _ x (h x) he.1 he.2.1 h4.1 h4.2
  | remove_object e =>
    simp only [SpatialHash.call]
    have he := SpatialHash.consistent_remove iter hiter s e (h e)
    by_cases hx : x = e
    · subst hx; exact he
    · refine SpatialHash.consistent_of_same s _ x (h x) he.1 he.2.1
        ((SpatialHash.remove_object_entries iter s e).2.2 x hx) ?_
      intro k hk
      rw [(SpatialHash.remove_object_spec iter hiter s e (h e).1 (h e).2.1 (h e).2.2.1).2.2 k
        hk x]
      simp [hx]

theorem SpatialHash.calls_keep_consistent (iter : KeyList → List Key)
    (hiter : ∀ l, (iter l).Perm l) (cs : List Call) (hfit : ∀ c ∈ cs, c.box_fits)
    (s : SpatialHash) (h : ∀ e, s.consistent e) : ∀ e, (s.calls iter cs).consistent e := by
  induction cs generalizing s with
  | nil => exact h
  | cons c t ih =>
    unfold SpatialHash.calls
    rw [List.foldl_cons]
    exact ih (fun c' hc' => hfit c' (List.mem_cons_of_mem _ hc')) (s.call iter c)
      (SpatialHash.call_keeps_consistent iter hiter s c (hfit c (List.mem_cons_self _ _)) h)

/-- After `insert_object_for_box` on an entry that is not filed and then `remove_object` on it,
the same keys are present in the index with the same members in their buckets, and the key set
of the entry is empty. -/
theorem SpatialHash.insert_then_remove (iter : KeyList → List Key)
    (hiter : ∀ l, (iter l).Perm l) (s : SpatialHash) (box : AABB) (e : EntryId)
    (hc : s.consistent e) (hkeys : (s.entries e).keys = [])
    (hbox : box.max_dimension ≤ 32768) :
    (∀ k, k.valid →
      ((Index.find ((s.insert_object_for_box box e).remove_object iter e).index_ k).isSome ↔
        (Index.find s.index_ k).isSome)) ∧
    (∀ k, k.valid → ∀ x,
      (x ∈ Index.bucket ((s.insert_object_for_box box e).remove_object iter e).index_ k ↔
        x ∈ Index.bucket s.index_ k)) ∧
    (((s.insert_object_for_box box e).remove_object iter e).entries e).keys = [] ∧
    ∀ x, x ≠ e → ((s.insert_object_for_box box e).remove_object iter e).entries x
      = s.entries x := by
  have hi := SpatialHash.consistent_insert s box e hc hbox
  obtain ⟨hwf1, hne1, hkv1, _, _⟩ := hi
  obtain ⟨hwf, hne, hkv, _, hmatch⟩ := hc
  obtain ⟨h1, h2, h3⟩ := SpatialHash.remove_object_spec iter hiter
    (s.insert_object_for_box box e) e hwf1 hne1 hkv1
  have hib := (SpatialHash.insert_object_for_box_index s box e hwf hbox).2.2
  obtain ⟨ho, hk, _⟩ := SpatialHash.insert_object_for_box_entries s box e
  have hcv := corner_keys_valid box hbox
  have hsig := KeyList.foldl_insert_sigs _ hcv _ hkv
  have hbucket : ∀ k, k.valid → ∀ x,
      (x ∈ Index.bucket ((s.insert_object_for_box box e).remove_object iter e).index_ k ↔
        x ∈ Index.bucket s.index_ k) := by
    intro k hkv' x
    rw [h3 k hkv' x, hib k hkv' x, hk, hsig, hkeys]
    by_cases hx : x = e
    · subst hx
      have hnot : ¬ x ∈ Index.bucket s.index_ k := by
        rw [hmatch k hkv', hkeys]
        simp [KeyList.contains]
      simp [hnot]
    · simp [hx]
  refine ⟨?_, hbucket, (SpatialHash.remove_object_entries iter _ e).1, ?_⟩
  · intro k hkv'
    rw [Index.find_isSome_iff _ h1 h2 k hkv', Index.find_isSome_iff _ hwf hne k hkv']
    exact exists_congr fun x => hbucket k hkv' x
  · intro x hx
    rw [(SpatialHash.remove_object_entries iter _ e).2.2 x hx, ho x hx]

theorem calls_example_fit :
    ∀ c ∈ [Call.insert_object_for_box ⟨⟨0, 0, 0⟩, ⟨3, 3, 3⟩⟩ 7,
      Call.insert_object_for_box ⟨⟨1, 1, 1⟩, ⟨3 / 2, 3 / 2, 3 / 2⟩⟩ 8,
      Call.update_object_for_box ⟨⟨1, 1, 1⟩, ⟨3 / 2, 3 / 2, 3 / 2⟩⟩ 7,
      Call.remove_object 8], c.box_fits := by
  intro c hc
  simp only [List.mem_cons, List.mem_singleton, List.not_mem_nil, or_false] at hc
  rcases hc with rfl | rfl | rfl | rfl
  · exact max_dimension_box_0_3
  · exact max_dimension_box_1_half
  · exact max_dimension_box_1_half
  · trivial

/-- C23. After every sequence of `insert_object_for_box`, `update_object_for_box` and
`remove_object` calls on an empty spatial hash (boxes of max dimension at most 32768, any
iteration order of the key sets), the index holds no key with an empty bucket, and every entry
`e` is in the bucket of a key `k` exactly when `k` is in `e.keys()`. -/
theorem index_entry_consistency_preserved (iter : KeyList → List Key)
    (hiter : ∀ l, (iter l).Perm l) (cs : List Call) (hfit : ∀ c ∈ cs, c.box_fits) :
    (∀ p ∈ (({} : SpatialHash).calls iter cs).index_, p.2 ≠ []) ∧
    ∀ (e : EntryId) (k : Key), k.valid →
      (e ∈ Index.bucket (({} : SpatialHash).calls iter cs).index_ k ↔
        KeyList.contains ((({} : SpatialHash).calls iter cs).entries e).keys k = true) := by
  have h := SpatialHash.calls_keep_consistent iter hiter cs hfit {} consistent_empty
  exact ⟨(h 0).2.1, fun e k hk => (h e).2.2.2.2 k hk⟩

/-- Witness of C23: two entries are inserted, one is updated and the other removed. -/
theorem index_entry_consistency_preserved_witness :
    (∀ p ∈ (({} : SpatialHash).calls List.reverse
      [Call.insert_object_for_box ⟨⟨0, 0, 0⟩, ⟨3, 3, 3⟩⟩ 7,
        Call.insert_object_for_box ⟨⟨1, 1, 1⟩, ⟨3 / 2, 3 / 2, 3 / 2⟩⟩ 8,
        Call.update_object_for_box ⟨⟨1, 1, 1⟩, ⟨3 / 2, 3 / 2, 3 / 2⟩⟩ 7,
        Call.remove_object 8]).index_, p.2 ≠ []) ∧
    ∀ (e : EntryId) (k : Key), k.valid →
      (e ∈ Index.bucket (({} : SpatialHash).calls List.reverse
        [Call.insert_object_for_box ⟨⟨0, 0, 0⟩, ⟨3, 3, 3⟩⟩ 7,
          Call.insert_object_for_box ⟨⟨1, 1, 1⟩, ⟨3 / 2, 3 / 2, 3 / 2⟩⟩ 8,
          Call.update_object_for_box ⟨⟨1, 1, 1⟩, ⟨3 / 2, 3 / 2, 3 / 2⟩⟩ 7,
          Call.remove_object 8]).index_ k ↔
        KeyList.contains ((({} : SpatialHash).calls List.reverse
          [Call.insert_object_for_box ⟨⟨0, 0, 0⟩, ⟨3, 3, 3⟩⟩ 7,
            Call.insert_object_for_box ⟨⟨1, 1, 1⟩, ⟨3 / 2, 3 / 2, 3 / 2⟩⟩ 8,
            Call.update_object_for_box ⟨⟨1, 1, 1⟩, ⟨3 / 2, 3 / 2, 3 / 2⟩⟩ 7,
            Call.remove_object 8]).entries e).keys k = true) :=
  index_entry_consistency_preserved List.reverse (fun l => List.reverse_perm l) _
    calls_example_fit

/-- C24. Round trip: in the state after any sequence of calls on an empty spatial hash (boxes
of max dimension at most 32768), for an entry `e` that is not filed and a box `b` of max
dimension at most 32768, `insert_object_for_box(b, e)` followed by `remove_object(e)` leaves
the index with the keys it had, each with the bucket members it had, leaves `e.keys()` empty
and changes no other entry. -/
theorem insert_then_remove_restores_index (iter : KeyList → List Key)
    (hiter : ∀ l, (iter l).Perm l) (cs : List Call) (hfit : ∀ c ∈ cs, c.box_fits)
    (box : AABB) (e : EntryId)
    (hkeys : ((({} : SpatialHash).calls iter cs).entries e).keys = [])
    (hbox : box.max_dimension ≤ 32768) :
    (∀ k, k.valid →
      ((Index.find (((({} : SpatialHash).calls iter cs).insert_object_for_box box
          e).remove_object iter e).index_ k).isSome ↔
        (Index.find (({} : SpatialHash).calls iter cs).index_ k).isSome)) ∧
    (∀ k, k.valid → ∀ x,
      (x ∈ Index.bucket (((({} : SpatialHash).calls iter cs).insert_object_for_box box
          e).remove_object iter e).index_ k ↔
        x ∈ Index.bucket (({} : SpatialHash).calls iter cs).index_ k)) ∧
    ((((({} : SpatialHash).calls iter cs).insert_object_for_box box e).remove_object iter
      e).entries e).keys = [] ∧
    ∀ x, x ≠ e →
      (((({} : SpatialHash).calls iter cs).insert_object_for_box box e).remove_object iter
        e).entries x = (({} : SpatialHash).calls iter cs).entries x :=
  SpatialHash.insert_then_remove iter hiter _ box e
    (SpatialHash.calls_keep_consistent iter hiter cs hfit {} consistent_empty e) hkeys hbox

theorem round_trip_example_facts :
    (∀ c ∈ [Call.insert_object_for_box ⟨⟨0, 0, 0⟩, ⟨3, 3, 3⟩⟩ 7], c.box_fits) ∧
    ((({} : SpatialHash).calls List.reverse
      [Call.insert_object_for_box ⟨⟨0, 0, 0⟩, ⟨3, 3, 3⟩⟩ 7]).entries 8).keys = [] := by
  constructor
  · intro c hc
    rw [List.mem_singleton] at hc
    subst hc
    exact max_dimension_box_0_3
  · have h : ({} : SpatialHash).calls List.reverse
        [Call.insert_object_for_box ⟨⟨0, 0, 0⟩, ⟨3, 3, 3⟩⟩ 7] =
        ({} : SpatialHash).insert_object_for_box ⟨⟨0, 0, 0⟩, ⟨3, 3, 3⟩⟩ 7 := by
      simp only [SpatialHash.calls, List.foldl_cons, List.foldl_nil, SpatialHash.call]
    rw [h, (SpatialHash.insert_object_for_box_entries {} ⟨⟨0, 0, 0⟩, ⟨3, 3, 3⟩⟩ 7).1 8
      (by decide)]
    rfl

/-- Witness of C24: entry 7 is filed; entry 8 is inserted with the box from (1,1,1) to
(1.5,1.5,1.5) and removed again. -/
theorem insert_then_remove_restores_index_witness :
    (∀ k, k.valid →
      ((Index.find (((({} : SpatialHash).calls List.reverse
          [Call.insert_object_for_box ⟨⟨0, 0, 0⟩, ⟨3, 3, 3⟩⟩ 7]).insert_object_for_box
            ⟨⟨1, 1, 1⟩, ⟨3 / 2, 3 / 2, 3 / 2⟩⟩ 8).remove_object List.reverse 8).index_
              k).isSome ↔
        (Index.find (({} : SpatialHash).calls List.reverse
          [Call.insert_object_for_box ⟨⟨0, 0, 0⟩, ⟨3, 3, 3⟩⟩ 7]).index_ k).isSome)) ∧
    (∀ k, k.valid → ∀ x,
      (x ∈ Index.bucket (((({} : SpatialHash).calls List.reverse
          [Call.insert_object_for_box ⟨⟨0, 0, 0⟩, ⟨3, 3, 3⟩⟩ 7]).insert_object_for_box
            ⟨⟨1, 1, 1⟩, ⟨3 / 2, 3 / 2, 3 / 2⟩⟩ 8).remove_object List.reverse 8).index_ k ↔
        x ∈ Index.bucket (({} : SpatialHash).calls List.reverse
          [Call.insert_object_for_box ⟨⟨0, 0, 0⟩, ⟨3, 3, 3⟩⟩ 7]).index_ k)) ∧
    ((((({} : SpatialHash).calls List.reverse
        [Call.insert_object_for_box ⟨⟨0, 0, 0⟩, ⟨3, 3, 3⟩⟩ 7]).insert_object_for_box
          ⟨⟨1, 1, 1⟩, ⟨3 / 2, 3 / 2, 3 / 2⟩⟩ 8).remove_object List.reverse 8).entries
            8).keys = [] ∧
    ∀ x, x ≠ 8 →
      (((({} : SpatialHash).calls List.reverse
        [Call.insert_object_for_box ⟨⟨0, 0, 0⟩, ⟨3, 3, 3⟩⟩ 7]).insert_object_for_box
          ⟨⟨1, 1, 1⟩, ⟨3 / 2, 3 / 2, 3 / 2⟩⟩ 8).remove_object List.reverse 8).entries x
        = (({} : SpatialHash).calls List.reverse
          [Call.insert_object_for_box ⟨⟨0, 0, 0⟩, ⟨3, 3, 3⟩⟩ 7]).entries x :=
  insert_then_remove_restores_index List.reverse (fun l => List.reverse_perm l) _
    round_trip_example_facts.1 ⟨⟨1, 1, 1⟩, ⟨3 / 2, 3 / 2, 3 / 2⟩⟩ 8
    round_trip_example_facts.2 max_dimension_box_1_half

end smlt

/-! ## The static culler: every slot of the constructor's tree, and the descent of a triangle -/

namespace smlt

theorem foldl_set_get_last_writer {α β : Type} (ws : List α) (idx : α → Nat) (val : α → β)
    (ns : List β) (i : Nat) (hex : ∃ w ∈ ws, idx w = i) (hi : i < ns.length) :
    ∃ w ∈ ws, idx w = i ∧
      (ws.foldl (fun ns w => ns.set (idx w) (val w)) ns)[i]? = some (val w) := by
  induction ws generalizing ns with
  | nil =>
    obtain ⟨w, hw, _⟩ := hex
    simp at hw
  | cons w ws ih =>
    rw [List.foldl_cons]
    by_cases hlater : ∃ u ∈ ws, idx u = i
    · obtain ⟨u, hu, hidx, hget⟩ := ih (ns.set (idx w) (val w)) hlater
        (by rw [List.length_set]; exact hi)
      exact ⟨u, List.mem_cons_of_mem _ hu, hidx, hget⟩
    · have hnone : ∀ u ∈ ws, idx u ≠ i := fun u hu hidx => hlater ⟨u, hu, hidx⟩
      rw [foldl_set_get_other ws idx val _ i hnone]
      obtain ⟨u, hu, hidx⟩ := hex
      have huw : u = w := by
        rcases List.mem_cons.mp hu with h1 | h1
        · exact h1
        · exact absurd hidx (hnone u h1)
      rw [huw] at hidx
      refine ⟨w, List.mem_cons_self _ _, hidx, ?_⟩
      rw [hidx, List.getElem?_set_self hi]

/-- One call of `grow` on a tree with nodes: every slot of the level `k` it adds holds a node of
level `k` at a grid position of that level. -/
theorem CullerOctree.grow_written (t : CullerOctree) (k B W C : Nat)
    (hne : t.nodes_.isEmpty = false) (hlv : t.levels_ + 1 = k) (h255 : k ≤ 255)
    (hW : ipow 2 k = W) (hC : ipow W 3 = C)
    (honto : ∀ i, B ≤ i → i < B + C →
      ∃ x y z, x < W ∧ y < W ∧ z < W ∧ calc_index k x y z = i)
    (hB : B ≤ t.nodes_.length) :
    ∀ i, B ≤ i → i < B + C →
      ∃ p : Nat × Nat × Nat, p.1 < W ∧ p.2.1 < W ∧ p.2.2 < W ∧
        calc_index k p.1 p.2.1 p.2.2 = i ∧
        t.grow.nodes_[i]? = some ⟨k, p, some {}⟩ := by
  have hl : ¬ t.levels_ = 255 := by omega
  have hk : (if t.nodes_.isEmpty = true then 0 else t.levels_ + 1) = k := by
    rw [hne]
    simpa using hlv
  have hgrow : t.grow =
      { t with
        levels_ := k,
        nodes_ := (grow_positions W).foldl
          (fun nodes p =>
            nodes.set (calc_index k p.1 p.2.1 p.2.2) { level := k % 256, grid := p, data := some {} })
          (t.nodes_ ++ List.replicate C {}) } := by
    unfold CullerOctree.grow
    rw [if_neg hl]
    simp only [hk, hW, hC]
    rw [hne]
    simp [hlv]
  intro i hiB hiC
  obtain ⟨x, y, z, hx, hy, hz, hidx⟩ := honto i hiB hiC
  obtain ⟨p, hp, hpi, hget⟩ := foldl_set_get_last_writer (grow_positions W)
    (fun p => calc_index k p.1 p.2.1 p.2.2)
    (fun p => ({ level := k % 256, grid := p, data := some {} } : CullerNode))
    (t.nodes_ ++ List.replicate C ({} : CullerNode)) i
    ⟨(x, y, z), (mem_grow_positions W _).mpr ⟨hx, hy, hz⟩, hidx⟩
    (by rw [List.length_append, List.length_replicate]; omega)
  obtain ⟨hpx, hpy, hpz⟩ := (mem_grow_positions W p).mp hp
  refine ⟨p, hpx, hpy, hpz, hpi, ?_⟩
  rw [hgrow]
  simp only []
  rw [hget, Nat.mod_eq_of_lt (by omega)]

theorem calc_index_range (k : Nat) (hk1 : 1 ≤ k) (hk5 : k ≤ 5) :
    (∀ x y z, x < 2 ^ k → y < 2 ^ k → z < 2 ^ k →
      calc_index k x y z < 8 ^ (k - 1) + 8 ^ k) ∧
    (∀ i, 8 ^ (k - 1) ≤ i → i < 8 ^ (k - 1) + 8 ^ k →
      ∃ x y z, x < 2 ^ k ∧ y < 2 ^ k ∧ z < 2 ^ k ∧ calc_index k x y z = i) := by
  refine ⟨?_, ?_⟩
  · intro x y z hx hy hz
    rw [calc_index_level k hk1 hk5]
    interval_cases k <;> simp only [Nat.reducePow, Nat.reduceSub, Nat.reduceMul] at * <;> omega
  · intro i h1 h2
    refine ⟨(i - 8 ^ (k - 1)) % 2 ^ k, (i - 8 ^ (k - 1)) / 2 ^ k % 2 ^ k,
      (i - 8 ^ (k - 1)) / (2 ^ k * 2 ^ k), ?_, ?_, ?_, ?_⟩
    · exact Nat.mod_lt _ (by positivity)
    · exact Nat.mod_lt _ (by positivity)
    · interval_cases k <;> simp only [Nat.reducePow, Nat.reduceSub, Nat.reduceMul] at * <;>
        omega
    · rw [calc_index_level k hk1 hk5]
      interval_cases k <;> simp only [Nat.reducePow, Nat.reduceSub, Nat.reduceMul] at * <;>
        omega

end smlt

namespace smlt

/-- The tree of the constructor after the level `n` is added: its size, and what every slot up
to the last one of level `n` holds. -/
theorem CullerOctree.stage_placed (b : AABB) (n : Nat) (hn : n ≤ 5) :
    (CullerOctree.stage b n).levels_ = n ∧
    (CullerOctree.stage b n).nodes_.length = (8 ^ (n + 1) - 1) / 7 ∧
    ∀ i, i < 8 ^ n + 8 ^ n / 8 →
      ∃ node, (CullerOctree.stage b n).nodes_[i]? = some node ∧ node.placed n i := by
  induction n with
  | zero =>
    rw [CullerOctree.stage_zero]
    refine ⟨rfl, rfl, ?_⟩
    intro i hi
    have hi0 : i = 0 := by
      simp only [pow_zero, Nat.reduceDiv, add_zero] at hi
      omega
    subst hi0
    refine ⟨_, rfl, ?_⟩
    unfold CullerNode.placed
    refine ⟨le_refl _, by norm_num, by norm_num, by norm_num, ?_⟩
    intro m h1 h0 _
    omega
  | succ n ih =>
    obtain ⟨hlv, hlen, hslots⟩ := ih (by omega)
    have hn4 : n ≤ 4 := by omega
    have hpos : 0 < (8 ^ (n + 1) - 1) / 7 := by interval_cases n <;> norm_num
    have hB : 8 ^ n < (8 ^ (n + 1) - 1) / 7 + 8 ^ (n + 1) := by
      interval_cases n <;> norm_num
    have hBl : 8 ^ n ≤ (8 ^ (n + 1) - 1) / 7 := by interval_cases n <;> norm_num
    have h8 : 8 ^ (n + 1) / 8 = 8 ^ n := by interval_cases n <;> norm_num
    have hlen1 : (8 ^ (n + 1) - 1) / 7 + 8 ^ (n + 1) = (8 ^ (n + 1 + 1) - 1) / 7 := by
      interval_cases n <;> norm_num
    obtain ⟨l1, _, n1, k1, _⟩ := CullerOctree.stage_succ b n hn _ hlv hlen hpos hB
    have hne : (CullerOctree.stage b n).nodes_.isEmpty = false := by
      cases hl : (CullerOctree.stage b n).nodes_ with
      | nil => rw [hl] at hlen; simp at hlen; omega
      | cons x xs => rfl
    have hW : ipow 2 (n + 1) = 2 ^ (n + 1) := by
      interval_cases n <;> simp [ipow_values]
    have hC : ipow (2 ^ (n + 1)) 3 = 8 ^ (n + 1) := by
      interval_cases n <;> simp [ipow_values]
    have honto := (calc_index_range (n + 1) (by omega) hn).2
    rw [Nat.add_sub_cancel] at honto
    have hw := CullerOctree.grow_written (CullerOctree.stage b n) (n + 1) (8 ^ n)
      (2 ^ (n + 1)) (8 ^ (n + 1)) hne (by rw [hlv]) (by omega) hW hC honto
      (by rw [hlen]; exact hBl)
    rw [← CullerOctree.stage_succ_def] at hw
    refine ⟨l1, by rw [n1, hlen1], ?_⟩
    intro i hi
    rw [h8] at hi
    by_cases hlt : i < 8 ^ n
    · obtain ⟨node, hnode, hp⟩ := hslots i (by omega)
      refine ⟨node, ?_, ?_⟩
      · rw [k1 i hlt (by omega)]
        exact hnode
      · obtain ⟨p1, p2, p3, p4, p5⟩ := hp
        refine ⟨by omega, p2, p3, p4, ?_⟩
        intro m h1 hm hmi
        have hmn : m ≤ n := by
          by_contra hc
          have hm1 : m = n + 1 := by omega
          rw [hm1, Nat.add_sub_cancel] at hmi
          omega
        exact p5 m h1 hmn hmi
    · obtain ⟨p, hx, hy, hz, _, hget⟩ := hw i (by omega) (by omega)
      refine ⟨_, hget, ?_⟩
      exact ⟨le_refl _, hx, hy, hz, fun m _ hm _ => hm⟩

theorem mem_child_indexes (node : CullerNode) (j : Nat) (h : j ∈ child_indexes node) :
    ∃ x y z, x ≤ 1 ∧ y ≤ 1 ∧ z ≤ 1 ∧
      j = calc_index ((node.level + 1) % 256) (2 * node.grid.1 + x) (2 * node.grid.2.1 + y)
        (2 * node.grid.2.2 + z) := by
  unfold child_indexes at h
  simp only [List.mem_flatMap, List.mem_map, List.mem_cons, List.mem_singleton,
    List.not_mem_nil, or_false] at h
  obtain ⟨z, hz, y, hy, x, hx, rfl⟩ := h
  exact ⟨x, y, z, by omega, by omega, by omega, rfl⟩

/-- The slots of the children of a node above the deepest level lie within the slots of the
next level. -/
theorem child_indexes_range (node : CullerNode) (hl : node.level ≤ 4)
    (hx : node.grid.1 < 2 ^ node.level) (hy : node.grid.2.1 < 2 ^ node.level)
    (hz : node.grid.2.2 < 2 ^ node.level) :
    ∀ j ∈ child_indexes node,
      8 ^ node.level ≤ j ∧ j < 8 ^ node.level + 8 ^ (node.level + 1) := by
  intro j hj
  obtain ⟨x, y, z, hx1, hy1, hz1, rfl⟩ := mem_child_indexes node j hj
  rw [Nat.mod_eq_of_lt (by omega)]
  have h1 := (calc_index_facts (node.level + 1) (by omega) (by omega)).1
  have h2 := (calc_index_range (node.level + 1) (by omega) (by omega)).1
  rw [Nat.add_sub_cancel] at h1 h2
  have hp : 2 ^ (node.level + 1) = 2 ^ node.level * 2 := pow_succ 2 node.level
  exact ⟨h1 _ _ _ (by omega) (by omega) (by omega), h2 _ _ _ (by omega) (by omega) (by omega)⟩

/-- The descent of `find_destination_for_triangle`, where it returns: it goes from child to
child whose bounds contain the vertices, and ends at a leaf or at a node none of whose
children fits. -/
theorem CullerOctree.destination_spec (t : CullerOctree) (vertices : List Vec3) :
    ∀ fuel i r, t.destination vertices fuel i = some r →
      Relation.ReflTransGen (t.descends_into vertices) i r ∧
      (r ≠ i → t.fits vertices r = true) ∧
      ∃ node, t.nodes_.get? r = some node ∧
        (t.is_leaf node = true ∨ ∀ j ∈ child_indexes node, t.fits vertices j = false) := by
  intro fuel
  induction fuel with
  | zero =>
    intro i r h
    simp [CullerOctree.destination] at h
  | succ f ih =>
    intro i r h
    unfold CullerOctree.destination at h
    cases hn : t.nodes_.get? i with
    | none => rw [hn] at h; simp at h
    | some node =>
      rw [hn] at h
      simp only [] at h
      by_cases hleaf : t.is_leaf node = true
      · rw [if_pos hleaf] at h
        cases h
        exact ⟨Relation.ReflTransGen.refl, fun hne => absurd rfl hne, node, hn, Or.inl hleaf⟩
      · rw [if_neg hleaf] at h
        split at h
        · rename_i idx heq
          have hfit : t.fits vertices idx = true := List.find?_some heq
          have hmem : idx ∈ child_indexes node := List.mem_of_find?_eq_some heq
          obtain ⟨h1, h2, h3⟩ := ih idx r h
          refine ⟨Relation.ReflTransGen.head ⟨node, hn, by simpa using hleaf, hmem, hfit⟩ h1,
            ?_, h3⟩
          intro _
          by_cases hri : r = idx
          · rw [hri]; exact hfit
          · exact h2 hri
        · rename_i heq
          cases h
          refine ⟨Relation.ReflTransGen.refl, fun hne => absurd rfl hne, node, hn, Or.inr ?_⟩
          intro j hj
          have := List.find?_eq_none.mp heq j hj
          exact Bool.eq_false_iff.mpr this

/-- The descent returns on a tree whose slots are filled as the constructor with 5 levels
fills them: the level grows with every step. -/
theorem CullerOctree.destination_total (t : CullerOctree) (vertices : List Vec3)
    (hlev : t.levels_ = 5)
    (hslots : ∀ i, i < 36864 → ∃ node, t.nodes_.get? i = some node ∧ node.placed 5 i) :
    ∀ fuel i node, i < 36864 → t.nodes_.get? i = some node → 6 ≤ fuel + node.level →
      ∃ r, t.destination vertices fuel i = some r := by
  intro fuel
  induction fuel with
  | zero =>
    intro i node hi hn hf
    obtain ⟨node1, hn1, hp⟩ := hslots i hi
    rw [hn] at hn1
    cases hn1
    have := hp.1
    omega
  | succ f ih =>
    intro i node hi hn hf
    obtain ⟨node1, hn1, hp⟩ := hslots i hi
    rw [hn] at hn1
    cases hn1
    obtain ⟨p1, p2, p3, p4, _⟩ := hp
    unfold CullerOctree.destination
    rw [hn]
    simp only []
    by_cases hleaf : t.is_leaf node = true
    · rw [if_pos hleaf]
      exact ⟨i, rfl⟩
    · rw [if_neg hleaf]
      have hl4 : node.level ≤ 4 := by
        unfold CullerOctree.is_leaf at hleaf
        rw [hlev] at hleaf
        have : node.level ≠ 5 := by simpa using hleaf
        omega
      split
      · rename_i idx heq
        have hmem : idx ∈ child_indexes node := List.mem_of_find?_eq_some heq
        obtain ⟨c1, c2⟩ := child_indexes_range node hl4 p2 p3 p4 idx hmem
        have hidx : idx < 36864 := by
          have : 8 ^ node.level + 8 ^ (node.level + 1) ≤ 36864 := by
            interval_cases node.level <;> norm_num
          omega
        obtain ⟨child, hc, hcp⟩ := hslots idx hidx
        have hcl := hcp.2.2.2.2 (node.level + 1) (by omega) (by omega)
          (by rw [Nat.add_sub_cancel]; exact c1)
        exact ih idx child hidx hc (by omega)
      · exact ⟨i, rfl⟩

end smlt

namespace smlt

/-- A tree with the levels and grid positions of the constructor's tree of 5 levels has every
slot up to the last one of level 5 filled as the constructor fills it. -/
theorem CullerOctree.placed_of_shape (bounds : AABB) (t : CullerOctree)
    (hshape : ∀ i, t.shape_at i = (CullerOctree.new bounds 5).shape_at i) :
    ∀ i, i < 36864 → ∃ node, t.nodes_.get? i = some node ∧ node.placed 5 i := by
  intro i hi
  obtain ⟨b, hb⟩ := CullerOctree.new_five bounds
  obtain ⟨node0, hn0, hp0⟩ := (CullerOctree.stage_placed b 5 (le_refl 5)).2.2 i
    (by norm_num; exact hi)
  have hs : t.shape_at i = some (node0.level, node0.grid) := by
    rw [hshape i, hb]
    unfold CullerOctree.shape_at
    rw [List.get?_eq_getElem?, hn0]
    rfl
  obtain ⟨node, hn, hl, hg⟩ := CullerOctree.node_of_shape hs
  refine ⟨node, hn, ?_⟩
  unfold CullerNode.placed at hp0 ⊢
  rw [hl, hg]
  exact hp0

/-- The recursion of `find_destination_for_triangle` in terms of the slots: on an octree with
the nodes of the constructor's tree of 5 levels (whatever data the nodes hold), it returns a
slot `i` that is reached from slot 0 by steps from a node that is not a leaf into one of the 8
slots `child_indexes` gives for it, the bounds of the node there containing all the vertices;
the node in slot `i` is a leaf or none of the nodes in its 8 slots has bounds containing all
the vertices; and if `i` is not 0, the bounds of its node contain all the vertices.  (The
node in such a slot need not be a child cell of the node: slot 8, which `child_indexes` gives
for the cell (1,1,1) of level 1, holds the node of level 2 at the grid position (0,0,0).) -/
theorem find_destination_for_triangle_descends (bounds : AABB) (t : CullerOctree)
    (vertices : List Vec3) (fuel : Nat) (hlev : t.levels_ = 5)
    (hshape : ∀ i, t.shape_at i = (CullerOctree.new bounds 5).shape_at i)
    (hfuel : 6 ≤ fuel) :
    ∃ i node, t.find_destination_for_triangle vertices fuel = (t, some i) ∧
      t.nodes_.get? i = some node ∧
      Relation.ReflTransGen (t.descends_into vertices) 0 i ∧
      (t.is_leaf node = true ∨ ∀ j ∈ child_indexes node, t.fits vertices j = false) ∧
      (i ≠ 0 → (t.calc_bounds node).contains_points vertices = true) := by
  have hslots := CullerOctree.placed_of_shape bounds t hshape
  obtain ⟨root, hroot, _⟩ := hslots 0 (by norm_num)
  have hne : t.nodes_.isEmpty = false := by
    cases hl : t.nodes_ with
    | nil => rw [hl] at hroot; simp at hroot
    | cons x xs => rfl
  obtain ⟨r, hr⟩ := CullerOctree.destination_total t vertices hlev hslots fuel 0 root
    (by norm_num) hroot (by omega)
  obtain ⟨h1, h2, node, hnode, h3⟩ := CullerOctree.destination_spec t vertices fuel 0 r hr
  refine ⟨r, node, ?_, hnode, h1, h3, ?_⟩
  · unfold CullerOctree.find_destination_for_triangle
    rw [hne, hr]
    rfl
  · intro hr0
    have hfit := h2 hr0
    unfold CullerOctree.fits at hfit
    rw [hnode] at hfit
    exact hfit

/-- The recursion on the tree of the constructor over the box from (-1,-1,-1) to (1,1,1), for
a triangle. -/
theorem find_destination_for_triangle_descends_witness :
    ∃ i node,
      (CullerOctree.new culler_example_bounds 5).find_destination_for_triangle
          culler_example_triangle 6
        = (CullerOctree.new culler_example_bounds 5, some i) ∧
      (CullerOctree.new culler_example_bounds 5).nodes_.get? i = some node ∧
      Relation.ReflTransGen
        ((CullerOctree.new culler_example_bounds 5).descends_into culler_example_triangle)
        0 i ∧
      ((CullerOctree.new culler_example_bounds 5).is_leaf node = true ∨
        ∀ j ∈ child_indexes node,
          (CullerOctree.new culler_example_bounds 5).fits culler_example_triangle j = false) ∧
      (i ≠ 0 →
        ((CullerOctree.new culler_example_bounds 5).calc_bounds node).contains_points
          culler_example_triangle = true) :=
  find_destination_for_triangle_descends culler_example_bounds
    (CullerOctree.new culler_example_bounds 5) culler_example_triangle 6
    (by
      obtain ⟨b, hb⟩ := CullerOctree.new_five culler_example_bounds
      rw [hb]
      exact (CullerOctree.stage_five b).1)
    (fun _ => rfl) (le_refl 6)

end smlt

/-! ## The static culler: a triangle that stays in the root -/

namespace smlt

/-- The slots 1 to 7 of the constructor's tree of 5 levels hold the nodes of level 1 at the
grid positions other than (1,1,1). -/
theorem CullerOctree.stage_five_level_one (b : AABB) (x y z : Nat) (hx : x < 2) (hy : y < 2)
    (hz : z < 2) (hne : x + 2 * y + 4 * z < 7) :
    (CullerOctree.stage b 5).shape_at (1 + x + 2 * y + 4 * z) = some (1, x, y, z) := by
  obtain ⟨l0, n0, _⟩ := CullerOctree.stage_placed b 0 (by norm_num)
  obtain ⟨l1, n1, _⟩ := CullerOctree.stage_placed b 1 (by norm_num)
  obtain ⟨l2, n2, _⟩ := CullerOctree.stage_placed b 2 (by norm_num)
  obtain ⟨l3, n3, _⟩ := CullerOctree.stage_placed b 3 (by norm_num)
  obtain ⟨l4, n4, _⟩ := CullerOctree.stage_placed b 4 (by norm_num)
  have k2 := (CullerOctree.stage_succ b 1 (by norm_num) _ l1 n1 (by norm_num)
    (by norm_num)).2.2.2.1
  have k3 := (CullerOctree.stage_succ b 2 (by norm_num) _ l2 n2 (by norm_num)
    (by norm_num)).2.2.2.1
  have k4 := (CullerOctree.stage_succ b 3 (by norm_num) _ l3 n3 (by norm_num)
    (by norm_num)).2.2.2.1
  have k5 := (CullerOctree.stage_succ b 4 (by norm_num) _ l4 n4 (by norm_num)
    (by norm_num)).2.2.2.1
  have hne0 : (CullerOctree.stage b 0).nodes_.isEmpty = false := by
    cases hl : (CullerOctree.stage b 0).nodes_ with
    | nil => rw [hl] at n0; simp at n0
    | cons u us => rfl
  have honto := (calc_index_range 1 (le_refl 1) (by norm_num)).2
  have hw := CullerOctree.grow_written (CullerOctree.stage b 0) 1 1 2 8 hne0 (by rw [l0])
    (by norm_num) ipow_values.1 ipow_values.2.2.1
    (by simpa using honto) (by rw [n0]; norm_num)
  rw [← CullerOctree.stage_succ_def] at hw
  have hi : 1 + x + 2 * y + 4 * z < 8 := by omega
  obtain ⟨p, hp1, hp2, hp3, hpi, hget⟩ := hw (1 + x + 2 * y + 4 * z) (by omega) (by omega)
  rw [calc_index_level 1 (le_refl 1) (by norm_num)] at hpi
  simp only [Nat.reducePow, Nat.reduceSub, Nat.reduceMul] at hpi
  have hp : p = (x, y, z) := by
    have h1 : p.1 = x := by omega
    have h2 : p.2.1 = y := by omega
    have h3 : p.2.2 = z := by omega
    exact Prod.ext h1 (Prod.ext h2 h3)
  unfold CullerOctree.shape_at
  rw [List.get?_eq_getElem?, k5 _ (by omega) (by omega), k4 _ (by omega) (by omega),
    k3 _ (by omega) (by omega), k2 _ (by omega) (by omega), hget, hp]
  rfl

/-- The test on the node in a slot, from its level and grid position. -/
theorem CullerOctree.fits_of_shape (t : CullerOctree) (vertices : List Vec3) (j lv : Nat)
    (g : Nat × Nat × Nat) (h : t.shape_at j = some (lv, g)) :
    t.fits vertices j
      = (({ bounds_ := t.bounds_ } : CullerOctree).calc_bounds
          ⟨lv, g, none⟩).contains_points vertices := by
  obtain ⟨node, hn, hl, hg⟩ := CullerOctree.node_of_shape h
  unfold CullerOctree.fits
  rw [hn]
  simp only []
  unfold CullerOctree.calc_bounds
  rw [hl, hg]

/-- The descent stays at a node that is not a leaf when none of the nodes in its 8 slots has
bounds containing the vertices. -/
theorem CullerOctree.destination_stays (t : CullerOctree) (vertices : List Vec3)
    (fuel i : Nat) (node : CullerNode) (hn : t.nodes_.get? i = some node)
    (hleaf : t.is_leaf node = false)
    (hnone : ∀ j ∈ child_indexes node, t.fits vertices j = false) :
    t.destination vertices (fuel + 1) i = some i := by
  unfold CullerOctree.destination
  rw [hn]
  simp only []
  rw [if_neg (by simp [hleaf])]
  have hfind : (child_indexes node).find? (t.fits vertices) = none := by
    rw [List.find?_eq_none]
    intro j hj
    rw [hnone j hj]
    simp
  split
  · rename_i idx heq
    have : (child_indexes node).find? (t.fits vertices) = some idx := heq
    rw [hfind] at this
    cases this
  · rfl

set_option maxRecDepth 100000 in
unseal Rat.add Rat.mul Rat.inv Rat.sub in
theorem octant_triangle_facts :
    (⟨⟨(cube_bounds.min.x + cube_bounds.max.x) / 2 - cube_bounds.max_dimension / 2,
        (cube_bounds.min.y + cube_bounds.max.y) / 2 - cube_bounds.max_dimension / 2,
        (cube_bounds.min.z + cube_bounds.max.z) / 2 - cube_bounds.max_dimension / 2⟩,
      ⟨(cube_bounds.min.x + cube_bounds.max.x) / 2 + cube_bounds.max_dimension / 2,
        (cube_bounds.min.y + cube_bounds.max.y) / 2 + cube_bounds.max_dimension / 2,
        (cube_bounds.min.z + cube_bounds.max.z) / 2 + cube_bounds.max_dimension / 2⟩⟩ : AABB)
      = cube_bounds ∧
    (∀ x, x < 2 → ∀ y, y < 2 → ∀ z, z < 2 → x + 2 * y + 4 * z < 7 →
      (({ bounds_ := cube_bounds } : CullerOctree).calc_bounds
        ⟨1, (x, y, z), none⟩).contains_points octant_triangle = false) ∧
    (({ bounds_ := cube_bounds } : CullerOctree).calc_bounds
      ⟨2, (0, 0, 0), none⟩).contains_points octant_triangle = false ∧
    (({ bounds_ := cube_bounds } : CullerOctree).calc_bounds
      ⟨1, (1, 1, 1), none⟩).contains_points octant_triangle = true ∧
    ({ bounds_ := cube_bounds } : CullerOctree).calc_bounds ⟨1, (1, 1, 1), none⟩
      = ⟨⟨1, 1, 1⟩, ⟨2, 2, 2⟩⟩ := by
  decide

/-- C28, evaluated at the failing input.  The octree is built over the cube from (0,0,0) to
(2,2,2) with 5 levels, and the three vertices of the triangle lie inside the octant from
(1,1,1) to (2,2,2), the bounds `calc_bounds` gives the cell (1,1,1) of level 1.  The root is
not a leaf and this child cell contains the triangle, but the slot `child_indexes` gives for
it, slot 8, holds the node of level 2 at the grid position (0,0,0), and the slots 1 to 7 hold
the other cells of level 1: none of the nodes in the 8 slots has bounds containing the
triangle, and `find_destination_for_triangle` returns the root. -/
theorem find_destination_for_triangle_stops_at_root :
    (CullerOctree.new cube_bounds 5).bounds_ = cube_bounds ∧
    (CullerOctree.new cube_bounds 5).levels_ = 5 ∧
    (CullerOctree.new cube_bounds 5).shape_at 0 = some (0, 0, 0, 0) ∧
    child_indexes ⟨0, (0, 0, 0), none⟩ = [1, 2, 3, 4, 5, 6, 7, 8] ∧
    (∀ x y z, x < 2 → y < 2 → z < 2 → x + 2 * y + 4 * z < 7 →
      (CullerOctree.new cube_bounds 5).shape_at (1 + x + 2 * y + 4 * z)
        = some (1, x, y, z)) ∧
    (∀ fuel, (CullerOctree.new cube_bounds 5).find_destination_for_triangle octant_triangle
        (fuel + 1) = (CullerOctree.new cube_bounds 5, some 0)) ∧
    (CullerOctree.new cube_bounds 5).calc_bounds ⟨1, (1, 1, 1), none⟩
      = ⟨⟨1, 1, 1⟩, ⟨2, 2, 2⟩⟩ ∧
    ((CullerOctree.new cube_bounds 5).calc_bounds ⟨1, (1, 1, 1), none⟩).contains_points
      octant_triangle = true ∧
    (CullerOctree.new cube_bounds 5).shape_at (calc_index 1 1 1 1) = some (2, 0, 0, 0) := by
  obtain ⟨h1, h2⟩ := CullerOctree.new_five_eq cube_bounds
  rw [octant_triangle_facts.1] at h2
  obtain ⟨l5, _, _, e0, _, e8, _⟩ :=
    CullerOctree.stage_five (CullerOctree.new cube_bounds 5).bounds_
  rw [← h1] at l5 e0 e8
  have hsh : ∀ x y z, x < 2 → y < 2 → z < 2 → x + 2 * y + 4 * z < 7 →
      (CullerOctree.new cube_bounds 5).shape_at (1 + x + 2 * y + 4 * z)
        = some (1, x, y, z) := by
    intro x y z hx hy hz h7
    have e := CullerOctree.stage_five_level_one (CullerOctree.new cube_bounds 5).bounds_
      x y z hx hy hz h7
    rw [← h1] at e
    exact e
  have hs : ∀ x y z, x < 2 → y < 2 → z < 2 → x + 2 * y + 4 * z < 7 →
      (CullerOctree.new cube_bounds 5).fits octant_triangle (1 + x + 2 * y + 4 * z)
        = false := by
    intro x y z hx hy hz h7
    rw [CullerOctree.fits_of_shape _ _ _ 1 (x, y, z) (hsh x y z hx hy hz h7), h2]
    exact octant_triangle_facts.2.1 x hx y hy z hz h7
  have h8 : (CullerOctree.new cube_bounds 5).fits octant_triangle 8 = false := by
    rw [CullerOctree.fits_of_shape _ _ _ 2 (0, 0, 0) e8, h2]
    exact octant_triangle_facts.2.2.1
  obtain ⟨root, hn, hl, hg⟩ := CullerOctree.node_of_shape e0
  have hleaf : (CullerOctree.new cube_bounds 5).is_leaf root = false := by
    unfold CullerOctree.is_leaf
    rw [hl, l5]
    rfl
  have hch : child_indexes root = [1, 2, 3, 4, 5, 6, 7, 8] := by
    have : child_indexes root = child_indexes ⟨0, (0, 0, 0), none⟩ := by
      unfold child_indexes
      rw [hl, hg]
    rw [this, child_indexes_first_slots.1]
  have hnone : ∀ j ∈ child_indexes root,
      (CullerOctree.new cube_bounds 5).fits octant_triangle j = false := by
    intro j hj
    rw [hch] at hj
    simp only [List.mem_cons, List.mem_singleton, List.not_mem_nil, or_false] at hj
    rcases hj with rfl | rfl | rfl | rfl | rfl | rfl | rfl | rfl
    · exact hs 0 0 0 (by norm_num) (by norm_num) (by norm_num) (by norm_num)
    · exact hs 1 0 0 (by norm_num) (by norm_num) (by norm_num) (by norm_num)
    · exact hs 0 1 0 (by norm_num) (by norm_num) (by norm_num) (by norm_num)
    · exact hs 1 1 0 (by norm_num) (by norm_num) (by norm_num) (by norm_num)
    · exact hs 0 0 1 (by norm_num) (by norm_num) (by norm_num) (by norm_num)
    · exact hs 1 0 1 (by norm_num) (by norm_num) (by norm_num) (by norm_num)
    · exact hs 0 1 1 (by norm_num) (by norm_num) (by norm_num) (by norm_num)
    · exact h8
  have hne : (CullerOctree.new cube_bounds 5).nodes_.isEmpty = false := by
    cases hnl : (CullerOctree.new cube_bounds 5).nodes_ with
    | nil => rw [hnl] at hn; simp at hn
    | cons u us => rfl
  have hcb : (CullerOctree.new cube_bounds 5).calc_bounds ⟨1, (1, 1, 1), none⟩
      = ({ bounds_ := cube_bounds } : CullerOctree).calc_bounds ⟨1, (1, 1, 1), none⟩ := by
    unfold CullerOctree.calc_bounds
    rw [h2]
  refine ⟨h2, l5, e0, child_indexes_first_slots.1, hsh, ?_, ?_, ?_, ?_⟩
  · intro fuel
    unfold CullerOctree.find_destination_for_triangle
    rw [hne, CullerOctree.destination_stays _ _ fuel 0 root hn hleaf hnone]
    rfl
  · rw [hcb]
    exact octant_triangle_facts.2.2.2.2
  · rw [hcb]
    exact octant_triangle_facts.2.2.2.1
  · exact e8

end smlt
